import Mathlib

/-! GLS254: scalars modulo r and the protocol layer.

Shallow embedding of `scalar.c` and of the high-level operations of `curve.c`.
Machine words are natural numbers reduced explicitly modulo the word size;
multi-limb integers (`i128`, `i256`, `i384`, `i512`) are little-endian lists of
32-bit limbs; byte buffers are lists of bytes.
-/

namespace GLS254

/-- An octet. -/
abbrev Byte := Fin 256

/-- Unsigned little-endian value of a byte string. -/
def bytesVal : List Byte → Nat
  | [] => 0
  | b :: bs => b.val + 256 * bytesVal bs

/-- Unsigned little-endian value of a sequence of 32-bit limbs. -/
def limbsVal : List Nat → Nat
  | [] => 0
  | x :: xs => x + 2 ^ 32 * limbsVal xs

/-- Every limb fits in 32 bits. -/
def Limbs (xs : List Nat) : Prop := ∀ x ∈ xs, x < 2 ^ 32

/-- The group order `r = 2^253 + r0`. -/
def r0 : Nat := 83877821160623817322862211711964450037

/-- The prime group order. -/
def r : Nat := 2 ^ 253 + r0

/-- The square root of `-1` modulo `r` documented in `gls254.h`. -/
def mu : Nat :=
  10811011514837737534717025162521437705238749575629098770843741413709931738644

/-- `dec32le`: four bytes, little-endian, to a 32-bit word. -/
def dec32le (buf : List Byte) : Nat :=
  (buf.getD 0 0).val ||| ((buf.getD 1 0).val <<< 8)
    ||| ((buf.getD 2 0).val <<< 16) ||| ((buf.getD 3 0).val <<< 24)

/-- `enc32le`: a 32-bit word to four bytes, little-endian. -/
def enc32le (x : Nat) : List Byte :=
  [Fin.ofNat x, Fin.ofNat (x >>> 8), Fin.ofNat (x >>> 16), Fin.ofNat (x >>> 24)]

/-- `addcarry_u32`: returns the carry and the 32-bit sum `*z`. -/
def addcarry_u32 (cc x y : Nat) : Nat × Nat :=
  let w := (x + y + cc) % 2 ^ 64
  ((w >>> 32) % 256, w % 2 ^ 32)

/-- `subborrow_u32`: returns the borrow and the 32-bit difference `*z`;
the subtraction is done on 64-bit words. -/
def subborrow_u32 (cc x y : Nat) : Nat × Nat :=
  let w := (2 ^ 64 + 2 ^ 64 + x - y - cc) % 2 ^ 64
  ((w >>> 63) % 256, w % 2 ^ 32)

/-- A carry chain `cc = addcarry_u32(cc, x[i], y[i], &z[i])` over successive
limbs; returns the final carry and the limbs written. -/
def addcarry_limbs : Nat → List Nat → List Nat → Nat × List Nat
  | cc, x :: xs, y :: ys =>
    let s := addcarry_u32 cc x y
    let rest := addcarry_limbs s.1 xs ys
    (rest.1, s.2 :: rest.2)
  | cc, _, _ => (cc, [])

/-- A borrow chain `cc = subborrow_u32(cc, x[i], y[i], &z[i])` over successive
limbs; returns the final borrow and the limbs written. -/
def subborrow_limbs : Nat → List Nat → List Nat → Nat × List Nat
  | cc, x :: xs, y :: ys =>
    let s := subborrow_u32 cc x y
    let rest := subborrow_limbs s.1 xs ys
    (rest.1, s.2 :: rest.2)
  | cc, _, _ => (cc, [])

/-- The word `(uint32_t)(*(int32_t *)&x >> 31)`: all-ones when bit 31 of `x`
is set, zero otherwise. -/
def sar31 (x : Nat) : Nat := if (x >>> 31) % 2 = 1 then 0xFFFFFFFF else 0

/-- The word `-(uint32_t)cc`. -/
def neg_u32 (cc : Nat) : Nat := (2 ^ 32 - cc % 2 ^ 32) % 2 ^ 32

/-- Decoding of `n` successive 32-bit words from a byte buffer. -/
def decode_limbs : Nat → List Byte → List Nat
  | 0, _ => []
  | n + 1, buf => dec32le buf :: decode_limbs n (buf.drop 4)

/-- `i256_decode`. -/
def i256_decode (a : List Byte) : List Nat := decode_limbs 8 a

/-- `i256_encode`. -/
def i256_encode (a : List Nat) : List Byte := (a.map enc32le).flatten

/-- `i128_abs_encode`: absolute value (16 bytes) and sign word of a signed
128-bit integer. -/
def i128_abs_encode (a : List Nat) : List Byte × Nat :=
  let s := sar31 (a.getD 3 0)
  let d := subborrow_limbs 0 (a.map (fun x => x ^^^ s)) (List.replicate 4 s)
  ((d.2.map enc32le).flatten, s)

/-- `i256_is_zero`. -/
def i256_is_zero (a : List Nat) : Nat :=
  if a.foldl (fun x y => x ||| y) 0 = 0 then 1 else 0

/-- `sub128trunc`. -/
def sub128trunc (a b : List Nat) : List Nat := (subborrow_limbs 0 a b).2

/-- The row loop `z = f * a[i] + g; t[i] = (uint32_t)z; g = z >> 32`;
returns the limbs written and the final `g`. -/
def mul_word (f : Nat) : List Nat → Nat → List Nat × Nat
  | [], g => ([], g)
  | a :: as, g =>
    let z := (f * a + g) % 2 ^ 64
    let rest := mul_word f as ((z >>> 32) % 2 ^ 32)
    (z % 2 ^ 32 :: rest.1, rest.2)

/-- The row loop `z = f * a[i] + g; z += t[i]; t[i] = (uint32_t)z;
g = z >> 32` over the limbs `t` of the accumulator facing `a`. -/
def mul_word_acc (f : Nat) : List Nat → List Nat → Nat → List Nat × Nat
  | a :: as, t :: ts, g =>
    let z := ((f * a + g) % 2 ^ 64 + t) % 2 ^ 64
    let rest := mul_word_acc f as ts ((z >>> 32) % 2 ^ 32)
    (z % 2 ^ 32 :: rest.1, rest.2)
  | _, _, g => ([], g)

/-- `mul128x128trunc`: product of two 128-bit integers truncated to 128 bits. -/
def mul128x128trunc (a b : List Nat) : List Nat :=
  let t := (mul_word (b.getD 0 0) a 0).1
  [1, 2, 3].foldl (fun t j =>
    t.take j ++ (mul_word_acc (b.getD j 0) (a.take (4 - j)) (t.drop j) 0).1) t

/-- `mul128x128`: full 256-bit product of two 128-bit integers. -/
def mul128x128 (a b : List Nat) : List Nat :=
  let w := mul_word (b.getD 0 0) a 0
  [1, 2, 3].foldl (fun d j =>
    let w := mul_word_acc (b.getD j 0) a (d.drop j) 0
    d.take j ++ w.1 ++ [w.2]) (w.1 ++ [w.2])

/-- `mul256x128`: 384-bit product of a 256-bit and a 128-bit integer. -/
def mul256x128 (a b : List Nat) : List Nat :=
  let dl := mul128x128 (a.take 4) b
  let dh := mul128x128 (a.drop 4) b
  dl.take 4 ++ (addcarry_limbs 0 (dl.drop 4 ++ [0, 0, 0, 0]) dh).2

/-- `mul256x256`: 512-bit product of two 256-bit integers. -/
def mul256x256 (a b : List Nat) : List Nat :=
  let dl := mul256x128 b (a.take 4)
  let dh := mul256x128 b (a.drop 4)
  dl.take 4 ++ (addcarry_limbs 0 (dl.drop 4 ++ [0, 0, 0, 0]) dh).2

/-- The constant `R0`. -/
def R0 : List Nat := [0xF43A8CF5, 0x3CBDE37C, 0xDC1A1DAD, 0x3F1A47DE]

/-- The constant `R_top`. -/
def R_top : Nat := 0x20000000

/-- The constant `Rhf = (r+1)/2`. -/
def Rhf : List Nat :=
  [0x7A1D467B, 0x9E5EF1BE, 0x6E0D0ED6, 0x1F8D23EF,
   0x00000000, 0x00000000, 0x00000000, 0x10000000]

/-- The constant `HR_pad = (r-1)/2`, padded to 384 bits. -/
def HR_pad : List Nat :=
  [0x7A1D467A, 0x9E5EF1BE, 0x6E0D0ED6, 0x1F8D23EF,
   0x00000000, 0x00000000, 0x00000000, 0x10000000,
   0x00000000, 0x00000000, 0x00000000, 0x00000000]

/-- The constant `R0_x8m = 8*r0 mod 2^128`. -/
def R0_x8m : List Nat := [0xA1D467A8, 0xE5EF1BE7, 0xE0D0ED69, 0xF8D23EF6]

/-- The constant `R_x16m = 16*r mod 2^256`. -/
def R_x16m : List Nat :=
  [0x43A8CF50, 0xCBDE37CF, 0xC1A1DAD3, 0xF1A47DED,
   0x00000003, 0x00000000, 0x00000000, 0x00000000]

/-- The constant `R_x16_top`. -/
def R_x16_top : Nat := 0x00000002

/-- ` modr_reduce256_partial`: partial reduction of `a + ah * 2^256`. -/
def modr_reduce256_partial (a : List Nat) (ah : Nat) : List Nat :=
  let ah1 := ((ah <<< 3) % 2 ^ 32) ||| (a.getD 7 0 >>> 29)
  let t := a.take 7 ++ [a.getD 7 0 &&& 0x1FFFFFFF]
  let u := mul_word ah1 R0 0
  let s := subborrow_limbs 0 t (u.1 ++ [u.2, 0, 0, 0])
  let x := neg_u32 s.1
  (addcarry_limbs 0 s.2 (R0.map (fun w => x &&& w) ++ [0, 0, 0, x &&& R_top])).2

/-- `modr_reduce256_finish`: conditional subtraction of `r`. -/
def modr_reduce256_finish (a : List Nat) : List Nat :=
  let s := subborrow_limbs 0 a (R0 ++ [0, 0, 0, R_top])
  let m := neg_u32 s.1
  List.zipWith (fun t x => t ^^^ (m &&& (t ^^^ x))) s.2 a

/-- ` modr_reduce384_partial`: partial reduction of a 384-bit integer. -/
def modr_reduce384_partial (a : List Nat) : List Nat :=
  let a1 := a.drop 8
  let t := mul128x128 a1 R0_x8m
  let s1 := subborrow_limbs 0 (a.take 8) t
  let t8 := neg_u32 s1.1
  let s2 := subborrow_limbs 0 (s1.2.drop 4) a1
  let t := s1.2.take 4 ++ s2.2
  let t8 := (2 ^ 32 + t8 - s2.1) % 2 ^ 32
  let m := sar31 t8
  let s3 := addcarry_limbs 0 t (R_x16m.map (fun w => m &&& w))
  let t8 := (addcarry_u32 s3.1 t8 (m &&& R_x16_top)).2
  modr_reduce256_partial s3.2 t8

/-- `modr_mul256x256`: multiplication modulo `r` of two 256-bit operands. -/
def modr_mul256x256 (a b : List Nat) : List Nat :=
  let x := mul256x256 a b
  let t := modr_reduce384_partial (x.drop 4)
  let t := modr_reduce384_partial (x.take 4 ++ t)
  modr_reduce256_finish t

/-- The loop of `scalar_reduce` that injects the remaining 16-byte chunks,
from the highest one down; `n` is the number of chunks left below `buf`, so
that `buf - 16 = a + 16 * n` when `n + 1` chunks are left. -/
def inject_chunks (a : List Byte) : Nat → List Nat → List Nat
  | 0, t => t
  | n + 1, t =>
    let t2 := decode_limbs 4 (a.drop (16 * n)) ++ t
    inject_chunks a n ( modr_reduce384_partial t2)

/-- `scalar_reduce`. -/
def scalar_reduce (a : List Byte) : List Byte :=
  let a_len := a.length
  if a_len < 32 then a ++ List.replicate (32 - a_len) 0
  else
    let k := a_len % 32
    let st : List Nat × Nat :=
      if k = 0 then
        ( modr_reduce256_partial (i256_decode (a.drop (a_len - 32))) 0, a_len - 32)
      else if k = 16 then
        (i256_decode (a.drop (a_len - 32)), a_len - 32)
      else
        let k := if k < 16 then k + 16 else k
        let tmp := (a.drop (a_len - k)).take k ++ List.replicate (32 - k) 0
        (i256_decode tmp, a_len - k)
    i256_encode (modr_reduce256_finish (inject_chunks a (st.2 / 16) st.1))

/-- `scalar_add`. -/
def scalar_add (a b : List Byte) : List Byte :=
  let s := addcarry_limbs 0 (i256_decode a) (i256_decode b)
  let td := modr_reduce256_partial s.2 s.1
  i256_encode (modr_reduce256_finish td)

/-- `scalar_mul`. -/
def scalar_mul (a b : List Byte) : List Byte :=
  i256_encode (modr_mul256x256 (i256_decode a) (i256_decode b))

/-- `scalar_is_reduced`. -/
def scalar_is_reduced (a : List Byte) : Nat :=
  (subborrow_limbs 0 (i256_decode a) (R0 ++ [0, 0, 0, R_top])).1

/-- `scalar_is_zero`. -/
def scalar_is_zero (a : List Byte) : Nat := i256_is_zero (i256_decode a)

/-- The loop of `mul_divr_rounded` that shifts the high limbs left by
three bits: `z1[i] = (z[i + 8] << 3) | g; g = z[i + 8] >> 29`. -/
def shl3_limbs : List Nat → Nat → List Nat
  | [], _ => []
  | x :: xs, g => (((x <<< 3) % 2 ^ 32) ||| g) :: shl3_limbs xs (x >>> 29)

/-- `mul_divr_rounded`: `round(k * e / r)`. -/
def mul_divr_rounded (k e : List Nat) : List Nat :=
  let z := mul256x128 k e
  let z := (addcarry_limbs 0 z HR_pad).2
  let z0 := z.take 7 ++ [z.getD 7 0 &&& 0x1FFFFFFF]
  let z1 := shl3_limbs ((z.drop 8).take 4) (z.getD 7 0 >>> 29)
  let t := mul128x128 z1 R0
  let cc := (subborrow_limbs 0 z0 t).1
  (subborrow_limbs cc z1 [0, 0, 0, 0]).2

/-- The constant `vES` of `split_mu`. -/
def vES : List Nat := [0x3FA56696, 0x639973CF, 0xFFFFFFFF, 0x3FFFFFFF]

/-- The constant `vET` of `split_mu`. -/
def vET : List Nat := [0xC05A9969, 0x9C668C30, 0x00000000, 0x40000000]

/-- `split_mu`: returns `(k0, k1)` as signed 128-bit integers. -/
def split_mu (k : List Nat) : List Nat × List Nat :=
  let c := mul_divr_rounded k vET
  let d := mul_divr_rounded k vES
  let k0 := k.take 4
  let k0 := sub128trunc k0 (mul128x128trunc d vES)
  let k0 := sub128trunc k0 (mul128x128trunc c vET)
  let k1 := mul128x128trunc d vET
  let k1 := sub128trunc k1 (mul128x128trunc c vES)
  (k0, k1)

/-- `scalar_split`: returns `(ak0, sk0, ak1, sk1)`. -/
def scalar_split (k : List Byte) : List Byte × Nat × List Byte × Nat :=
  let t := i256_decode k
  let t := modr_reduce256_partial t 0
  let t := modr_reduce256_finish t
  let s := split_mu t
  let e0 := i128_abs_encode s.1
  let e1 := i128_abs_encode s.2
  (e0.1, e0.2, e1.1, e1.2)

/-! ## Points and the protocol layer (`curve.c`) -/

/-- An array `gls254_point_affine win[8]`. -/
abbrev Window (PtA : Type) := Fin 8 → PtA

/-- The functions and constants that `curve.c` takes from the assembly
implementation (`gls254.h`, `inner.h`) and from `blake2.h`. `Pt` stands for
`gls254_point` and `PtA` for `gls254_point_affine`; `blake2s` is the
BLAKE2s-256 digest of the concatenation of the chunks passed to
`blake2s_update`. -/
structure Prims (Pt PtA : Type) where
  /-- `GLS254_NEUTRAL` -/
  NEUTRAL : Pt
  /-- `GLS254_BASE` -/
  BASE : Pt
  /-- `gls254_isneutral` -/
  isneutral : Pt → Nat
  /-- `gls254_decode`: status word and point -/
  decode : List Byte → Nat × Pt
  /-- `gls254_encode` -/
  encode : Pt → List Byte
  /-- `gls254_add` -/
  add : Pt → Pt → Pt
  /-- `gls254_neg` -/
  neg : Pt → Pt
  /-- `gls254_condneg` -/
  condneg : Pt → Nat → Pt
  /-- `gls254_xdouble` -/
  xdouble : Pt → Nat → Pt
  /-- `gls254_make_window_affine_8` -/
  make_window_affine_8 : Pt → Window PtA
  /-- `gls254_lookup8_affine` -/
  lookup8_affine : Window PtA → Int → PtA
  /-- `gls254_zeta_affine` -/
  zeta_affine : PtA → Nat → PtA
  /-- `gls254_add_affine` -/
  add_affine : Pt → PtA → Pt
  /-- `gls254_add_affine_affine` -/
  add_affine_affine : PtA → PtA → Pt
  /-- `gls254_from_affine` -/
  from_affine : PtA → Pt
  /-- `gls254_map_to_point` -/
  map_to_point : List Byte → Pt
  /-- `PRECOMP_B` -/
  PRECOMP_B : Window PtA
  /-- `PRECOMP_B32` -/
  PRECOMP_B32 : Window PtA
  /-- `PRECOMP_B64` -/
  PRECOMP_B64 : Window PtA
  /-- `PRECOMP_B96` -/
  PRECOMP_B96 : Window PtA
  /-- BLAKE2s with a 32-byte output -/
  blake2s : List Byte → List Byte

/-- The value of a byte of `uint8_t *dd` read through `int8_t *sd`. -/
def int8_of_u8 (b : Nat) : Int := if b < 128 then (b : Int) else (b : Int) - 256

/-- One digit of the Booth recoding: `d = x + cc; m = (8 - d) >> 8;
dd[..] = (uint8_t)(d - (m & 16)); cc = m & 1` on 32-bit words, for the
nibble `x`. Returns the signed digit and the carry. -/
def recode4_digit (x cc : Nat) : Int × Nat :=
  let d := (x + cc) % 2 ^ 32
  let m := ((2 ^ 32 + 8 - d) % 2 ^ 32) >>> 8
  (int8_of_u8 (((2 ^ 32 + d - (m &&& 16)) % 2 ^ 32) % 256), m &&& 1)

/-- The loop body shared by `recode4_u64` and `recode4_u128`, over the
successive bytes of `n`. Returns the digits and the final carry. -/
def recode4_bytes : List Byte → Nat → List Int × Nat
  | [], cc => ([], cc)
  | n :: ns, cc =>
    let x := n.val
    let lo := recode4_digit (x &&& 0x0F) cc
    let hi := recode4_digit (x >>> 4) lo.2
    let rest := recode4_bytes ns hi.2
    (lo.1 :: hi.1 :: rest.1, rest.2)

/-- `recode4_u64`: 16 signed digits and the carry. -/
def recode4_u64 (n : List Byte) : List Int × Nat := recode4_bytes (n.take 8) 0

/-- `recode4_u128`: 32 signed digits. -/
def recode4_u128 (n : List Byte) : List Int := (recode4_bytes (n.take 16) 0).1

section
variable {Pt PtA : Type} (P : Prims Pt PtA)

/-- `gls254_mul`. -/
def gls254_mul (p : Pt) (k : List Byte) : Pt :=
  let sp := scalar_split k
  let n0 := sp.1
  let s0 := sp.2.1
  let n1 := sp.2.2.1
  let s1 := sp.2.2.2
  let q := P.condneg p s0
  let win := P.make_window_affine_8 q
  let zn := s0 ^^^ s1
  let sd0 := recode4_u128 n0
  let sd1 := recode4_u128 n1
  let pa := P.lookup8_affine win (sd0.getD 31 0)
  let qa := P.lookup8_affine win (sd1.getD 31 0)
  let qa := P.zeta_affine qa zn
  let q := P.add_affine_affine pa qa
  (List.range 31).reverse.foldl (fun q i =>
    let q := P.xdouble q 4
    let pa := P.lookup8_affine win (sd0.getD i 0)
    let qa := P.lookup8_affine win (sd1.getD i 0)
    let qa := P.zeta_affine qa zn
    let t := P.add_affine_affine pa qa
    P.add q t) q

/-- `gls254_lookup8_affine_zeta`. -/
def gls254_lookup8_affine_zeta (win : Window PtA) (k : Int) (zn : Nat) : PtA :=
  P.zeta_affine (P.lookup8_affine win k) zn

/-- `gls254_mulgen`. -/
def gls254_mulgen (k : List Byte) : Pt :=
  let sp := scalar_split k
  let n0 := sp.1
  let s0 := sp.2.1
  let n1 := sp.2.2.1
  let s1 := sp.2.2.2
  let zn := s0 ^^^ s1
  let sd0 := recode4_u128 n0
  let sd1 := recode4_u128 n1
  let pa := P.lookup8_affine P.PRECOMP_B (sd0.getD 7 0)
  let qa := P.lookup8_affine P.PRECOMP_B32 (sd0.getD 15 0)
  let q := P.add_affine_affine pa qa
  let pa := P.lookup8_affine P.PRECOMP_B64 (sd0.getD 23 0)
  let qa := P.lookup8_affine P.PRECOMP_B96 (sd0.getD 31 0)
  let t := P.add_affine_affine pa qa
  let q := P.add q t
  let pa := gls254_lookup8_affine_zeta P P.PRECOMP_B (sd1.getD 7 0) zn
  let qa := gls254_lookup8_affine_zeta P P.PRECOMP_B32 (sd1.getD 15 0) zn
  let t := P.add_affine_affine pa qa
  let q := P.add q t
  let pa := gls254_lookup8_affine_zeta P P.PRECOMP_B64 (sd1.getD 23 0) zn
  let qa := gls254_lookup8_affine_zeta P P.PRECOMP_B96 (sd1.getD 31 0) zn
  let t := P.add_affine_affine pa qa
  let q := P.add q t
  let q := (List.range 7).reverse.foldl (fun q i =>
    let q := P.xdouble q 4
    let pa := P.lookup8_affine P.PRECOMP_B (sd0.getD i 0)
    let qa := P.lookup8_affine P.PRECOMP_B32 (sd0.getD (i + 8) 0)
    let t := P.add_affine_affine pa qa
    let q := P.add q t
    let pa := P.lookup8_affine P.PRECOMP_B64 (sd0.getD (i + 16) 0)
    let qa := P.lookup8_affine P.PRECOMP_B96 (sd0.getD (i + 24) 0)
    let t := P.add_affine_affine pa qa
    let q := P.add q t
    let pa := gls254_lookup8_affine_zeta P P.PRECOMP_B (sd1.getD i 0) zn
    let qa := gls254_lookup8_affine_zeta P P.PRECOMP_B32 (sd1.getD (i + 8) 0) zn
    let t := P.add_affine_affine pa qa
    let q := P.add q t
    let pa := gls254_lookup8_affine_zeta P P.PRECOMP_B64 (sd1.getD (i + 16) 0) zn
    let qa := gls254_lookup8_affine_zeta P P.PRECOMP_B96 (sd1.getD (i + 24) 0) zn
    let t := P.add_affine_affine pa qa
    P.add q t) q
  P.condneg q s0

/-- `gls254_public_key`. -/
structure PublicKey (Pt : Type) where
  /-- the point -/
  pp : Pt
  /-- its 32-byte encoding -/
  enc : List Byte

/-- `gls254_private_key`. -/
structure PrivateKey (Pt : Type) where
  /-- the secret scalar, 32 bytes -/
  sec : List Byte
  /-- the public key -/
  pub : PublicKey Pt

/-- `gls254_decode_private`: returned status and key structure. -/
def gls254_decode_private (src : List Byte) : Nat × PrivateKey Pt :=
  if scalar_is_reduced src = 0 ∨ scalar_is_zero src ≠ 0 then
    (0, { sec := List.replicate 32 0,
          pub := { pp := P.NEUTRAL, enc := List.replicate 32 0 } })
  else
    let sec := src.take 32
    let pp := gls254_mulgen P sec
    (1, { sec := sec, pub := { pp := pp, enc := P.encode pp } })

/-- The contents of a C string: the bytes before the first zero byte. -/
def cstr (s : List Byte) : List Byte := s.takeWhile (fun c => c ≠ 0)

/-- The bytes that `gls254_sign` and `make_challenge` hash for the
`hash_name` argument: `none` is the `NULL` pointer, `some s` a pointer to the
bytes `s` followed by a terminating zero. -/
def hash_tag (hash_name : Option (List Byte)) : List Byte :=
  match hash_name with
  | none => [0x52]
  | some s => if cstr s = [] then [0x52] else [0x48] ++ cstr s ++ [0]

/-- `make_challenge`: the 16-byte challenge. -/
def make_challenge (R : Pt) (pub : List Byte) (hash_name : Option (List Byte))
    (data : List Byte) : List Byte :=
  (P.blake2s (P.encode R ++ pub.take 32 ++ hash_tag hash_name ++ data)).take 16

/-- The constant `MU`. -/
def MU : List Byte :=
  [0x14, 0xF6, 0xA1, 0x89, 0xFC, 0x87, 0x84, 0x1B,
   0xFC, 0x63, 0xE1, 0xFA, 0xF1, 0xAD, 0xEF, 0x1E,
   0x99, 0xE4, 0x3F, 0x36, 0xDA, 0xBD, 0x58, 0x9F,
   0x93, 0xBC, 0x54, 0x0F, 0xD0, 0xD0, 0xE6, 0x17]

/-- `gls254_sign`: the 48-byte signature. -/
def gls254_sign (sk : PrivateKey Pt) (seed : List Byte)
    (hash_name : Option (List Byte)) (data : List Byte) : List Byte :=
  let seed_len := seed.length
  let tmp := enc32le (seed_len % 2 ^ 32) ++ enc32le ((seed_len % 2 ^ 64) >>> 32)
  let k := P.blake2s (sk.sec ++ sk.pub.enc ++ tmp ++ seed ++ hash_tag hash_name ++ data)
  let R := gls254_mulgen P k
  let cb := make_challenge P R sk.pub.enc hash_name data
  let c := scalar_reduce (cb.take 8)
  let d := scalar_reduce ((cb.drop 8).take 8)
  let d := scalar_mul d MU
  let c := scalar_add c d
  let c := scalar_mul c sk.sec
  cb ++ scalar_add c k

/-- The conversion of an `int8_t` to `uint32_t`. -/
def u32_of_int (k : Int) : Nat := (k % 2 ^ 32).toNat

/-- The value `(int8_t)*(int32_t *)&uk`. -/
def int8_of_u32 (uk : Nat) : Int := int8_of_u8 (uk % 256)

/-- `gls254_lookup8_affine_sign`. -/
def gls254_lookup8_affine_sign (win : Window PtA) (k : Int) (sk : Nat) : PtA :=
  let uk := u32_of_int k
  let uk := (2 ^ 32 + uk - (sk &&& ((uk <<< 1) % 2 ^ 32))) % 2 ^ 32
  P.lookup8_affine win (int8_of_u32 uk)

/-- The three conditional additions of one ladder step of
`gls254_verify_vartime`, for a pair of digits `k0`, `k1` and the two affine
points `pa`, `qa` looked up for them. -/
def verify_add (R : Pt) (k0 k1 : Int) (pa qa : PtA) : Pt :=
  if k0 ≠ 0 ∧ k1 ≠ 0 then P.add R (P.add_affine_affine pa qa)
  else if k0 ≠ 0 then P.add_affine R pa
  else if k1 ≠ 0 then P.add_affine R qa
  else R

/-- The point `R` that `gls254_verify_vartime` recomputes from the public
key and the signature: the split of the scalar part, the recodings and the
joint ladder. -/
def verify_ladder (pk : PublicKey Pt) (sig : List Byte) : Pt :=
  let sp := scalar_split (sig.drop 16)
  let v0 := sp.1
  let t0 := sp.2.1
  let v1 := sp.2.2.1
  let t1 := sp.2.2.2
  let Pn := P.neg pk.pp
  let win := P.make_window_affine_8 Pn
  let r0 := recode4_u64 sig
  let r1 := recode4_u64 (sig.drop 8)
  let sd0 := r0.1
  let cc0 := r0.2
  let sd1 := r1.1
  let cc1 := r1.2
  let sd2 := recode4_u128 v0
  let sd3 := recode4_u128 v1
  let R :=
    if cc0 ≠ 0 ∧ cc1 ≠ 0 then
      P.add_affine_affine (win 0) (P.zeta_affine (win 0) 0)
    else if cc0 ≠ 0 then Pn
    else if cc1 ≠ 0 then P.from_affine (P.zeta_affine (win 0) 0)
    else P.NEUTRAL
  (List.range 16).reverse.foldl (fun R i =>
    let R := P.xdouble R 4
    let k0 := sd0.getD i 0
    let k1 := sd1.getD i 0
    let R := verify_add P R k0 k1 (P.lookup8_affine win k0)
      (gls254_lookup8_affine_zeta P win k1 0)
    let k0 := sd2.getD i 0
    let k1 := sd2.getD (i + 16) 0
    let R := verify_add P R k0 k1 (gls254_lookup8_affine_sign P P.PRECOMP_B k0 t0)
      (gls254_lookup8_affine_sign P P.PRECOMP_B64 k1 t0)
    let k0 := sd3.getD i 0
    let k1 := sd3.getD (i + 16) 0
    verify_add P R k0 k1 (gls254_lookup8_affine_zeta P P.PRECOMP_B k0 t1)
      (gls254_lookup8_affine_zeta P P.PRECOMP_B64 k1 t1)) R

/-- `gls254_verify_vartime`. -/
def gls254_verify_vartime (pk : PublicKey Pt) (sig : List Byte)
    (hash_name : Option (List Byte)) (data : List Byte) : Nat :=
  if P.isneutral pk.pp ≠ 0 then 0
  else if scalar_is_reduced (sig.drop 16) = 0 then 0
  else
    let R := verify_ladder P pk sig
    let cb := make_challenge P R pk.enc hash_name data
    if sig.take 16 = cb then 1 else 0

/-- The borrow loop of `gls254_ECDH` that compares the two encodings, from
byte 31 down to byte 0: `cc = (a[i] - b[i] - cc) >> 31` on 32-bit words. The
lists are the bytes in the order visited. -/
def ecdh_cmp : List Byte → List Byte → Nat → Nat
  | x :: xs, y :: ys, cc => ecdh_cmp xs ys (((2 ^ 32 + 2 ^ 32 + x.val - y.val - cc) % 2 ^ 32) >>> 31)
  | _, _, cc => cc

/-- `gls254_ECDH`: returned status and the 32-byte shared key. -/
def gls254_ECDH (sk : PrivateKey Pt) (pk_peer : PublicKey Pt) : Nat × List Byte :=
  let bad := P.isneutral pk_peer.pp
  let p := gls254_mul P pk_peer.pp sk.sec
  let shared := P.encode p
  let shared : List Byte := List.zipWith (fun (s k : Byte) =>
    Fin.ofNat (s.val ^^^ (bad &&& (s.val ^^^ k.val)))) shared sk.sec
  let cc := ecdh_cmp (sk.pub.enc.take 32).reverse (pk_peer.enc.take 32).reverse 0
  let zx := (2 ^ 32 + cc - 1) % 2 ^ 32
  let z1 := sk.pub.enc.take 32
  let z2 := pk_peer.enc.take 32
  let lo : List Byte := List.zipWith (fun (a b : Byte) =>
    Fin.ofNat (a.val ^^^ (zx &&& (a.val ^^^ b.val)))) z1 z2
  let hi : List Byte := List.zipWith (fun (a b : Byte) =>
    Fin.ofNat (b.val ^^^ (zx &&& (a.val ^^^ b.val)))) z1 z2
  let tag : Byte := Fin.ofNat (0x53 - (bad &&& (0x53 - 0x46)))
  ((bad + 1) % 2 ^ 32, P.blake2s (lo ++ hi ++ [tag] ++ shared))

end

/-! ## The group model of the point primitives -/

/-- Value of a sequence of signed base-16 digits, low to high. -/
def digitsVal : List Int → Int
  | [] => 0
  | d :: ds => d + 16 * digitsVal ds

/-- All digits lie in `[-7, 8]`. -/
def DigitsOk (ds : List Int) : Prop := ∀ d ∈ ds, -7 ≤ d ∧ d ≤ 8

/-- The digits of index `i`, `i + 8`, `i + 16`, `i + 24` weighted as in the
four tables of `gls254_mulgen`. -/
def quarterDigits (sd : List Int) (i : Nat) : Int :=
  sd.getD i 0 + 2 ^ 32 * sd.getD (i + 8) 0 + 2 ^ 64 * sd.getD (i + 16) 0
    + 2 ^ 96 * sd.getD (i + 24) 0

/-- The digits of index `i` and `i + 16` weighted as in the two tables of
`gls254_verify_vartime`. -/
def halfDigits (sd : List Int) (i : Nat) : Int :=
  sd.getD i 0 + 2 ^ 64 * sd.getD (i + 16) 0

/-- The sign `+1` or `-1` selected by a control word. -/
def ctlSign (ctl : Nat) : Int := if ctl = 0 then 1 else -1

section
variable {Pt PtA G : Type} [AddCommGroup G]

/-- The window `win` holds `1*Q, ..., 8*Q`. -/
def IsWindow (ela : PtA → G) (win : Window PtA) (Q : G) : Prop :=
  ∀ i : Fin 8, ela (win i) = (i.val + 1) • Q

/-- The point primitives used by the scalar multiplications implement a
group of exponent `r` on which `zeta` is the multiplication by `mu`; `el` and
`ela` give the group element that a point structure stands for. -/
structure GroupModel (P : Prims Pt PtA) (el : Pt → G) (ela : PtA → G) : Prop where
  /-- every element is killed by `r` -/
  order : ∀ g : G, r • g = 0
  /-- `gls254_condneg` negates iff `ctl = 0xFFFFFFFF` -/
  condneg : ∀ p ctl, (ctl = 0 → el (P.condneg p ctl) = el p)
    ∧ (ctl = 0xFFFFFFFF → el (P.condneg p ctl) = -el p)
  /-- `gls254_make_window_affine_8` -/
  make_window : ∀ p, IsWindow ela (P.make_window_affine_8 p) (el p)
  /-- `gls254_lookup8_affine` -/
  lookup : ∀ win Q (d : Int), IsWindow ela win Q → -8 ≤ d → d ≤ 8 →
    ela (P.lookup8_affine win d) = d • Q
  /-- `gls254_zeta_affine` -/
  zeta : ∀ a zn, (zn = 0 → ela (P.zeta_affine a zn) = mu • ela a)
    ∧ (zn = 0xFFFFFFFF → ela (P.zeta_affine a zn) = -(mu • ela a))
  /-- `gls254_xdouble` with `n = 4` -/
  xdouble4 : ∀ p, el (P.xdouble p 4) = 16 • el p
  /-- `gls254_add` -/
  add : ∀ p q, el (P.add p q) = el p + el q
  /-- `gls254_add_affine_affine` -/
  add_affine_affine : ∀ a b, el (P.add_affine_affine a b) = ela a + ela b

/-- The precomputed tables hold the multiples of the base point. -/
structure TableModel (P : Prims Pt PtA) (el : Pt → G) (ela : PtA → G) : Prop where
  /-- `PRECOMP_B` -/
  b0 : IsWindow ela P.PRECOMP_B (el P.BASE)
  /-- `PRECOMP_B32` -/
  b32 : IsWindow ela P.PRECOMP_B32 (2 ^ 32 • el P.BASE)
  /-- `PRECOMP_B64` -/
  b64 : IsWindow ela P.PRECOMP_B64 (2 ^ 64 • el P.BASE)
  /-- `PRECOMP_B96` -/
  b96 : IsWindow ela P.PRECOMP_B96 (2 ^ 96 • el P.BASE)

/-- The remaining assumptions of the protocol layer: the base point has
order `r`, the encoding is canonical, and BLAKE2s outputs 32 bytes. -/
structure ProtocolModel (P : Prims Pt PtA) (el : Pt → G) (ela : PtA → G) : Prop where
  /-- `GLS254_NEUTRAL` -/
  neutral : el P.NEUTRAL = 0
  /-- the base point has order exactly `r` -/
  base_order : ∀ n : Nat, n • el P.BASE = 0 → r ∣ n
  /-- `gls254_isneutral` -/
  isneutral : ∀ p, (el p = 0 → P.isneutral p = 0xFFFFFFFF)
    ∧ (el p ≠ 0 → P.isneutral p = 0)
  /-- `gls254_neg` -/
  neg : ∀ p, el (P.neg p) = -el p
  /-- `gls254_add_affine` -/
  add_affine : ∀ p a, el (P.add_affine p a) = el p + ela a
  /-- `gls254_from_affine` -/
  from_affine : ∀ a, el (P.from_affine a) = ela a
  /-- `gls254_encode` is canonical -/
  encode_canonical : ∀ p q, el p = el q → P.encode p = P.encode q
  /-- `gls254_encode` writes 32 bytes -/
  encode_length : ∀ p, (P.encode p).length = 32
  /-- BLAKE2s-256 outputs 32 bytes -/
  blake2s_length : ∀ m, (P.blake2s m).length = 32

end

/-! ## A concrete model: the integers modulo r -/

/-- The signed reading of a 128-bit integer held in four limbs. -/
def signed128 (a : List Nat) : Int :=
  if limbsVal a < 2 ^ 127 then (limbsVal a : Int) else (limbsVal a : Int) - 2 ^ 128

/-- The 32-byte little-endian encoding of a natural number. -/
def encode_nat32 (n : Nat) : List Byte :=
  (List.range 32).map (fun i => Fin.ofNat (n / 256 ^ i))

/-- The primitives realised on `ZMod r`, the base point being `1` and both
point types standing for the group element itself; the digest is the first 32
bytes of the zero-padded message. -/
def zmodPrims : Prims (ZMod r) (ZMod r) where
  NEUTRAL := 0
  BASE := 1
  isneutral := fun p => if p = 0 then 0xFFFFFFFF else 0
  decode := fun src => (0xFFFFFFFF, (bytesVal src : ZMod r))
  encode := fun p => encode_nat32 p.val
  add := fun p q => p + q
  neg := fun p => -p
  condneg := fun p ctl => if ctl = 0 then p else -p
  xdouble := fun p n => 2 ^ n • p
  make_window_affine_8 := fun p i => (i.val + 1) • p
  lookup8_affine := fun win d => d • win 0
  zeta_affine := fun a zn => if zn = 0 then mu • a else -(mu • a)
  add_affine := fun p a => p + a
  add_affine_affine := fun a b => a + b
  from_affine := fun a => a
  map_to_point := fun src => (bytesVal src : ZMod r)
  PRECOMP_B := fun i => (i.val + 1) • (1 : ZMod r)
  PRECOMP_B32 := fun i => (i.val + 1) • (2 ^ 32 • (1 : ZMod r))
  PRECOMP_B64 := fun i => (i.val + 1) • (2 ^ 64 • (1 : ZMod r))
  PRECOMP_B96 := fun i => (i.val + 1) • (2 ^ 96 • (1 : ZMod r))
  blake2s := fun m => (m ++ List.replicate 32 0).take 32

/-- The scalar `1`, 32 bytes. -/
def scalar_one : List Byte := 1 :: List.replicate 31 0

/-- The scalar `2`, 32 bytes. -/
def scalar_two : List Byte := 2 :: List.replicate 31 0

/-- A 32-byte string above `r`: all bytes `0xFF`. -/
def scalar_max : List Byte := List.replicate 32 0xFF

/-! ## Subtraction, negation and halving of scalars (`scalar.c`) -/

/-- `scalar_sub`: the borrow of the 8-limb subtraction selects the addition of
`8*r` modulo `2^256` (the limbs of `R0_x8m`, then 1 at index 4); the carry of
that addition is the high word passed to ` modr_reduce256_partial`. -/
def scalar_sub (a b : List Byte) : List Byte :=
  let s := subborrow_limbs 0 (i256_decode a) (i256_decode b)
  let m := neg_u32 s.1
  let t := addcarry_limbs 0 s.2 (R0_x8m.map (fun w => m &&& w) ++ [m &&& 1, 0, 0, 0])
  let td := modr_reduce256_partial t.2 t.1
  i256_encode (modr_reduce256_finish td)

/-- `scalar_neg`. -/
def scalar_neg (a : List Byte) : List Byte := scalar_sub (List.replicate 32 0) a

/-- The right shift by one bit of `scalar_half`:
`x.v[i] = (x.v[i] >> 1) | (x.v[i + 1] << 31)`, the top limb shifted alone. -/
def shr1_limbs : List Nat → List Nat
  | [] => []
  | [x] => [x >>> 1]
  | x :: y :: rest => ((x >>> 1) ||| ((y <<< 31) % 2 ^ 32)) :: shr1_limbs (y :: rest)

/-- `scalar_half`. -/
def scalar_half (a : List Byte) : List Byte :=
  let x := i256_decode a
  let m := neg_u32 (x.getD 0 0 &&& 1)
  let x := shr1_limbs x
  let s := addcarry_limbs 0 x (Rhf.map (fun w => m &&& w))
  i256_encode (modr_reduce256_finish ( modr_reduce256_partial s.2 0))

/-- The reference halving on integers, as the specification words it: reduce
modulo `r`, add `r` if the result is odd, shift right by one. -/
def scal_half_reference (a : Nat) : Nat :=
  let x := a % r
  (if x % 2 = 1 then x + r else x) >>> 1

/-- The constant `GLS254_R` of the tests: the 32-byte encoding of `r`. -/
def GLS254_R : List Byte :=
  [0xF5, 0x8C, 0x3A, 0xF4, 0x7C, 0xE3, 0xBD, 0x3C,
   0xAD, 0x1D, 0x1A, 0xDC, 0xDE, 0x47, 0x1A, 0x3F,
   0x00, 0x00, 0x00, 0x00, 0x00, 0x00, 0x00, 0x00,
   0x00, 0x00, 0x00, 0x00, 0x00, 0x00, 0x00, 0x20]

/-- The 32-byte encoding of `r - 1`. -/
def scalar_r_pred : List Byte :=
  [0xF4, 0x8C, 0x3A, 0xF4, 0x7C, 0xE3, 0xBD, 0x3C,
   0xAD, 0x1D, 0x1A, 0xDC, 0xDE, 0x47, 0x1A, 0x3F,
   0x00, 0x00, 0x00, 0x00, 0x00, 0x00, 0x00, 0x00,
   0x00, 0x00, 0x00, 0x00, 0x00, 0x00, 0x00, 0x20]

/-! ## Key encoding and decoding (`curve.c`) -/

section
variable {Pt PtA : Type} (P : Prims Pt PtA)

/-- `gls254_encode_private`. -/
def gls254_encode_private (sk : PrivateKey Pt) : List Byte := sk.sec.take 32

/-- `gls254_decode_public`: returned status and key structure. -/
def gls254_decode_public (src : List Byte) : Nat × PublicKey Pt :=
  let d := P.decode src
  if d.1 = 0 ∨ P.isneutral d.2 ≠ 0 then
    (0, { pp := P.NEUTRAL, enc := src.take 32 })
  else
    (1, { pp := d.2, enc := src.take 32 })

/-- `gls254_encode_public`. -/
def gls254_encode_public (pk : PublicKey Pt) : List Byte := pk.enc.take 32

end

/-! ## Lexicographic order of byte strings -/

/-- Strict lexicographic order: byte 0 is compared first, bytes as unsigned
values. -/
def lex_lt : List Byte → List Byte → Bool
  | [], [] => false
  | [], _ :: _ => true
  | _ :: _, [] => false
  | a :: as, b :: bs => a.val < b.val || (a.val == b.val && lex_lt as bs)

/-- The smaller of two byte strings in lexicographic order. -/
def lex_min (A B : List Byte) : List Byte := if lex_lt B A then B else A

/-- The larger of two byte strings in lexicographic order. -/
def lex_max (A B : List Byte) : List Byte := if lex_lt B A then A else B

/-! ## Key generation and hashing to a point (`curve.c`) -/

/-- The string `"GLS254 keygen:"` that `gls254_keygen` hashes first, 14
bytes. -/
def keygen_tag : List Byte :=
  [0x47, 0x4C, 0x53, 0x32, 0x35, 0x34, 0x20, 0x6B, 0x65, 0x79, 0x67, 0x65, 0x6E, 0x3A]

section
variable {Pt PtA : Type} (P : Prims Pt PtA)

/-- `gls254_keygen`: the digest of the tagged seed is reduced over its 32
bytes, then the public key is computed. -/
def gls254_keygen (rnd : List Byte) : PrivateKey Pt :=
  let sec := P.blake2s (keygen_tag ++ rnd)
  let sec := scalar_reduce (sec.take 32)
  let pp := gls254_mulgen P sec
  { sec := sec, pub := { pp := pp, enc := P.encode pp } }

/-- `gls254_hash_to_point`: the two digests are those of `0x01` and `0x02`
followed by the tag of the hash name (`0x52`, or `0x48`, the name and its
terminating zero) and the data. -/
def gls254_hash_to_point (hash_name : Option (List Byte)) (data : List Byte) : Pt :=
  let blob1 := P.blake2s ([0x01] ++ hash_tag hash_name ++ data)
  let blob2 := P.blake2s ([0x02] ++ hash_tag hash_name ++ data)
  let p := P.map_to_point blob1
  let q := P.map_to_point blob2
  P.add p q

end

/-- The first part of ` modr_reduce384_partial`: the eight limbs `t` and the
high word `t8` that it passes to ` modr_reduce256_partial`. -/
def modr_reduce384_words (a : List Nat) : List Nat × Nat :=
  let a1 := a.drop 8
  let t := mul128x128 a1 R0_x8m
  let s1 := subborrow_limbs 0 (a.take 8) t
  let t8 := neg_u32 s1.1
  let s2 := subborrow_limbs 0 (s1.2.drop 4) a1
  let t := s1.2.take 4 ++ s2.2
  let t8 := (2 ^ 32 + t8 - s2.1) % 2 ^ 32
  let m := sar31 t8
  let s3 := addcarry_limbs 0 t (R_x16m.map (fun w => m &&& w))
  let t8 := (addcarry_u32 s3.1 t8 (m &&& R_x16_top)).2
  (s3.2, t8)

/-- The primitives on `ZMod r` with a digest that is constantly the 32 zero
bytes: BLAKE2s taken as a function that may return any 32-byte value. -/
def zeroDigestPrims : Prims (ZMod r) (ZMod r) :=
  { zmodPrims with blake2s := fun _ => List.replicate 32 0 }

/-- The hash name `"a"`: one byte, its terminating zero not included. -/
def name_a : List Byte := [0x61]

/-- A 256-bit integer in eight limbs, all ones. -/
def limbs_max8 : List Nat := List.replicate 8 0xFFFFFFFF

/-- A 384-bit integer in twelve limbs, all ones. -/
def limbs_max12 : List Nat := List.replicate 12 0xFFFFFFFF

/-- The 16-byte encoding of `2^127 - 1`. -/
def bytes_max127 : List Byte := List.replicate 15 0xFF ++ [0x7F]

/-- The 8-byte encoding of `2^64 - 1`. -/
def bytes_max64 : List Byte := List.replicate 8 0xFF

/-- The four limbs of `2^127 - 3`. -/
def limbs_e_max : List Nat := [0xFFFFFFFD, 0xFFFFFFFF, 0xFFFFFFFF, 0x7FFFFFFF]

/-- The twelve limbs of `2^256`: `a_low = 0`, `a_high = 1`. -/
def limbs_pow256 : List Nat := [0, 0, 0, 0, 0, 0, 0, 0, 1, 0, 0, 0]

/-! ## The reference field arithmetic of the tests (`test_gls254.c`) -/

/-- `r127_norm`: the bit 127 of a 16-byte value is folded onto the bits 0 and
63 (`z^127 = z^63 + 1`). -/
def r127_norm (a : List Byte) : List Byte :=
  let d := a.take 16
  let x := (d.getD 15 0).val &&& 0x80
  let d := d.set 0 (Fin.ofNat ((d.getD 0 0).val ^^^ (x >>> 7)))
  let d := d.set 7 (Fin.ofNat ((d.getD 7 0).val ^^^ x))
  d.set 15 (Fin.ofNat ((d.getD 15 0).val ^^^ x))

/-- `r127_add`: byte-wise XOR of two 16-byte values. -/
def r127_add (a b : List Byte) : List Byte :=
  List.zipWith (fun (x y : Byte) => (Fin.ofNat (x.val ^^^ y.val) : Byte)) (a.take 16) (b.take 16)

/-- The inner loop of `r127_mul`, `c[j] = (w << 1) | e; e = w >> 7`: the
bytes shifted left by one bit and the bit shifted out. -/
def r127_shl1 : List Byte → Nat → List Byte × Nat
  | [], e => ([], e)
  | w :: ws, e =>
    let r := r127_shl1 ws (w.val >>> 7)
    ((Fin.ofNat ((w.val <<< 1) ||| e) : Byte) :: r.1, r.2)

/-- One turn of the loop of `r127_mul` on the state `(t, c)`, for the bit
`i` of `a`. -/
def r127_mul_step (a : List Byte) (st : List Byte × List Byte) (i : Nat) :
    List Byte × List Byte :=
  let t := st.1
  let c := st.2
  let t := if ((a.getD (i >>> 3) 0).val >>> (i &&& 7)) &&& 1 ≠ 0 then r127_add t c else t
  let s := r127_shl1 c 0
  let c := s.1
  let e := s.2
  let c := c.set 0 (Fin.ofNat ((c.getD 0 0).val ^^^ (e <<< 1)))
  let c := c.set 8 (Fin.ofNat ((c.getD 8 0).val ^^^ e))
  (t, c)

/-- `r127_mul`: shift-and-add product of two 16-byte values, with
`z^128 = z^64 + z`. -/
def r127_mul (a b : List Byte) : List Byte :=
  ((List.range 128).foldl (r127_mul_step a) (List.replicate 16 0, b.take 16)).1

/-- `r254_norm`: `r127_norm` on both halves of a 32-byte value. -/
def r254_norm (a : List Byte) : List Byte :=
  r127_norm (a.take 16) ++ r127_norm ((a.drop 16).take 16)

/-- `r254_add`: byte-wise XOR of two 32-byte values. -/
def r254_add (a b : List Byte) : List Byte :=
  List.zipWith (fun (x y : Byte) => (Fin.ofNat (x.val ^^^ y.val) : Byte)) (a.take 32) (b.take 32)

/-- `r254_mul`: product of `a0 + u*a1` and `b0 + u*b1` with `u^2 = u + 1`. -/
def r254_mul (a b : List Byte) : List Byte :=
  let a0b0 := r127_mul a b
  let a0b1 := r127_mul a (b.drop 16)
  let a1b0 := r127_mul (a.drop 16) b
  let a1b1 := r127_mul (a.drop 16) (b.drop 16)
  r127_add a0b0 a1b1 ++ r127_add (r127_add a0b1 a1b0) a1b1

/-- The 32-byte value with byte `i` set to `x` and byte `j` to `y`, the
other bytes zero (`memset(vx, 0, 32); vx[i] = x; vx[j] = y`). -/
def r254_const (i : Nat) (x : Byte) (j : Nat) (y : Byte) : List Byte :=
  ((List.replicate 32 (0 : Byte)).set i x).set j y

/-- The constant `sb = 1 + z^27` (`vx[0] = 1; vx[3] = 8`). -/
def r254_sb : List Byte := r254_const 0 1 3 8

/-- The constant `u` (`vx[16] = 1`). -/
def r254_u : List Byte := r254_const 16 1 16 1

/-- The constant `u + 1` (`vx[0] = 1; vx[16] = 1`). -/
def r254_u1 : List Byte := r254_const 0 1 16 1

/-- The constant `1`. -/
def r254_one : List Byte := r254_const 0 1 0 1

/-! ## Field elements and the tables of multiples of the base point -/

/-- `gfb254`: two elements of GF(2^127), each in four 32-bit limbs. -/
structure gfb254 where
  /-- the component `v[0]` -/
  v0 : List Nat
  /-- the component `v[1]`, the coefficient of `u` -/
  v1 : List Nat

/-- `gls254_point_affine`. -/
structure gls254_point_affine where
  /-- the coordinate `scaled_x` -/
  scaled_x : gfb254
  /-- the coordinate `scaled_s` -/
  scaled_s : gfb254

/-- The table `PRECOMP_B` of `curve.c`: the points `i*B` for `i = 1 .. 8`, in affine
format `(scaled_x, scaled_s)`. -/
def PRECOMP_B : List gls254_point_affine :=
  [
    ⟨⟨[0x326B8675, 0xB6412F20, 0x9AE29894, 0x657CB9F7],
      [0xF66DD010, 0x3932450F, 0xB2E3915E, 0x14C6F62C]⟩,
     ⟨[0x023DC896, 0x5FADCA04, 0xA04300F1, 0x763522AD],
      [0x9E07345A, 0x206E4C1E, 0x2381CA6D, 0x4F69A66A]⟩⟩,
    ⟨⟨[0xD693FA8F, 0x415A7930, 0xDF2F1CA6, 0x1D78874E],
      [0xDAE036F7, 0xF61DEA7C, 0xE5F279EA, 0x4B30C0F5]⟩,
     ⟨[0xFBD6BE01, 0xC19ED043, 0x6ABE9465, 0x693D8F2F],
      [0xD452AB50, 0x0F2F0D9C, 0x0A6EE21C, 0x19720E49]⟩⟩,
    ⟨⟨[0x1889FE19, 0x0BC57355, 0x1393238B, 0x665C451B],
      [0x27CA6F4D, 0xE053B1D0, 0x34043EA7, 0x5C27A07D]⟩,
     ⟨[0xA1F56BB6, 0xFE1E7723, 0x7D15931D, 0x7B780510],
      [0xE184E5DF, 0xAE7D87EF, 0xF11925D5, 0x0F6F5F4E]⟩⟩,
    ⟨⟨[0x06C9A0C8, 0xA11DB5F2, 0xC72A3AB3, 0x061309D0],
      [0xEED4F57B, 0x91999BBE, 0xC3C0D1DA, 0x77F10DBD]⟩,
     ⟨[0x812A13C2, 0x38EE9EC6, 0x9DCA6BB5, 0x77FBC24A],
      [0xC034074B, 0x181DB8C3, 0xA8E44BBD, 0x6D296D30]⟩⟩,
    ⟨⟨[0xCF1FAB5F, 0xC715B038, 0x610AD947, 0x0DA235C1],
      [0x7E52B936, 0xD3AC0FF5, 0x42EA1434, 0x7094DAC3]⟩,
     ⟨[0x32462848, 0x06A589BB, 0x1566BBAF, 0x0F876725],
      [0x17C2DAAB, 0x9F808AC9, 0x55FE4D2C, 0x32B14A68]⟩⟩,
    ⟨⟨[0x2FEA71F8, 0xB210B545, 0x921194F5, 0x14D11ED1],
      [0x4E3E4518, 0x476FF44B, 0x007A5A24, 0x6F68AAC2]⟩,
     ⟨[0x43C891FA, 0x57BE3BF0, 0x548C5D6C, 0x4F28EEAF],
      [0xE898732D, 0x72895485, 0xB3EB369B, 0x5683B98C]⟩⟩,
    ⟨⟨[0xA16EAC69, 0x1F6121CE, 0xBC02778C, 0x19EB28FD],
      [0xB2803207, 0x0E86728B, 0xD9893789, 0x03E9B9FC]⟩,
     ⟨[0x7604ABE1, 0x13DE2DAE, 0xA6611933, 0x5121D6B7],
      [0x9644C754, 0xAFC835F3, 0xE19E6CB3, 0x0A1F6E2D]⟩⟩,
    ⟨⟨[0xF80BD001, 0xCDCB2821, 0xC02477B7, 0x4D1FCC11],
      [0x237C442C, 0x2A6A17AF, 0xD4D6114C, 0x1301DB82]⟩,
     ⟨[0x44C7077A, 0x83CF1AA2, 0xBC942DCB, 0x327AC316],
      [0x8D0BBFA4, 0xAA4C2E84, 0x2A0788B2, 0x235DF1F9]⟩⟩]

/-- The table `PRECOMP_B32` of `curve.c`: the points `i*(2^32)*B` for `i = 1 .. 8`, in affine
format `(scaled_x, scaled_s)`. -/
def PRECOMP_B32 : List gls254_point_affine :=
  [
    ⟨⟨[0x4DDB30B8, 0x63557581, 0x5030FA03, 0x5B61982B],
      [0x22FC0A21, 0x11DFBA3C, 0x0F317C69, 0x59B8AAF2]⟩,
     ⟨[0x4BA656F7, 0x24CCD3E5, 0x8F12A690, 0x75E44943],
      [0x83593FAD, 0x35A7574A, 0xD281984B, 0x605B7617]⟩⟩,
    ⟨⟨[0x63E928F5, 0x90CF4E35, 0x5223D2E7, 0x50074E81],
      [0x354B113C, 0x5C404A45, 0xC8167241, 0x0FA6E6AE]⟩,
     ⟨[0x6DA726AA, 0xA1301F5B, 0x36FADE6F, 0x417E796A],
      [0xA030F951, 0x132B507C, 0x27837BD6, 0x1B059582]⟩⟩,
    ⟨⟨[0xBD1848ED, 0x3EB8194B, 0xA973E23F, 0x49233033],
      [0x9659B3C6, 0x162E3AC5, 0xCF1B0A47, 0x55D7E164]⟩,
     ⟨[0x50D0746F, 0x8408AE6F, 0xDA5B5D8C, 0x54B1EF88],
      [0xE0266218, 0xBEEF1BC0, 0x31BD68F4, 0x47AEBA16]⟩⟩,
    ⟨⟨[0xFEBCA318, 0xACDCDE13, 0x6F23CA1C, 0x2054A068],
      [0x9A944830, 0x4FC664CE, 0x5CC70929, 0x0EE62762]⟩,
     ⟨[0xF712C3D2, 0x10FFCF13, 0x378DADCF, 0x7AEF8651],
      [0x3A88BB41, 0x83BF078A, 0xED94CCB7, 0x6540AA59]⟩⟩,
    ⟨⟨[0x548A5B5C, 0xC3A9CDF7, 0x09251988, 0x7CC55823],
      [0x1D8FB1B6, 0x359CFD6F, 0xAEBB6DFE, 0x16617EA6]⟩,
     ⟨[0x3B570A8D, 0x5402D084, 0xDDCA45AF, 0x72E1B8FC],
      [0x6A5F05AF, 0x8E894715, 0x4943A009, 0x47E972B5]⟩⟩,
    ⟨⟨[0x9D224CE8, 0x21ED4996, 0xF0314FFD, 0x502BF009],
      [0x29EDEB9F, 0x378AD19D, 0x0F08EA14, 0x217F953E]⟩,
     ⟨[0x58AA005F, 0xFBEACAA8, 0xB084D2E9, 0x5C3956EA],
      [0x9C0AF3DD, 0x02FFF925, 0x4DA7B8F3, 0x2E6C4558]⟩⟩,
    ⟨⟨[0xA435418E, 0xEFE3D1C9, 0x78B4B863, 0x29220A41],
      [0xAB5842A9, 0xF43A2709, 0x40A92711, 0x0C7C4F15]⟩,
     ⟨[0x7D638424, 0x1C6B7791, 0x16ED213B, 0x611353A7],
      [0x4BC271D7, 0x64291F07, 0x1D26E566, 0x65DD7EC4]⟩⟩,
    ⟨⟨[0xC194ECC9, 0x9B4DA61D, 0xCA8836CF, 0x7CB707BD],
      [0xD4BFFDF2, 0x77ACDF95, 0xD3A61F80, 0x36586184]⟩,
     ⟨[0xC2CE8B3D, 0xCDAA62F1, 0x824B839B, 0x10B26E50],
      [0x667C1F45, 0xFC7E3B92, 0x267FACD9, 0x27F128AB]⟩⟩]

/-- The table `PRECOMP_B64` of `curve.c`: the points `i*(2^64)*B` for `i = 1 .. 8`, in affine
format `(scaled_x, scaled_s)`. -/
def PRECOMP_B64 : List gls254_point_affine :=
  [
    ⟨⟨[0x4D3AE7AC, 0x26123159, 0x28CEB8AD, 0x082A5BBF],
      [0x83030F30, 0xD959B911, 0x5AF1898E, 0x4447B9E0]⟩,
     ⟨[0x4D3DE629, 0x2C7A5450, 0xA6F9484C, 0x431796A3],
      [0xE5D3C8CD, 0x357D7D22, 0xE5323C2E, 0x147CCFFB]⟩⟩,
    ⟨⟨[0xF207FAC6, 0x05704BF4, 0x161BD3A2, 0x0F16C7B1],
      [0x870DEC6E, 0x1AD76AF2, 0xD0BF2740, 0x4FB614A7]⟩,
     ⟨[0x28566D8A, 0x45D7C01C, 0x4077ABED, 0x005002FF],
      [0x5672D4B3, 0x6542A776, 0xA98AB48D, 0x04137083]⟩⟩,
    ⟨⟨[0xF0350244, 0x27C990FF, 0x857F7525, 0x18A5BC91],
      [0x79997083, 0x6004C035, 0xE0E1B992, 0x1744491A]⟩,
     ⟨[0x17682DD3, 0x9C8593D7, 0x84AE8661, 0x402364E0],
      [0xB2E2B9F3, 0x20F86314, 0x4D9B1FB5, 0x545AF79A]⟩⟩,
    ⟨⟨[0xDDA5DC0B, 0x23CBD429, 0x6A5208C3, 0x27DF09B6],
      [0x8B8FF984, 0x10BCC45E, 0x205DF31F, 0x4D7FE346]⟩,
     ⟨[0xC97F02A7, 0x0CB81A89, 0x7D64DBF2, 0x3C1C9D27],
      [0x704354B3, 0xF84A977B, 0x368738E4, 0x2C8704A6]⟩⟩,
    ⟨⟨[0x448B153F, 0x5FBA8828, 0x9A0F0423, 0x01E91ADB],
      [0x4BFABFFD, 0x1441B534, 0xA4E2D56F, 0x6D0A611A]⟩,
     ⟨[0xC6ED13FE, 0x67C71E1C, 0xA6321549, 0x4DEFBBD5],
      [0x5515923F, 0xA187801F, 0xB7921BE3, 0x5FAD2693]⟩⟩,
    ⟨⟨[0x9A07D071, 0xCBD5E245, 0xCE94BD91, 0x578067F7],
      [0x22EBB7B9, 0x393D9B57, 0xF4C2C566, 0x07F1E938]⟩,
     ⟨[0x7ACE6FEC, 0xAF27AF4B, 0x2CE0A5CF, 0x6DE1B7A6],
      [0x633B4D64, 0xD0C6FCA2, 0x989F7B92, 0x2813A2EA]⟩⟩,
    ⟨⟨[0x41DBB5A8, 0x0A58149A, 0x1073E8F8, 0x106DF92D],
      [0x493E86B2, 0x197899FC, 0x2197B358, 0x2E0E05CE]⟩,
     ⟨[0x709BC381, 0x2D603F9B, 0xA19EED77, 0x26507080],
      [0x1A0926FE, 0x5D86707B, 0x55F08B86, 0x2C55B877]⟩⟩,
    ⟨⟨[0xCD1523B9, 0x43086DD4, 0x4CF14DC9, 0x25B6941E],
      [0x40028B29, 0x0C30580B, 0xA4F8EDDF, 0x6B6816FF]⟩,
     ⟨[0x84749178, 0xB9FFB6EF, 0x8D83172B, 0x16BFA2F7],
      [0x577E2135, 0xCD9F9599, 0xC1FB34BF, 0x0B9E5031]⟩⟩]

/-- The table `PRECOMP_B96` of `curve.c`: the points `i*(2^96)*B` for `i = 1 .. 8`, in affine
format `(scaled_x, scaled_s)`. -/
def PRECOMP_B96 : List gls254_point_affine :=
  [
    ⟨⟨[0xDA88E093, 0x653346E6, 0x9CD13872, 0x30002265],
      [0x5F29D20B, 0x65532D39, 0x7CB5DE42, 0x30FE4C5C]⟩,
     ⟨[0x421D4A31, 0x0D181FE3, 0x94F4D3F7, 0x35F3E726],
      [0xDD3ED40C, 0x0AB661AD, 0x4F2CADE5, 0x542B83C0]⟩⟩,
    ⟨⟨[0xCF11A8C7, 0x5450A803, 0x1DB4620C, 0x1A3EFC52],
      [0xB4D6810F, 0x3FA30220, 0x1BC8AF08, 0x56C04218]⟩,
     ⟨[0xFCE09354, 0x97E3B24D, 0xE7E9C001, 0x7B0F3BAF],
      [0xBD91FC40, 0x2DD1D729, 0xC21B1AD2, 0x05C74680]⟩⟩,
    ⟨⟨[0x431C5C00, 0x8F7A7F37, 0x22605514, 0x4487CC96],
      [0x955E5D1C, 0x754A0DB2, 0xB8D0072A, 0x6AA1BE4A]⟩,
     ⟨[0x6B1BFC14, 0xA6D4611F, 0x6B2E8951, 0x00390364],
      [0x0D536882, 0x723A689D, 0x973B29AB, 0x3B33B3BD]⟩⟩,
    ⟨⟨[0xF4444850, 0xE2D4EE8A, 0xD2D38B53, 0x7C4CCD23],
      [0xECC474E6, 0x66C8957A, 0x9CF325E5, 0x70291606]⟩,
     ⟨[0xE0752CC9, 0x6FEC1E66, 0x3FC42538, 0x3E40F3D7],
      [0x8A03A6D1, 0x5E66D9FE, 0x77C4AEDF, 0x73FDAD68]⟩⟩,
    ⟨⟨[0x4F97E0A6, 0x20505FA3, 0x16909F86, 0x79ACB745],
      [0x82094271, 0xA163A5DC, 0x2F63A6BC, 0x1B6E5456]⟩,
     ⟨[0x7E812C96, 0x9EFD3DD1, 0x136FD51D, 0x6901EB6C],
      [0xC0488EEA, 0x13157F6F, 0x0270A4C0, 0x67729C40]⟩⟩,
    ⟨⟨[0xE30AA449, 0xDBEAF734, 0xB81EC506, 0x2E1D908E],
      [0x61127B0E, 0xF2611727, 0xBA512D9F, 0x2DC2FA82]⟩,
     ⟨[0x68E311D9, 0x44172899, 0xD5748EBC, 0x57F6D770],
      [0x99E2D413, 0x97723CD4, 0xCC746EF0, 0x283638AE]⟩⟩,
    ⟨⟨[0x8B0BCCC7, 0xE16BBA3D, 0x44C9E28F, 0x29BE1EE4],
      [0x751536A3, 0x6E4A728A, 0x00888F7C, 0x08FD01F0]⟩,
     ⟨[0x6105457B, 0x3346C207, 0x67B0008B, 0x290BC8D9],
      [0x8C9C3D6E, 0xCC0E64B7, 0x2E01B797, 0x14197A7C]⟩⟩,
    ⟨⟨[0xF4B109E4, 0x891B5765, 0x03AA5B0A, 0x4C341F78],
      [0xB329C9A0, 0x7DF0A0F3, 0x55940920, 0x6E637EAE]⟩,
     ⟨[0x7624B8A0, 0x81C1B2EF, 0x54F22B55, 0x528F805E],
      [0x7A0FFB48, 0x43A540E6, 0x07BE133F, 0x7A79D0B6]⟩⟩]
/-- The 32 bytes of a `gfb254` in memory: the eight limbs, little-endian. -/
def gfb254_bytes (a : gfb254) : List Byte := ((a.v0 ++ a.v1).map enc32le).flatten

/-- A `gfb254` is canonical: two components of four 32-bit limbs, the bit 127
of each being zero. -/
def gfb254_canonical (a : gfb254) : Bool :=
  a.v0.length == 4 && a.v1.length == 4 && a.v0.all (fun w => w < 2 ^ 32)
    && a.v1.all (fun w => w < 2 ^ 32) && a.v0.getD 3 0 < 2 ^ 31 && a.v1.getD 3 0 < 2 ^ 31

/-- The left side of the curve equation in scaled form, `S^2 + T*S`, with
`T = X`. -/
def curve_lhs (X S : List Byte) : List Byte :=
  r254_add (r254_mul S S) (r254_mul X S)

/-- The right side of the curve equation in scaled form,
`(sb*X^2 + u*T + sb*Z^2)^2`, with `Z = 1` and `T = X`. -/
def curve_rhs (X : List Byte) : List Byte :=
  let w := r254_add (r254_add (r254_mul r254_sb (r254_mul X X)) (r254_mul r254_u X))
    (r254_mul r254_sb (r254_mul r254_one r254_one))
  r254_mul w w

/-- An affine point satisfies the curve equation in GF(2^254): both sides
are equal after `r254_norm`. -/
def on_curve (p : gls254_point_affine) : Bool :=
  r254_norm (curve_lhs (gfb254_bytes p.scaled_x) (gfb254_bytes p.scaled_s))
    == r254_norm (curve_rhs (gfb254_bytes p.scaled_x))

/-! ## The reference arithmetic on the integers of the byte strings -/

/-- The shift of `r127_mul` on the integer `c` of the 16 bytes:
doubling, the bit shifted out being folded onto the bits 64 and 1. -/
def poly_shift (c : Nat) : Nat :=
  ((2 * c) % 2 ^ 128) ^^^ ((c / 2 ^ 127) % 2 * (2 ^ 64 + 2))

/-- One turn of the loop of `r127_mul` on the integers of `t` and `c`. -/
def poly_mul_step (a : Nat) (st : Nat × Nat) (i : Nat) : Nat × Nat :=
  (if a.testBit i then st.1 ^^^ st.2 else st.1, poly_shift st.2)

/-- The product of `r127_mul` on the integers of its operands. -/
def poly_mul (a b : Nat) : Nat :=
  ((List.range 128).foldl (poly_mul_step a) (0, b)).1

/-- The normalisation of `r127_norm` on the integer of the 16 bytes. -/
def poly_norm (a : Nat) : Nat :=
  a ^^^ ((a / 2 ^ 127) % 2 * (2 ^ 127 + 2 ^ 63 + 1))

/-- `r254_mul` on pairs of integers. -/
def poly254_mul (a b : Nat × Nat) : Nat × Nat :=
  (poly_mul a.1 b.1 ^^^ poly_mul a.2 b.2,
    (poly_mul a.1 b.2 ^^^ poly_mul a.2 b.1) ^^^ poly_mul a.2 b.2)

/-- `r254_add` on pairs of integers. -/
def poly254_add (a b : Nat × Nat) : Nat × Nat := (a.1 ^^^ b.1, a.2 ^^^ b.2)

/-- `r254_norm` on pairs of integers. -/
def poly254_norm (a : Nat × Nat) : Nat × Nat := (poly_norm a.1, poly_norm a.2)

/-- The two sides of the curve equation, normalised, on pairs of integers:
`S^2 + X*S` and `(sb*X^2 + u*X + sb*1^2)^2`. -/
def poly_on_curve (X S : Nat × Nat) : Bool :=
  poly254_norm (poly254_add (poly254_mul S S) (poly254_mul X S))
    == poly254_norm
      (poly254_mul
        (poly254_add (poly254_add (poly254_mul (2 ^ 27 + 1, 0) (poly254_mul X X))
          (poly254_mul (0, 1) X)) (poly254_mul (2 ^ 27 + 1, 0) (poly254_mul (1, 0) (1, 0))))
        (poly254_add (poly254_add (poly254_mul (2 ^ 27 + 1, 0) (poly254_mul X X))
          (poly254_mul (0, 1) X)) (poly254_mul (2 ^ 27 + 1, 0) (poly254_mul (1, 0) (1, 0)))))

/-- The pair of integers of a `gfb254`. -/
def gfb254_val (a : gfb254) : Nat × Nat := (limbsVal a.v0, limbsVal a.v1)

/-- The function `φ` sends an integer to the polynomial over GF(2) whose
coefficients are its 128 low bits. -/
def IsBitPoly (φ : ℕ → Polynomial (ZMod 2)) : Prop :=
  ∀ a : ℕ, φ a = ∑ i in Finset.range 128,
    if a.testBit i = true then (Polynomial.X : Polynomial (ZMod 2)) ^ i else 0

/-- The two integers of a 32-byte value: the one of its bytes 0 to 15 and the
one of its bytes 16 to 31. -/
def val254 (a : List Byte) : Nat × Nat :=
  (bytesVal (a.take 16), bytesVal ((a.drop 16).take 16))

/-! ## The inline functions of `inner.h` and the endomorphism -/

/-- Modelled from the spec: `gfb127_add` is an assembly routine, absent from
the sources; the sum in GF(2^127) is taken as the XOR of the limbs. -/
def gfb127_add (a b : List Nat) : List Nat := List.zipWith (fun x y => x ^^^ y) a b

/-- `gfb254_add`: the sum of both components. -/
def gfb254_add (a b : gfb254) : gfb254 :=
  ⟨gfb127_add a.v0 b.v0, gfb127_add a.v1 b.v1⟩

/-- `gfb254_mul_u`: `t = a0 + a1; d0 = a1; d1 = t`. -/
def gfb254_mul_u (a : gfb254) : gfb254 :=
  let t := gfb127_add a.v0 a.v1
  ⟨a.v1, t⟩

/-- `gfb254_mul_u1`: `t = a0 + a1; d1 = a0; d0 = t`. -/
def gfb254_mul_u1 (a : gfb254) : gfb254 :=
  let t := gfb127_add a.v0 a.v1
  ⟨t, a.v0⟩

/-- Modelled from the spec: `gls254_zeta_affine` is an assembly routine, absent
from the sources; its result is the one that `test_gls254_window` requires,
for `zn = 0` and for `zn = 0xFFFFFFFF` (the flag must be one of the two; every
nonzero flag is read here as `0xFFFFFFFF`). -/
def gls254_zeta_affine (p1 : gls254_point_affine) (zn : Nat) : gls254_point_affine :=
  let x0 := p1.scaled_x.v0
  let x1 := p1.scaled_x.v1
  let s0 := p1.scaled_s.v0
  let s1 := p1.scaled_s.v1
  if zn = 0 then
    ⟨⟨gfb127_add x0 x1, x1⟩,
      ⟨gfb127_add (gfb127_add s0 s1) x0, gfb127_add (gfb127_add s1 x0) x1⟩⟩
  else
    ⟨⟨gfb127_add x0 x1, x1⟩,
      ⟨gfb127_add (gfb127_add s0 s1) x1, gfb127_add s1 x0⟩⟩

/-- The negation of an affine point, as `test_gls254_window` computes it for
the negative indices of a lookup: `scaled_x` is kept and `scaled_s` becomes
`scaled_s + scaled_x`. -/
def affine_neg (p : gls254_point_affine) : gls254_point_affine :=
  ⟨p.scaled_x, gfb254_add p.scaled_s p.scaled_x⟩

/-- The components of an affine point have four limbs each. -/
def affine_shape (p : gls254_point_affine) : Bool :=
  p.scaled_x.v0.length == 4 && p.scaled_x.v1.length == 4
    && p.scaled_s.v0.length == 4 && p.scaled_s.v1.length == 4

/-- The 16-byte value with byte `i` set to `x` and byte `j` to `y`, the
other bytes zero. -/
def r127_const (i : Nat) (x : Byte) (j : Nat) (y : Byte) : List Byte :=
  ((List.replicate 16 (0 : Byte)).set i x).set j y

/-- The element `1` of GF(2^127). -/
def r127_one : List Byte := r127_const 0 1 0 1

/-- The element `z` (`vx[0] = 2`). -/
def r127_z : List Byte := r127_const 0 2 0 2

/-- The element `z^2` (`vx[0] = 4`). -/
def r127_z2 : List Byte := r127_const 0 4 0 4

/-- The element `z^126`. -/
def r127_z126 : List Byte := r127_const 15 0x40 15 0x40

/-- The element `z^125`. -/
def r127_z125 : List Byte := r127_const 15 0x20 15 0x20

/-- The element `z^126 + z^62`. -/
def r127_inv_z : List Byte := r127_const 7 0x40 15 0x40

/-- The element `z^125 + z^61`. -/
def r127_inv_z2 : List Byte := r127_const 7 0x20 15 0x20

/-- The four tables of multiples of the base point, one after the other. -/
def PRECOMP_all : List gls254_point_affine :=
  PRECOMP_B ++ PRECOMP_B32 ++ PRECOMP_B64 ++ PRECOMP_B96

/-- A sample element of GF(2^254), the `scaled_x` of the first entry of
`PRECOMP_B`. -/
def sample_gfb254 : gfb254 :=
  ⟨[0x326B8675, 0xB6412F20, 0x9AE29894, 0x657CB9F7],
    [0xF66DD010, 0x3932450F, 0xB2E3915E, 0x14C6F62C]⟩

/-- A sample affine point, the first entry of `PRECOMP_B`. -/
def sample_affine : gls254_point_affine :=
  ⟨sample_gfb254, ⟨[0x023DC896, 0x5FADCA04, 0xA04300F1, 0x763522AD],
    [0x9E07345A, 0x206E4C1E, 0x2381CA6D, 0x4F69A66A]⟩⟩

/-! # Theorems -/

/-! ## Words, carries and borrows -/

theorem limbs_nil : Limbs [] := by
  intro x hx; cases hx

theorem limbs_cons {x : Nat} {xs : List Nat} :
    Limbs (x :: xs) ↔ x < 2 ^ 32 ∧ Limbs xs := by
  simp [Limbs]

theorem limbs_append {xs ys : List Nat} :
    Limbs (xs ++ ys) ↔ Limbs xs ∧ Limbs ys := by
  simp only [Limbs, List.mem_append]
  constructor
  · intro h; exact ⟨fun x hx => h x (Or.inl hx), fun x hx => h x (Or.inr hx)⟩
  · rintro ⟨h1, h2⟩ x (hx | hx)
    · exact h1 x hx
    · exact h2 x hx

theorem limbs_take {xs : List Nat} (h : Limbs xs) (n : Nat) : Limbs (xs.take n) :=
  fun x hx => h x (List.mem_of_mem_take hx)

theorem limbs_drop {xs : List Nat} (h : Limbs xs) (n : Nat) : Limbs (xs.drop n) :=
  fun x hx => h x (List.mem_of_mem_drop hx)

theorem limbsVal_append (xs ys : List Nat) :
    limbsVal (xs ++ ys) = limbsVal xs + 2 ^ (32 * xs.length) * limbsVal ys := by
  induction xs with
  | nil => simp [limbsVal]
  | cons x xs ih =>
    have e : limbsVal (x :: xs ++ ys) = x + 2 ^ 32 * limbsVal (xs ++ ys) := rfl
    have e1 : limbsVal (x :: xs) = x + 2 ^ 32 * limbsVal xs := rfl
    rw [e, ih, e1, List.length_cons,
      show 32 * (xs.length + 1) = 32 + 32 * xs.length by ring, pow_add]
    ring

theorem limbsVal_lt {xs : List Nat} (h : Limbs xs) :
    limbsVal xs < 2 ^ (32 * xs.length) := by
  induction xs with
  | nil => simp [limbsVal]
  | cons x xs ih =>
    rw [limbs_cons] at h
    have h1 := ih h.2
    simp only [limbsVal, List.length_cons]
    rw [show 32 * (xs.length + 1) = 32 + 32 * xs.length by ring, pow_add]
    have h2 := h.1
    nlinarith

theorem limbsVal_take_add_drop (xs : List Nat) (n : Nat) :
    limbsVal (xs.take n) + 2 ^ (32 * (xs.take n).length) * limbsVal (xs.drop n)
      = limbsVal xs := by
  rw [← limbsVal_append, List.take_append_drop]

theorem addcarry_u32_spec {cc x y : Nat} (hx : x < 2 ^ 32) (hy : y < 2 ^ 32)
    (hc : cc ≤ 1) :
    (addcarry_u32 cc x y).2 + 2 ^ 32 * (addcarry_u32 cc x y).1 = x + y + cc
      ∧ (addcarry_u32 cc x y).1 ≤ 1 ∧ (addcarry_u32 cc x y).2 < 2 ^ 32 := by
  simp only [addcarry_u32, Nat.shiftRight_eq_div_pow]
  norm_num at hx hy ⊢
  omega

theorem subborrow_u32_spec {cc x y : Nat} (hx : x < 2 ^ 32) (hy : y < 2 ^ 32)
    (hc : cc ≤ 1) :
    (subborrow_u32 cc x y).2 + y + cc = x + 2 ^ 32 * (subborrow_u32 cc x y).1
      ∧ (subborrow_u32 cc x y).1 ≤ 1 ∧ (subborrow_u32 cc x y).2 < 2 ^ 32 := by
  simp only [subborrow_u32, Nat.shiftRight_eq_div_pow]
  norm_num at hx hy ⊢
  omega

theorem addcarry_limbs_spec (xs : List Nat) :
    ∀ (ys : List Nat) (cc : Nat), xs.length = ys.length → Limbs xs → Limbs ys →
      cc ≤ 1 →
      limbsVal (addcarry_limbs cc xs ys).2
          + 2 ^ (32 * xs.length) * (addcarry_limbs cc xs ys).1
          = limbsVal xs + limbsVal ys + cc
        ∧ (addcarry_limbs cc xs ys).1 ≤ 1
        ∧ Limbs (addcarry_limbs cc xs ys).2
        ∧ (addcarry_limbs cc xs ys).2.length = xs.length := by
  induction xs with
  | nil =>
    intro ys cc hl _ _ hc
    cases ys with
    | nil => simp [addcarry_limbs, limbsVal, limbs_nil, hc]
    | cons y ys => simp at hl
  | cons x xs ih =>
    intro ys cc hl hx hy hc
    cases ys with
    | nil => simp at hl
    | cons y ys =>
      rw [limbs_cons] at hx hy
      have hl1 : xs.length = ys.length := by simpa using hl
      obtain ⟨e1, c1, z1⟩ := addcarry_u32_spec hx.1 hy.1 hc
      obtain ⟨e2, c2, z2, l2⟩ := ih ys _ hl1 hx.2 hy.2 c1
      simp only [addcarry_limbs, limbsVal, List.length_cons]
      refine ⟨?_, c2, limbs_cons.2 ⟨z1, z2⟩, by simp [l2]⟩
      rw [show 32 * (xs.length + 1) = 32 + 32 * xs.length by ring, pow_add]
      have e3 : 2 ^ 32 * (limbsVal (addcarry_limbs (addcarry_u32 cc x y).1 xs ys).2
          + 2 ^ (32 * xs.length) * (addcarry_limbs (addcarry_u32 cc x y).1 xs ys).1)
          = 2 ^ 32 * (limbsVal xs + limbsVal ys + (addcarry_u32 cc x y).1) := by
        rw [e2]
      linarith

theorem subborrow_limbs_spec (xs : List Nat) :
    ∀ (ys : List Nat) (cc : Nat), xs.length = ys.length → Limbs xs → Limbs ys →
      cc ≤ 1 →
      limbsVal (subborrow_limbs cc xs ys).2 + limbsVal ys + cc
          = limbsVal xs + 2 ^ (32 * xs.length) * (subborrow_limbs cc xs ys).1
        ∧ (subborrow_limbs cc xs ys).1 ≤ 1
        ∧ Limbs (subborrow_limbs cc xs ys).2
        ∧ (subborrow_limbs cc xs ys).2.length = xs.length := by
  induction xs with
  | nil =>
    intro ys cc hl _ _ hc
    cases ys with
    | nil => simp [subborrow_limbs, limbsVal, limbs_nil, hc]
    | cons y ys => simp at hl
  | cons x xs ih =>
    intro ys cc hl hx hy hc
    cases ys with
    | nil => simp at hl
    | cons y ys =>
      rw [limbs_cons] at hx hy
      have hl1 : xs.length = ys.length := by simpa using hl
      obtain ⟨e1, c1, z1⟩ := subborrow_u32_spec hx.1 hy.1 hc
      obtain ⟨e2, c2, z2, l2⟩ := ih ys _ hl1 hx.2 hy.2 c1
      simp only [subborrow_limbs, limbsVal, List.length_cons]
      refine ⟨?_, c2, limbs_cons.2 ⟨z1, z2⟩, by simp [l2]⟩
      rw [show 32 * (xs.length + 1) = 32 + 32 * xs.length by ring, pow_add]
      have e3 : 2 ^ 32 * (limbsVal (subborrow_limbs (subborrow_u32 cc x y).1 xs ys).2
          + limbsVal ys + (subborrow_u32 cc x y).1)
          = 2 ^ 32 * (limbsVal xs + 2 ^ (32 * xs.length)
              * (subborrow_limbs (subborrow_u32 cc x y).1 xs ys).1) := by
        rw [e2]
      linarith

/-! ## Multi-limb multiplication -/

theorem mul_word_spec (f : Nat) (hf : f < 2 ^ 32) (a : List Nat) :
    ∀ g : Nat, Limbs a → g < 2 ^ 32 →
      limbsVal (mul_word f a g).1 + 2 ^ (32 * a.length) * (mul_word f a g).2
          = f * limbsVal a + g
        ∧ (mul_word f a g).2 < 2 ^ 32
        ∧ Limbs (mul_word f a g).1
        ∧ (mul_word f a g).1.length = a.length := by
  induction a with
  | nil => intro g _ hg; exact ⟨by simp [mul_word, limbsVal], hg, limbs_nil, rfl⟩
  | cons x xs ih =>
    intro g ha hg
    rw [limbs_cons] at ha
    have hp : f * x ≤ (2 ^ 32 - 1) * (2 ^ 32 - 1) :=
      Nat.mul_le_mul (by omega) (by omega)
    have hz : (f * x + g) % 2 ^ 64 = f * x + g := by
      apply Nat.mod_eq_of_lt; norm_num at hp hg ⊢; omega
    have hg1 : (f * x + g) / 2 ^ 32 % 2 ^ 32 < 2 ^ 32 := Nat.mod_lt _ (by norm_num)
    obtain ⟨e, b, l, n⟩ := ih _ ha.2 hg1
    simp only [mul_word, Nat.shiftRight_eq_div_pow, hz, limbsVal, List.length_cons]
    refine ⟨?_, b, limbs_cons.2 ⟨Nat.mod_lt _ (by norm_num), l⟩, by rw [n]⟩
    rw [show 32 * (xs.length + 1) = 32 + 32 * xs.length by ring, pow_add]
    have hq : (f * x + g) / 2 ^ 32 % 2 ^ 32 = (f * x + g) / 2 ^ 32 := by
      apply Nat.mod_eq_of_lt; norm_num at hp hg ⊢; omega
    rw [hq] at e ⊢
    have e3 := congrArg (fun v => 2 ^ 32 * v) e
    simp only at e3
    have e4 := Nat.mod_add_div (f * x + g) (2 ^ 32)
    rw [Nat.mul_add] at e3 ⊢
    linarith

theorem mul_word_acc_spec (f : Nat) (hf : f < 2 ^ 32) (a : List Nat) :
    ∀ (t : List Nat) (g : Nat), a.length = t.length → Limbs a → Limbs t →
      g < 2 ^ 32 →
      limbsVal (mul_word_acc f a t g).1
          + 2 ^ (32 * a.length) * (mul_word_acc f a t g).2
          = f * limbsVal a + limbsVal t + g
        ∧ (mul_word_acc f a t g).2 < 2 ^ 32
        ∧ Limbs (mul_word_acc f a t g).1
        ∧ (mul_word_acc f a t g).1.length = a.length := by
  induction a with
  | nil =>
    intro t g hl _ _ hg
    cases t with
    | nil => exact ⟨by simp [mul_word_acc, limbsVal], hg, limbs_nil, rfl⟩
    | cons y ys => simp at hl
  | cons x xs ih =>
    intro t g hl ha ht hg
    cases t with
    | nil => simp at hl
    | cons y ys =>
      rw [limbs_cons] at ha ht
      have hl1 : xs.length = ys.length := by simpa using hl
      have hp : f * x ≤ (2 ^ 32 - 1) * (2 ^ 32 - 1) :=
        Nat.mul_le_mul (by omega) (by omega)
      have hy := ht.1
      have hz1 : (f * x + g) % 2 ^ 64 = f * x + g := by
        apply Nat.mod_eq_of_lt; norm_num at hp hg ⊢; omega
      have hz : ((f * x + g) % 2 ^ 64 + y) % 2 ^ 64 = f * x + g + y := by
        rw [hz1]; apply Nat.mod_eq_of_lt; norm_num at hp hg hy ⊢; omega
      have hg1 : (f * x + g + y) / 2 ^ 32 % 2 ^ 32 < 2 ^ 32 :=
        Nat.mod_lt _ (by norm_num)
      obtain ⟨e, b, l, n⟩ := ih ys _ hl1 ha.2 ht.2 hg1
      simp only [mul_word_acc, Nat.shiftRight_eq_div_pow, hz, limbsVal,
        List.length_cons]
      refine ⟨?_, b, limbs_cons.2 ⟨Nat.mod_lt _ (by norm_num), l⟩, by rw [n]⟩
      rw [show 32 * (xs.length + 1) = 32 + 32 * xs.length by ring, pow_add]
      have hq : (f * x + g + y) / 2 ^ 32 % 2 ^ 32 = (f * x + g + y) / 2 ^ 32 := by
        apply Nat.mod_eq_of_lt; norm_num at hp hg hy ⊢; omega
      rw [hq] at e ⊢
      have e3 := congrArg (fun v => 2 ^ 32 * v) e
      simp only at e3
      have e4 := Nat.mod_add_div (f * x + g + y) (2 ^ 32)
      rw [Nat.mul_add] at e3 ⊢
      rw [Nat.mul_add, Nat.mul_add] at e3
      linarith

/-- One row of the schoolbook product `mul128x128`. -/
theorem mul128x128_row (a d : List Nat) (f j B : Nat) (hf : f < 2 ^ 32)
    (ha : Limbs a) (hd : Limbs d) (hl : d.length = j + a.length)
    (hv : limbsVal d = limbsVal a * B) :
    Limbs (d.take j ++ (mul_word_acc f a (d.drop j) 0).1
        ++ [(mul_word_acc f a (d.drop j) 0).2])
      ∧ (d.take j ++ (mul_word_acc f a (d.drop j) 0).1
        ++ [(mul_word_acc f a (d.drop j) 0).2]).length = j + 1 + a.length
      ∧ limbsVal (d.take j ++ (mul_word_acc f a (d.drop j) 0).1
        ++ [(mul_word_acc f a (d.drop j) 0).2])
        = limbsVal a * (B + 2 ^ (32 * j) * f) := by
  have hdl : a.length = (d.drop j).length := by simp [hl]
  obtain ⟨e, b, l, n⟩ :=
    mul_word_acc_spec f hf a (d.drop j) 0 hdl ha (limbs_drop hd j) (by norm_num)
  have htl : (d.take j).length = j := by simp [hl]
  refine ⟨?_, ?_, ?_⟩
  · rw [limbs_append, limbs_append]
    exact ⟨⟨limbs_take hd j, l⟩, by simpa [Limbs] using b⟩
  · simp [htl, n]; omega
  · have e5 := limbsVal_take_add_drop d j
    rw [htl] at e5
    rw [List.append_assoc, limbsVal_append, limbsVal_append, htl, n]
    simp only [limbsVal, Nat.mul_zero, Nat.add_zero]
    have e6 := congrArg (fun v => 2 ^ (32 * j) * v) e
    simp only [Nat.mul_add, Nat.add_zero] at e6
    rw [Nat.mul_add, Nat.mul_add]
    rw [← hv, ← e5]
    have : limbsVal a * (2 ^ (32 * j) * f) = 2 ^ (32 * j) * (f * limbsVal a) := by ring
    rw [this]
    linarith

theorem mul128x128_spec (a b : List Nat) (ha : Limbs a) (hb : Limbs b)
    (hla : a.length = 4) (hlb : b.length = 4) :
    Limbs (mul128x128 a b) ∧ (mul128x128 a b).length = 8
      ∧ limbsVal (mul128x128 a b) = limbsVal a * limbsVal b := by
  obtain ⟨b0, b1, b2, b3, rfl⟩ : ∃ b0 b1 b2 b3, b = [b0, b1, b2, b3] := by
    match b, hlb with
    | [b0, b1, b2, b3], _ => exact ⟨b0, b1, b2, b3, rfl⟩
  simp only [limbs_cons] at hb
  obtain ⟨h0, h1, h2, h3, -⟩ := hb
  obtain ⟨e, c, l, n⟩ := mul_word_spec b0 h0 a 0 ha (by norm_num)
  have s0l : Limbs ((mul_word b0 a 0).1 ++ [(mul_word b0 a 0).2]) := by
    rw [limbs_append]; exact ⟨l, by simpa [Limbs] using c⟩
  have s0n : ((mul_word b0 a 0).1 ++ [(mul_word b0 a 0).2]).length = 1 + a.length := by
    simp [n]; omega
  have s0v : limbsVal ((mul_word b0 a 0).1 ++ [(mul_word b0 a 0).2])
      = limbsVal a * b0 := by
    rw [limbsVal_append, n]; simp only [limbsVal, Nat.mul_zero, Nat.add_zero]
    rw [e]; ring
  obtain ⟨s1l, s1n, s1v⟩ := mul128x128_row a _ b1 1 b0 h1 ha s0l s0n s0v
  obtain ⟨s2l, s2n, s2v⟩ := mul128x128_row a _ b2 2 _ h2 ha s1l s1n s1v
  obtain ⟨s3l, s3n, s3v⟩ := mul128x128_row a _ b3 3 _ h3 ha s2l s2n s2v
  simp only [mul128x128, List.foldl, List.getD_cons_zero, List.getD_cons_succ]
  refine ⟨s3l, by rw [s3n, hla], ?_⟩
  rw [s3v]
  simp only [limbsVal]
  ring

theorem limbs_replicate_zero (n : Nat) : Limbs (List.replicate n 0) := by
  intro x hx
  rw [List.mem_replicate] at hx
  rw [hx.2]; norm_num

theorem limbsVal_replicate_zero (n : Nat) : limbsVal (List.replicate n 0) = 0 := by
  induction n with
  | zero => rfl
  | succ n ih => simp [List.replicate_succ, limbsVal, ih]

theorem modEq_add_mul (x n q : Nat) : x ≡ x + n * q [MOD n] := by
  unfold Nat.ModEq
  rw [Nat.add_mul_mod_self_left]

/-- One row of the truncated product `mul128x128trunc`. -/
theorem mul128x128trunc_row (a t : List Nat) (f j B : Nat) (hf : f < 2 ^ 32)
    (hj : j ≤ 4) (ha : Limbs a) (ht : Limbs t) (hla : a.length = 4)
    (hlt : t.length = 4)
    (hv : limbsVal t ≡ limbsVal a * B [MOD 2 ^ 128]) :
    Limbs (t.take j ++ (mul_word_acc f (a.take (4 - j)) (t.drop j) 0).1)
      ∧ (t.take j ++ (mul_word_acc f (a.take (4 - j)) (t.drop j) 0).1).length = 4
      ∧ limbsVal (t.take j ++ (mul_word_acc f (a.take (4 - j)) (t.drop j) 0).1)
        ≡ limbsVal a * (B + 2 ^ (32 * j) * f) [MOD 2 ^ 128] := by
  have hal : (a.take (4 - j)).length = 4 - j := by simp [hla]
  have hdl : (a.take (4 - j)).length = (t.drop j).length := by simp [hla, hlt]
  obtain ⟨e, b, l, n⟩ := mul_word_acc_spec f hf (a.take (4 - j)) (t.drop j) 0 hdl
    (limbs_take ha _) (limbs_drop ht j) (by norm_num)
  have htl : (t.take j).length = j := by simp [hlt, hj]
  refine ⟨limbs_append.2 ⟨limbs_take ht j, l⟩, ?_, ?_⟩
  · rw [List.length_append, htl, n, hal]; omega
  · have e5 := limbsVal_take_add_drop t j
    have e7 := limbsVal_take_add_drop a (4 - j)
    rw [htl] at e5
    rw [hal] at e7 e
    rw [limbsVal_append, htl]
    have hp : (2 : Nat) ^ (32 * j) * 2 ^ (32 * (4 - j)) = 2 ^ 128 := by
      rw [← pow_add]; congr 1; omega
    set W := mul_word_acc f (List.take (4 - j) a) (List.drop j t) 0 with hW
    have key : limbsVal (t.take j) + 2 ^ (32 * j) * limbsVal W.1
        + 2 ^ 128 * (W.2 + f * limbsVal (a.drop (4 - j)))
        = limbsVal t + limbsVal a * (2 ^ (32 * j) * f) := by
      rw [← e5, ← e7, ← hp]
      have e6 := congrArg (fun v => 2 ^ (32 * j) * v) e
      simp only [Nat.add_zero] at e6
      rw [Nat.mul_add] at e6
      nlinarith [e6]
    have h1 : limbsVal (t.take j) + 2 ^ (32 * j) * limbsVal W.1
        ≡ limbsVal t + limbsVal a * (2 ^ (32 * j) * f) [MOD 2 ^ 128] := by
      rw [← key]
      exact modEq_add_mul _ _ _
    refine h1.trans ?_
    rw [Nat.mul_add]
    exact Nat.ModEq.add_right _ hv

theorem mul128x128trunc_spec (a b : List Nat) (ha : Limbs a) (hb : Limbs b)
    (hla : a.length = 4) (hlb : b.length = 4) :
    Limbs (mul128x128trunc a b) ∧ (mul128x128trunc a b).length = 4
      ∧ limbsVal (mul128x128trunc a b) = (limbsVal a * limbsVal b) % 2 ^ 128 := by
  obtain ⟨b0, b1, b2, b3, rfl⟩ : ∃ b0 b1 b2 b3, b = [b0, b1, b2, b3] := by
    match b, hlb with
    | [b0, b1, b2, b3], _ => exact ⟨b0, b1, b2, b3, rfl⟩
  simp only [limbs_cons] at hb
  obtain ⟨h0, h1, h2, h3, -⟩ := hb
  obtain ⟨e, c, l, n⟩ := mul_word_spec b0 h0 a 0 ha (by norm_num)
  have s0v : limbsVal (mul_word b0 a 0).1 ≡ limbsVal a * b0 [MOD 2 ^ 128] := by
    rw [hla] at e
    have : limbsVal (mul_word b0 a 0).1 + 2 ^ 128 * (mul_word b0 a 0).2
        = limbsVal a * b0 := by rw [e]; ring
    rw [← this]
    exact modEq_add_mul _ _ _
  obtain ⟨s1l, s1n, s1v⟩ := mul128x128trunc_row a _ b1 1 b0 h1 (by norm_num) ha l
    hla (by rw [n, hla]) s0v
  obtain ⟨s2l, s2n, s2v⟩ := mul128x128trunc_row a _ b2 2 _ h2 (by norm_num) ha s1l
    hla s1n s1v
  obtain ⟨s3l, s3n, s3v⟩ := mul128x128trunc_row a _ b3 3 _ h3 (by norm_num) ha s2l
    hla s2n s2v
  simp only [mul128x128trunc, List.foldl, List.getD_cons_zero, List.getD_cons_succ]
  refine ⟨s3l, s3n, ?_⟩
  have hlt := limbsVal_lt s3l
  rw [s3n] at hlt
  have e2 : limbsVal a * (b0 + 2 ^ (32 * 1) * b1 + 2 ^ (32 * 2) * b2 + 2 ^ (32 * 3) * b3)
      = limbsVal a * limbsVal [b0, b1, b2, b3] := by
    simp only [limbsVal]; ring
  rw [e2] at s3v
  have := s3v
  unfold Nat.ModEq at this
  rw [← this]
  exact (Nat.mod_eq_of_lt hlt).symm

/-- The recombination `d = dl + dh * 2^128` shared by `mul256x128` and
`mul256x256`. -/
theorem mul_combine_spec (dl dh : List Nat) (hl : Limbs dl) (hh : Limbs dh)
    (hn : dl.length = dh.length) (h4 : 4 ≤ dl.length)
    (hb : limbsVal (dl.drop 4) + limbsVal dh < 2 ^ (32 * dh.length)) :
    Limbs (dl.take 4 ++ (addcarry_limbs 0 (dl.drop 4 ++ [0, 0, 0, 0]) dh).2)
      ∧ (dl.take 4 ++ (addcarry_limbs 0 (dl.drop 4 ++ [0, 0, 0, 0]) dh).2).length
          = dl.length + 4
      ∧ limbsVal (dl.take 4 ++ (addcarry_limbs 0 (dl.drop 4 ++ [0, 0, 0, 0]) dh).2)
          = limbsVal dl + 2 ^ 128 * limbsVal dh := by
  have hx : Limbs (dl.drop 4 ++ [0, 0, 0, 0]) :=
    limbs_append.2 ⟨limbs_drop hl 4, limbs_replicate_zero 4⟩
  have hxl : (dl.drop 4 ++ [0, 0, 0, 0]).length = dh.length := by
    simp; omega
  obtain ⟨e, c, l, n⟩ := addcarry_limbs_spec _ dh 0 hxl hx hh (le_refl _ |>.trans (by norm_num))
  have hxv : limbsVal (dl.drop 4 ++ [0, 0, 0, 0]) = limbsVal (dl.drop 4) := by
    rw [limbsVal_append]; simp [limbsVal]
  rw [hxv, hxl] at e
  have htl : (dl.take 4).length = 4 := by simp [h4]
  set A := addcarry_limbs 0 (dl.drop 4 ++ [0, 0, 0, 0]) dh with hA
  have hc0 : A.1 = 0 := by
    rcases Nat.le_one_iff_eq_zero_or_eq_one.1 c with h | h
    · exact h
    · rw [h] at e; omega
  refine ⟨limbs_append.2 ⟨limbs_take hl 4, l⟩, ?_, ?_⟩
  · rw [List.length_append, htl, n, hxl, hn]; omega
  · have e5 := limbsVal_take_add_drop dl 4
    rw [htl] at e5
    rw [limbsVal_append, htl, ← e5]
    rw [hc0] at e
    norm_num at e ⊢
    rw [e]; ring

theorem mul256x128_spec (a b : List Nat) (ha : Limbs a) (hb : Limbs b)
    (hla : a.length = 8) (hlb : b.length = 4) :
    Limbs (mul256x128 a b) ∧ (mul256x128 a b).length = 12
      ∧ limbsVal (mul256x128 a b) = limbsVal a * limbsVal b := by
  have hal : (a.take 4).length = 4 := by simp [hla]
  have hah : (a.drop 4).length = 4 := by simp [hla]
  obtain ⟨l1, n1, v1⟩ := mul128x128_spec (a.take 4) b (limbs_take ha 4) hb hal hlb
  obtain ⟨l2, n2, v2⟩ := mul128x128_spec (a.drop 4) b (limbs_drop ha 4) hb hah hlb
  have b1 := limbsVal_lt (limbs_drop l1 4)
  have b2 := limbsVal_lt (limbs_drop ha 4)
  have b3 := limbsVal_lt hb
  rw [hah] at b2
  rw [hlb] at b3
  have hd4 : ((mul128x128 (a.take 4) b).drop 4).length = 4 := by simp [n1]
  rw [hd4] at b1
  have bnd : limbsVal ((mul128x128 (a.take 4) b).drop 4)
      + limbsVal (mul128x128 (a.drop 4) b)
      < 2 ^ (32 * (mul128x128 (a.drop 4) b).length) := by
    rw [n2, v2]
    have hp : limbsVal (a.drop 4) * limbsVal b ≤ (2 ^ 128 - 1) * (2 ^ 128 - 1) :=
      Nat.mul_le_mul (by omega) (by omega)
    norm_num at hp b1 ⊢
    omega
  obtain ⟨l, n, v⟩ := mul_combine_spec _ _ l1 l2 (by rw [n1, n2]) (by rw [n1]; norm_num) bnd
  simp only [mul256x128]
  refine ⟨l, by rw [n, n1], ?_⟩
  rw [v, v1, v2]
  have e7 := limbsVal_take_add_drop a 4
  rw [hal] at e7
  rw [← e7]; ring

theorem mul256x256_spec (a b : List Nat) (ha : Limbs a) (hb : Limbs b)
    (hla : a.length = 8) (hlb : b.length = 8) :
    Limbs (mul256x256 a b) ∧ (mul256x256 a b).length = 16
      ∧ limbsVal (mul256x256 a b) = limbsVal a * limbsVal b := by
  have hal : (a.take 4).length = 4 := by simp [hla]
  have hah : (a.drop 4).length = 4 := by simp [hla]
  obtain ⟨l1, n1, v1⟩ := mul256x128_spec b (a.take 4) hb (limbs_take ha 4) hlb hal
  obtain ⟨l2, n2, v2⟩ := mul256x128_spec b (a.drop 4) hb (limbs_drop ha 4) hlb hah
  have b1 := limbsVal_lt (limbs_drop l1 4)
  have b2 := limbsVal_lt (limbs_drop ha 4)
  have b3 := limbsVal_lt hb
  rw [hah] at b2
  rw [hlb] at b3
  have hd4 : ((mul256x128 b (a.take 4)).drop 4).length = 8 := by simp [n1]
  rw [hd4] at b1
  have bnd : limbsVal ((mul256x128 b (a.take 4)).drop 4)
      + limbsVal (mul256x128 b (a.drop 4))
      < 2 ^ (32 * (mul256x128 b (a.drop 4)).length) := by
    rw [n2, v2]
    have hp : limbsVal b * limbsVal (a.drop 4) ≤ (2 ^ 256 - 1) * (2 ^ 128 - 1) :=
      Nat.mul_le_mul (by omega) (by omega)
    norm_num at hp b1 ⊢
    omega
  obtain ⟨l, n, v⟩ := mul_combine_spec _ _ l1 l2 (by rw [n1, n2]) (by rw [n1]; norm_num) bnd
  simp only [mul256x256]
  refine ⟨l, by rw [n, n1], ?_⟩
  rw [v, v1, v2]
  have e7 := limbsVal_take_add_drop a 4
  rw [hal] at e7
  rw [← e7]; ring

/-! ## Masks and shifts -/

theorem neg_u32_zero : neg_u32 0 = 0 := by decide

theorem neg_u32_one : neg_u32 1 = 0xFFFFFFFF := by decide

theorem ones_and {w : Nat} (hw : w < 2 ^ 32) : 0xFFFFFFFF &&& w = w := by
  rw [Nat.and_comm]
  have := Nat.and_pow_two_sub_one_eq_mod w 32
  norm_num at this
  rw [this]
  exact Nat.mod_eq_of_lt hw

theorem and_low29 (x : Nat) : x &&& 0x1FFFFFFF = x % 2 ^ 29 := by
  have := Nat.and_pow_two_sub_one_eq_mod x 29
  norm_num at this ⊢
  exact this

theorem shl3_or {x g : Nat} (hg : g < 8) :
    ((x <<< 3) % 2 ^ 32) ||| g = 8 * (x % 2 ^ 29) + g := by
  have h1 : (x <<< 3) % 2 ^ 32 = 2 ^ 3 * (x % 2 ^ 29) := by
    rw [Nat.shiftLeft_eq]; norm_num; omega
  rw [h1, ← Nat.mul_add_lt_is_or (by norm_num; exact hg)]

theorem sar31_eq {x : Nat} (hx : x < 2 ^ 32) :
    sar31 x = if 2 ^ 31 ≤ x then 0xFFFFFFFF else 0 := by
  unfold sar31
  rw [Nat.shiftRight_eq_div_pow]
  norm_num at hx ⊢
  by_cases h : 2147483648 ≤ x
  · rw [if_pos h, if_pos (by omega)]
  · rw [if_neg h, if_neg (by omega)]

theorem limbs_eq_take_getD (a : List Nat) (n : Nat) (h : a.length = n + 1) :
    a = a.take n ++ [a.getD n 0] := by
  have h1 : n < a.length := by omega
  rw [List.getD_eq_getElem _ _ h1]
  have h2 : List.take (n + 1) a = a := List.take_of_length_le (by omega)
  conv_lhs => rw [← h2]
  rw [List.take_succ, List.getElem?_eq_getElem h1]
  rfl

theorem limbs_getD {a : List Nat} (h : Limbs a) (n : Nat) : a.getD n 0 < 2 ^ 32 := by
  by_cases hn : n < a.length
  · rw [List.getD_eq_getElem _ _ hn]; exact h _ (List.getElem_mem hn)
  · rw [List.getD_eq_default _ _ (by omega)]; norm_num

theorem limbsVal_R0 : limbsVal R0 = r0 := by decide

theorem limbsVal_R_full : limbsVal (R0 ++ [0, 0, 0, R_top]) = r := by decide

theorem limbs_R0 : Limbs R0 := by
  intro x hx; simp [R0] at hx; omega

theorem limbs_R_full : Limbs (R0 ++ [0, 0, 0, R_top]) := by
  intro x hx; simp [R0, R_top] at hx; omega

theorem mask_R_zero :
    R0.map (fun w => 0 &&& w) ++ [0, 0, 0, 0 &&& R_top] = List.replicate 8 0 := by
  decide

theorem mask_R_ones :
    R0.map (fun w => 0xFFFFFFFF &&& w) ++ [0, 0, 0, 0xFFFFFFFF &&& R_top]
      = R0 ++ [0, 0, 0, R_top] := by
  decide

theorem mask_R_spec {c : Nat} (hc : c ≤ 1) :
    Limbs (R0.map (fun w => neg_u32 c &&& w) ++ [0, 0, 0, neg_u32 c &&& R_top])
      ∧ (R0.map (fun w => neg_u32 c &&& w) ++ [0, 0, 0, neg_u32 c &&& R_top]).length = 8
      ∧ limbsVal (R0.map (fun w => neg_u32 c &&& w) ++ [0, 0, 0, neg_u32 c &&& R_top])
          = c * r := by
  rcases Nat.le_one_iff_eq_zero_or_eq_one.1 hc with h | h
  · rw [h, neg_u32_zero, mask_R_zero]
    exact ⟨limbs_replicate_zero 8, rfl, by rw [limbsVal_replicate_zero]; simp⟩
  · rw [h, neg_u32_one, mask_R_ones]
    exact ⟨limbs_R_full, rfl, by rw [limbsVal_R_full]; simp⟩

/-! ## Reduction modulo r -/

/-- The arithmetic of ` modr_reduce256_partial`: `t` is the source truncated
to 253 bits, `q` its top bits, `S` the difference with borrow `c`, and `D`
the sum after the masked addition of `r`. -/
theorem partial_arith {t q S D c C : Nat} (ht : t < 2 ^ 253) (hq : q < 2 ^ 32)
    (hS : S < 2 ^ 256) (hD : D < 2 ^ 256) (hc : c ≤ 1) (hC : C ≤ 1)
    (se : S + q * r0 = t + 2 ^ 256 * c) (ae : D + 2 ^ 256 * C = S + c * r) :
    D = (t + 2 ^ 253 * q) % r := by
  have key : D + r * (q - c) = t + 2 ^ 253 * q ∧ D < r := by
    simp only [r, r0] at *
    norm_num at *
    have h1 : c = 0 ∨ c = 1 := by omega
    have h2 : C = 0 ∨ C = 1 := by omega
    rcases h1 with rfl | rfl <;> rcases h2 with rfl | rfl <;> constructor <;> omega
  rw [← key.1, Nat.add_mul_mod_self_left]
  exact (Nat.mod_eq_of_lt key.2).symm

theorem modr_reduce256_partial_spec (a : List Nat) (ah : Nat) (ha : Limbs a)
    (hl : a.length = 8) (hh : ah < 2 ^ 29) :
    Limbs ( modr_reduce256_partial a ah) ∧ ( modr_reduce256_partial a ah).length = 8
      ∧ limbsVal ( modr_reduce256_partial a ah) = (limbsVal a + 2 ^ 256 * ah) % r := by
  have h7 := limbs_getD ha 7
  have hsplit := limbs_eq_take_getD a 7 hl
  have htl : (a.take 7).length = 7 := by simp [hl]
  have hA : limbsVal a = limbsVal (a.take 7) + 2 ^ 224 * a.getD 7 0 := by
    conv_lhs => rw [hsplit]
    rw [limbsVal_append, htl]; simp [limbsVal]
  have hb7 := limbsVal_lt (limbs_take ha 7)
  rw [htl] at hb7
  simp only [ modr_reduce256_partial]
  rw [hA]
  generalize a.getD 7 0 = a7 at h7 ⊢
  have htv : limbsVal (a.take 7 ++ [a7 &&& 0x1FFFFFFF])
      = limbsVal (a.take 7) + 2 ^ 224 * (a7 % 2 ^ 29) := by
    rw [limbsVal_append, htl, and_low29]; simp [limbsVal]
  generalize limbsVal (a.take 7) = T7 at hb7 htv ⊢
  have hg : a7 >>> 29 < 8 := by
    rw [Nat.shiftRight_eq_div_pow]; norm_num at h7 ⊢; omega
  have hah1 : ((ah <<< 3) % 2 ^ 32) ||| (a7 >>> 29) = 8 * ah + a7 / 2 ^ 29 := by
    rw [shl3_or hg, Nat.mod_eq_of_lt hh, Nat.shiftRight_eq_div_pow]
  have hah1lt : 8 * ah + a7 / 2 ^ 29 < 2 ^ 32 := by
    norm_num at h7 hh ⊢; omega
  have htL : Limbs (a.take 7 ++ [a7 &&& 0x1FFFFFFF]) := by
    rw [limbs_append]
    refine ⟨limbs_take ha 7, ?_⟩
    intro x hx
    simp only [List.mem_singleton] at hx
    rw [hx, and_low29]; norm_num; omega
  rw [hah1]
  have hAq : T7 + 2 ^ 224 * a7 + 2 ^ 256 * ah
      = (T7 + 2 ^ 224 * (a7 % 2 ^ 29)) + 2 ^ 253 * (8 * ah + a7 / 2 ^ 29) := by
    norm_num; omega
  rw [hAq]
  have htlt : T7 + 2 ^ 224 * (a7 % 2 ^ 29) < 2 ^ 253 := by
    norm_num at hb7 ⊢; omega
  generalize 8 * ah + a7 / 2 ^ 29 = q at hah1lt ⊢
  obtain ⟨ue, ub, ul, un⟩ := mul_word_spec q hah1lt R0 0 limbs_R0 (by norm_num)
  generalize mul_word q R0 0 = u at ue ub ul un ⊢
  have hUL : Limbs (u.1 ++ [u.2, 0, 0, 0]) := by
    rw [limbs_append]
    refine ⟨ul, ?_⟩
    intro x hx
    simp only [List.mem_cons, List.mem_singleton, List.not_mem_nil, or_false] at hx
    rcases hx with h | h | h | h <;> rw [h] <;> first | exact ub | norm_num
  have hUn : (u.1 ++ [u.2, 0, 0, 0]).length = 8 := by
    rw [List.length_append, un]; rfl
  have hUv : limbsVal (u.1 ++ [u.2, 0, 0, 0]) = q * r0 := by
    rw [limbsVal_append, un]
    have : limbsVal [u.2, 0, 0, 0] = u.2 := by simp [limbsVal]
    rw [this]
    have e1 : R0.length = 4 := rfl
    rw [e1, limbsVal_R0] at ue
    rw [e1]; linarith
  have htn : (a.take 7 ++ [a7 &&& 0x1FFFFFFF]).length
      = (u.1 ++ [u.2, 0, 0, 0]).length := by
    rw [hUn, List.length_append, htl]; rfl
  obtain ⟨se, sb, sl, sn⟩ := subborrow_limbs_spec _ _ 0 htn htL hUL (by norm_num)
  rw [htn, hUn, hUv, htv] at se
  rw [htn, hUn] at sn
  rw [← htv] at htlt se ⊢
  generalize limbsVal (a.take 7 ++ [a7 &&& 0x1FFFFFFF]) = t at htlt se ⊢
  generalize subborrow_limbs 0 (a.take 7 ++ [a7 &&& 0x1FFFFFFF])
    (u.1 ++ [u.2, 0, 0, 0]) = s at se sb sl sn ⊢
  obtain ⟨ml, mn, mv⟩ := mask_R_spec sb
  obtain ⟨ae, ab, al, an⟩ := addcarry_limbs_spec _ _ 0 (by rw [sn, mn]) sl ml
    (by norm_num)
  rw [sn, mv] at ae
  rw [sn] at an
  have hbs := limbsVal_lt al
  rw [an] at hbs
  have hbs2 := limbsVal_lt sl
  rw [sn] at hbs2
  refine ⟨al, an, ?_⟩
  exact partial_arith htlt hah1lt hbs2 hbs sb ab (by norm_num at se ⊢; linarith)
    (by norm_num at ae ⊢; linarith)

theorem select_zero (ts : List Nat) :
    ∀ xs : List Nat, ts.length = xs.length →
      List.zipWith (fun t x => t ^^^ (0 &&& (t ^^^ x))) ts xs = ts := by
  induction ts with
  | nil => intro xs _; simp
  | cons t ts ih =>
    intro xs h
    cases xs with
    | nil => simp at h
    | cons x xs =>
      rw [List.zipWith_cons_cons, ih xs (by simpa using h)]
      simp

theorem select_ones (ts : List Nat) :
    ∀ xs : List Nat, ts.length = xs.length → Limbs ts → Limbs xs →
      List.zipWith (fun t x => t ^^^ (0xFFFFFFFF &&& (t ^^^ x))) ts xs = xs := by
  induction ts with
  | nil =>
    intro xs h _ _
    cases xs with
    | nil => rfl
    | cons x xs => simp at h
  | cons t ts ih =>
    intro xs h ht hx
    cases xs with
    | nil => simp at h
    | cons x xs =>
      rw [limbs_cons] at ht hx
      rw [List.zipWith_cons_cons, ih xs (by simpa using h) ht.2 hx.2]
      have h1 : (0xFFFFFFFF : Nat) &&& (t ^^^ x) = t ^^^ x :=
        ones_and (Nat.xor_lt_two_pow ht.1 hx.1)
      have h2 : t ^^^ (t ^^^ x) = x := by
        rw [← Nat.xor_assoc, Nat.xor_self, Nat.zero_xor]
      simp only [h1, h2]

theorem modr_reduce256_finish_spec (a : List Nat) (ha : Limbs a)
    (hl : a.length = 8) :
    Limbs (modr_reduce256_finish a) ∧ (modr_reduce256_finish a).length = 8
      ∧ limbsVal (modr_reduce256_finish a)
          = if limbsVal a < r then limbsVal a else limbsVal a - r := by
  have hn : a.length = (R0 ++ [0, 0, 0, R_top]).length := by rw [hl]; rfl
  obtain ⟨se, sb, sl, sn⟩ := subborrow_limbs_spec a _ 0 hn ha limbs_R_full (by norm_num)
  rw [limbsVal_R_full, hl] at se
  rw [hl] at sn
  have hbA := limbsVal_lt ha
  rw [hl] at hbA
  have hbS := limbsVal_lt sl
  rw [sn] at hbS
  simp only [modr_reduce256_finish]
  generalize subborrow_limbs 0 a (R0 ++ [0, 0, 0, R_top]) = s at se sb sl sn hbS ⊢
  rcases Nat.le_one_iff_eq_zero_or_eq_one.1 sb with h | h
  · rw [h, neg_u32_zero, select_zero s.2 a (by rw [sn, hl])]
    refine ⟨sl, sn, ?_⟩
    rw [h] at se
    have : ¬ limbsVal a < r := by omega
    rw [if_neg this]; omega
  · rw [h, neg_u32_one, select_ones s.2 a (by rw [sn, hl]) sl ha]
    refine ⟨ha, hl, ?_⟩
    rw [h] at se
    have : limbsVal a < r := by norm_num at se hbS; omega
    rw [if_pos this]

theorem modr_reduce256_finish_of_lt (a : List Nat) (ha : Limbs a)
    (hl : a.length = 8) (hlt : limbsVal a < r) :
    limbsVal (modr_reduce256_finish a) = limbsVal a := by
  rw [(modr_reduce256_finish_spec a ha hl).2.2, if_pos hlt]

theorem limbsVal_R0_x8m : limbsVal R0_x8m + 2 ^ 128 = 8 * r0 := by decide

theorem limbs_R0_x8m : Limbs R0_x8m := by
  intro x hx; simp [R0_x8m] at hx; omega

theorem limbsVal_R_x16m : limbsVal R_x16m + 2 * 2 ^ 256 = 16 * r := by decide

theorem limbs_R_x16m : Limbs R_x16m := by
  intro x hx; simp [R_x16m] at hx; omega

/-- The high word `t8` of ` modr_reduce384_partial` after the two borrows
`c1`, `c2`, the mask it selects, and the word passed on after the carry `c3`. -/
theorem t8_cases {c1 c2 : Nat} (h1 : c1 ≤ 1) (h2 : c2 ≤ 1) :
    ∃ y, y ≤ 1
      ∧ R_x16m.map (fun w => sar31 ((2 ^ 32 + neg_u32 c1 - c2) % 2 ^ 32) &&& w)
          = (if y = 0 then List.replicate 8 0 else R_x16m)
      ∧ ∀ c3, c3 ≤ 1 →
          (addcarry_u32 c3 ((2 ^ 32 + neg_u32 c1 - c2) % 2 ^ 32)
              (sar31 ((2 ^ 32 + neg_u32 c1 - c2) % 2 ^ 32) &&& R_x16_top)).2
            + c1 + c2 = c3 + 2 * y
          ∧ (addcarry_u32 c3 ((2 ^ 32 + neg_u32 c1 - c2) % 2 ^ 32)
              (sar31 ((2 ^ 32 + neg_u32 c1 - c2) % 2 ^ 32) &&& R_x16_top)).2
            < 2 ^ 29 := by
  rcases Nat.le_one_iff_eq_zero_or_eq_one.1 h1 with rfl | rfl <;>
    rcases Nat.le_one_iff_eq_zero_or_eq_one.1 h2 with rfl | rfl
  · refine ⟨0, by decide, by decide, ?_⟩
    intro c3 h3
    rcases Nat.le_one_iff_eq_zero_or_eq_one.1 h3 with rfl | rfl <;> decide
  · refine ⟨1, by decide, by decide, ?_⟩
    intro c3 h3
    rcases Nat.le_one_iff_eq_zero_or_eq_one.1 h3 with rfl | rfl <;> decide
  · refine ⟨1, by decide, by decide, ?_⟩
    intro c3 h3
    rcases Nat.le_one_iff_eq_zero_or_eq_one.1 h3 with rfl | rfl <;> decide
  · refine ⟨1, by decide, by decide, ?_⟩
    intro c3 h3
    rcases Nat.le_one_iff_eq_zero_or_eq_one.1 h3 with rfl | rfl <;> decide

/-- The arithmetic of ` modr_reduce384_partial`. -/
theorem reduce384_arith {A0 A1 E S1 S1l S1h S2 T c1 c2 c3 y X V3 t8 : Nat}
    (hE : E + 2 ^ 128 = 8 * r0) (hX : X + 2 * 2 ^ 256 * y = 16 * r * y)
    (e1 : S1 + A1 * E = A0 + 2 ^ 256 * c1)
    (e2 : S1l + 2 ^ 128 * S1h = S1)
    (e3 : S2 + A1 = S1h + 2 ^ 128 * c2)
    (e4 : T = S1l + 2 ^ 128 * S2)
    (e5 : V3 + 2 ^ 256 * c3 = T + X)
    (e6 : t8 + c1 + c2 = c3 + 2 * y) :
    (V3 + 2 ^ 256 * t8) % r = (A0 + 2 ^ 256 * A1) % r := by
  have key : V3 + 2 ^ 256 * t8 + r * (8 * A1) = A0 + 2 ^ 256 * A1 + r * (16 * y) := by
    simp only [r] at *
    generalize r0 = z at *
    have h1 : A1 * E + 2 ^ 128 * A1 = 8 * z * A1 := by rw [← hE]; ring
    nlinarith
  have h2 := congrArg (fun v => v % r) key
  simp only [Nat.add_mul_mod_self_left] at h2
  exact h2

theorem modr_reduce384_partial_spec (a : List Nat) (ha : Limbs a)
    (hl : a.length = 12) :
    Limbs ( modr_reduce384_partial a) ∧ ( modr_reduce384_partial a).length = 8
      ∧ limbsVal ( modr_reduce384_partial a) = limbsVal a % r := by
  have hl1 : (a.drop 8).length = 4 := by simp [hl]
  have hl0 : (a.take 8).length = 8 := by simp [hl]
  have hA := limbsVal_take_add_drop a 8
  rw [hl0] at hA
  obtain ⟨tl, tn, tv⟩ := mul128x128_spec (a.drop 8) R0_x8m (limbs_drop ha 8)
    limbs_R0_x8m hl1 rfl
  obtain ⟨e1, c1b, s1l, s1n⟩ := subborrow_limbs_spec (a.take 8) _ 0 (by rw [hl0, tn])
    (limbs_take ha 8) tl (by norm_num)
  rw [hl0, tv] at e1
  rw [hl0] at s1n
  simp only [ modr_reduce384_partial]
  generalize subborrow_limbs 0 (a.take 8) (mul128x128 (a.drop 8) R0_x8m) = s1
    at e1 c1b s1l s1n ⊢
  have hs1t : (s1.2.take 4).length = 4 := by simp [s1n]
  have hs1d : (s1.2.drop 4).length = 4 := by simp [s1n]
  have e2 := limbsVal_take_add_drop s1.2 4
  rw [hs1t] at e2
  obtain ⟨e3, c2b, s2l, s2n⟩ := subborrow_limbs_spec (s1.2.drop 4) (a.drop 8) 0
    (by rw [hs1d, hl1]) (limbs_drop s1l 4) (limbs_drop ha 8) (by norm_num)
  rw [hs1d] at e3 s2n
  generalize subborrow_limbs 0 (s1.2.drop 4) (a.drop 8) = s2 at e3 c2b s2l s2n ⊢
  have htL : Limbs (s1.2.take 4 ++ s2.2) := limbs_append.2 ⟨limbs_take s1l 4, s2l⟩
  have htn : (s1.2.take 4 ++ s2.2).length = 8 := by
    rw [List.length_append, hs1t, s2n]
  have e4 : limbsVal (s1.2.take 4 ++ s2.2)
      = limbsVal (s1.2.take 4) + 2 ^ 128 * limbsVal s2.2 := by
    rw [limbsVal_append, hs1t]
  obtain ⟨y, hy, hmask, hc3⟩ := t8_cases c1b c2b
  rw [hmask]
  have hmL : Limbs (if y = 0 then List.replicate 8 0 else R_x16m)
      ∧ (if y = 0 then List.replicate 8 0 else R_x16m).length = 8
      ∧ limbsVal (if y = 0 then List.replicate 8 0 else R_x16m) + 2 * 2 ^ 256 * y
          = 16 * r * y := by
    rcases Nat.le_one_iff_eq_zero_or_eq_one.1 hy with rfl | rfl
    · exact ⟨limbs_replicate_zero 8, rfl, by
        rw [if_pos rfl, limbsVal_replicate_zero, Nat.mul_zero, Nat.mul_zero]⟩
    · refine ⟨limbs_R_x16m, rfl, ?_⟩
      have := limbsVal_R_x16m
      simp only [one_ne_zero, if_false, mul_one]
      exact this
  obtain ⟨e5, c3b, s3l, s3n⟩ := addcarry_limbs_spec (s1.2.take 4 ++ s2.2) _ 0
    (by rw [htn, hmL.2.1]) htL hmL.1 (by norm_num)
  rw [htn] at e5 s3n
  obtain ⟨e6, t8b⟩ := hc3 _ c3b
  obtain ⟨pl, pn, pv⟩ := modr_reduce256_partial_spec _ _ s3l s3n t8b
  refine ⟨pl, pn, ?_⟩
  rw [pv, ← hA]
  exact reduce384_arith limbsVal_R0_x8m hmL.2.2 (by norm_num at e1 ⊢; linarith) e2
    (by norm_num at e3 ⊢; linarith) e4 (by norm_num at e5 ⊢; linarith) e6

theorem modr_mul256x256_spec (a b : List Nat) (ha : Limbs a) (hb : Limbs b)
    (hla : a.length = 8) (hlb : b.length = 8) :
    Limbs (modr_mul256x256 a b) ∧ (modr_mul256x256 a b).length = 8
      ∧ limbsVal (modr_mul256x256 a b) = (limbsVal a * limbsVal b) % r := by
  obtain ⟨xl, xn, xv⟩ := mul256x256_spec a b ha hb hla hlb
  simp only [modr_mul256x256]
  generalize mul256x256 a b = x at xl xn xv ⊢
  have hxd : (x.drop 4).length = 12 := by simp [xn]
  have hxt : (x.take 4).length = 4 := by simp [xn]
  obtain ⟨l1, n1, v1⟩ := modr_reduce384_partial_spec (x.drop 4) (limbs_drop xl 4) hxd
  have hx := limbsVal_take_add_drop x 4
  rw [hxt] at hx
  obtain ⟨l2, n2, v2⟩ := modr_reduce384_partial_spec
    (x.take 4 ++ modr_reduce384_partial (x.drop 4))
    (limbs_append.2 ⟨limbs_take xl 4, l1⟩) (by rw [List.length_append, hxt, n1])
  rw [limbsVal_append, hxt, v1] at v2
  have hr : 0 < r := by decide
  have hlt : limbsVal ( modr_reduce384_partial
      (x.take 4 ++ modr_reduce384_partial (x.drop 4))) < r := by
    rw [v2]; exact Nat.mod_lt _ hr
  obtain ⟨l3, n3, v3⟩ := modr_reduce256_finish_spec _ l2 n2
  refine ⟨l3, n3, ?_⟩
  rw [v3, if_pos hlt, v2, ← xv, ← hx]
  norm_num
  rw [Nat.add_mod, Nat.mul_mod, Nat.mod_mod, ← Nat.mul_mod, ← Nat.add_mod]

/-! ## Bytes and limbs -/

theorem limbsVal_inj (xs : List Nat) :
    ∀ ys : List Nat, xs.length = ys.length → Limbs xs → Limbs ys →
      limbsVal xs = limbsVal ys → xs = ys := by
  induction xs with
  | nil =>
    intro ys h _ _ _
    cases ys with
    | nil => rfl
    | cons y ys => simp at h
  | cons x xs ih =>
    intro ys h hx hy hv
    cases ys with
    | nil => simp at h
    | cons y ys =>
      rw [limbs_cons] at hx hy
      simp only [limbsVal] at hv
      have h1 := hx.1
      have h2 := hy.1
      have hxy : x = y ∧ limbsVal xs = limbsVal ys := by
        norm_num at h1 h2 hv; omega
      rw [hxy.1, ih ys (by simpa using h) hx.2 hy.2 hxy.2]

theorem bytesVal_append (xs ys : List Byte) :
    bytesVal (xs ++ ys) = bytesVal xs + 256 ^ xs.length * bytesVal ys := by
  induction xs with
  | nil => simp [bytesVal]
  | cons x xs ih =>
    have e : bytesVal (x :: xs ++ ys) = x.val + 256 * bytesVal (xs ++ ys) := rfl
    have e1 : bytesVal (x :: xs) = x.val + 256 * bytesVal xs := rfl
    rw [e, ih, e1, List.length_cons, pow_succ]
    ring

theorem bytesVal_lt (xs : List Byte) : bytesVal xs < 256 ^ xs.length := by
  induction xs with
  | nil => simp [bytesVal]
  | cons x xs ih =>
    simp only [bytesVal, List.length_cons, pow_succ]
    have := x.isLt
    omega

theorem bytesVal_replicate_zero (n : Nat) :
    bytesVal (List.replicate n (0 : Byte)) = 0 := by
  induction n with
  | zero => rfl
  | succ n ih => simp [List.replicate_succ, bytesVal, ih]

theorem bytesVal_inj (xs : List Byte) :
    ∀ ys : List Byte, xs.length = ys.length → bytesVal xs = bytesVal ys → xs = ys := by
  induction xs with
  | nil =>
    intro ys h _
    cases ys with
    | nil => rfl
    | cons y ys => simp at h
  | cons x xs ih =>
    intro ys h hv
    cases ys with
    | nil => simp at h
    | cons y ys =>
      simp only [bytesVal] at hv
      have h1 := x.isLt
      have h2 := y.isLt
      have hxy : x.val = y.val ∧ bytesVal xs = bytesVal ys := by omega
      rw [Fin.ext hxy.1, ih ys (by simpa using h) hxy.2]

theorem or_bytes {x0 x1 x2 x3 : Nat} (h0 : x0 < 256) (h1 : x1 < 256)
    (h2 : x2 < 256) :
    x0 ||| (x1 <<< 8) ||| (x2 <<< 16) ||| (x3 <<< 24)
      = x0 + 256 * (x1 + 256 * (x2 + 256 * x3)) := by
  have e1 : x0 ||| (x1 <<< 8) = 2 ^ 8 * x1 + x0 := by
    rw [Nat.or_comm, Nat.shiftLeft_eq, Nat.mul_comm x1,
      ← Nat.mul_add_lt_is_or (by norm_num; exact h0)]
  have e2 : (2 ^ 8 * x1 + x0) ||| (x2 <<< 16) = 2 ^ 16 * x2 + (2 ^ 8 * x1 + x0) := by
    rw [Nat.or_comm, Nat.shiftLeft_eq, Nat.mul_comm x2,
      ← Nat.mul_add_lt_is_or (by norm_num; omega)]
  have e3 : (2 ^ 16 * x2 + (2 ^ 8 * x1 + x0)) ||| (x3 <<< 24)
      = 2 ^ 24 * x3 + (2 ^ 16 * x2 + (2 ^ 8 * x1 + x0)) := by
    rw [Nat.or_comm, Nat.shiftLeft_eq, Nat.mul_comm x3,
      ← Nat.mul_add_lt_is_or (by norm_num; omega)]
  rw [e1, e2, e3]
  norm_num
  omega

theorem dec32le_spec (b0 b1 b2 b3 : Byte) (rest : List Byte) :
    dec32le (b0 :: b1 :: b2 :: b3 :: rest) = bytesVal [b0, b1, b2, b3] := by
  simp only [dec32le, List.getD_cons_zero, List.getD_cons_succ, bytesVal]
  rw [or_bytes b0.isLt b1.isLt b2.isLt]
  omega

theorem dec32le_lt (b0 b1 b2 b3 : Byte) : bytesVal [b0, b1, b2, b3] < 2 ^ 32 := by
  simp only [bytesVal]
  have h0 := b0.isLt
  have h1 := b1.isLt
  have h2 := b2.isLt
  have h3 := b3.isLt
  norm_num
  omega

theorem take_four_cons (b0 b1 b2 b3 : Byte) (rest : List Byte) (m : Nat) :
    (b0 :: b1 :: b2 :: b3 :: rest).take (m + 4) = [b0, b1, b2, b3] ++ rest.take m := by
  simp [List.take_succ_cons]

theorem decode_limbs_spec (n : Nat) :
    ∀ buf : List Byte, 4 * n ≤ buf.length →
      Limbs (decode_limbs n buf) ∧ (decode_limbs n buf).length = n
        ∧ limbsVal (decode_limbs n buf) = bytesVal (buf.take (4 * n)) := by
  induction n with
  | zero => intro buf _; exact ⟨limbs_nil, rfl, by simp [decode_limbs, limbsVal, bytesVal]⟩
  | succ n ih =>
    intro buf h
    rcases buf with _ | ⟨b0, _ | ⟨b1, _ | ⟨b2, _ | ⟨b3, rest⟩⟩⟩⟩
    · simp at h
    · simp at h; omega
    · simp at h; omega
    · simp at h; omega
    · have hr : 4 * n ≤ rest.length := by simp at h; omega
      obtain ⟨l, m, v⟩ := ih rest hr
      have hd : decode_limbs (n + 1) (b0 :: b1 :: b2 :: b3 :: rest)
          = dec32le (b0 :: b1 :: b2 :: b3 :: rest) :: decode_limbs n rest := rfl
      rw [hd, dec32le_spec]
      refine ⟨limbs_cons.2 ⟨dec32le_lt b0 b1 b2 b3, l⟩, by rw [List.length_cons, m], ?_⟩
      rw [show 4 * (n + 1) = 4 * n + 4 by ring, take_four_cons, bytesVal_append]
      have e : limbsVal (bytesVal [b0, b1, b2, b3] :: decode_limbs n rest)
          = bytesVal [b0, b1, b2, b3] + 2 ^ 32 * limbsVal (decode_limbs n rest) := rfl
      rw [e, v]
      have e2 : (256 : Nat) ^ [b0, b1, b2, b3].length = 2 ^ 32 := by
        rw [show [b0, b1, b2, b3].length = 4 from rfl]; norm_num
      rw [e2]

theorem i256_decode_spec (a : List Byte) (h : a.length = 32) :
    Limbs (i256_decode a) ∧ (i256_decode a).length = 8
      ∧ limbsVal (i256_decode a) = bytesVal a := by
  obtain ⟨l, m, v⟩ := decode_limbs_spec 8 a (by omega)
  refine ⟨l, m, ?_⟩
  rw [i256_decode, v, List.take_of_length_le (by omega)]

theorem enc32le_spec {x : Nat} (hx : x < 2 ^ 32) :
    bytesVal (enc32le x) = x ∧ (enc32le x).length = 4 := by
  refine ⟨?_, rfl⟩
  simp only [enc32le, bytesVal, Fin.ofNat, Nat.shiftRight_eq_div_pow]
  norm_num at hx ⊢
  omega

theorem encode_limbs_spec (a : List Nat) (ha : Limbs a) :
    bytesVal ((a.map enc32le).flatten) = limbsVal a
      ∧ ((a.map enc32le).flatten).length = 4 * a.length := by
  induction a with
  | nil => simp [bytesVal, limbsVal]
  | cons x xs ih =>
    rw [limbs_cons] at ha
    obtain ⟨v, n⟩ := ih ha.2
    obtain ⟨v1, n1⟩ := enc32le_spec ha.1
    simp only [List.map_cons, List.flatten_cons, bytesVal_append, List.length_append,
      v, n, v1, n1, limbsVal, List.length_cons]
    constructor
    · norm_num
    · ring

theorem i256_encode_spec (a : List Nat) (ha : Limbs a) (hl : a.length = 8) :
    bytesVal (i256_encode a) = limbsVal a ∧ (i256_encode a).length = 32 := by
  obtain ⟨v, n⟩ := encode_limbs_spec a ha
  exact ⟨v, by rw [i256_encode, n, hl]⟩

/-! ## Signed 128-bit values -/

theorem xor_ones {x : Nat} (hx : x < 2 ^ 32) : x ^^^ 0xFFFFFFFF = 0xFFFFFFFF - x := by
  apply Nat.eq_of_testBit_eq
  intro i
  have h1 : (0xFFFFFFFF : Nat) = 2 ^ 32 - 1 := by norm_num
  have h2 : (0xFFFFFFFF : Nat) - x = 2 ^ 32 - (x + 1) := by omega
  rw [Nat.testBit_xor, h2, Nat.testBit_two_pow_sub_succ hx, h1,
    Nat.testBit_two_pow_sub_one]
  by_cases hi : i < 32
  · simp [hi]
  · have : x.testBit i = false :=
      Nat.testBit_lt_two_pow (lt_of_lt_of_le hx (Nat.pow_le_pow_right (by norm_num) (by omega)))
    simp [hi, this]

theorem limbsVal_map_xor_ones (a : List Nat) (ha : Limbs a) :
    limbsVal (a.map (fun x => x ^^^ 0xFFFFFFFF)) + limbsVal a + 1 = 2 ^ (32 * a.length)
      ∧ Limbs (a.map (fun x => x ^^^ 0xFFFFFFFF)) := by
  induction a with
  | nil => exact ⟨by simp [limbsVal], limbs_nil⟩
  | cons x xs ih =>
    rw [limbs_cons] at ha
    obtain ⟨v, l⟩ := ih ha.2
    have hx := ha.1
    have e := xor_ones hx
    refine ⟨?_, ?_⟩
    · simp only [List.map_cons, limbsVal, List.length_cons, e]
      rw [show 32 * (xs.length + 1) = 32 + 32 * xs.length by ring, pow_add, ← v]
      norm_num at hx ⊢
      omega
    · simp only [List.map_cons]
      refine limbs_cons.2 ⟨?_, l⟩
      rw [e]; norm_num; omega

theorem map_xor_zero (a : List Nat) : a.map (fun x => x ^^^ 0) = a := by
  induction a with
  | nil => rfl
  | cons x xs ih => simp [ih]

theorem limbs_replicate_ones (n : Nat) : Limbs (List.replicate n 0xFFFFFFFF) := by
  intro x hx
  rw [List.mem_replicate] at hx
  rw [hx.2]; norm_num

theorem i128_abs_encode_spec (a : List Nat) (ha : Limbs a) (hl : a.length = 4) :
    (i128_abs_encode a).1.length = 16
      ∧ bytesVal (i128_abs_encode a).1
          = (if limbsVal a < 2 ^ 127 then limbsVal a else 2 ^ 128 - limbsVal a)
      ∧ (i128_abs_encode a).2 = (if limbsVal a < 2 ^ 127 then 0 else 0xFFFFFFFF) := by
  have h3 := limbs_getD ha 3
  have hsplit := limbs_eq_take_getD a 3 hl
  have htl : (a.take 3).length = 3 := by simp [hl]
  have hA : limbsVal a = limbsVal (a.take 3) + 2 ^ 96 * a.getD 3 0 := by
    conv_lhs => rw [hsplit]
    rw [limbsVal_append, htl]; simp [limbsVal]
  have hb3 := limbsVal_lt (limbs_take ha 3)
  rw [htl] at hb3
  have hbA := limbsVal_lt ha
  rw [hl] at hbA
  have hs : sar31 (a.getD 3 0) = if limbsVal a < 2 ^ 127 then 0 else 0xFFFFFFFF := by
    rw [sar31_eq h3, hA]
    generalize a.getD 3 0 = a3 at h3
    generalize limbsVal (a.take 3) = T at hb3
    by_cases h : T + 2 ^ 96 * a3 < 2 ^ 127
    · rw [if_pos h, if_neg]; norm_num at hb3 h3 h ⊢; omega
    · rw [if_neg h, if_pos]; norm_num at hb3 h3 h ⊢; omega
  simp only [i128_abs_encode, hs]
  by_cases h : limbsVal a < 2 ^ 127
  · simp only [if_pos h, map_xor_zero]
    obtain ⟨se, sb, sl, sn⟩ := subborrow_limbs_spec a (List.replicate 4 0) 0
      (by rw [hl]; rfl) ha (limbs_replicate_zero 4) (by norm_num)
    rw [limbsVal_replicate_zero, hl] at se
    obtain ⟨ev, en⟩ := encode_limbs_spec _ sl
    have hbS := limbsVal_lt sl
    rw [sn, hl] at hbS
    refine ⟨by rw [en, sn, hl], ?_, trivial⟩
    rw [ev]
    have := Nat.le_one_iff_eq_zero_or_eq_one.1 sb
    norm_num at se hbS hbA ⊢
    omega
  · simp only [if_neg h]
    obtain ⟨xv, xl⟩ := limbsVal_map_xor_ones a ha
    rw [hl] at xv
    obtain ⟨se, sb, sl, sn⟩ := subborrow_limbs_spec (a.map (fun x => x ^^^ 0xFFFFFFFF))
      (List.replicate 4 0xFFFFFFFF) 0 (by rw [List.length_map, hl]; rfl) xl
      (limbs_replicate_ones 4) (by norm_num)
    rw [List.length_map, hl] at se sn
    have hones : limbsVal (List.replicate 4 0xFFFFFFFF) = 2 ^ 128 - 1 := by decide
    rw [hones] at se
    obtain ⟨ev, en⟩ := encode_limbs_spec _ sl
    have hbS := limbsVal_lt sl
    rw [sn] at hbS
    refine ⟨by rw [en, sn], ?_, trivial⟩
    rw [ev]
    have := Nat.le_one_iff_eq_zero_or_eq_one.1 sb
    norm_num at se hbS hbA xv h ⊢
    omega

theorem sub128trunc_spec (a b : List Nat) (ha : Limbs a) (hb : Limbs b)
    (hla : a.length = 4) (hlb : b.length = 4) :
    Limbs (sub128trunc a b) ∧ (sub128trunc a b).length = 4
      ∧ limbsVal (sub128trunc a b) = (limbsVal a + 2 ^ 128 - limbsVal b) % 2 ^ 128 := by
  obtain ⟨se, sb, sl, sn⟩ := subborrow_limbs_spec a b 0 (by rw [hla, hlb]) ha hb
    (by norm_num)
  rw [hla] at se sn
  have hbS := limbsVal_lt sl
  rw [sn] at hbS
  have hbA := limbsVal_lt ha
  rw [hla] at hbA
  have hbB := limbsVal_lt hb
  rw [hlb] at hbB
  refine ⟨sl, sn, ?_⟩
  unfold sub128trunc
  have := Nat.le_one_iff_eq_zero_or_eq_one.1 sb
  norm_num at se hbS hbA hbB ⊢
  omega

/-! ## Rounded division by r -/

theorem shl3_limbs_spec (xs : List Nat) :
    ∀ g : Nat, g < 8 → Limbs xs →
      Limbs (shl3_limbs xs g) ∧ (shl3_limbs xs g).length = xs.length
        ∧ limbsVal (shl3_limbs xs g) = (8 * limbsVal xs + g) % 2 ^ (32 * xs.length) := by
  induction xs with
  | nil => intro g _ _; exact ⟨limbs_nil, rfl, by simp [shl3_limbs, limbsVal, Nat.mod_one]⟩
  | cons x xs ih =>
    intro g hg hx
    rw [limbs_cons] at hx
    have hx1 := hx.1
    have hg1 : x >>> 29 < 8 := by
      rw [Nat.shiftRight_eq_div_pow]; norm_num at hx1 ⊢; omega
    obtain ⟨l, n, v⟩ := ih _ hg1 hx.2
    have e : shl3_limbs (x :: xs) g
        = (((x <<< 3) % 2 ^ 32) ||| g) :: shl3_limbs xs (x >>> 29) := rfl
    rw [e, shl3_or hg]
    refine ⟨limbs_cons.2 ⟨by norm_num; omega, l⟩, by rw [List.length_cons, n, List.length_cons], ?_⟩
    have e2 : limbsVal ((8 * (x % 2 ^ 29) + g) :: shl3_limbs xs (x >>> 29))
        = (8 * (x % 2 ^ 29) + g) + 2 ^ 32 * limbsVal (shl3_limbs xs (x >>> 29)) := rfl
    have e3 : limbsVal (x :: xs) = x + 2 ^ 32 * limbsVal xs := rfl
    rw [e2, v, e3, List.length_cons,
      show 32 * (xs.length + 1) = 32 + 32 * xs.length by ring, pow_add,
      Nat.shiftRight_eq_div_pow]
    generalize limbsVal xs = V
    generalize 2 ^ (32 * xs.length) = M
    rw [Nat.mod_mul]
    have h1 : (8 * (x + 2 ^ 32 * V) + g) % 2 ^ 32 = 8 * (x % 2 ^ 29) + g := by
      norm_num; omega
    have h2 : (8 * (x + 2 ^ 32 * V) + g) / 2 ^ 32 = 8 * V + x / 2 ^ 29 := by
      norm_num; omega
    rw [h1, h2]

theorem limbsVal_split_at (n : Nat) :
    ∀ a : List Nat, n < a.length →
      limbsVal a = limbsVal (a.take n) + 2 ^ (32 * n) * a.getD n 0
        + 2 ^ (32 * (n + 1)) * limbsVal (a.drop (n + 1)) := by
  intro a h
  have h1 := limbsVal_take_add_drop a (n + 1)
  have hl : (a.take (n + 1)).length = n + 1 := by
    rw [List.length_take]; omega
  have h2 := limbs_eq_take_getD (a.take (n + 1)) n hl
  have h3 : (a.take (n + 1)).take n = a.take n := by
    rw [List.take_take]; congr 1; omega
  have h4 : (a.take (n + 1)).getD n 0 = a.getD n 0 := by
    rw [List.getD_eq_getElem _ _ (by omega), List.getD_eq_getElem _ _ h,
      List.getElem_take]
  rw [h3, h4] at h2
  rw [hl] at h1
  rw [← h1]
  conv_lhs => rw [h2]
  rw [limbsVal_append]
  have hl2 : (a.take n).length = n := by rw [List.length_take]; omega
  rw [hl2]
  simp [limbsVal]

theorem limbsVal_HR_pad : limbsVal HR_pad = (r - 1) / 2 := by decide

theorem limbs_HR_pad : Limbs HR_pad := by
  intro x hx; simp [HR_pad] at hx; omega

/-- The arithmetic of `mul_divr_rounded`: the quotient estimate `z1` and its
single borrow correction. -/
theorem divr_arith {P Z L z7 H z0 z1 S cc D c2 : Nat}
    (hP : P ≤ (r - 1) * (2 ^ 127 - 3)) (hZ : Z = P + (r - 1) / 2)
    (hs : Z = L + 2 ^ 224 * z7 + 2 ^ 256 * H) (hL : L < 2 ^ 224) (h7 : z7 < 2 ^ 32)
    (h0 : z0 = L + 2 ^ 224 * (z7 % 2 ^ 29))
    (h1 : z1 = (8 * H + z7 / 2 ^ 29) % 2 ^ 128)
    (e1 : S + z1 * r0 = z0 + 2 ^ 256 * cc) (hS : S < 2 ^ 256) (hc : cc ≤ 1)
    (e2 : D + cc = z1 + 2 ^ 128 * c2) (hD : D < 2 ^ 128) (hc2 : c2 ≤ 1) :
    D = Z / r := by
  simp only [r, r0] at *
  norm_num at *
  have hz1 : 8 * H + z7 / 536870912 < 2 ^ 127 := by norm_num; omega
  have hz1' : z1 = 8 * H + z7 / 536870912 := by norm_num at hz1; omega
  have hZ2 : Z = z0 + 14474011154664524427946373126085988481658748083205070504932198000989141204992 * z1 := by
    omega
  have hcc : cc = 0 ∨ cc = 1 := by omega
  have hc2' : c2 = 0 ∨ c2 = 1 := by omega
  norm_num at hz1
  rcases hcc with rfl | rfl <;> rcases hc2' with rfl | rfl <;> omega

theorem mul_divr_rounded_spec (k e : List Nat) (hk : Limbs k) (he : Limbs e)
    (hlk : k.length = 8) (hle : e.length = 4) (hkr : limbsVal k < r)
    (hee : limbsVal e < 2 ^ 127 - 2) :
    Limbs (mul_divr_rounded k e) ∧ (mul_divr_rounded k e).length = 4
      ∧ limbsVal (mul_divr_rounded k e)
          = (limbsVal k * limbsVal e + (r - 1) / 2) / r := by
  obtain ⟨zl, zn, zv⟩ := mul256x128_spec k e hk he hlk hle
  have hP : limbsVal k * limbsVal e ≤ (r - 1) * (2 ^ 127 - 3) :=
    Nat.mul_le_mul (by omega) (by omega)
  simp only [mul_divr_rounded]
  rw [← zv] at hP ⊢
  generalize mul256x128 k e = z at zl zn hP ⊢
  obtain ⟨ae, ab, al, an⟩ := addcarry_limbs_spec z HR_pad 0 (by rw [zn]; rfl) zl
    limbs_HR_pad (by norm_num)
  rw [limbsVal_HR_pad, zn] at ae
  rw [zn] at an
  have hbz := limbsVal_lt al
  rw [an] at hbz
  have hc0 : (addcarry_limbs 0 z HR_pad).1 = 0 := by
    rcases Nat.le_one_iff_eq_zero_or_eq_one.1 ab with h | h
    · exact h
    · rw [h] at ae
      simp only [r, r0] at hP ae
      norm_num at hP ae
      omega
  rw [hc0] at ae
  have hZ : limbsVal (addcarry_limbs 0 z HR_pad).2 = limbsVal z + (r - 1) / 2 := by
    omega
  generalize (addcarry_limbs 0 z HR_pad).2 = w at al an hZ ⊢
  rw [← hZ]
  have hs := limbsVal_split_at 7 w (by omega)
  have h7 := limbs_getD al 7
  have hL := limbsVal_lt (limbs_take al 7)
  have htl : (w.take 7).length = 7 := by simp [an]
  have hdl : (w.drop 8).length = 4 := by simp [an]
  rw [htl] at hL
  have hd4 : (w.drop 8).take 4 = w.drop 8 := List.take_of_length_le (by omega)
  rw [hd4]
  generalize w.getD 7 0 = z7 at hs h7 ⊢
  have hg : z7 >>> 29 < 8 := by
    rw [Nat.shiftRight_eq_div_pow]; norm_num at h7 ⊢; omega
  obtain ⟨l1, n1, v1⟩ := shl3_limbs_spec (w.drop 8) _ hg (limbs_drop al 8)
  rw [hdl, Nat.shiftRight_eq_div_pow] at v1 n1
  rw [Nat.shiftRight_eq_div_pow] at l1 ⊢
  generalize shl3_limbs (w.drop 8) (z7 / 2 ^ 29) = z1 at l1 n1 v1 ⊢
  have h0L : Limbs (w.take 7 ++ [z7 &&& 0x1FFFFFFF]) := by
    rw [limbs_append]
    refine ⟨limbs_take al 7, ?_⟩
    intro x hx
    simp only [List.mem_singleton] at hx
    rw [hx, and_low29]; norm_num; omega
  have h0n : (w.take 7 ++ [z7 &&& 0x1FFFFFFF]).length = 8 := by
    rw [List.length_append, htl]; rfl
  have h0v : limbsVal (w.take 7 ++ [z7 &&& 0x1FFFFFFF])
      = limbsVal (w.take 7) + 2 ^ 224 * (z7 % 2 ^ 29) := by
    rw [limbsVal_append, htl, and_low29]; simp [limbsVal]
  generalize w.take 7 ++ [z7 &&& 0x1FFFFFFF] = z0 at h0L h0n h0v ⊢
  obtain ⟨tl, tn, tv⟩ := mul128x128_spec z1 R0 l1 limbs_R0 n1 rfl
  rw [limbsVal_R0] at tv
  obtain ⟨e1, c1, sl, sn⟩ := subborrow_limbs_spec z0 _ 0 (by rw [h0n, tn]) h0L tl
    (by norm_num)
  rw [tv, h0n] at e1
  rw [h0n] at sn
  have hS := limbsVal_lt sl
  rw [sn] at hS
  generalize subborrow_limbs 0 z0 (mul128x128 z1 R0) = s at e1 c1 sl sn hS ⊢
  obtain ⟨e2, c2, dl, dn⟩ := subborrow_limbs_spec z1 [0, 0, 0, 0] s.1 (by rw [n1]; rfl)
    l1 (limbs_replicate_zero 4) c1
  rw [n1] at e2 dn
  have hD := limbsVal_lt dl
  rw [dn] at hD
  refine ⟨dl, dn, ?_⟩
  have hz : limbsVal [0, 0, 0, 0] = 0 := by decide
  rw [hz] at e2
  have hs' : limbsVal w = limbsVal (w.take 7) + 2 ^ 224 * z7
      + 2 ^ 256 * limbsVal (w.drop 8) := by
    norm_num at hs ⊢; linarith
  have hL' : limbsVal (w.take 7) < 2 ^ 224 := by norm_num at hL ⊢; exact hL
  have v1' : limbsVal z1 = (8 * limbsVal (w.drop 8) + z7 / 2 ^ 29) % 2 ^ 128 := by
    norm_num at v1 ⊢; exact v1
  have e1' : limbsVal s.2 + limbsVal z1 * r0 = limbsVal z0 + 2 ^ 256 * s.1 := by
    norm_num at e1 ⊢; linarith
  have hS' : limbsVal s.2 < 2 ^ 256 := by norm_num at hS ⊢; exact hS
  have e2' : limbsVal (subborrow_limbs s.1 z1 [0, 0, 0, 0]).2 + s.1
      = limbsVal z1 + 2 ^ 128 * (subborrow_limbs s.1 z1 [0, 0, 0, 0]).1 := by
    norm_num at e2 ⊢; linarith
  have hD' : limbsVal (subborrow_limbs s.1 z1 [0, 0, 0, 0]).2 < 2 ^ 128 := by
    norm_num at hD ⊢; exact hD
  exact divr_arith hP hZ hs' hL' h7 h0v v1' e1' hS' c1 e2' hD' c2

/-! ## The GLS split -/

theorem limbsVal_vES : limbsVal vES = 85070591730234615854573802599387326102 := by decide

theorem limbsVal_vET : limbsVal vET = 85070591730234615877113501116496779625 := by decide

theorem limbs_vES : Limbs vES := by
  intro x hx; simp [vES] at hx; omega

theorem limbs_vET : Limbs vET := by
  intro x hx; simp [vET] at hx; omega

/-- The size of the two halves of the split: the lattice basis `(s, t)`,
`(-t, s)` has `s^2 + t^2 = r`, and the rounded quotients `c`, `d` leave
remainders of absolute value at most `(s + t) / 2`. -/
theorem split_bounds {K c d : Nat}
    (hc : c = (K * limbsVal vET + (r - 1) / 2) / r)
    (hd : d = (K * limbsVal vES + (r - 1) / 2) / r) :
    -(2 ^ 126 : Int) < (K : Int) - d * limbsVal vES - c * limbsVal vET
      ∧ (K : Int) - d * limbsVal vES - c * limbsVal vET < 2 ^ 126
      ∧ -(2 ^ 126 : Int) < (d : Int) * limbsVal vET - c * limbsVal vES
      ∧ (d : Int) * limbsVal vET - c * limbsVal vES < 2 ^ 126 := by
  rw [limbsVal_vES, limbsVal_vET] at *
  simp only [r, r0] at *
  norm_num at *
  refine ⟨?_, ?_, ?_, ?_⟩ <;> omega

theorem split_mu_spec (k : List Nat) (hk : Limbs k) (hl : k.length = 8)
    (hkr : limbsVal k < r) :
    Limbs (split_mu k).1 ∧ (split_mu k).1.length = 4
      ∧ Limbs (split_mu k).2 ∧ (split_mu k).2.length = 4
      ∧ (limbsVal (split_mu k).1 : Int)
          = ((limbsVal k : Int)
              - (limbsVal (mul_divr_rounded k vES) : Int) * limbsVal vES
              - (limbsVal (mul_divr_rounded k vET) : Int) * limbsVal vET) % 2 ^ 128
      ∧ (limbsVal (split_mu k).2 : Int)
          = ((limbsVal (mul_divr_rounded k vES) : Int) * limbsVal vET
              - (limbsVal (mul_divr_rounded k vET) : Int) * limbsVal vES) % 2 ^ 128 := by
  have hT : limbsVal vET < 2 ^ 127 - 2 := by rw [limbsVal_vET]; norm_num
  have hS : limbsVal vES < 2 ^ 127 - 2 := by rw [limbsVal_vES]; norm_num
  obtain ⟨cl, cn, -⟩ := mul_divr_rounded_spec k vET hk limbs_vET hl rfl hkr hT
  obtain ⟨dl, dn, -⟩ := mul_divr_rounded_spec k vES hk limbs_vES hl rfl hkr hS
  simp only [split_mu]
  generalize mul_divr_rounded k vET = c at cl cn ⊢
  generalize mul_divr_rounded k vES = d at dl dn ⊢
  have hk4 : (k.take 4).length = 4 := by simp [hl]
  have hkv := limbsVal_take_add_drop k 4
  rw [hk4] at hkv
  have hkb := limbsVal_lt (limbs_take hk 4)
  rw [hk4] at hkb
  obtain ⟨l1, n1, v1⟩ := mul128x128trunc_spec d vES dl limbs_vES dn rfl
  obtain ⟨l2, n2, v2⟩ := mul128x128trunc_spec c vET cl limbs_vET cn rfl
  obtain ⟨l3, n3, v3⟩ := mul128x128trunc_spec d vET dl limbs_vET dn rfl
  obtain ⟨l4, n4, v4⟩ := mul128x128trunc_spec c vES cl limbs_vES cn rfl
  obtain ⟨l5, n5, v5⟩ := sub128trunc_spec (k.take 4) _ (limbs_take hk 4) l1 hk4 n1
  obtain ⟨l6, n6, v6⟩ := sub128trunc_spec _ _ l5 l2 n5 n2
  obtain ⟨l7, n7, v7⟩ := sub128trunc_spec _ _ l3 l4 n3 n4
  refine ⟨l6, n6, l7, n7, ?_, ?_⟩
  · rw [v6, v5, v1, v2, ← hkv, limbsVal_vES, limbsVal_vET]
    generalize limbsVal (k.take 4) = a at hkb
    generalize limbsVal (k.drop 4) = b
    generalize limbsVal c = C
    generalize limbsVal d = D
    norm_num at hkb ⊢
    omega
  · rw [v7, v3, v4, limbsVal_vES, limbsVal_vET]
    generalize limbsVal c = C
    generalize limbsVal d = D
    norm_num
    omega

/-- The signed reading of a 128-bit word. -/
theorem abs_encode_signed {v : Nat} {z : Int} (hz1 : -(2 ^ 126 : Int) < z)
    (hz2 : z < 2 ^ 126) (hv : (v : Int) = z % 2 ^ 128) :
    ((if v < 2 ^ 127 then v else 2 ^ 128 - v : Nat) : Int) = |z|
      ∧ (if v < 2 ^ 127 then 0 else 0xFFFFFFFF : Nat) = (if z < 0 then 0xFFFFFFFF else 0)
      ∧ (if v < 2 ^ 127 then v else 2 ^ 128 - v : Nat) < 2 ^ 126 + 1 := by
  by_cases hneg : z < 0
  · have h1 : (v : Int) = z + 2 ^ 128 := by omega
    have h2 : ¬ v < 2 ^ 127 := by omega
    rw [if_neg h2, if_neg h2, if_pos hneg, abs_of_neg hneg]
    refine ⟨by omega, rfl, by omega⟩
  · have h1 : (v : Int) = z := by omega
    have h2 : v < 2 ^ 127 := by omega
    rw [if_pos h2, if_pos h2, if_neg hneg, abs_of_nonneg (by omega)]
    refine ⟨h1, rfl, by omega⟩

theorem reduced_spec (k : List Byte) (hk : k.length = 32) :
    Limbs (modr_reduce256_finish ( modr_reduce256_partial (i256_decode k) 0))
      ∧ (modr_reduce256_finish ( modr_reduce256_partial (i256_decode k) 0)).length = 8
      ∧ limbsVal (modr_reduce256_finish ( modr_reduce256_partial (i256_decode k) 0))
          = bytesVal k % r := by
  obtain ⟨l, n, v⟩ := i256_decode_spec k hk
  obtain ⟨l1, n1, v1⟩ := modr_reduce256_partial_spec _ 0 l n (by norm_num)
  obtain ⟨l2, n2, v2⟩ := modr_reduce256_finish_spec _ l1 n1
  have hr : 0 < r := by decide
  rw [v, Nat.mul_zero, Nat.add_zero] at v1
  refine ⟨l2, n2, ?_⟩
  rw [v2, if_pos (by rw [v1]; exact Nat.mod_lt _ hr), v1]

/-- Full description of the outputs of `scalar_split` in terms of the
rounded quotients `c = round(K t / r)` and `d = round(K s / r)` of the reduced
scalar `K = k mod r`. -/
theorem scalar_split_spec (k : List Byte) (hk : k.length = 32) (K c d : Nat)
    (hK : K = bytesVal k % r)
    (hc : c = (K * limbsVal vET + (r - 1) / 2) / r)
    (hd : d = (K * limbsVal vES + (r - 1) / 2) / r) :
    (scalar_split k).1.length = 16
      ∧ (bytesVal (scalar_split k).1 : Int)
          = |(K : Int) - d * limbsVal vES - c * limbsVal vET|
      ∧ (scalar_split k).2.1
          = (if (K : Int) - d * limbsVal vES - c * limbsVal vET < 0
              then 0xFFFFFFFF else 0)
      ∧ (scalar_split k).2.2.1.length = 16
      ∧ (bytesVal (scalar_split k).2.2.1 : Int)
          = |(d : Int) * limbsVal vET - c * limbsVal vES|
      ∧ (scalar_split k).2.2.2
          = (if (d : Int) * limbsVal vET - c * limbsVal vES < 0
              then 0xFFFFFFFF else 0)
      ∧ bytesVal (scalar_split k).1 < 2 ^ 126 + 1
      ∧ bytesVal (scalar_split k).2.2.1 < 2 ^ 126 + 1 := by
  obtain ⟨tl, tn, tv⟩ := reduced_spec k hk
  have hr : 0 < r := by decide
  have hT : limbsVal vET < 2 ^ 127 - 2 := by rw [limbsVal_vET]; norm_num
  have hS : limbsVal vES < 2 ^ 127 - 2 := by rw [limbsVal_vES]; norm_num
  simp only [scalar_split]
  generalize modr_reduce256_finish ( modr_reduce256_partial (i256_decode k) 0) = t
    at tl tn tv ⊢
  have hkr : limbsVal t < r := by rw [tv]; exact Nat.mod_lt _ hr
  obtain ⟨-, -, cv⟩ := mul_divr_rounded_spec t vET tl limbs_vET tn rfl hkr hT
  obtain ⟨-, -, dv⟩ := mul_divr_rounded_spec t vES tl limbs_vES tn rfl hkr hS
  obtain ⟨l0, n0, l1, n1, v0, v1⟩ := split_mu_spec t tl tn hkr
  rw [cv, dv, tv, ← hK, ← hc, ← hd] at v0 v1
  obtain ⟨b1, b2, b3, b4⟩ := split_bounds hc hd
  obtain ⟨a1, a2, a3⟩ := i128_abs_encode_spec _ l0 n0
  obtain ⟨a4, a5, a6⟩ := i128_abs_encode_spec _ l1 n1
  obtain ⟨s1, s2, s3⟩ := abs_encode_signed b1 b2 v0
  obtain ⟨s4, s5, s6⟩ := abs_encode_signed b3 b4 v1
  rw [a2, a3, a5, a6]
  exact ⟨a1, s1, s2, a4, s4, s5, s3, s6⟩

/-! ## Booth recoding -/

theorem recode4_digit_spec :
    ∀ x, x < 16 → ∀ cc, cc < 2 →
      -7 ≤ (recode4_digit x cc).1 ∧ (recode4_digit x cc).1 ≤ 8
        ∧ (recode4_digit x cc).2 ≤ 1
        ∧ (recode4_digit x cc).1 + 16 * ((recode4_digit x cc).2 : Int) = x + cc := by
  decide

theorem digitsOk_cons {d : Int} {ds : List Int} :
    DigitsOk (d :: ds) ↔ (-7 ≤ d ∧ d ≤ 8) ∧ DigitsOk ds := by
  simp [DigitsOk]

theorem digitsOk_getD {ds : List Int} (h : DigitsOk ds) (i : Nat) :
    -8 ≤ ds.getD i 0 ∧ ds.getD i 0 ≤ 8 := by
  by_cases hi : i < ds.length
  · rw [List.getD_eq_getElem _ _ hi]
    have := h _ (List.getElem_mem hi)
    omega
  · rw [List.getD_eq_default _ _ (by omega)]; omega

theorem digitsVal_lower (ds : List Int) (h : DigitsOk ds) :
    -7 * (16 ^ ds.length - 1) ≤ 15 * digitsVal ds := by
  induction ds with
  | nil => simp [digitsVal]
  | cons d ds ih =>
    rw [digitsOk_cons] at h
    have := ih h.2
    simp only [digitsVal, List.length_cons, pow_succ]
    have h1 := h.1.1
    linarith

theorem recode4_bytes_spec (ns : List Byte) :
    ∀ cc, cc ≤ 1 →
      (recode4_bytes ns cc).1.length = 2 * ns.length
        ∧ DigitsOk (recode4_bytes ns cc).1
        ∧ (recode4_bytes ns cc).2 ≤ 1
        ∧ digitsVal (recode4_bytes ns cc).1
            + 16 ^ (2 * ns.length) * ((recode4_bytes ns cc).2 : Int)
            = bytesVal ns + cc := by
  induction ns with
  | nil =>
    intro cc hc
    exact ⟨rfl, (fun d hd => by cases hd), hc, by simp [recode4_bytes, digitsVal, bytesVal]⟩
  | cons n ns ih =>
    intro cc hc
    have hn := n.isLt
    have hlo : n.val &&& 0x0F = n.val % 16 := by
      have := Nat.and_pow_two_sub_one_eq_mod n.val 4
      norm_num at this ⊢
      exact this
    have hhi : n.val >>> 4 = n.val / 16 := by
      rw [Nat.shiftRight_eq_div_pow]
    obtain ⟨a1, a2, a3, a4⟩ := recode4_digit_spec (n.val % 16) (by omega) cc (by omega)
    obtain ⟨b1, b2, b3, b4⟩ := recode4_digit_spec (n.val / 16) (by omega)
      (recode4_digit (n.val % 16) cc).2 (by omega)
    obtain ⟨l, ok, c, v⟩ := ih (recode4_digit (n.val / 16) (recode4_digit (n.val % 16) cc).2).2 b3
    simp only [recode4_bytes, hlo, hhi]
    refine ⟨by simp only [List.length_cons, l]; ring,
      digitsOk_cons.2 ⟨⟨a1, a2⟩, digitsOk_cons.2 ⟨⟨b1, b2⟩, ok⟩⟩, c, ?_⟩
    simp only [digitsVal, bytesVal, List.length_cons]
    rw [show 2 * (ns.length + 1) = 2 * ns.length + 2 by ring, pow_add]
    have hb : ((n.val : Nat) : Int) = ((n.val % 16 : Nat) : Int) + 16 * ((n.val / 16 : Nat) : Int) := by
      omega
    push_cast at a4 b4 v hb ⊢
    rw [hb]
    linear_combination a4 + 16 * b4 + 256 * v

theorem recode4_u128_spec (n : List Byte) (hl : n.length = 16)
    (hn : bytesVal n < 2 ^ 127) :
    (recode4_u128 n).length = 32 ∧ DigitsOk (recode4_u128 n)
      ∧ digitsVal (recode4_u128 n) = bytesVal n := by
  have ht : n.take 16 = n := List.take_of_length_le (by omega)
  obtain ⟨l, ok, c, v⟩ := recode4_bytes_spec n 0 (by norm_num)
  unfold recode4_u128
  rw [ht]
  rw [hl] at l v
  refine ⟨l, ok, ?_⟩
  have lo := digitsVal_lower _ ok
  rw [l] at lo
  rcases Nat.le_one_iff_eq_zero_or_eq_one.1 c with h | h
  · rw [h] at v; simpa using v
  · rw [h] at v
    have hn' : (bytesVal n : Int) < 2 ^ 127 := by exact_mod_cast hn
    norm_num at v lo hn' ⊢
    omega

theorem recode4_u64_spec (n : List Byte) (hl : 8 ≤ n.length) :
    (recode4_u64 n).1.length = 16 ∧ DigitsOk (recode4_u64 n).1
      ∧ (recode4_u64 n).2 ≤ 1
      ∧ digitsVal (recode4_u64 n).1 + 2 ^ 64 * ((recode4_u64 n).2 : Int)
          = bytesVal (n.take 8) := by
  have ht : (n.take 8).length = 8 := by rw [List.length_take]; omega
  obtain ⟨l, ok, c, v⟩ := recode4_bytes_spec (n.take 8) 0 (by norm_num)
  unfold recode4_u64
  rw [ht] at l v
  refine ⟨l, ok, c, ?_⟩
  norm_num at v ⊢
  exact v

/-! ## The ladders -/

theorem digitsVal_eq_sum (ds : List Int) :
    ∀ n, ds.length = n →
      ∑ i in Finset.range n, (16 : Int) ^ i * ds.getD i 0 = digitsVal ds := by
  induction ds with
  | nil => intro n h; subst h; simp [digitsVal]
  | cons d ds ih =>
    intro n h
    obtain ⟨m, rfl⟩ : ∃ m, n = m + 1 := ⟨ds.length, by simpa using h.symm⟩
    have hm : ds.length = m := by simpa using h
    rw [Finset.sum_range_succ', digitsVal, ← ih m hm, Finset.mul_sum]
    simp only [List.getD_cons_succ, List.getD_cons_zero, pow_zero, one_mul, pow_succ]
    rw [add_comm]
    congr 1
    apply Finset.sum_congr rfl
    intro i _
    ring

section
variable {Pt PtA G : Type} [AddCommGroup G]

/-- A ladder whose steps multiply by 16 and add a multiple of a fixed
element `X` computes the Horner sum of the coefficients. -/
theorem ladder_coeff (el : Pt → G) (X : G) (step : Pt → Nat → Pt) (c : Nat → Int)
    (hstep : ∀ q i (a : Int), el q = a • X → el (step q i) = (16 * a + c i) • X)
    (n : Nat) :
    ∀ (q0 : Pt) (a0 : Int), el q0 = a0 • X →
      el ((List.range n).reverse.foldl step q0)
        = (16 ^ n * a0 + ∑ i in Finset.range n, 16 ^ i * c i) • X := by
  induction n with
  | zero => intro q0 a0 h; simpa using h
  | succ n ih =>
    intro q0 a0 h
    rw [List.range_succ, List.reverse_append, List.reverse_singleton,
      List.singleton_append, List.foldl_cons, ih _ _ (hstep q0 n a0 h),
      Finset.sum_range_succ]
    congr 1
    ring

variable {P : Prims Pt PtA} {el : Pt → G} {ela : PtA → G}

theorem condneg_el (hM : GroupModel P el ela) (p : Pt) {ctl : Nat}
    (hc : ctl = 0 ∨ ctl = 0xFFFFFFFF) :
    el (P.condneg p ctl) = ctlSign ctl • el p := by
  rcases hc with rfl | rfl
  · rw [(hM.condneg p 0).1 rfl]; simp [ctlSign]
  · rw [(hM.condneg p 0xFFFFFFFF).2 rfl]; simp [ctlSign]

theorem zeta_el (hM : GroupModel P el ela) (a : PtA) {zn : Nat}
    (hc : zn = 0 ∨ zn = 0xFFFFFFFF) :
    ela (P.zeta_affine a zn) = (ctlSign zn * mu) • ela a := by
  rcases hc with rfl | rfl
  · rw [(hM.zeta a 0).1 rfl]; simp [ctlSign]
  · rw [(hM.zeta a 0xFFFFFFFF).2 rfl]; simp [ctlSign]

theorem lookup_el (hM : GroupModel P el ela) {win : Window PtA} {Q X : G} {w : Int}
    (hw : IsWindow ela win Q) (hQ : Q = w • X) {ds : List Int} (hd : DigitsOk ds)
    (i : Nat) :
    ela (P.lookup8_affine win (ds.getD i 0)) = (ds.getD i 0 * w) • X := by
  obtain ⟨h1, h2⟩ := digitsOk_getD hd i
  rw [hM.lookup win Q _ hw h1 h2, hQ, smul_smul]

theorem lookup_zeta_el (hM : GroupModel P el ela) {win : Window PtA} {Q X : G}
    {w : Int} (hw : IsWindow ela win Q) (hQ : Q = w • X) {ds : List Int}
    (hd : DigitsOk ds) (i : Nat) {zn : Nat} (hc : zn = 0 ∨ zn = 0xFFFFFFFF) :
    ela (gls254_lookup8_affine_zeta P win (ds.getD i 0) zn)
      = (ctlSign zn * mu * (ds.getD i 0 * w)) • X := by
  unfold gls254_lookup8_affine_zeta
  rw [zeta_el hM _ hc, lookup_el hM hw hQ hd, smul_smul]

end

theorem split_lattice (K c d : Int) :
    (K - d * 85070591730234615854573802599387326102
        - c * 85070591730234615877113501116496779625)
      + (mu : Int) * (d * 85070591730234615877113501116496779625
        - c * 85070591730234615854573802599387326102)
      = K + (r : Int) * (d * 63541414811832306788417892979795151462
          - c * 63541414811832306771582411950687897597) := by
  simp only [mu, r, r0]
  push_cast
  ring

theorem ctlSign_zero : ctlSign 0 = 1 := rfl

theorem ctlSign_ones : ctlSign 0xFFFFFFFF = -1 := rfl

theorem ctlSign_mul_abs (z : Int) :
    ctlSign (if z < 0 then 0xFFFFFFFF else 0) * |z| = z := by
  by_cases h : z < 0
  · rw [if_pos h, ctlSign_ones, abs_of_neg h]; ring
  · rw [if_neg h, ctlSign_zero, abs_of_nonneg (by omega)]; ring

theorem ctlSign_xor {a b : Nat} (ha : a = 0 ∨ a = 0xFFFFFFFF)
    (hb : b = 0 ∨ b = 0xFFFFFFFF) :
    (a ^^^ b = 0 ∨ a ^^^ b = 0xFFFFFFFF)
      ∧ ctlSign (a ^^^ b) * ctlSign a = ctlSign b := by
  rcases ha with rfl | rfl <;> rcases hb with rfl | rfl <;> decide

/-- What the ladders use of `scalar_split`. -/
theorem scalar_split_facts (k : List Byte) (hk : k.length = 32) :
    (scalar_split k).1.length = 16 ∧ (scalar_split k).2.2.1.length = 16
      ∧ bytesVal (scalar_split k).1 < 2 ^ 127
      ∧ bytesVal (scalar_split k).2.2.1 < 2 ^ 127
      ∧ ((scalar_split k).2.1 = 0 ∨ (scalar_split k).2.1 = 0xFFFFFFFF)
      ∧ ((scalar_split k).2.2.2 = 0 ∨ (scalar_split k).2.2.2 = 0xFFFFFFFF)
      ∧ ∃ m : Int,
          ctlSign (scalar_split k).2.1 * (bytesVal (scalar_split k).1 : Int)
            + (mu : Int) * (ctlSign (scalar_split k).2.2.2
                * (bytesVal (scalar_split k).2.2.1 : Int))
            = ((bytesVal k % r : Nat) : Int) + (r : Int) * m := by
  obtain ⟨h1, h2, h3, h4, h5, h6, h7, h8⟩ :=
    scalar_split_spec k hk _ _ _ rfl rfl rfl
  refine ⟨h1, h4, by omega, by omega, ?_, ?_, ?_⟩
  · rw [h3]; split <;> simp
  · rw [h6]; split <;> simp
  · rw [h2, h3, h5, h6, ctlSign_mul_abs, ctlSign_mul_abs, limbsVal_vES, limbsVal_vET]
    exact ⟨_, by push_cast; exact split_lattice _ _ _⟩

section
variable {Pt PtA G : Type} [AddCommGroup G]
variable {P : Prims Pt PtA} {el : Pt → G} {ela : PtA → G}

theorem smul_mod_r (hM : GroupModel P el ela) (g : G) (K : Nat) (z m : Int)
    (h : z = (K : Int) + (r : Int) * m) : z • g = K • g := by
  rw [h, add_smul, mul_comm, mul_smul, natCast_zsmul, natCast_zsmul, hM.order,
    smul_zero, add_zero]

theorem sum_comb (x y : Nat → Int) (w t : Int) (n : Nat) :
    ∑ i in Finset.range n, (16 : Int) ^ i * (x i * w + t * (y i * w))
      = w * ∑ i in Finset.range n, (16 : Int) ^ i * x i
        + t * w * ∑ i in Finset.range n, (16 : Int) ^ i * y i := by
  rw [Finset.mul_sum, Finset.mul_sum, ← Finset.sum_add_distrib]
  apply Finset.sum_congr rfl
  intro i _
  ring

/-- The body of the main loop of `gls254_mul`. -/
theorem mul_step_el (hM : GroupModel P el ela) {win : Window PtA} {X : G} {w : Int}
    (hw : IsWindow ela win (w • X)) {sd0 sd1 : List Int} (h0 : DigitsOk sd0)
    (h1 : DigitsOk sd1) {zn : Nat} (hz : zn = 0 ∨ zn = 0xFFFFFFFF)
    (q : Pt) (i : Nat) (a : Int) (hq : el q = a • X) :
    el (P.add (P.xdouble q 4)
        (P.add_affine_affine (P.lookup8_affine win (sd0.getD i 0))
          (P.zeta_affine (P.lookup8_affine win (sd1.getD i 0)) zn)))
      = (16 * a + (sd0.getD i 0 * w + ctlSign zn * mu * (sd1.getD i 0 * w))) • X := by
  rw [hM.add, hM.xdouble4, hM.add_affine_affine, zeta_el hM _ hz,
    lookup_el hM hw rfl h0, lookup_el hM hw rfl h1, hq, smul_smul, ← natCast_zsmul,
    smul_smul, ← add_smul, ← add_smul]
  congr 1

theorem gls254_mul_el (hM : GroupModel P el ela) (p : Pt) (k : List Byte)
    (hk : k.length = 32) :
    el (gls254_mul P p k) = (bytesVal k % r) • el p := by
  obtain ⟨l0, l1, b0, b1, hs0, hs1, m, hm⟩ := scalar_split_facts k hk
  obtain ⟨n0, ok0, v0⟩ := recode4_u128_spec _ l0 b0
  obtain ⟨n1, ok1, v1⟩ := recode4_u128_spec _ l1 b1
  obtain ⟨hz, hzs⟩ := ctlSign_xor hs0 hs1
  have hw := hM.make_window (P.condneg p (scalar_split k).2.1)
  rw [condneg_el hM p hs0] at hw
  unfold gls254_mul
  simp only []
  rw [ladder_coeff el (el p) _
    (fun i => (recode4_u128 (scalar_split k).1).getD i 0 * ctlSign (scalar_split k).2.1
      + ctlSign ((scalar_split k).2.1 ^^^ (scalar_split k).2.2.2) * mu
        * ((recode4_u128 (scalar_split k).2.2.1).getD i 0 * ctlSign (scalar_split k).2.1))
    (fun q i a hq => mul_step_el hM hw ok0 ok1 hz q i a hq) 31 _
    ((recode4_u128 (scalar_split k).1).getD 31 0 * ctlSign (scalar_split k).2.1
      + ctlSign ((scalar_split k).2.1 ^^^ (scalar_split k).2.2.2) * mu
        * ((recode4_u128 (scalar_split k).2.2.1).getD 31 0 * ctlSign (scalar_split k).2.1))
    (by
      rw [hM.add_affine_affine, zeta_el hM _ hz, lookup_el hM hw rfl ok0,
        lookup_el hM hw rfl ok1, smul_smul, ← add_smul])]
  apply smul_mod_r hM _ _ _ m
  rw [← hm, ← v0, ← v1, ← digitsVal_eq_sum _ 32 n0, ← digitsVal_eq_sum _ 32 n1, ← hzs]
  generalize ctlSign (scalar_split k).2.1 = w
  generalize ctlSign ((scalar_split k).2.1 ^^^ (scalar_split k).2.2.2) = t
  have e := sum_comb (fun i => (recode4_u128 (scalar_split k).1).getD i 0)
    (fun i => (recode4_u128 (scalar_split k).2.2.1).getD i 0) w (t * mu) 32
  simp only [] at e
  rw [Finset.sum_range_succ _ 31] at e
  linear_combination e

end

theorem sum_quarters (f : Nat → Int) :
    ∑ i in Finset.range 32, (16 : Int) ^ i * f i
      = ∑ i in Finset.range 8, (16 : Int) ^ i
          * (f i + 2 ^ 32 * f (i + 8) + 2 ^ 64 * f (i + 16) + 2 ^ 96 * f (i + 24)) := by
  simp only [Finset.sum_range_succ, Finset.sum_range_zero]
  ring

theorem sum_halves (f : Nat → Int) :
    ∑ i in Finset.range 32, (16 : Int) ^ i * f i
      = ∑ i in Finset.range 16, (16 : Int) ^ i * (f i + 2 ^ 64 * f (i + 16)) := by
  simp only [Finset.sum_range_succ, Finset.sum_range_zero]
  ring

section
variable {Pt PtA G : Type} [AddCommGroup G]
variable {P : Prims Pt PtA} {el : Pt → G} {ela : PtA → G}

theorem addaa_el (hM : GroupModel P el ela) {X : G} {pa qa : PtA} {x y : Int}
    (hp : ela pa = x • X) (hq : ela qa = y • X) :
    el (P.add_affine_affine pa qa) = (x + y) • X := by
  rw [hM.add_affine_affine, hp, hq, add_smul]

theorem add_el (hM : GroupModel P el ela) {X : G} {p q : Pt} {x y : Int}
    (hp : el p = x • X) (hq : el q = y • X) :
    el (P.add p q) = (x + y) • X := by
  rw [hM.add, hp, hq, add_smul]

theorem xdouble4_el (hM : GroupModel P el ela) {X : G} {p : Pt} {x : Int}
    (hp : el p = x • X) : el (P.xdouble p 4) = (16 * x) • X := by
  rw [hM.xdouble4, hp, ← natCast_zsmul, smul_smul]
  rfl

theorem table_windows (hT : TableModel P el ela) :
    IsWindow ela P.PRECOMP_B ((1 : Int) • el P.BASE)
      ∧ IsWindow ela P.PRECOMP_B32 ((2 ^ 32 : Int) • el P.BASE)
      ∧ IsWindow ela P.PRECOMP_B64 ((2 ^ 64 : Int) • el P.BASE)
      ∧ IsWindow ela P.PRECOMP_B96 ((2 ^ 96 : Int) • el P.BASE) := by
  refine ⟨?_, ?_, ?_, ?_⟩
  · rw [one_smul]; exact hT.b0
  · have := hT.b32
    rw [← natCast_zsmul] at this
    exact_mod_cast this
  · have := hT.b64
    rw [← natCast_zsmul] at this
    exact_mod_cast this
  · have := hT.b96
    rw [← natCast_zsmul] at this
    exact_mod_cast this

/-- The group element accumulated for one index `i` of `gls254_mulgen`:
four table lookups for each half of the split. -/
theorem mulgen_block_el (hM : GroupModel P el ela) {X : G}
    {W0 W1 W2 W3 : Window PtA} {c0 c1 c2 c3 : Int}
    (w0 : IsWindow ela W0 (c0 • X)) (w1 : IsWindow ela W1 (c1 • X))
    (w2 : IsWindow ela W2 (c2 • X)) (w3 : IsWindow ela W3 (c3 • X))
    {sd0 sd1 : List Int} (h0 : DigitsOk sd0) (h1 : DigitsOk sd1) {zn : Nat}
    (hz : zn = 0 ∨ zn = 0xFFFFFFFF) (q : Pt) (i : Nat) (a : Int)
    (hq : el q = a • X) :
    el (P.add (P.add (P.add (P.add q
        (P.add_affine_affine (P.lookup8_affine W0 (sd0.getD i 0))
          (P.lookup8_affine W1 (sd0.getD (i + 8) 0))))
        (P.add_affine_affine (P.lookup8_affine W2 (sd0.getD (i + 16) 0))
          (P.lookup8_affine W3 (sd0.getD (i + 24) 0))))
        (P.add_affine_affine (gls254_lookup8_affine_zeta P W0 (sd1.getD i 0) zn)
          (gls254_lookup8_affine_zeta P W1 (sd1.getD (i + 8) 0) zn)))
        (P.add_affine_affine
          (gls254_lookup8_affine_zeta P W2 (sd1.getD (i + 16) 0) zn)
          (gls254_lookup8_affine_zeta P W3 (sd1.getD (i + 24) 0) zn)))
      = (a + (sd0.getD i 0 * c0 + sd0.getD (i + 8) 0 * c1)
          + (sd0.getD (i + 16) 0 * c2 + sd0.getD (i + 24) 0 * c3)
          + (ctlSign zn * mu * (sd1.getD i 0 * c0)
            + ctlSign zn * mu * (sd1.getD (i + 8) 0 * c1))
          + (ctlSign zn * mu * (sd1.getD (i + 16) 0 * c2)
            + ctlSign zn * mu * (sd1.getD (i + 24) 0 * c3))) • X := by
  have e1 := addaa_el hM (lookup_el hM w0 rfl h0 i) (lookup_el hM w1 rfl h0 (i + 8))
  have e2 := addaa_el hM (lookup_el hM w2 rfl h0 (i + 16)) (lookup_el hM w3 rfl h0 (i + 24))
  have e3 := addaa_el hM (lookup_zeta_el hM w0 rfl h1 i hz)
    (lookup_zeta_el hM w1 rfl h1 (i + 8) hz)
  have e4 := addaa_el hM (lookup_zeta_el hM w2 rfl h1 (i + 16) hz)
    (lookup_zeta_el hM w3 rfl h1 (i + 24) hz)
  exact add_el hM (add_el hM (add_el hM (add_el hM hq e1) e2) e3) e4

theorem sum_quarterDigits (sd : List Int) (h : sd.length = 32) :
    ∑ i in Finset.range 8, (16 : Int) ^ i * quarterDigits sd i = digitsVal sd := by
  rw [← digitsVal_eq_sum sd 32 h, sum_quarters]
  rfl

/-- The body of the main loop of `gls254_mulgen`. -/
theorem mulgen_step_el (hM : GroupModel P el ela) (hT : TableModel P el ela)
    {sd0 sd1 : List Int} (h0 : DigitsOk sd0) (h1 : DigitsOk sd1) {zn : Nat}
    (hz : zn = 0 ∨ zn = 0xFFFFFFFF) (q : Pt) (i : Nat) (a : Int)
    (hq : el q = a • el P.BASE) :
    el (P.add (P.add (P.add (P.add (P.xdouble q 4)
        (P.add_affine_affine (P.lookup8_affine P.PRECOMP_B (sd0.getD i 0))
          (P.lookup8_affine P.PRECOMP_B32 (sd0.getD (i + 8) 0))))
        (P.add_affine_affine (P.lookup8_affine P.PRECOMP_B64 (sd0.getD (i + 16) 0))
          (P.lookup8_affine P.PRECOMP_B96 (sd0.getD (i + 24) 0))))
        (P.add_affine_affine (gls254_lookup8_affine_zeta P P.PRECOMP_B (sd1.getD i 0) zn)
          (gls254_lookup8_affine_zeta P P.PRECOMP_B32 (sd1.getD (i + 8) 0) zn)))
        (P.add_affine_affine
          (gls254_lookup8_affine_zeta P P.PRECOMP_B64 (sd1.getD (i + 16) 0) zn)
          (gls254_lookup8_affine_zeta P P.PRECOMP_B96 (sd1.getD (i + 24) 0) zn)))
      = (16 * a + (quarterDigits sd0 i + ctlSign zn * mu * quarterDigits sd1 i))
          • el P.BASE := by
  obtain ⟨w0, w32, w64, w96⟩ := table_windows hT
  have e := mulgen_block_el hM w0 w32 w64 w96 h0 h1 hz _ i (16 * a) (xdouble4_el hM hq)
  rw [e]
  congr 1
  unfold quarterDigits
  ring

/-- The initial value of the accumulator of `gls254_mulgen`. -/
theorem mulgen_init_el (hM : GroupModel P el ela) (hT : TableModel P el ela)
    {sd0 sd1 : List Int} (h0 : DigitsOk sd0) (h1 : DigitsOk sd1) {zn : Nat}
    (hz : zn = 0 ∨ zn = 0xFFFFFFFF) :
    el (P.add (P.add (P.add
        (P.add_affine_affine (P.lookup8_affine P.PRECOMP_B (sd0.getD 7 0))
          (P.lookup8_affine P.PRECOMP_B32 (sd0.getD 15 0)))
        (P.add_affine_affine (P.lookup8_affine P.PRECOMP_B64 (sd0.getD 23 0))
          (P.lookup8_affine P.PRECOMP_B96 (sd0.getD 31 0))))
        (P.add_affine_affine (gls254_lookup8_affine_zeta P P.PRECOMP_B (sd1.getD 7 0) zn)
          (gls254_lookup8_affine_zeta P P.PRECOMP_B32 (sd1.getD 15 0) zn)))
        (P.add_affine_affine
          (gls254_lookup8_affine_zeta P P.PRECOMP_B64 (sd1.getD 23 0) zn)
          (gls254_lookup8_affine_zeta P P.PRECOMP_B96 (sd1.getD 31 0) zn)))
      = (quarterDigits sd0 7 + ctlSign zn * mu * quarterDigits sd1 7) • el P.BASE := by
  obtain ⟨w0, w32, w64, w96⟩ := table_windows hT
  have e1 := addaa_el hM (lookup_el hM w0 rfl h0 7) (lookup_el hM w32 rfl h0 15)
  have e2 := addaa_el hM (lookup_el hM w64 rfl h0 23) (lookup_el hM w96 rfl h0 31)
  have e3 := addaa_el hM (lookup_zeta_el hM w0 rfl h1 7 hz)
    (lookup_zeta_el hM w32 rfl h1 15 hz)
  have e4 := addaa_el hM (lookup_zeta_el hM w64 rfl h1 23 hz)
    (lookup_zeta_el hM w96 rfl h1 31 hz)
  rw [add_el hM (add_el hM (add_el hM e1 e2) e3) e4]
  congr 1
  unfold quarterDigits
  ring

theorem gls254_mulgen_el (hM : GroupModel P el ela) (hT : TableModel P el ela)
    (k : List Byte) (hk : k.length = 32) :
    el (gls254_mulgen P k) = (bytesVal k % r) • el P.BASE := by
  obtain ⟨l0, l1, b0, b1, hs0, hs1, m, hm⟩ := scalar_split_facts k hk
  obtain ⟨n0, ok0, v0⟩ := recode4_u128_spec _ l0 b0
  obtain ⟨n1, ok1, v1⟩ := recode4_u128_spec _ l1 b1
  obtain ⟨hz, hzs⟩ := ctlSign_xor hs0 hs1
  unfold gls254_mulgen
  simp only []
  rw [condneg_el hM _ hs0]
  rw [ladder_coeff el (el P.BASE) _
    (fun i => quarterDigits (recode4_u128 (scalar_split k).1) i
      + ctlSign ((scalar_split k).2.1 ^^^ (scalar_split k).2.2.2) * mu
        * quarterDigits (recode4_u128 (scalar_split k).2.2.1) i)
    (fun q i a hq => mulgen_step_el hM hT ok0 ok1 hz q i a hq) 7 _ _
    (mulgen_init_el hM hT ok0 ok1 hz)]
  rw [smul_smul]
  apply smul_mod_r hM _ _ _ m
  rw [← hm, ← v0, ← v1, ← sum_quarterDigits _ n0, ← sum_quarterDigits _ n1, ← hzs]
  generalize ctlSign (scalar_split k).2.1 = w
  generalize ctlSign ((scalar_split k).2.1 ^^^ (scalar_split k).2.2.2) = t
  rw [Finset.sum_range_succ _ 7, Finset.sum_range_succ _ 7]
  simp only [mul_add, Finset.sum_add_distrib]
  have e : ∀ n, ∑ i in Finset.range n, (16 : Int) ^ i
      * (t * mu * quarterDigits (recode4_u128 (scalar_split k).2.2.1) i)
      = t * mu * ∑ i in Finset.range n, (16 : Int) ^ i
        * quarterDigits (recode4_u128 (scalar_split k).2.2.1) i := by
    intro n
    rw [Finset.mul_sum]
    apply Finset.sum_congr rfl
    intro i _
    ring
  rw [e]
  ring

end

/-! ## The scalar API -/

theorem r_pos : 0 < r := by unfold r r0; norm_num

theorem scalar_add_spec (a b : List Byte) (ha : a.length = 32) (hb : b.length = 32) :
    (scalar_add a b).length = 32
      ∧ bytesVal (scalar_add a b) = (bytesVal a + bytesVal b) % r := by
  obtain ⟨la, na, va⟩ := i256_decode_spec a ha
  obtain ⟨lb, nb, vb⟩ := i256_decode_spec b hb
  obtain ⟨e, c, l, n⟩ := addcarry_limbs_spec _ _ 0 (by rw [na, nb]) la lb (by norm_num)
  rw [na] at e n
  obtain ⟨l1, n1, v1⟩ := modr_reduce256_partial_spec _ _ l n
    (lt_of_le_of_lt c (by norm_num))
  obtain ⟨l2, n2, v2⟩ := modr_reduce256_finish_spec _ l1 n1
  obtain ⟨v3, n3⟩ := i256_encode_spec _ l2 n2
  unfold scalar_add
  refine ⟨n3, ?_⟩
  rw [v3, v2, if_pos (by rw [v1]; exact Nat.mod_lt _ r_pos), v1, ← va, ← vb]
  have e2 : limbsVal (addcarry_limbs 0 (i256_decode a) (i256_decode b)).2
      + 2 ^ 256 * (addcarry_limbs 0 (i256_decode a) (i256_decode b)).1
      = limbsVal (i256_decode a) + limbsVal (i256_decode b) := by
    norm_num at e ⊢
    linarith
  rw [e2]

theorem scalar_mul_spec (a b : List Byte) (ha : a.length = 32) (hb : b.length = 32) :
    (scalar_mul a b).length = 32
      ∧ bytesVal (scalar_mul a b) = (bytesVal a * bytesVal b) % r := by
  obtain ⟨la, na, va⟩ := i256_decode_spec a ha
  obtain ⟨lb, nb, vb⟩ := i256_decode_spec b hb
  obtain ⟨l, n, v⟩ := modr_mul256x256_spec _ _ la lb na nb
  obtain ⟨v3, n3⟩ := i256_encode_spec _ l n
  unfold scalar_mul
  exact ⟨n3, by rw [v3, v, va, vb]⟩

theorem inject_chunks_spec (a : List Byte) (n : Nat) :
    ∀ t : List Nat, Limbs t → t.length = 8 → 16 * n ≤ a.length →
      Limbs (inject_chunks a n t) ∧ (inject_chunks a n t).length = 8
        ∧ limbsVal (inject_chunks a n t) % r
            = (bytesVal (a.take (16 * n)) + 256 ^ (16 * n) * limbsVal t) % r
        ∧ (1 ≤ n → limbsVal (inject_chunks a n t) < r) := by
  induction n with
  | zero =>
    intro t ht hl _
    refine ⟨ht, hl, ?_, fun h => absurd h (by norm_num)⟩
    simp [inject_chunks, bytesVal]
  | succ n ih =>
    intro t ht hl hn
    have hd : 4 * 4 ≤ (a.drop (16 * n)).length := by
      rw [List.length_drop]; omega
    obtain ⟨cl, cn, cv⟩ := decode_limbs_spec 4 (a.drop (16 * n)) hd
    have hL : Limbs (decode_limbs 4 (a.drop (16 * n)) ++ t) := limbs_append.2 ⟨cl, ht⟩
    have hN : (decode_limbs 4 (a.drop (16 * n)) ++ t).length = 12 := by
      rw [List.length_append, cn, hl]
    obtain ⟨l1, n1, v1⟩ := modr_reduce384_partial_spec _ hL hN
    obtain ⟨l2, n2, v2, b2⟩ := ih _ l1 n1 (by omega)
    have e : inject_chunks a (n + 1) t
        = inject_chunks a n ( modr_reduce384_partial
            (decode_limbs 4 (a.drop (16 * n)) ++ t)) := rfl
    rw [e]
    refine ⟨l2, n2, ?_, ?_⟩
    · rw [v2, v1, limbsVal_append, cn, cv]
      have ht : a.take (16 * (n + 1)) = a.take (16 * n) ++ (a.drop (16 * n)).take (4 * 4) := by
        rw [show 16 * (n + 1) = 16 * n + 4 * 4 by ring, List.take_add]
      have hlen : (a.take (16 * n)).length = 16 * n := by
        rw [List.length_take]; omega
      rw [ht, bytesVal_append, hlen]
      generalize bytesVal (a.take (16 * n)) = x
      generalize bytesVal ((a.drop (16 * n)).take (4 * 4)) = y
      generalize limbsVal t = z
      have hp : (256 : Nat) ^ (16 * (n + 1)) = 256 ^ (16 * n) * 2 ^ (32 * 4) := by
        rw [show 16 * (n + 1) = 16 * n + 16 by ring, pow_add]; norm_num
      rw [hp]
      generalize (256 : Nat) ^ (16 * n) = w
      have h1 : x + w * y + w * 2 ^ (32 * 4) * z = x + w * (y + 2 ^ (32 * 4) * z) := by ring
      rw [h1]
      conv_lhs => rw [Nat.add_mod, Nat.mul_mod, Nat.mod_mod]
      conv_rhs => rw [Nat.add_mod, Nat.mul_mod]
    · intro _
      rcases Nat.eq_zero_or_pos n with h0 | h0
      · subst h0
        show limbsVal ( modr_reduce384_partial _) < r
        rw [v1]; exact Nat.mod_lt _ r_pos
      · exact b2 h0

theorem bytesVal_take_add_drop (a : List Byte) (n : Nat) (h : n ≤ a.length) :
    bytesVal (a.take n) + 256 ^ n * bytesVal (a.drop n) = bytesVal a := by
  have := bytesVal_append (a.take n) (a.drop n)
  rw [List.take_append_drop, List.length_take, Nat.min_eq_left h] at this
  exact this.symm

/-- The state of `scalar_reduce` before its loop: the decoded top bytes `t`
represent the bytes above the offset `off` of the undecoded part. -/
theorem scalar_reduce_init (a : List Byte) (h : 32 ≤ a.length) :
    ∃ (t : List Nat) (off : Nat),
      (if a.length % 32 = 0 then
          ( modr_reduce256_partial (i256_decode (a.drop (a.length - 32))) 0,
            a.length - 32)
        else if a.length % 32 = 16 then
          (i256_decode (a.drop (a.length - 32)), a.length - 32)
        else
          (i256_decode
            ((a.drop (a.length - (if a.length % 32 < 16 then a.length % 32 + 16
                else a.length % 32))).take
              (if a.length % 32 < 16 then a.length % 32 + 16 else a.length % 32)
              ++ List.replicate
                (32 - (if a.length % 32 < 16 then a.length % 32 + 16
                  else a.length % 32)) 0),
            a.length - (if a.length % 32 < 16 then a.length % 32 + 16
              else a.length % 32))) = (t, off)
      ∧ Limbs t ∧ t.length = 8 ∧ off % 16 = 0 ∧ off ≤ a.length
      ∧ limbsVal t % r = bytesVal (a.drop off) % r
      ∧ (off = 0 → limbsVal t < r) := by
  by_cases h0 : a.length % 32 = 0
  · rw [if_pos h0]
    have hl : (a.drop (a.length - 32)).length = 32 := by rw [List.length_drop]; omega
    obtain ⟨l, n, v⟩ := i256_decode_spec _ hl
    obtain ⟨l1, n1, v1⟩ := modr_reduce256_partial_spec _ 0 l n (by norm_num)
    rw [Nat.mul_zero, Nat.add_zero, v] at v1
    refine ⟨_, _, rfl, l1, n1, by omega, by omega, by rw [v1, Nat.mod_mod], ?_⟩
    intro _
    rw [v1]; exact Nat.mod_lt _ r_pos
  · rw [if_neg h0]
    by_cases h16 : a.length % 32 = 16
    · rw [if_pos h16]
      have hl : (a.drop (a.length - 32)).length = 32 := by rw [List.length_drop]; omega
      obtain ⟨l, n, v⟩ := i256_decode_spec _ hl
      exact ⟨_, _, rfl, l, n, by omega, by omega, by rw [v], fun h => by omega⟩
    · rw [if_neg h16]
      generalize hk : (if a.length % 32 < 16 then a.length % 32 + 16
        else a.length % 32) = k
      have hk1 : 17 ≤ k ∧ k ≤ 31 ∧ (a.length - k) % 16 = 0 ∧ k ≤ a.length := by
        split at hk <;> omega
      have hd : (a.drop (a.length - k)).length = k := by rw [List.length_drop]; omega
      have ht : (a.drop (a.length - k)).take k = a.drop (a.length - k) :=
        List.take_of_length_le (by omega)
      rw [ht]
      have hl : (a.drop (a.length - k) ++ List.replicate (32 - k) (0 : Byte)).length = 32 := by
        rw [List.length_append, hd, List.length_replicate]; omega
      obtain ⟨l, n, v⟩ := i256_decode_spec _ hl
      rw [bytesVal_append, bytesVal_replicate_zero, Nat.mul_zero, Nat.add_zero] at v
      exact ⟨_, _, rfl, l, n, hk1.2.2.1, by omega, by rw [v], fun h => by omega⟩

theorem scalar_reduce_spec (a : List Byte) :
    (scalar_reduce a).length = 32 ∧ bytesVal (scalar_reduce a) = bytesVal a % r := by
  unfold scalar_reduce
  simp only []
  by_cases h : a.length < 32
  · rw [if_pos h]
    refine ⟨by rw [List.length_append, List.length_replicate]; omega, ?_⟩
    rw [bytesVal_append, bytesVal_replicate_zero, Nat.mul_zero, Nat.add_zero]
    symm
    apply Nat.mod_eq_of_lt
    have h1 := bytesVal_lt a
    have h2 : (256 : Nat) ^ a.length ≤ 256 ^ 31 :=
      Nat.pow_le_pow_right (by norm_num) (by omega)
    have h3 : (256 : Nat) ^ 31 < r := by unfold r r0; norm_num
    omega
  · rw [if_neg h]
    obtain ⟨t, off, e, tl, tn, ho, hle, tv, tz⟩ := scalar_reduce_init a (by omega)
    rw [e]
    simp only []
    obtain ⟨q, rfl⟩ : ∃ q, off = 16 * q := ⟨off / 16, by omega⟩
    rw [Nat.mul_div_cancel_left _ (by norm_num : 0 < 16)]
    obtain ⟨l1, n1, v1, b1⟩ := inject_chunks_spec a q t tl tn hle
    have hlt : limbsVal (inject_chunks a q t) < r := by
      rcases Nat.eq_zero_or_pos q with h0 | h0
      · subst h0
        exact tz rfl
      · exact b1 h0
    obtain ⟨l2, n2, v2⟩ := modr_reduce256_finish_spec _ l1 n1
    obtain ⟨v3, n3⟩ := i256_encode_spec _ l2 n2
    refine ⟨n3, ?_⟩
    rw [v3, v2, if_pos hlt, ← Nat.mod_eq_of_lt hlt, v1,
      ← bytesVal_take_add_drop a (16 * q) hle]
    conv_lhs => rw [Nat.add_mod, Nat.mul_mod, tv, ← Nat.mul_mod, ← Nat.add_mod]

theorem scalar_reduce_eq_encode (k : List Byte) (hk : k.length = 32) :
    scalar_reduce k
      = i256_encode (modr_reduce256_finish ( modr_reduce256_partial (i256_decode k) 0)) := by
  unfold scalar_reduce
  simp [hk, inject_chunks]

theorem reduced_idem (k : List Byte) (hk : k.length = 32) :
    modr_reduce256_finish ( modr_reduce256_partial (i256_decode (scalar_reduce k)) 0)
      = modr_reduce256_finish ( modr_reduce256_partial (i256_decode k) 0) := by
  obtain ⟨l, n, v⟩ := reduced_spec k hk
  obtain ⟨n2, v2⟩ := scalar_reduce_spec k
  obtain ⟨l3, n3, v3⟩ := reduced_spec (scalar_reduce k) n2
  apply limbsVal_inj _ _ (by rw [n3, n]) l3 l
  rw [v3, v2, v, Nat.mod_mod]

theorem scalar_split_reduce (k : List Byte) (hk : k.length = 32) :
    scalar_split (scalar_reduce k) = scalar_split k := by
  unfold scalar_split
  simp only []
  rw [reduced_idem k hk]

/-! ## Keys, signatures and key exchange -/

theorem scalar_is_reduced_spec (a : List Byte) (ha : a.length = 32) :
    scalar_is_reduced a = if bytesVal a < r then 1 else 0 := by
  obtain ⟨l, n, v⟩ := i256_decode_spec a ha
  obtain ⟨e, c, sl, sn⟩ := subborrow_limbs_spec (i256_decode a) (R0 ++ [0, 0, 0, R_top]) 0
    (by rw [n]; rfl) l limbs_R_full (by norm_num)
  rw [limbsVal_R_full, n, v] at e
  have hb := limbsVal_lt sl
  rw [sn, n] at hb
  have hA := bytesVal_lt a
  rw [ha] at hA
  unfold scalar_is_reduced
  generalize (subborrow_limbs 0 (i256_decode a) (R0 ++ [0, 0, 0, R_top])) = s at e c hb
  have hr : r < 2 ^ 256 := by unfold r r0; norm_num
  have hc := Nat.le_one_iff_eq_zero_or_eq_one.1 c
  norm_num at e hb hA hr
  split <;> omega

theorem foldl_or_zero (a : List Nat) (h : ∀ x ∈ a, x = 0) :
    a.foldl (fun x y => x ||| y) 0 = 0 := by
  induction a with
  | nil => rfl
  | cons x xs ih =>
    have hx : x = 0 := h x (List.mem_cons_self _ _)
    subst hx
    simp only [List.foldl_cons, Nat.zero_or]
    exact ih (fun y hy => h y (List.mem_cons_of_mem _ hy))

theorem limbs_zero_of_val (a : List Nat) (h : limbsVal a = 0) : ∀ x ∈ a, x = 0 := by
  induction a with
  | nil => intro x hx; cases hx
  | cons y ys ih =>
    simp only [limbsVal] at h
    have h1 : y = 0 := by omega
    have h2 : limbsVal ys = 0 := by omega
    intro x hx
    rcases List.mem_cons.1 hx with rfl | hx
    · exact h1
    · exact ih h2 x hx

theorem scalar_is_zero_of_val (a : List Byte) (ha : a.length = 32)
    (h : bytesVal a = 0) : scalar_is_zero a = 1 := by
  obtain ⟨l, n, v⟩ := i256_decode_spec a ha
  unfold scalar_is_zero i256_is_zero
  rw [if_pos (foldl_or_zero _ (limbs_zero_of_val _ (by rw [v, h])))]

section
variable {Pt PtA : Type} (P : Prims Pt PtA)

/-- A successful `gls254_decode_private` stores the source scalar, which is
in the range `1..r-1`, and the public key computed from it. -/
theorem decode_private_ok (src : List Byte) (hs : src.length = 32)
    (h : (gls254_decode_private P src).1 = 1) :
    0 < bytesVal src ∧ bytesVal src < r
      ∧ (gls254_decode_private P src).2.sec = src
      ∧ (gls254_decode_private P src).2.pub.pp = gls254_mulgen P src
      ∧ (gls254_decode_private P src).2.pub.enc = P.encode (gls254_mulgen P src) := by
  have ht : src.take 32 = src := List.take_of_length_le (by omega)
  unfold gls254_decode_private at h ⊢
  by_cases hc : scalar_is_reduced src = 0 ∨ scalar_is_zero src ≠ 0
  · rw [if_pos hc] at h
    simp at h
  · rw [if_neg hc]
    simp only [ht]
    refine ⟨?_, ?_, trivial, trivial, trivial⟩
    · rcases Nat.eq_zero_or_pos (bytesVal src) with h0 | h0
      · exact absurd (Or.inr (by rw [scalar_is_zero_of_val src hs h0]; norm_num)) hc
      · exact h0
    · by_contra hlt
      apply hc
      left
      rw [scalar_is_reduced_spec src hs, if_neg hlt]

end

theorem lookup_sign_digit :
    ∀ k : Int, -8 ≤ k → k ≤ 8 →
      int8_of_u32 ((2 ^ 32 + u32_of_int k - (0 &&& ((u32_of_int k <<< 1) % 2 ^ 32))) % 2 ^ 32)
          = k
        ∧ int8_of_u32 ((2 ^ 32 + u32_of_int k
            - (0xFFFFFFFF &&& ((u32_of_int k <<< 1) % 2 ^ 32))) % 2 ^ 32) = -k := by
  intro k h1 h2
  interval_cases k <;> decide

section
variable {Pt PtA G : Type} [AddCommGroup G]
variable {P : Prims Pt PtA} {el : Pt → G} {ela : PtA → G}

theorem lookup_sign_el (hM : GroupModel P el ela) {win : Window PtA} {Q X : G}
    {w : Int} (hw : IsWindow ela win Q) (hQ : Q = w • X) {ds : List Int}
    (hd : DigitsOk ds) (i : Nat) {sk : Nat} (hc : sk = 0 ∨ sk = 0xFFFFFFFF) :
    ela (gls254_lookup8_affine_sign P win (ds.getD i 0) sk)
      = (ctlSign sk * (ds.getD i 0 * w)) • X := by
  obtain ⟨h1, h2⟩ := digitsOk_getD hd i
  obtain ⟨e0, e1⟩ := lookup_sign_digit _ h1 h2
  unfold gls254_lookup8_affine_sign
  simp only []
  rcases hc with rfl | rfl
  · rw [e0, hM.lookup win Q _ hw h1 h2, hQ, smul_smul, ctlSign_zero, one_mul]
  · rw [e1, hM.lookup win Q _ hw (by omega) (by omega), hQ, smul_smul, ctlSign_ones]
    congr 1
    ring

theorem verify_add_el (hM : GroupModel P el ela) (hP : ProtocolModel P el ela)
    {X : G} {R : Pt} {pa qa : PtA} (k0 k1 : Int) {a x y : Int}
    (hR : el R = a • X) (hp : ela pa = x • X) (hq : ela qa = y • X)
    (h0 : k0 = 0 → x = 0) (h1 : k1 = 0 → y = 0) :
    el (verify_add P R k0 k1 pa qa) = (a + (x + y)) • X := by
  unfold verify_add
  by_cases c0 : k0 = 0
  · by_cases c1 : k1 = 0
    · rw [if_neg (by simp [c0]), if_neg (by simp [c0]), if_neg (by simp [c1]), hR,
        h0 c0, h1 c1]
      simp
    · rw [if_neg (by simp [c0]), if_neg (by simp [c0]), if_pos c1, hP.add_affine, hR, hq,
        h0 c0, ← add_smul]
      simp
  · by_cases c1 : k1 = 0
    · rw [if_neg (by simp [c1]), if_pos c0, hP.add_affine, hR, hp, h1 c1, ← add_smul]
      simp
    · rw [if_pos ⟨c0, c1⟩, hM.add, hM.add_affine_affine, hR, hp, hq, ← add_smul, ← add_smul]

/-- The body of the loop of `gls254_verify_vartime`. -/
theorem verify_step_el (hM : GroupModel P el ela) (hP : ProtocolModel P el ela)
    {X : G} {W B0 B64 : Window PtA} {wn c0 c2 : Int}
    (hw : IsWindow ela W (wn • X)) (w0 : IsWindow ela B0 (c0 • X))
    (w2 : IsWindow ela B64 (c2 • X))
    {sd0 sd1 sd2 sd3 : List Int} (h0 : DigitsOk sd0) (h1 : DigitsOk sd1)
    (h2 : DigitsOk sd2) (h3 : DigitsOk sd3) {t0 t1 : Nat}
    (ht0 : t0 = 0 ∨ t0 = 0xFFFFFFFF) (ht1 : t1 = 0 ∨ t1 = 0xFFFFFFFF)
    (q : Pt) (i : Nat) (a : Int) (hq : el q = a • X) :
    el (verify_add P
        (verify_add P
          (verify_add P (P.xdouble q 4) (sd0.getD i 0) (sd1.getD i 0)
            (P.lookup8_affine W (sd0.getD i 0))
            (gls254_lookup8_affine_zeta P W (sd1.getD i 0) 0))
          (sd2.getD i 0) (sd2.getD (i + 16) 0)
          (gls254_lookup8_affine_sign P B0 (sd2.getD i 0) t0)
          (gls254_lookup8_affine_sign P B64 (sd2.getD (i + 16) 0) t0))
        (sd3.getD i 0) (sd3.getD (i + 16) 0)
        (gls254_lookup8_affine_zeta P B0 (sd3.getD i 0) t1)
        (gls254_lookup8_affine_zeta P B64 (sd3.getD (i + 16) 0) t1))
      = (16 * a
          + ((sd0.getD i 0 + mu * sd1.getD i 0) * wn
            + ctlSign t0 * (sd2.getD i 0 * c0 + sd2.getD (i + 16) 0 * c2)
            + ctlSign t1 * mu * (sd3.getD i 0 * c0 + sd3.getD (i + 16) 0 * c2))) • X := by
  have z0 : (0 : Nat) = 0 ∨ (0 : Nat) = 0xFFFFFFFF := Or.inl rfl
  have e1 := verify_add_el hM hP (sd0.getD i 0) (sd1.getD i 0)
    (xdouble4_el hM hq) (lookup_el hM hw rfl h0 i) (lookup_zeta_el hM hw rfl h1 i z0)
    (fun h => by rw [h, zero_mul]) (fun h => by rw [h, zero_mul, mul_zero])
  have e2 := verify_add_el hM hP (sd2.getD i 0) (sd2.getD (i + 16) 0) e1
    (lookup_sign_el hM w0 rfl h2 i ht0) (lookup_sign_el hM w2 rfl h2 (i + 16) ht0)
    (fun h => by rw [h, zero_mul, mul_zero]) (fun h => by rw [h, zero_mul, mul_zero])
  have e3 := verify_add_el hM hP (sd3.getD i 0) (sd3.getD (i + 16) 0) e2
    (lookup_zeta_el hM w0 rfl h3 i ht1) (lookup_zeta_el hM w2 rfl h3 (i + 16) ht1)
    (fun h => by rw [h, zero_mul, mul_zero]) (fun h => by rw [h, zero_mul, mul_zero])
  rw [e3]
  congr 1
  rw [ctlSign_zero]
  ring

/-- The initial value of the accumulator of `gls254_verify_vartime`. -/
theorem verify_init_el (hM : GroupModel P el ela) (hP : ProtocolModel P el ela)
    {X : G} {Pn : Pt} {wn : Int} (hn : el Pn = wn • X)
    {cc0 cc1 : Nat} (hc0 : cc0 ≤ 1) (hc1 : cc1 ≤ 1) :
    el (if cc0 ≠ 0 ∧ cc1 ≠ 0 then
          P.add_affine_affine (P.make_window_affine_8 Pn 0)
            (P.zeta_affine (P.make_window_affine_8 Pn 0) 0)
        else if cc0 ≠ 0 then Pn
        else if cc1 ≠ 0 then P.from_affine (P.zeta_affine (P.make_window_affine_8 Pn 0) 0)
        else P.NEUTRAL)
      = (((cc0 : Int) + mu * cc1) * wn) • X := by
  have hw := hM.make_window Pn 0
  simp only [Fin.val_zero, zero_add, one_smul] at hw
  have hz := (hM.zeta (P.make_window_affine_8 Pn 0) 0).1 rfl
  rw [hw, hn, ← natCast_zsmul, smul_smul] at hz
  rw [hn] at hw
  rcases Nat.le_one_iff_eq_zero_or_eq_one.1 hc0 with rfl | rfl <;>
    rcases Nat.le_one_iff_eq_zero_or_eq_one.1 hc1 with rfl | rfl
  · simp [hP.neutral]
  · simp [hP.from_affine, hz]
  · simp [hn]
  · simp [hM.add_affine_affine, hw, hz, add_smul, add_mul]

end

theorem sum_halfDigits (sd : List Int) (h : sd.length = 32) :
    ∑ i in Finset.range 16, (16 : Int) ^ i * halfDigits sd i = digitsVal sd := by
  rw [← digitsVal_eq_sum sd 32 h, sum_halves]
  rfl

theorem sum_lin4 (f1 f2 f3 f4 : Nat → Int) (a1 a2 a3 a4 : Int) (n : Nat) :
    ∑ i in Finset.range n, (16 : Int) ^ i * (a1 * f1 i + a2 * f2 i + a3 * f3 i + a4 * f4 i)
      = a1 * ∑ i in Finset.range n, (16 : Int) ^ i * f1 i
        + a2 * ∑ i in Finset.range n, (16 : Int) ^ i * f2 i
        + a3 * ∑ i in Finset.range n, (16 : Int) ^ i * f3 i
        + a4 * ∑ i in Finset.range n, (16 : Int) ^ i * f4 i := by
  simp only [Finset.mul_sum, ← Finset.sum_add_distrib]
  apply Finset.sum_congr rfl
  intro i _
  ring

section
variable {Pt PtA G : Type} [AddCommGroup G]
variable {P : Prims Pt PtA} {el : Pt → G} {ela : PtA → G}

theorem smul_congr_r (hM : GroupModel P el ela) (g : G) (z1 z2 m : Int)
    (h : z1 = z2 + (r : Int) * m) : z1 • g = z2 • g := by
  rw [h, add_smul, mul_comm, mul_smul, natCast_zsmul, hM.order, smul_zero, add_zero]

/-- The point recomputed by the verification ladder. -/
theorem verify_ladder_el (hM : GroupModel P el ela) (hT : TableModel P el ela)
    (hP : ProtocolModel P el ela) (pk : PublicKey Pt) (sig : List Byte) (s : Int)
    (hpk : el pk.pp = s • el P.BASE) (hl : sig.length = 48) :
    el (verify_ladder P pk sig)
      = ((bytesVal (sig.drop 16) % r : Nat)
          - s * ((bytesVal (sig.take 8) : Int)
            + mu * (bytesVal ((sig.drop 8).take 8) : Int))) • el P.BASE := by
  have h32 : (sig.drop 16).length = 32 := by rw [List.length_drop]; omega
  obtain ⟨l0, l1, b0, b1, hs0, hs1, m, hm⟩ := scalar_split_facts (sig.drop 16) h32
  obtain ⟨n2, ok2, v2⟩ := recode4_u128_spec _ l0 b0
  obtain ⟨n3, ok3, v3⟩ := recode4_u128_spec _ l1 b1
  obtain ⟨n0, ok0, c0, v0⟩ := recode4_u64_spec sig (by omega)
  obtain ⟨n1, ok1, c1, v1⟩ := recode4_u64_spec (sig.drop 8) (by rw [List.length_drop]; omega)
  obtain ⟨w0, -, w64, -⟩ := table_windows hT
  have hn : el (P.neg pk.pp) = (-s) • el P.BASE := by rw [hP.neg, hpk, neg_smul]
  have hw := hM.make_window (P.neg pk.pp)
  rw [hn] at hw
  unfold verify_ladder
  simp only []
  rw [ladder_coeff el (el P.BASE) _
    (fun i => ((recode4_u64 sig).1.getD i 0 + mu * (recode4_u64 (sig.drop 8)).1.getD i 0) * (-s)
      + ctlSign (scalar_split (sig.drop 16)).2.1
        * ((recode4_u128 (scalar_split (sig.drop 16)).1).getD i 0 * 1
          + (recode4_u128 (scalar_split (sig.drop 16)).1).getD (i + 16) 0 * 2 ^ 64)
      + ctlSign (scalar_split (sig.drop 16)).2.2.2 * mu
        * ((recode4_u128 (scalar_split (sig.drop 16)).2.2.1).getD i 0 * 1
          + (recode4_u128 (scalar_split (sig.drop 16)).2.2.1).getD (i + 16) 0 * 2 ^ 64))
    (fun q i a hq => verify_step_el hM hP hw w0 w64 ok0 ok1 ok2 ok3 hs0 hs1 q i a hq) 16 _ _
    (verify_init_el hM hP hn c0 c1)]
  apply smul_congr_r hM _ _ _ m
  have e := sum_lin4 (fun i => (recode4_u64 sig).1.getD i 0)
    (fun i => (recode4_u64 (sig.drop 8)).1.getD i 0)
    (fun i => halfDigits (recode4_u128 (scalar_split (sig.drop 16)).1) i)
    (fun i => halfDigits (recode4_u128 (scalar_split (sig.drop 16)).2.2.1) i)
    (-s) (mu * (-s)) (ctlSign (scalar_split (sig.drop 16)).2.1)
    (ctlSign (scalar_split (sig.drop 16)).2.2.2 * mu) 16
  rw [sum_halfDigits _ n2, sum_halfDigits _ n3, digitsVal_eq_sum _ 16 n0,
    digitsVal_eq_sum _ 16 n1, v2, v3] at e
  have e' : ∑ i in Finset.range 16, (16 : Int) ^ i
      * (((recode4_u64 sig).1.getD i 0 + mu * (recode4_u64 (sig.drop 8)).1.getD i 0) * (-s)
      + ctlSign (scalar_split (sig.drop 16)).2.1
        * ((recode4_u128 (scalar_split (sig.drop 16)).1).getD i 0 * 1
          + (recode4_u128 (scalar_split (sig.drop 16)).1).getD (i + 16) 0 * 2 ^ 64)
      + ctlSign (scalar_split (sig.drop 16)).2.2.2 * mu
        * ((recode4_u128 (scalar_split (sig.drop 16)).2.2.1).getD i 0 * 1
          + (recode4_u128 (scalar_split (sig.drop 16)).2.2.1).getD (i + 16) 0 * 2 ^ 64))
      = ∑ i in Finset.range 16, (16 : Int) ^ i
        * (-s * (recode4_u64 sig).1.getD i 0
          + mu * (-s) * (recode4_u64 (sig.drop 8)).1.getD i 0
          + ctlSign (scalar_split (sig.drop 16)).2.1
            * halfDigits (recode4_u128 (scalar_split (sig.drop 16)).1) i
          + ctlSign (scalar_split (sig.drop 16)).2.2.2 * mu
            * halfDigits (recode4_u128 (scalar_split (sig.drop 16)).2.2.1) i) := by
    apply Finset.sum_congr rfl
    intro i _
    unfold halfDigits
    ring
  rw [e', e]
  linear_combination hm - s * v0 - s * mu * v1

end

theorem bytesVal_MU : bytesVal MU = mu := by decide

theorem MU_length : MU.length = 32 := rfl

/-- The scalar part of a signature: `(c0 + c1*mu) * sec + k` modulo `r`. -/
theorem sign_scalar_spec (cb sec k : List Byte) (hsec : sec.length = 32)
    (hk : k.length = 32) :
    (scalar_add (scalar_mul (scalar_add (scalar_reduce (cb.take 8))
        (scalar_mul (scalar_reduce ((cb.drop 8).take 8)) MU)) sec) k).length = 32
      ∧ bytesVal (scalar_add (scalar_mul (scalar_add (scalar_reduce (cb.take 8))
          (scalar_mul (scalar_reduce ((cb.drop 8).take 8)) MU)) sec) k)
        = ((bytesVal (cb.take 8) % r + bytesVal ((cb.drop 8).take 8) % r * mu % r) % r
            * bytesVal sec % r + bytesVal k) % r := by
  obtain ⟨n1, v1⟩ := scalar_reduce_spec (cb.take 8)
  obtain ⟨n2, v2⟩ := scalar_reduce_spec ((cb.drop 8).take 8)
  obtain ⟨n3, v3⟩ := scalar_mul_spec _ MU n2 MU_length
  obtain ⟨n4, v4⟩ := scalar_add_spec _ _ n1 n3
  obtain ⟨n5, v5⟩ := scalar_mul_spec _ sec n4 hsec
  obtain ⟨n6, v6⟩ := scalar_add_spec _ k n5 hk
  exact ⟨n6, by rw [v6, v5, v4, v3, v2, v1, bytesVal_MU]⟩

section
variable {Pt PtA G : Type} [AddCommGroup G]
variable {P : Prims Pt PtA} {el : Pt → G} {ela : PtA → G}

theorem smul_eq_of_zmod (hM : GroupModel P el ela) (g : G) (z1 z2 : Int)
    (h : (z1 : ZMod r) = (z2 : ZMod r)) : z1 • g = z2 • g := by
  obtain ⟨m, hm⟩ := (ZMod.intCast_eq_intCast_iff_dvd_sub z1 z2 r).1 h
  have e : z2 = z1 + (r : Int) * m := by linarith
  exact (smul_congr_r hM g z2 z1 m e).symm

end

theorem byte_select_zero (a b : Byte) :
    (Fin.ofNat (a.val ^^^ (0 &&& (a.val ^^^ b.val))) : Byte) = a := by
  apply Fin.ext
  simp only [Fin.ofNat, Nat.zero_and, Nat.xor_zero]
  exact Nat.mod_eq_of_lt a.isLt

theorem byte_xor_lt (a b : Byte) : a.val ^^^ b.val < 2 ^ 32 := by
  have h : a.val ^^^ b.val < 2 ^ 8 := Nat.xor_lt_two_pow a.isLt b.isLt
  exact lt_of_lt_of_le h (by norm_num)

theorem byte_select_ones_fst (a b : Byte) :
    (Fin.ofNat (a.val ^^^ (0xFFFFFFFF &&& (a.val ^^^ b.val))) : Byte) = b := by
  apply Fin.ext
  simp only [Fin.ofNat]
  rw [ones_and (byte_xor_lt a b), ← Nat.xor_assoc, Nat.xor_self, Nat.zero_xor]
  exact Nat.mod_eq_of_lt b.isLt

theorem byte_select_ones_snd (a b : Byte) :
    (Fin.ofNat (b.val ^^^ (0xFFFFFFFF &&& (a.val ^^^ b.val))) : Byte) = a := by
  apply Fin.ext
  simp only [Fin.ofNat]
  rw [ones_and (byte_xor_lt a b), Nat.xor_comm a.val, ← Nat.xor_assoc, Nat.xor_self,
    Nat.zero_xor]
  exact Nat.mod_eq_of_lt a.isLt

theorem zipWith_fst (xs : List Byte) :
    ∀ ys : List Byte, xs.length = ys.length → List.zipWith (fun a _ => a) xs ys = xs := by
  induction xs with
  | nil => intro ys _; simp
  | cons x xs ih =>
    intro ys h
    cases ys with
    | nil => simp at h
    | cons y ys => rw [List.zipWith_cons_cons, ih ys (by simpa using h)]

theorem zipWith_snd (xs : List Byte) :
    ∀ ys : List Byte, xs.length = ys.length → List.zipWith (fun _ b => b) xs ys = ys := by
  induction xs with
  | nil =>
    intro ys h
    cases ys with
    | nil => rfl
    | cons y ys => simp at h
  | cons x xs ih =>
    intro ys h
    cases ys with
    | nil => simp at h
    | cons y ys => rw [List.zipWith_cons_cons, ih ys (by simpa using h)]

theorem ecdh_cmp_spec (xs : List Byte) :
    ∀ (ys : List Byte) (cc : Nat), xs.length = ys.length → cc ≤ 1 →
      ecdh_cmp xs ys cc = if bytesVal xs < bytesVal ys + cc then 1 else 0 := by
  induction xs with
  | nil =>
    intro ys cc h hc
    cases ys with
    | nil =>
      simp only [ecdh_cmp, bytesVal]
      split <;> omega
    | cons y ys => simp at h
  | cons x xs ih =>
    intro ys cc h hc
    cases ys with
    | nil => simp at h
    | cons y ys =>
      have hx := x.isLt
      have hy := y.isLt
      have hstep : ((2 ^ 32 + 2 ^ 32 + x.val - y.val - cc) % 2 ^ 32) >>> 31
          = if x.val < y.val + cc then 1 else 0 := by
        rw [Nat.shiftRight_eq_div_pow]
        norm_num
        split <;> omega
      simp only [ecdh_cmp, bytesVal]
      rw [hstep, ih ys _ (by simpa using h) (by split <;> omega)]
      by_cases hlt : x.val < y.val + cc
      · rw [if_pos hlt]
        by_cases h2 : bytesVal xs < bytesVal ys + 1
        · rw [if_pos h2, if_pos (by omega)]
        · rw [if_neg h2, if_neg (by omega)]
      · rw [if_neg hlt]
        by_cases h2 : bytesVal xs < bytesVal ys + 0
        · rw [if_pos h2, if_pos (by omega)]
        · rw [if_neg h2, if_neg (by omega)]

/-- The two encodings in the order in which `gls254_ECDH` hashes them. -/
theorem ecdh_order (A B : List Byte) (hA : A.length = 32) (hB : B.length = 32) :
    List.zipWith (fun (a b : Byte) =>
        (Fin.ofNat (a.val ^^^ ((2 ^ 32 + ecdh_cmp (A.take 32).reverse (B.take 32).reverse 0 - 1)
          % 2 ^ 32 &&& (a.val ^^^ b.val))) : Byte)) (A.take 32) (B.take 32)
      ++ List.zipWith (fun (a b : Byte) =>
        (Fin.ofNat (b.val ^^^ ((2 ^ 32 + ecdh_cmp (A.take 32).reverse (B.take 32).reverse 0 - 1)
          % 2 ^ 32 &&& (a.val ^^^ b.val))) : Byte)) (A.take 32) (B.take 32)
      = if bytesVal A.reverse < bytesVal B.reverse then A ++ B else B ++ A := by
  have hA' : A.take 32 = A := List.take_of_length_le (by omega)
  have hB' : B.take 32 = B := List.take_of_length_le (by omega)
  rw [hA', hB', ecdh_cmp_spec _ _ 0 (by simp [hA, hB]) (by norm_num)]
  simp only [Nat.add_zero]
  by_cases h : bytesVal A.reverse < bytesVal B.reverse
  · rw [if_pos h, if_pos h]
    have e : (2 ^ 32 + 1 - 1) % 2 ^ 32 = 0 := by norm_num
    simp only [e, byte_select_zero]
    have e2 : ∀ a b : Byte, (Fin.ofNat (b.val ^^^ (0 &&& (a.val ^^^ b.val))) : Byte) = b := by
      intro a b
      apply Fin.ext
      simp only [Fin.ofNat, Nat.zero_and, Nat.xor_zero]
      exact Nat.mod_eq_of_lt b.isLt
    simp only [e2]
    rw [zipWith_fst A B (by rw [hA, hB]), zipWith_snd A B (by rw [hA, hB])]
  · rw [if_neg h, if_neg h]
    have e : (2 ^ 32 + 0 - 1) % 2 ^ 32 = 0xFFFFFFFF := by norm_num
    simp only [e, byte_select_ones_fst, byte_select_ones_snd]
    rw [zipWith_fst A B (by rw [hA, hB]), zipWith_snd A B (by rw [hA, hB])]

theorem ecdh_order_symm (A B : List Byte) (hA : A.length = 32) (hB : B.length = 32) :
    (if bytesVal A.reverse < bytesVal B.reverse then A ++ B else B ++ A)
      = (if bytesVal B.reverse < bytesVal A.reverse then B ++ A else A ++ B) := by
  by_cases h1 : bytesVal A.reverse < bytesVal B.reverse
  · rw [if_pos h1, if_neg (by omega)]
  · by_cases h2 : bytesVal B.reverse < bytesVal A.reverse
    · rw [if_neg h1, if_pos h2]
    · have e : bytesVal A.reverse = bytesVal B.reverse := by omega
      have e2 : A.reverse = B.reverse :=
        bytesVal_inj _ _ (by simp [hA, hB]) e
      have e3 : A = B := List.reverse_injective e2
      rw [if_neg h1, if_neg h2, e3]

section
variable {Pt PtA G : Type} [AddCommGroup G]
variable {P : Prims Pt PtA} {el : Pt → G} {ela : PtA → G}

/-- `gls254_ECDH` with a valid peer key. -/
theorem ecdh_valid (hP : ProtocolModel P el ela) (sk : PrivateKey Pt)
    (pk : PublicKey Pt) (hpk : el pk.pp ≠ 0) (hsec : sk.sec.length = 32)
    (h1 : sk.pub.enc.length = 32) (h2 : pk.enc.length = 32) :
    gls254_ECDH P sk pk
      = (1, P.blake2s ((if bytesVal sk.pub.enc.reverse < bytesVal pk.enc.reverse
            then sk.pub.enc ++ pk.enc else pk.enc ++ sk.pub.enc)
          ++ [0x53] ++ P.encode (gls254_mul P pk.pp sk.sec))) := by
  unfold gls254_ECDH
  simp only []
  rw [(hP.isneutral pk.pp).2 hpk, ecdh_order _ _ h1 h2]
  simp only [byte_select_zero]
  rw [zipWith_fst _ _ (by rw [hP.encode_length, hsec])]
  rfl

end

/-! ## The model on the integers modulo r -/

theorem zmod_groupModel :
    GroupModel zmodPrims (fun p : ZMod r => p) (fun a : ZMod r => a) where
  order := fun g => by rw [nsmul_eq_mul, ZMod.natCast_self, zero_mul]
  condneg := fun p ctl => ⟨fun h => by simp [zmodPrims, h],
    fun h => by simp [zmodPrims, h]⟩
  make_window := fun p i => rfl
  lookup := fun win Q d hw _ _ => by
    have h0 := hw 0
    simp only [Fin.val_zero, zero_add, one_smul] at h0
    simp only [zmodPrims, h0]
  zeta := fun a zn => ⟨fun h => by simp [zmodPrims, h], fun h => by simp [zmodPrims, h]⟩
  xdouble4 := fun p => by simp only [zmodPrims]; norm_num
  add := fun p q => rfl
  add_affine_affine := fun a b => rfl

theorem zmod_tableModel :
    TableModel zmodPrims (fun p : ZMod r => p) (fun a : ZMod r => a) where
  b0 := fun _ => rfl
  b32 := fun _ => rfl
  b64 := fun _ => rfl
  b96 := fun _ => rfl

theorem encode_nat32_length (n : Nat) : (encode_nat32 n).length = 32 := by
  simp [encode_nat32]

theorem zmod_protocolModel :
    ProtocolModel zmodPrims (fun p : ZMod r => p) (fun a : ZMod r => a) where
  neutral := rfl
  base_order := fun n h => by
    simp only [zmodPrims, nsmul_eq_mul, mul_one] at h
    exact (ZMod.natCast_zmod_eq_zero_iff_dvd n r).1 h
  isneutral := fun p => ⟨fun h => by simp [zmodPrims, h], fun h => by simp [zmodPrims, h]⟩
  neg := fun p => rfl
  add_affine := fun p a => rfl
  from_affine := fun a => rfl
  encode_canonical := fun p q h => by
    have h' : p = q := h
    rw [h']
  encode_length := fun p => encode_nat32_length _
  blake2s_length := fun m => by
    simp only [zmodPrims, List.length_take, List.length_append, List.length_replicate]
    omega

theorem scalar_one_length : scalar_one.length = 32 := rfl

theorem scalar_two_length : scalar_two.length = 32 := rfl

theorem scalar_max_length : scalar_max.length = 32 := rfl

theorem decode_private_one : (gls254_decode_private zmodPrims scalar_one).1 = 1 := by
  decide

theorem decode_private_two : (gls254_decode_private zmodPrims scalar_two).1 = 1 := by
  decide

/-- The truncated subtractions of `split_mu` are exact on signed 128-bit
integers. -/
theorem split_mu_exact (t : List Nat) (tl : Limbs t) (tn : t.length = 8)
    (hkr : limbsVal t < r) :
    signed128 (split_mu t).1
        = (limbsVal t : Int)
          - (limbsVal (mul_divr_rounded t vES) : Int) * limbsVal vES
          - (limbsVal (mul_divr_rounded t vET) : Int) * limbsVal vET
      ∧ signed128 (split_mu t).2
        = (limbsVal (mul_divr_rounded t vES) : Int) * limbsVal vET
          - (limbsVal (mul_divr_rounded t vET) : Int) * limbsVal vES := by
  have hT : limbsVal vET < 2 ^ 127 - 2 := by rw [limbsVal_vET]; norm_num
  have hS : limbsVal vES < 2 ^ 127 - 2 := by rw [limbsVal_vES]; norm_num
  obtain ⟨-, -, cv⟩ := mul_divr_rounded_spec t vET tl limbs_vET tn rfl hkr hT
  obtain ⟨-, -, dv⟩ := mul_divr_rounded_spec t vES tl limbs_vES tn rfl hkr hS
  obtain ⟨-, -, -, -, v0, v1⟩ := split_mu_spec t tl tn hkr
  obtain ⟨b1, b2, b3, b4⟩ := split_bounds cv dv
  unfold signed128
  generalize limbsVal (split_mu t).1 = x at v0
  generalize limbsVal (split_mu t).2 = y at v1
  generalize (limbsVal t : Int) - (limbsVal (mul_divr_rounded t vES) : Int) * limbsVal vES
    - (limbsVal (mul_divr_rounded t vET) : Int) * limbsVal vET = z0 at v0 b1 b2 ⊢
  generalize (limbsVal (mul_divr_rounded t vES) : Int) * limbsVal vET
    - (limbsVal (mul_divr_rounded t vET) : Int) * limbsVal vES = z1 at v1 b3 b4 ⊢
  constructor
  · split <;> omega
  · split <;> omega

theorem signed_of_ctl {s : Nat} (hs : s = 0 ∨ s = 0xFFFFFFFF) (n : Int) :
    (if s = 0xFFFFFFFF then -n else n) = ctlSign s * n := by
  rcases hs with rfl | rfl
  · rw [if_neg (by norm_num), ctlSign_zero, one_mul]
  · rw [if_pos rfl, ctlSign_ones]; ring

/-! ## Subtraction, negation and halving -/

theorem mask_x8_zero :
    R0_x8m.map (fun w => 0 &&& w) ++ [0 &&& 1, 0, 0, 0] = List.replicate 8 0 := by
  decide

theorem mask_x8_ones :
    R0_x8m.map (fun w => 0xFFFFFFFF &&& w) ++ [0xFFFFFFFF &&& 1, 0, 0, 0]
      = R0_x8m ++ [1, 0, 0, 0] := by
  decide

theorem limbs_x8_full : Limbs (R0_x8m ++ [1, 0, 0, 0]) := by
  intro x hx
  simp only [R0_x8m, List.cons_append, List.nil_append, List.mem_cons,
    List.mem_singleton, List.not_mem_nil, or_false] at hx
  rcases hx with h | h | h | h | h | h | h | h <;> rw [h] <;> norm_num

theorem limbsVal_x8_full : limbsVal (R0_x8m ++ [1, 0, 0, 0]) = 8 * r0 := by decide

/-- The masked constant that `scalar_sub` adds after a borrow `c` is
`c * (8*r mod 2^256)`. -/
theorem mask_x8_spec {c : Nat} (hc : c ≤ 1) :
    Limbs (R0_x8m.map (fun w => neg_u32 c &&& w) ++ [neg_u32 c &&& 1, 0, 0, 0])
      ∧ (R0_x8m.map (fun w => neg_u32 c &&& w) ++ [neg_u32 c &&& 1, 0, 0, 0]).length = 8
      ∧ limbsVal (R0_x8m.map (fun w => neg_u32 c &&& w) ++ [neg_u32 c &&& 1, 0, 0, 0])
          = c * (8 * r0) := by
  rcases Nat.le_one_iff_eq_zero_or_eq_one.1 hc with h | h
  · rw [h, neg_u32_zero, mask_x8_zero]
    exact ⟨limbs_replicate_zero 8, rfl, by rw [limbsVal_replicate_zero]; simp⟩
  · rw [h, neg_u32_one, mask_x8_ones]
    exact ⟨limbs_x8_full, rfl, by rw [limbsVal_x8_full]; simp⟩

/-- The arithmetic of `scalar_sub`: `S` is the truncated difference with
borrow `c`, `T` the sum after the masked addition, with carry `C`. -/
theorem sub_arith {A B T C : Nat} (S c : Nat)
    (se : S + B = A + 2 ^ 256 * c) (ae : T + 2 ^ 256 * C = S + c * (8 * r0)) :
    (((T + 2 ^ 256 * C) % r : Nat) : Int) = ((A : Int) - B) % r := by
  have e : ((T + 2 ^ 256 * C : Nat) : Int) = ((A : Int) - B) + (8 * c : Int) * r := by
    have h1 : (S : Int) + B = A + 2 ^ 256 * c := by exact_mod_cast se
    have h2 : ((T + 2 ^ 256 * C : Nat) : Int) = S + c * (8 * r0) := by exact_mod_cast ae
    rw [h2]
    have hr : (r : Int) = 2 ^ 253 + r0 := by simp [r]
    rw [hr]
    linear_combination h1
  rw [Int.natCast_mod, e, Int.add_mul_emod_self]

theorem scalar_sub_spec (a b : List Byte) (ha : a.length = 32) (hb : b.length = 32) :
    (scalar_sub a b).length = 32
      ∧ (bytesVal (scalar_sub a b) : Int) = ((bytesVal a : Int) - bytesVal b) % r := by
  obtain ⟨la, na, va⟩ := i256_decode_spec a ha
  obtain ⟨lb, nb, vb⟩ := i256_decode_spec b hb
  obtain ⟨e, c, l, n⟩ := subborrow_limbs_spec _ _ 0 (by rw [na, nb]) la lb (by norm_num)
  rw [na] at e n
  obtain ⟨lm, nm, vm⟩ := mask_x8_spec c
  obtain ⟨e1, c1, l1, n1⟩ := addcarry_limbs_spec _ _ 0 (by rw [n, nm]) l lm (by norm_num)
  rw [n] at e1 n1
  obtain ⟨l2, n2, v2⟩ := modr_reduce256_partial_spec _ _ l1 n1
    (lt_of_le_of_lt c1 (by norm_num))
  obtain ⟨l3, n3, v3⟩ := modr_reduce256_finish_spec _ l2 n2
  obtain ⟨v4, n4⟩ := i256_encode_spec _ l3 n3
  unfold scalar_sub
  refine ⟨n4, ?_⟩
  rw [v4, v3, if_pos (by rw [v2]; exact Nat.mod_lt _ r_pos), v2, ← va, ← vb]
  refine sub_arith (limbsVal (subborrow_limbs 0 (i256_decode a) (i256_decode b)).2)
    (subborrow_limbs 0 (i256_decode a) (i256_decode b)).1 ?_ ?_
  · norm_num at e ⊢
    linarith
  · rw [vm] at e1
    norm_num at e1 ⊢
    linarith

/-- One word of the right shift of `scalar_half`. -/
theorem shr1_word {x : Nat} (hx : x < 2 ^ 32) (y : Nat) :
    (x >>> 1) ||| ((y <<< 31) % 2 ^ 32) = x / 2 + 2 ^ 31 * (y % 2) := by
  have h1 : (y <<< 31) % 2 ^ 32 = 2 ^ 31 * (y % 2) := by
    rw [Nat.shiftLeft_eq]
    omega
  have h2 : x >>> 1 = x / 2 := by
    rw [Nat.shiftRight_eq_div_pow]
  have h3 : x / 2 < 2 ^ 31 := by omega
  rw [h1, h2, Nat.lor_comm, ← Nat.mul_add_lt_is_or h3, Nat.add_comm]

theorem shr1_limbs_spec (xs : List Nat) (h : Limbs xs) :
    limbsVal (shr1_limbs xs) = limbsVal xs / 2 ∧ Limbs (shr1_limbs xs)
      ∧ (shr1_limbs xs).length = xs.length := by
  induction xs with
  | nil => exact ⟨rfl, h, rfl⟩
  | cons x xs ih =>
    have hx : x < 2 ^ 32 := h x (List.mem_cons_self _ _)
    have hxs : Limbs xs := fun z hz => h z (List.mem_cons_of_mem _ hz)
    cases xs with
    | nil =>
      have e : shr1_limbs [x] = [x >>> 1] := rfl
      have h2 : x >>> 1 = x / 2 := by
        rw [Nat.shiftRight_eq_div_pow]
      rw [e, h2]
      refine ⟨?_, ?_, rfl⟩
      · simp only [limbsVal]
        omega
      · intro z hz
        rw [List.mem_singleton] at hz
        rw [hz]
        omega
    | cons y rest =>
      obtain ⟨v, l, n⟩ := ih hxs
      have hy : y < 2 ^ 32 := hxs y (List.mem_cons_self _ _)
      have e : shr1_limbs (x :: y :: rest)
          = (x / 2 + 2 ^ 31 * (y % 2)) :: shr1_limbs (y :: rest) := by
        rw [← shr1_word hx y]
        rfl
      rw [e]
      refine ⟨?_, ?_, ?_⟩
      · have e1 : limbsVal ((x / 2 + 2 ^ 31 * (y % 2)) :: shr1_limbs (y :: rest))
            = (x / 2 + 2 ^ 31 * (y % 2)) + 2 ^ 32 * limbsVal (shr1_limbs (y :: rest)) := rfl
        have e2 : limbsVal (x :: y :: rest) = x + 2 ^ 32 * limbsVal (y :: rest) := rfl
        have e3 : limbsVal (y :: rest) = y + 2 ^ 32 * limbsVal rest := rfl
        rw [e1, e2, v]
        generalize limbsVal (y :: rest) = V at e3 ⊢
        generalize limbsVal rest = W at e3
        omega
      · intro z hz
        rcases List.mem_cons.1 hz with hz | hz
        · rw [hz]
          omega
        · exact l z hz
      · simp only [List.length_cons] at n ⊢
        omega

theorem mask_Rhf_zero : Rhf.map (fun w => 0 &&& w) = List.replicate 8 0 := by decide

theorem mask_Rhf_ones : Rhf.map (fun w => 0xFFFFFFFF &&& w) = Rhf := by decide

theorem limbs_Rhf : Limbs Rhf := by
  intro x hx
  simp only [Rhf, List.mem_cons, List.mem_singleton, List.not_mem_nil, or_false] at hx
  rcases hx with h | h | h | h | h | h | h | h <;> rw [h] <;> norm_num

theorem limbsVal_Rhf : limbsVal Rhf = (r + 1) / 2 := by decide

/-- The masked constant that `scalar_half` adds for an input of parity `c` is
`c * (r+1)/2`. -/
theorem mask_Rhf_spec {c : Nat} (hc : c ≤ 1) :
    Limbs (Rhf.map (fun w => neg_u32 c &&& w))
      ∧ (Rhf.map (fun w => neg_u32 c &&& w)).length = 8
      ∧ limbsVal (Rhf.map (fun w => neg_u32 c &&& w)) = c * ((r + 1) / 2) := by
  rcases Nat.le_one_iff_eq_zero_or_eq_one.1 hc with h | h
  · rw [h, neg_u32_zero, mask_Rhf_zero]
    exact ⟨limbs_replicate_zero 8, rfl, by rw [limbsVal_replicate_zero]; simp⟩
  · rw [h, neg_u32_one, mask_Rhf_ones]
    exact ⟨limbs_Rhf, rfl, by rw [limbsVal_Rhf]; simp⟩

/-- The low limb carries the parity of the value. -/
theorem limbs_parity (xs : List Nat) : xs.getD 0 0 &&& 1 = limbsVal xs % 2 := by
  rw [Nat.and_one_is_mod]
  cases xs with
  | nil => rfl
  | cons x rest =>
    have e : limbsVal (x :: rest) = x + 2 ^ 32 * limbsVal rest := rfl
    rw [e]
    simp only [List.getD_cons_zero]
    omega

/-- The arithmetic of the addition in `scalar_half`: the sum of the halved
value and the masked constant fits 256 bits, so the carry is lost without
harm. -/
theorem half_sum_arith {A H S C c : Nat} (hA : A < 2 ^ 256) (hS : S < 2 ^ 256)
    (hH : H = A / 2) (hc : c = A % 2)
    (ae : S + 2 ^ 256 * C = H + c * ((r + 1) / 2)) :
    (S + 2 ^ 256 * 0) % r = (A / 2 + A % 2 * ((r + 1) / 2)) % r := by
  have hC : C = 0 := by
    simp only [r, r0] at ae
    norm_num at ae hA hS
    have h1 : c = 0 ∨ c = 1 := by omega
    rcases h1 with h | h <;> rw [h] at ae <;> omega
  rw [hC] at ae
  rw [ae, hH, hc]

theorem scalar_half_spec (a : List Byte) (ha : a.length = 32) :
    (scalar_half a).length = 32
      ∧ bytesVal (scalar_half a)
          = (bytesVal a / 2 + bytesVal a % 2 * ((r + 1) / 2)) % r := by
  obtain ⟨la, na, va⟩ := i256_decode_spec a ha
  obtain ⟨vs, ls, ns⟩ := shr1_limbs_spec _ la
  rw [na] at ns
  have hc : limbsVal (i256_decode a) % 2 ≤ 1 := by omega
  obtain ⟨lm, nm, vm⟩ := mask_Rhf_spec hc
  obtain ⟨e1, _, l1, n1⟩ := addcarry_limbs_spec _ _ 0 (by rw [ns, nm]) ls lm (by norm_num)
  rw [ns] at e1 n1
  obtain ⟨l2, n2, v2⟩ := modr_reduce256_partial_spec _ 0 l1 n1 (by norm_num)
  obtain ⟨l3, n3, v3⟩ := modr_reduce256_finish_spec _ l2 n2
  obtain ⟨v4, n4⟩ := i256_encode_spec _ l3 n3
  have hA : limbsVal (i256_decode a) < 2 ^ 256 := by
    have h := limbsVal_lt la
    rw [na] at h
    exact h
  have hS := limbsVal_lt l1
  rw [n1] at hS
  simp only [scalar_half, limbs_parity]
  refine ⟨n4, ?_⟩
  rw [v4, v3, if_pos (by rw [v2]; exact Nat.mod_lt _ r_pos), v2, ← va]
  rw [vm] at e1
  have e2 : limbsVal (addcarry_limbs 0 (shr1_limbs (i256_decode a))
        (List.map (fun w => neg_u32 (limbsVal (i256_decode a) % 2) &&& w) Rhf)).2
      + 2 ^ 256 * (addcarry_limbs 0 (shr1_limbs (i256_decode a))
        (List.map (fun w => neg_u32 (limbsVal (i256_decode a) % 2) &&& w) Rhf)).1
      = limbsVal (shr1_limbs (i256_decode a))
        + limbsVal (i256_decode a) % 2 * ((r + 1) / 2) := by
    norm_num at e1 ⊢
    linarith
  exact half_sum_arith hA hS vs rfl e2

/-- The value computed by `scalar_half` is the reduced half of its input:
it is below `r`, its double is congruent to the input, it is the product by
`(r+1)/2 = 1/2 mod r`, and it is what the reference computes. -/
theorem half_arith (A : Nat) :
    (A / 2 + A % 2 * ((r + 1) / 2)) % r < r
      ∧ (2 * ((A / 2 + A % 2 * ((r + 1) / 2)) % r)) % r = A % r
      ∧ (A / 2 + A % 2 * ((r + 1) / 2)) % r = (A * ((r + 1) / 2)) % r
      ∧ (A / 2 + A % 2 * ((r + 1) / 2)) % r = scal_half_reference A := by
  unfold scal_half_reference
  simp only [r, r0, Nat.shiftRight_eq_div_pow]
  norm_num
  refine ⟨by omega, by omega, by omega, ?_⟩
  split <;> omega

theorem scalar_neg_spec (a : List Byte) (ha : a.length = 32) :
    (scalar_neg a).length = 32
      ∧ (bytesVal (scalar_neg a) : Int) = (-(bytesVal a : Int)) % r := by
  have h := scalar_sub_spec (List.replicate 32 0) a (by simp) ha
  rw [bytesVal_replicate_zero] at h
  refine ⟨h.1, ?_⟩
  have e : scalar_neg a = scalar_sub (List.replicate 32 0) a := rfl
  rw [e, h.2]
  simp

/-! ## Key decoding -/

theorem or_eq_zero {x y : Nat} (h : x ||| y = 0) : x = 0 ∧ y = 0 := by
  have hb : ∀ i, (x.testBit i || y.testBit i) = false := by
    intro i
    rw [← Nat.testBit_or, h, Nat.zero_testBit]
  constructor
  · apply Nat.eq_of_testBit_eq
    intro i
    have h1 := hb i
    rw [Nat.zero_testBit]
    cases hx : x.testBit i
    · rfl
    · rw [hx] at h1
      simp at h1
  · apply Nat.eq_of_testBit_eq
    intro i
    have h1 := hb i
    rw [Nat.zero_testBit]
    cases hy : y.testBit i
    · rfl
    · rw [hy] at h1
      simp at h1

theorem foldl_or_eq_zero (a : List Nat) :
    ∀ acc : Nat, a.foldl (fun x y => x ||| y) acc = 0 → acc = 0 ∧ ∀ x ∈ a, x = 0 := by
  induction a with
  | nil =>
    intro acc h
    exact ⟨h, fun x hx => by cases hx⟩
  | cons z zs ih =>
    intro acc h
    rw [List.foldl_cons] at h
    obtain ⟨h1, h2⟩ := ih _ h
    obtain ⟨h3, h4⟩ := or_eq_zero h1
    refine ⟨h3, fun x hx => ?_⟩
    rcases List.mem_cons.1 hx with hx | hx
    · rw [hx, h4]
    · exact h2 x hx

theorem limbsVal_of_zero (a : List Nat) (h : ∀ x ∈ a, x = 0) : limbsVal a = 0 := by
  induction a with
  | nil => rfl
  | cons z zs ih =>
    have e : limbsVal (z :: zs) = z + 2 ^ 32 * limbsVal zs := rfl
    rw [e, h z (List.mem_cons_self _ _), ih (fun y hy => h y (List.mem_cons_of_mem _ hy))]
    rfl

/-- `scalar_is_zero` returns 1 on the encodings of zero and 0 on all other
32-byte strings. -/
theorem scalar_is_zero_spec (a : List Byte) (ha : a.length = 32) :
    scalar_is_zero a = if bytesVal a = 0 then 1 else 0 := by
  by_cases h : bytesVal a = 0
  · rw [if_pos h, scalar_is_zero_of_val a ha h]
  · rw [if_neg h]
    obtain ⟨_, _, v⟩ := i256_decode_spec a ha
    unfold scalar_is_zero i256_is_zero
    rw [if_neg]
    intro hz
    apply h
    rw [← v]
    exact limbsVal_of_zero _ (foldl_or_eq_zero _ 0 hz).2

section
variable {Pt PtA : Type} (P : Prims Pt PtA)

/-- The status of `gls254_decode_private` and the structure it leaves on
failure. -/
theorem decode_private_status (src : List Byte) (hs : src.length = 32) :
    ((0 < bytesVal src ∧ bytesVal src < r) → (gls254_decode_private P src).1 = 1)
      ∧ (¬ (0 < bytesVal src ∧ bytesVal src < r) →
          gls254_decode_private P src
            = (0, { sec := List.replicate 32 0,
                    pub := { pp := P.NEUTRAL, enc := List.replicate 32 0 } })) := by
  have hr := scalar_is_reduced_spec src hs
  have hz := scalar_is_zero_spec src hs
  unfold gls254_decode_private
  constructor
  · intro h
    rw [if_pos h.2] at hr
    rw [if_neg (by omega)] at hz
    rw [if_neg (by rw [hr, hz]; simp)]
  · intro h
    rw [if_pos]
    by_cases h1 : bytesVal src < r
    · right
      rw [hz, if_pos (by omega)]
      norm_num
    · left
      rw [hr, if_neg h1]

end

/-! ## The lexicographic order and the key exchange -/

theorem bytesVal_reverse_cons (a : Byte) (as : List Byte) :
    bytesVal (a :: as).reverse = bytesVal as.reverse + 256 ^ as.length * a.val := by
  rw [List.reverse_cons, bytesVal_append, List.length_reverse]
  simp [bytesVal]

/-- On strings of equal length the lexicographic order is the order of the
big-endian values. -/
theorem lex_lt_spec (A : List Byte) :
    ∀ B : List Byte, A.length = B.length →
      (lex_lt A B = true ↔ bytesVal A.reverse < bytesVal B.reverse) := by
  induction A with
  | nil =>
    intro B h
    cases B with
    | nil => simp [lex_lt]
    | cons b bs => simp at h
  | cons a as ih =>
    intro B h
    cases B with
    | nil => simp at h
    | cons b bs =>
      have hl : as.length = bs.length := by simpa using h
      have hi := ih bs hl
      have hX := bytesVal_lt as.reverse
      have hY := bytesVal_lt bs.reverse
      rw [List.length_reverse] at hX hY
      rw [← hl] at hY
      rw [bytesVal_reverse_cons, bytesVal_reverse_cons, ← hl]
      have e : lex_lt (a :: as) (b :: bs)
          = (decide (a.val < b.val) || (a.val == b.val && lex_lt as bs)) := rfl
      rw [e]
      generalize bytesVal as.reverse = X at hi hX ⊢
      generalize bytesVal bs.reverse = Y at hi hY ⊢
      generalize 256 ^ as.length = N at hX hY ⊢
      rcases Nat.lt_trichotomy a.val b.val with hab | hab | hab
      · have h1 : N * (a.val + 1) ≤ N * b.val := Nat.mul_le_mul_left N hab
        have h2 : N * (a.val + 1) = N * a.val + N := by ring
        constructor
        · intro _
          omega
        · intro _
          simp [hab]
      · rw [hab]
        simp only [lt_self_iff_false, decide_False, beq_self_eq_true, Bool.true_and,
          Bool.false_or]
        rw [hi]
        omega
      · have h1 : N * (b.val + 1) ≤ N * a.val := Nat.mul_le_mul_left N hab
        have h2 : N * (b.val + 1) = N * b.val + N := by ring
        constructor
        · intro hc
          have h3 : ¬ a.val < b.val := by omega
          have h4 : (a.val == b.val) = false := by
            rw [beq_eq_false_iff_ne]
            omega
          rw [decide_eq_false h3, h4] at hc
          simp at hc
        · intro _
          omega

/-- The two encodings in the order of the big-endian values are the smaller
then the larger one in lexicographic order. -/
theorem order_lex (A B : List Byte) (h : A.length = B.length) :
    (if bytesVal A.reverse < bytesVal B.reverse then A ++ B else B ++ A)
      = lex_min A B ++ lex_max A B := by
  unfold lex_min lex_max
  have h1 := lex_lt_spec B A h.symm
  by_cases hab : bytesVal A.reverse < bytesVal B.reverse
  · have h2 : ¬ lex_lt B A = true := by
      rw [h1]
      omega
    rw [if_pos hab, if_neg h2, if_neg h2]
  · rw [if_neg hab]
    by_cases hba : bytesVal B.reverse < bytesVal A.reverse
    · rw [if_pos (h1.2 hba), if_pos (h1.2 hba)]
    · have h2 : ¬ lex_lt B A = true := by
        rw [h1]
        exact hba
      rw [if_neg h2, if_neg h2]
      have h3 : A.reverse = B.reverse :=
        bytesVal_inj _ _ (by rw [List.length_reverse, List.length_reverse, h]) (by omega)
      rw [List.reverse_inj.1 h3]

section
variable {Pt PtA : Type} (P : Prims Pt PtA)

/-- `gls254_ECDH` when `gls254_isneutral` returns `0x00000000` on the peer
point. -/
theorem ecdh_good (sk : PrivateKey Pt) (pk : PublicKey Pt)
    (hn : P.isneutral pk.pp = 0) (hsec : sk.sec.length = 32)
    (he : (P.encode (gls254_mul P pk.pp sk.sec)).length = 32)
    (h1 : sk.pub.enc.length = 32) (h2 : pk.enc.length = 32) :
    gls254_ECDH P sk pk
      = (1, P.blake2s (lex_min sk.pub.enc pk.enc ++ lex_max sk.pub.enc pk.enc
          ++ [0x53] ++ P.encode (gls254_mul P pk.pp sk.sec))) := by
  unfold gls254_ECDH
  simp only []
  rw [hn, ecdh_order _ _ h1 h2, order_lex _ _ (by rw [h1, h2])]
  simp only [byte_select_zero]
  rw [zipWith_fst _ _ (by rw [he, hsec])]
  rfl

/-- `gls254_ECDH` when `gls254_isneutral` returns `0xFFFFFFFF` on the peer
point. -/
theorem ecdh_bad (sk : PrivateKey Pt) (pk : PublicKey Pt)
    (hn : P.isneutral pk.pp = 0xFFFFFFFF) (hsec : sk.sec.length = 32)
    (he : (P.encode (gls254_mul P pk.pp sk.sec)).length = 32)
    (h1 : sk.pub.enc.length = 32) (h2 : pk.enc.length = 32) :
    gls254_ECDH P sk pk
      = (0, P.blake2s (lex_min sk.pub.enc pk.enc ++ lex_max sk.pub.enc pk.enc
          ++ [0x46] ++ sk.sec)) := by
  unfold gls254_ECDH
  simp only []
  rw [hn, ecdh_order _ _ h1 h2, order_lex _ _ (by rw [h1, h2])]
  simp only [byte_select_ones_fst]
  rw [zipWith_snd _ _ (by rw [he, hsec])]
  rfl

end

/-! ## Key generation -/

/-- A 32-byte string of value zero is the all-zero string. -/
theorem bytes_zero_of_val (a : List Byte) (ha : a.length = 32) (h : bytesVal a = 0) :
    a = List.replicate 32 0 := by
  apply bytesVal_inj _ _ (by rw [ha]; simp)
  rw [h, bytesVal_replicate_zero]

section
variable {Pt PtA : Type} (P : Prims Pt PtA)

/-- The secret scalar of `gls254_keygen` is the digest reduced modulo `r`. -/
theorem keygen_sec (rnd : List Byte) (hlen : (P.blake2s (keygen_tag ++ rnd)).length = 32) :
    (gls254_keygen P rnd).sec.length = 32
      ∧ bytesVal (gls254_keygen P rnd).sec = bytesVal (P.blake2s (keygen_tag ++ rnd)) % r
      ∧ gls254_encode_private (gls254_keygen P rnd) = (gls254_keygen P rnd).sec := by
  have e : (gls254_keygen P rnd).sec
      = scalar_reduce ((P.blake2s (keygen_tag ++ rnd)).take 32) := rfl
  have ht : (P.blake2s (keygen_tag ++ rnd)).take 32 = P.blake2s (keygen_tag ++ rnd) :=
    List.take_of_length_le (by omega)
  obtain ⟨n, v⟩ := scalar_reduce_spec (P.blake2s (keygen_tag ++ rnd))
  unfold gls254_encode_private
  rw [e, ht]
  exact ⟨n, v, List.take_of_length_le (by omega)⟩

/-- Decoding the encoding of a generated key: the status is 1 exactly when
the secret scalar is not zero, and the secret scalar is reproduced in both
cases. -/
theorem keygen_decode (rnd : List Byte)
    (hlen : (P.blake2s (keygen_tag ++ rnd)).length = 32) :
    ((gls254_decode_private P (gls254_encode_private (gls254_keygen P rnd))).1 = 1
        ↔ bytesVal (P.blake2s (keygen_tag ++ rnd)) % r ≠ 0)
      ∧ (bytesVal (P.blake2s (keygen_tag ++ rnd)) % r = 0 →
          (gls254_decode_private P (gls254_encode_private (gls254_keygen P rnd))).1 = 0)
      ∧ (gls254_decode_private P (gls254_encode_private (gls254_keygen P rnd))).2.sec
          = (gls254_keygen P rnd).sec := by
  obtain ⟨n, v, e⟩ := keygen_sec P rnd hlen
  rw [e]
  generalize (gls254_keygen P rnd).sec = s at n v
  have hlt : bytesVal s < r := by rw [v]; exact Nat.mod_lt _ r_pos
  obtain ⟨hok, hbad⟩ := decode_private_status P s n
  rw [← v]
  refine ⟨⟨fun h => ?_, fun h => hok ⟨by omega, hlt⟩⟩, fun h => ?_, ?_⟩
  · have := (decode_private_ok P s n h).1
    omega
  · rw [hbad (by omega)]
  · by_cases h0 : bytesVal s = 0
    · rw [hbad (by omega)]
      exact (bytes_zero_of_val s n h0).symm
    · exact (decode_private_ok P s n (hok ⟨by omega, hlt⟩)).2.2.1

end

/-! ## The tag of the hash name -/

theorem cstr_of_nonzero (name : List Byte) (h : ∀ c ∈ name, c ≠ 0) : cstr name = name := by
  unfold cstr
  induction name with
  | nil => rfl
  | cons c cs ih =>
    have hc : c ≠ 0 := h c (List.mem_cons_self _ _)
    rw [List.takeWhile_cons, if_pos (by simpa using hc),
      ih (fun d hd => h d (List.mem_cons_of_mem _ hd))]

/-- The tag of a non-empty name without zero byte. -/
theorem hash_tag_name (name : List Byte) (hne : name ≠ []) (h : ∀ c ∈ name, c ≠ 0) :
    hash_tag (some name) = [0x48] ++ name ++ [0] := by
  unfold hash_tag
  simp only [cstr_of_nonzero name h]
  rw [if_neg hne]

theorem name_a_nonzero : ∀ c ∈ name_a, c ≠ 0 := by
  intro c hc
  rw [name_a, List.mem_singleton] at hc
  rw [hc]
  decide

/-! ## Recoding: the sums of digits and the last carry -/

/-- The carry out of the top nibble of `recode4_u128` is zero for an input
below `2^127`. -/
theorem recode4_u128_carry (n : List Byte) (hl : n.length = 16)
    (hn : bytesVal n < 2 ^ 127) : (recode4_bytes (n.take 16) 0).2 = 0 := by
  have ht : n.take 16 = n := List.take_of_length_le (by omega)
  obtain ⟨l, ok, c, v⟩ := recode4_bytes_spec n 0 (by norm_num)
  rw [ht]
  rw [hl] at l v
  have lo := digitsVal_lower _ ok
  rw [l] at lo
  rcases Nat.le_one_iff_eq_zero_or_eq_one.1 c with h | h
  · exact h
  · rw [h] at v
    have hn' : (bytesVal n : Int) < 2 ^ 127 := by exact_mod_cast hn
    norm_num at v lo hn'
    omega

/-- The value of a digit sequence as the sum `∑ sd[i] * 16^i`. -/
theorem digits_sum (ds : List Int) (n : Nat) (h : ds.length = n) :
    ∑ i in Finset.range n, ds.getD i 0 * (16 : Int) ^ i = digitsVal ds := by
  rw [← digitsVal_eq_sum ds n h]
  exact Finset.sum_congr rfl (fun i _ => mul_comm _ _)

/-! ## The words passed on by the 384-bit partial reduction -/

theorem modr_reduce384_partial_eq (a : List Nat) :
    modr_reduce384_partial a
      = modr_reduce256_partial (modr_reduce384_words a).1 (modr_reduce384_words a).2 := rfl

/-- The limbs and the high word that ` modr_reduce384_partial` passes to
` modr_reduce256_partial`: the high word is below `2^29` and the value is
congruent to the source. -/
theorem modr_reduce384_words_spec (a : List Nat) (ha : Limbs a) (hl : a.length = 12) :
    Limbs (modr_reduce384_words a).1 ∧ (modr_reduce384_words a).1.length = 8
      ∧ (modr_reduce384_words a).2 < 2 ^ 29
      ∧ (limbsVal (modr_reduce384_words a).1 + 2 ^ 256 * (modr_reduce384_words a).2) % r
          = limbsVal a % r := by
  have hl1 : (a.drop 8).length = 4 := by simp [hl]
  have hl0 : (a.take 8).length = 8 := by simp [hl]
  have hA := limbsVal_take_add_drop a 8
  rw [hl0] at hA
  obtain ⟨tl, tn, tv⟩ := mul128x128_spec (a.drop 8) R0_x8m (limbs_drop ha 8)
    limbs_R0_x8m hl1 rfl
  obtain ⟨e1, c1b, s1l, s1n⟩ := subborrow_limbs_spec (a.take 8) _ 0 (by rw [hl0, tn])
    (limbs_take ha 8) tl (by norm_num)
  rw [hl0, tv] at e1
  rw [hl0] at s1n
  simp only [modr_reduce384_words]
  generalize subborrow_limbs 0 (a.take 8) (mul128x128 (a.drop 8) R0_x8m) = s1
    at e1 c1b s1l s1n ⊢
  have hs1t : (s1.2.take 4).length = 4 := by simp [s1n]
  have hs1d : (s1.2.drop 4).length = 4 := by simp [s1n]
  have e2 := limbsVal_take_add_drop s1.2 4
  rw [hs1t] at e2
  obtain ⟨e3, c2b, s2l, s2n⟩ := subborrow_limbs_spec (s1.2.drop 4) (a.drop 8) 0
    (by rw [hs1d, hl1]) (limbs_drop s1l 4) (limbs_drop ha 8) (by norm_num)
  rw [hs1d] at e3 s2n
  generalize subborrow_limbs 0 (s1.2.drop 4) (a.drop 8) = s2 at e3 c2b s2l s2n ⊢
  have htL : Limbs (s1.2.take 4 ++ s2.2) := limbs_append.2 ⟨limbs_take s1l 4, s2l⟩
  have htn : (s1.2.take 4 ++ s2.2).length = 8 := by
    rw [List.length_append, hs1t, s2n]
  have e4 : limbsVal (s1.2.take 4 ++ s2.2)
      = limbsVal (s1.2.take 4) + 2 ^ 128 * limbsVal s2.2 := by
    rw [limbsVal_append, hs1t]
  obtain ⟨y, hy, hmask, hc3⟩ := t8_cases c1b c2b
  rw [hmask]
  have hmL : Limbs (if y = 0 then List.replicate 8 0 else R_x16m)
      ∧ (if y = 0 then List.replicate 8 0 else R_x16m).length = 8
      ∧ limbsVal (if y = 0 then List.replicate 8 0 else R_x16m) + 2 * 2 ^ 256 * y
          = 16 * r * y := by
    rcases Nat.le_one_iff_eq_zero_or_eq_one.1 hy with rfl | rfl
    · exact ⟨limbs_replicate_zero 8, rfl, by
        rw [if_pos rfl, limbsVal_replicate_zero, Nat.mul_zero, Nat.mul_zero]⟩
    · refine ⟨limbs_R_x16m, rfl, ?_⟩
      have := limbsVal_R_x16m
      simp only [one_ne_zero, if_false, mul_one]
      exact this
  obtain ⟨e5, c3b, s3l, s3n⟩ := addcarry_limbs_spec (s1.2.take 4 ++ s2.2) _ 0
    (by rw [htn, hmL.2.1]) htL hmL.1 (by norm_num)
  rw [htn] at e5 s3n
  obtain ⟨e6, t8b⟩ := hc3 _ c3b
  refine ⟨s3l, s3n, t8b, ?_⟩
  rw [← hA]
  exact reduce384_arith limbsVal_R0_x8m hmL.2.2 (by norm_num at e1 ⊢; linarith) e2
    (by norm_num at e3 ⊢; linarith) e4 (by norm_num at e5 ⊢; linarith) e6

/-! ## Rounding to the nearest integer -/

/-- The quotient `⌊(P + (r-1)/2) / r⌋` is the integer nearest to `P / r`: it
differs from it by at most `(r-1)/(2r)`, which is less than one half. -/
theorem nearest_arith (P D : Nat) (h : D = (P + (r - 1) / 2) / r) :
    |(D : Int) * r - P| ≤ ((r - 1) / 2 : Nat) ∧ 2 * ((r - 1) / 2) < r := by
  rw [abs_le]
  simp only [r, r0] at h ⊢
  norm_num at h ⊢
  omega

theorem limbs_e_max_ok : Limbs limbs_e_max := by
  intro x hx
  simp only [limbs_e_max, List.mem_cons, List.mem_singleton, List.not_mem_nil, or_false] at hx
  rcases hx with h | h | h | h <;> rw [h] <;> norm_num

theorem limbs_max8_ok : Limbs limbs_max8 := by
  intro x hx
  rw [limbs_max8, List.mem_replicate] at hx
  rw [hx.2]
  norm_num

theorem limbs_max12_ok : Limbs limbs_max12 := by
  intro x hx
  rw [limbs_max12, List.mem_replicate] at hx
  rw [hx.2]
  norm_num

/-! ## The exact value passed on by the 384-bit partial reduction -/

/-- The mask of ` modr_reduce384_partial` is set exactly when one of the two
borrows `c1`, `c2` is, and the word passed on is then at most 2. -/
theorem t8_cases_sign {c1 c2 : Nat} (h1 : c1 ≤ 1) (h2 : c2 ≤ 1) :
    ∃ y, y ≤ 1 ∧ (y = 0 ↔ c1 + c2 = 0)
      ∧ R_x16m.map (fun w => sar31 ((2 ^ 32 + neg_u32 c1 - c2) % 2 ^ 32) &&& w)
          = (if y = 0 then List.replicate 8 0 else R_x16m)
      ∧ ∀ c3, c3 ≤ 1 →
          (addcarry_u32 c3 ((2 ^ 32 + neg_u32 c1 - c2) % 2 ^ 32)
              (sar31 ((2 ^ 32 + neg_u32 c1 - c2) % 2 ^ 32) &&& R_x16_top)).2
            + c1 + c2 = c3 + 2 * y := by
  rcases Nat.le_one_iff_eq_zero_or_eq_one.1 h1 with rfl | rfl <;>
    rcases Nat.le_one_iff_eq_zero_or_eq_one.1 h2 with rfl | rfl
  · refine ⟨0, by decide, by decide, by decide, ?_⟩
    intro c3 h3
    rcases Nat.le_one_iff_eq_zero_or_eq_one.1 h3 with rfl | rfl <;> decide
  · refine ⟨1, by decide, by decide, by decide, ?_⟩
    intro c3 h3
    rcases Nat.le_one_iff_eq_zero_or_eq_one.1 h3 with rfl | rfl <;> decide
  · refine ⟨1, by decide, by decide, by decide, ?_⟩
    intro c3 h3
    rcases Nat.le_one_iff_eq_zero_or_eq_one.1 h3 with rfl | rfl <;> decide
  · refine ⟨1, by decide, by decide, by decide, ?_⟩
    intro c3 h3
    rcases Nat.le_one_iff_eq_zero_or_eq_one.1 h3 with rfl | rfl <;> decide

/-- The exact arithmetic of ` modr_reduce384_partial`: the value passed on is
`A0 - 8*r0*A1`, plus `16*r` exactly when that difference is negative. -/
theorem reduce384_exact_arith {A0 A1 E S1 S1l S1h S2 T c1 c2 c3 y X V3 t8 : Nat}
    (hE : E + 2 ^ 128 = 8 * r0) (hX : X + 2 * 2 ^ 256 * y = 16 * r * y)
    (e1 : S1 + A1 * E = A0 + 2 ^ 256 * c1)
    (e2 : S1l + 2 ^ 128 * S1h = S1)
    (e3 : S2 + A1 = S1h + 2 ^ 128 * c2)
    (e4 : T = S1l + 2 ^ 128 * S2)
    (e5 : V3 + 2 ^ 256 * c3 = T + X)
    (e6 : t8 + c1 + c2 = c3 + 2 * y)
    (hT : T < 2 ^ 256) (hy : y ≤ 1) (hy0 : y = 0 ↔ c1 + c2 = 0) :
    ((V3 + 2 ^ 256 * t8 : Nat) : Int)
        = (A0 : Int) - 8 * r0 * A1
          + (if (A0 : Int) - 8 * r0 * A1 < 0 then 16 * (r : Int) else 0)
      ∧ V3 + 2 ^ 256 * t8 < 16 * r := by
  have hr : (r : Int) = 2 ^ 253 + r0 := by simp [r]
  have hEi : (E : Int) + 2 ^ 128 = 8 * r0 := by exact_mod_cast hE
  have hXi : (X : Int) + 2 * 2 ^ 256 * y = 16 * r * y := by exact_mod_cast hX
  have e1i : (S1 : Int) + A1 * E = A0 + 2 ^ 256 * c1 := by exact_mod_cast e1
  have e2i : (S1l : Int) + 2 ^ 128 * S1h = S1 := by exact_mod_cast e2
  have e3i : (S2 : Int) + A1 = S1h + 2 ^ 128 * c2 := by exact_mod_cast e3
  have e4i : (T : Int) = S1l + 2 ^ 128 * S2 := by exact_mod_cast e4
  have e5i : (V3 : Int) + 2 ^ 256 * c3 = T + X := by exact_mod_cast e5
  have e6i : (t8 : Int) + c1 + c2 = c3 + 2 * y := by exact_mod_cast e6
  have hTi : (T : Int) < 2 ^ 256 := by exact_mod_cast hT
  have hT0 : (0 : Int) ≤ T := Int.natCast_nonneg _
  have hD : (T : Int) = (A0 : Int) - 8 * r0 * A1 + 2 ^ 256 * (c1 + c2) := by
    linear_combination e4i + e2i + 2 ^ 128 * e3i + e1i - (A1 : Int) * hEi
  have hV : ((V3 + 2 ^ 256 * t8 : Nat) : Int)
      = (A0 : Int) - 8 * r0 * A1 + 16 * r * y := by
    push_cast
    linear_combination e5i + hD + hXi + 2 ^ 256 * e6i
  have hc : (0 : Int) ≤ (c1 : Int) + c2 := by omega
  rcases Nat.le_one_iff_eq_zero_or_eq_one.1 hy with h0 | h1
  · have hc0 : c1 + c2 = 0 := hy0.1 h0
    have hc0i : (c1 : Int) + c2 = 0 := by exact_mod_cast hc0
    rw [hc0i] at hD
    have hnn : ¬ ((A0 : Int) - 8 * r0 * A1 < 0) := by linarith
    rw [if_neg hnn]
    rw [h0] at hV
    refine ⟨by rw [hV]; simp, ?_⟩
    have : ((V3 + 2 ^ 256 * t8 : Nat) : Int) < 16 * r := by
      rw [hV, hr]
      have : (0 : Int) ≤ r0 := Int.natCast_nonneg _
      norm_num
      linarith
    exact_mod_cast this
  · have hc1 : c1 + c2 ≠ 0 := fun h => by
      have := hy0.2 h
      omega
    have hc1i : (1 : Int) ≤ (c1 : Int) + c2 := by
      have : 1 ≤ c1 + c2 := by omega
      exact_mod_cast this
    have hneg : (A0 : Int) - 8 * r0 * A1 < 0 := by nlinarith
    rw [if_pos hneg]
    rw [h1] at hV
    refine ⟨by rw [hV]; simp, ?_⟩
    have : ((V3 + 2 ^ 256 * t8 : Nat) : Int) < 16 * r := by
      rw [hV]
      push_cast
      linarith
    exact_mod_cast this

/-- The words that ` modr_reduce384_partial` passes on hold exactly
`a_low - 8*r0*a_high`, plus `16*r` when that is negative; the value is below
`16*r` and the high word is at most 2. -/
theorem modr_reduce384_words_exact (a : List Nat) (ha : Limbs a) (hl : a.length = 12) :
    ((limbsVal (modr_reduce384_words a).1 + 2 ^ 256 * (modr_reduce384_words a).2 : Nat) : Int)
        = (limbsVal (a.take 8) : Int) - 8 * r0 * limbsVal (a.drop 8)
          + (if (limbsVal (a.take 8) : Int) - 8 * r0 * limbsVal (a.drop 8) < 0
              then 16 * (r : Int) else 0)
      ∧ limbsVal (modr_reduce384_words a).1 + 2 ^ 256 * (modr_reduce384_words a).2 < 16 * r := by
  have hl1 : (a.drop 8).length = 4 := by simp [hl]
  have hl0 : (a.take 8).length = 8 := by simp [hl]
  obtain ⟨tl, tn, tv⟩ := mul128x128_spec (a.drop 8) R0_x8m (limbs_drop ha 8)
    limbs_R0_x8m hl1 rfl
  obtain ⟨e1, c1b, s1l, s1n⟩ := subborrow_limbs_spec (a.take 8) _ 0 (by rw [hl0, tn])
    (limbs_take ha 8) tl (by norm_num)
  rw [hl0, tv] at e1
  rw [hl0] at s1n
  simp only [modr_reduce384_words]
  generalize subborrow_limbs 0 (a.take 8) (mul128x128 (a.drop 8) R0_x8m) = s1
    at e1 c1b s1l s1n ⊢
  have hs1t : (s1.2.take 4).length = 4 := by simp [s1n]
  have hs1d : (s1.2.drop 4).length = 4 := by simp [s1n]
  have e2 := limbsVal_take_add_drop s1.2 4
  rw [hs1t] at e2
  obtain ⟨e3, c2b, s2l, s2n⟩ := subborrow_limbs_spec (s1.2.drop 4) (a.drop 8) 0
    (by rw [hs1d, hl1]) (limbs_drop s1l 4) (limbs_drop ha 8) (by norm_num)
  rw [hs1d] at e3 s2n
  generalize subborrow_limbs 0 (s1.2.drop 4) (a.drop 8) = s2 at e3 c2b s2l s2n ⊢
  have htL : Limbs (s1.2.take 4 ++ s2.2) := limbs_append.2 ⟨limbs_take s1l 4, s2l⟩
  have htn : (s1.2.take 4 ++ s2.2).length = 8 := by
    rw [List.length_append, hs1t, s2n]
  have e4 : limbsVal (s1.2.take 4 ++ s2.2)
      = limbsVal (s1.2.take 4) + 2 ^ 128 * limbsVal s2.2 := by
    rw [limbsVal_append, hs1t]
  have hT := limbsVal_lt htL
  rw [htn] at hT
  obtain ⟨y, hy, hy0, hmask, hc3⟩ := t8_cases_sign c1b c2b
  rw [hmask]
  have hmL : Limbs (if y = 0 then List.replicate 8 0 else R_x16m)
      ∧ (if y = 0 then List.replicate 8 0 else R_x16m).length = 8
      ∧ limbsVal (if y = 0 then List.replicate 8 0 else R_x16m) + 2 * 2 ^ 256 * y
          = 16 * r * y := by
    rcases Nat.le_one_iff_eq_zero_or_eq_one.1 hy with rfl | rfl
    · exact ⟨limbs_replicate_zero 8, rfl, by
        rw [if_pos rfl, limbsVal_replicate_zero, Nat.mul_zero, Nat.mul_zero]⟩
    · refine ⟨limbs_R_x16m, rfl, ?_⟩
      have := limbsVal_R_x16m
      simp only [one_ne_zero, if_false, mul_one]
      exact this
  obtain ⟨e5, c3b, s3l, s3n⟩ := addcarry_limbs_spec (s1.2.take 4 ++ s2.2) _ 0
    (by rw [htn, hmL.2.1]) htL hmL.1 (by norm_num)
  rw [htn] at e5 s3n
  have e6 := hc3 _ c3b
  exact reduce384_exact_arith limbsVal_R0_x8m hmL.2.2 (by norm_num at e1 ⊢; linarith) e2
    (by norm_num at e3 ⊢; linarith) e4 (by norm_num at e5 ⊢; linarith) e6
    (by norm_num at hT ⊢; exact hT) hy hy0

/-! ## The hashed message is injective -/

/-- A zero byte after a string without zero byte marks its end without
ambiguity. -/
theorem zero_split_inj (s1 : List Byte) :
    ∀ (s2 d1 d2 : List Byte), (∀ c ∈ s1, c ≠ 0) → (∀ c ∈ s2, c ≠ 0) →
      s1 ++ [0] ++ d1 = s2 ++ [0] ++ d2 → s1 = s2 ∧ d1 = d2 := by
  induction s1 with
  | nil =>
    intro s2 d1 d2 _ h2 h
    cases s2 with
    | nil =>
      simp only [List.nil_append, List.singleton_append, List.cons.injEq, true_and] at h
      exact ⟨rfl, h⟩
    | cons c cs =>
      simp only [List.nil_append, List.singleton_append, List.cons_append,
        List.cons.injEq] at h
      exact absurd h.1.symm (h2 c (List.mem_cons_self _ _))
  | cons c cs ih =>
    intro s2 d1 d2 h1 h2 h
    cases s2 with
    | nil =>
      simp only [List.nil_append, List.singleton_append, List.cons_append,
        List.cons.injEq] at h
      exact absurd h.1 (h1 c (List.mem_cons_self _ _))
    | cons e es =>
      simp only [List.cons_append, List.cons.injEq] at h
      obtain ⟨hs, hd⟩ := ih es d1 d2 (fun x hx => h1 x (List.mem_cons_of_mem _ hx))
        (fun x hx => h2 x (List.mem_cons_of_mem _ hx)) h.2
      exact ⟨by rw [h.1, hs], hd⟩

/-- The tag of a hash name is `0x52` for `NULL` and the empty string, and
`0x48`, the name and a zero byte for a non-empty name without zero byte. -/
theorem hash_tag_cases (hn : Option (List Byte)) (h : ∀ s, hn = some s → ∀ c ∈ s, c ≠ 0) :
    ((hn = none ∨ hn = some []) ∧ hash_tag hn = [0x52])
      ∨ (∃ s, hn = some s ∧ s ≠ [] ∧ (∀ c ∈ s, c ≠ 0) ∧ hash_tag hn = [0x48] ++ s ++ [0]) := by
  cases hn with
  | none => exact Or.inl ⟨Or.inl rfl, rfl⟩
  | some s =>
    by_cases hs : s = []
    · left
      rw [hs]
      exact ⟨Or.inr rfl, rfl⟩
    · right
      exact ⟨s, rfl, hs, h s rfl, hash_tag_name s hs (h s rfl)⟩

/-- The tag followed by the data determines the name, up to the
identification of `NULL` with the empty string, and the data. -/
theorem hash_tag_append_inj (hn1 hn2 : Option (List Byte)) (d1 d2 : List Byte)
    (h1 : ∀ s, hn1 = some s → ∀ c ∈ s, c ≠ 0) (h2 : ∀ s, hn2 = some s → ∀ c ∈ s, c ≠ 0)
    (h : hash_tag hn1 ++ d1 = hash_tag hn2 ++ d2) :
    (hn1 = hn2 ∨ (hn1 = none ∧ hn2 = some []) ∨ (hn1 = some [] ∧ hn2 = none)) ∧ d1 = d2 := by
  rcases hash_tag_cases hn1 h1 with ⟨r1, t1⟩ | ⟨s1, e1, n1, z1, t1⟩ <;>
    rcases hash_tag_cases hn2 h2 with ⟨r2, t2⟩ | ⟨s2, e2, n2, z2, t2⟩
  · rw [t1, t2] at h
    refine ⟨?_, List.append_cancel_left h⟩
    rcases r1 with r1 | r1 <;> rcases r2 with r2 | r2
    · left; rw [r1, r2]
    · right; left; exact ⟨r1, r2⟩
    · right; right; exact ⟨r1, r2⟩
    · left; rw [r1, r2]
  · rw [t1, t2] at h
    simp only [List.singleton_append, List.cons_append, List.cons.injEq] at h
    exact absurd h.1 (by decide)
  · rw [t1, t2] at h
    simp only [List.singleton_append, List.cons_append, List.cons.injEq] at h
    exact absurd h.1 (by decide)
  · rw [t1, t2] at h
    have h' : s1 ++ [0] ++ d1 = s2 ++ [0] ++ d2 := by
      simpa only [List.singleton_append, List.cons_append, List.cons.injEq, true_and,
        List.append_assoc] using h
    obtain ⟨hs, hd⟩ := zero_split_inj s1 s2 d1 d2 z1 z2 h'
    exact ⟨Or.inl (by rw [e1, e2, hs]), hd⟩

theorem name_a_ok : ∀ s, some name_a = some s → ∀ c ∈ s, c ≠ 0 := by
  intro s hs
  rw [← Option.some.inj hs]
  exact name_a_nonzero

theorem name_none_ok : ∀ s, (none : Option (List Byte)) = some s → ∀ c ∈ s, c ≠ 0 := by
  intro s hs
  cases hs

/-! ## Bytes, limbs and XOR -/

/-- XOR acts separately on the low `k` bits and on the bits above. -/
theorem xor_split {k x y : Nat} (hx : x < 2 ^ k) (hy : y < 2 ^ k) (X Y : Nat) :
    (x + 2 ^ k * X) ^^^ (y + 2 ^ k * Y) = (x ^^^ y) + 2 ^ k * (X ^^^ Y) := by
  apply Nat.eq_of_testBit_eq
  intro j
  rw [Nat.testBit_xor, Nat.add_comm x, Nat.add_comm y, Nat.add_comm (x ^^^ y),
    Nat.testBit_mul_pow_two_add _ hx, Nat.testBit_mul_pow_two_add _ hy,
    Nat.testBit_mul_pow_two_add _ (Nat.xor_lt_two_pow hx hy)]
  by_cases h : j < k
  · simp only [h, if_true, Nat.testBit_xor]
  · simp only [h, if_false, Nat.testBit_xor]

theorem byte_xor_val (a : Byte) (y : Nat) (hy : y < 256) :
    ((Fin.ofNat (a.val ^^^ y) : Byte)).val = a.val ^^^ y := by
  have h : a.val ^^^ y < 2 ^ 8 := Nat.xor_lt_two_pow a.isLt hy
  show (a.val ^^^ y) % 256 = a.val ^^^ y
  exact Nat.mod_eq_of_lt h

/-- The value of a byte-wise XOR is the XOR of the values. -/
theorem bytesVal_xor (a : List Byte) :
    ∀ b : List Byte, a.length = b.length →
      bytesVal (List.zipWith (fun (x y : Byte) => (Fin.ofNat (x.val ^^^ y.val) : Byte)) a b)
        = bytesVal a ^^^ bytesVal b := by
  induction a with
  | nil =>
    intro b h
    cases b with
    | nil => rfl
    | cons y ys => simp at h
  | cons x xs ih =>
    intro b h
    cases b with
    | nil => simp at h
    | cons y ys =>
      have hl : xs.length = ys.length := by simpa using h
      simp only [List.zipWith_cons_cons, bytesVal]
      rw [byte_xor_val x y.val y.isLt, ih ys hl]
      have e := xor_split (Nat.lt_of_lt_of_eq x.isLt (by norm_num : 256 = 2 ^ 8))
        (Nat.lt_of_lt_of_eq y.isLt (by norm_num : 256 = 2 ^ 8)) (bytesVal xs) (bytesVal ys)
      norm_num at e ⊢
      exact e.symm

/-- The value of a limb-wise XOR is the XOR of the values. -/
theorem limbsVal_xor (a : List Nat) :
    ∀ b : List Nat, a.length = b.length → Limbs a → Limbs b →
      limbsVal (List.zipWith (fun x y => x ^^^ y) a b) = limbsVal a ^^^ limbsVal b
        ∧ Limbs (List.zipWith (fun x y => x ^^^ y) a b) := by
  induction a with
  | nil =>
    intro b h _ _
    cases b with
    | nil => exact ⟨rfl, fun x hx => by cases hx⟩
    | cons y ys => simp at h
  | cons x xs ih =>
    intro b h ha hb
    cases b with
    | nil => simp at h
    | cons y ys =>
      have hl : xs.length = ys.length := by simpa using h
      have hx : x < 2 ^ 32 := ha x (List.mem_cons_self _ _)
      have hy : y < 2 ^ 32 := hb y (List.mem_cons_self _ _)
      obtain ⟨v, l⟩ := ih ys hl (fun z hz => ha z (List.mem_cons_of_mem _ hz))
        (fun z hz => hb z (List.mem_cons_of_mem _ hz))
      simp only [List.zipWith_cons_cons, limbsVal]
      rw [v]
      refine ⟨(xor_split hx hy _ _).symm, ?_⟩
      intro z hz
      rcases List.mem_cons.1 hz with hz | hz
      · rw [hz]
        exact Nat.xor_lt_two_pow hx hy
      · exact l z hz

/-- XOR into the byte `i` of a string is XOR of the value with the shifted
byte. -/
theorem bytesVal_set_xor (l : List Byte) :
    ∀ (i y : Nat), i < l.length → y < 256 →
      bytesVal (l.set i (Fin.ofNat ((l.getD i 0).val ^^^ y))) = bytesVal l ^^^ (256 ^ i * y)
        ∧ (l.set i (Fin.ofNat ((l.getD i 0).val ^^^ y))).length = l.length := by
  induction l with
  | nil =>
    intro i y hi _
    simp at hi
  | cons x xs ih =>
    intro i y hi hy
    have hx8 : x.val < 2 ^ 8 := Nat.lt_of_lt_of_eq x.isLt (by norm_num)
    have hy8 : y < 2 ^ 8 := Nat.lt_of_lt_of_eq hy (by norm_num)
    cases i with
    | zero =>
      simp only [List.set_cons_zero, List.getD_cons_zero, bytesVal, List.length_cons,
        pow_zero, one_mul, and_true]
      rw [byte_xor_val x y hy]
      have e := xor_split hx8 hy8 (bytesVal xs) 0
      norm_num at e ⊢
      exact e.symm
    | succ i =>
      have hi' : i < xs.length := by simpa using hi
      obtain ⟨v, n⟩ := ih i y hi' hy
      simp only [List.set_cons_succ, List.getD_cons_succ, bytesVal, List.length_cons, n,
        and_true]
      rw [v]
      have e := xor_split hx8 (by norm_num : 0 < 2 ^ 8) (bytesVal xs) (256 ^ i * y)
      norm_num at e ⊢
      have e2 : 256 ^ (i + 1) * y = 256 * (256 ^ i * y) := by
        rw [pow_succ]
        ring
      rw [e2, e]

/-- The byte `i` of a string, from its value. -/
theorem bytesVal_getD (l : List Byte) :
    ∀ i, (l.getD i 0).val = bytesVal l / 256 ^ i % 256 := by
  induction l with
  | nil =>
    intro i
    simp [bytesVal]
  | cons x xs ih =>
    intro i
    have hx := x.isLt
    cases i with
    | zero =>
      simp only [List.getD_cons_zero, bytesVal, pow_zero, Nat.div_one]
      omega
    | succ i =>
      simp only [List.getD_cons_succ, bytesVal]
      rw [ih i, pow_succ, Nat.mul_comm (256 ^ i) 256, ← Nat.div_div_eq_div_mul]
      have e : (x.val + 256 * bytesVal xs) / 256 = bytesVal xs := by omega
      rw [e]

/-- The bit `i` of the value of a string is the bit `i mod 8` of its byte
`i / 8`, as `r127_mul` reads it. -/
theorem bytesVal_testBit (a : List Byte) (i : Nat) :
    ((((a.getD (i >>> 3) 0).val >>> (i &&& 7)) &&& 1) ≠ 0) ↔ (bytesVal a).testBit i = true := by
  have h3 : i >>> 3 = i / 8 := by rw [Nat.shiftRight_eq_div_pow]
  have h7 : i &&& 7 = i % 8 := by
    have := Nat.and_pow_two_sub_one_eq_mod i 3
    norm_num at this
    exact this
  rw [h3, h7, bytesVal_getD, Nat.and_one_is_mod, Nat.shiftRight_eq_div_pow,
    Nat.testBit_to_div_mod, decide_eq_true_iff]
  have e : bytesVal a / 256 ^ (i / 8) % 256 / 2 ^ (i % 8) % 2 = bytesVal a / 2 ^ i % 2 := by
    have h256 : (256 : Nat) ^ (i / 8) = 2 ^ (8 * (i / 8)) := by
      rw [pow_mul]
      norm_num
    have hi : 2 ^ i = 2 ^ (8 * (i / 8)) * 2 ^ (i % 8) := by
      rw [← pow_add, Nat.div_add_mod]
    rw [h256, hi, ← Nat.div_div_eq_div_mul]
    generalize bytesVal a / 2 ^ (8 * (i / 8)) = q
    have hm : i % 8 < 8 := Nat.mod_lt _ (by norm_num)
    have hq : q % 256 / 2 ^ (i % 8) = q / 2 ^ (i % 8) % 2 ^ (8 - i % 8) := by
      have h8 : (256 : Nat) = 2 ^ (i % 8) * 2 ^ (8 - i % 8) := by
        rw [← pow_add]
        have : i % 8 + (8 - i % 8) = 8 := by omega
        rw [this]
        norm_num
      rw [h8, Nat.mod_mul_right_div_self]
    rw [hq]
    have h2 : 2 ^ (8 - i % 8) = 2 * 2 ^ (7 - i % 8) := by
      rw [← pow_succ']
      congr 1
      omega
    rw [h2, Nat.mod_mul_right_mod]
  rw [e]
  omega

/-! ## The reference arithmetic on bytes and on integers -/

theorem r127_add_spec (a b : List Byte) (ha : 16 ≤ a.length) (hb : 16 ≤ b.length) :
    bytesVal (r127_add a b) = bytesVal (a.take 16) ^^^ bytesVal (b.take 16)
      ∧ (r127_add a b).length = 16 := by
  have la : (a.take 16).length = 16 := by rw [List.length_take]; omega
  have lb : (b.take 16).length = 16 := by rw [List.length_take]; omega
  unfold r127_add
  refine ⟨bytesVal_xor _ _ (by rw [la, lb]), ?_⟩
  rw [List.length_zipWith, la, lb]
  rfl

theorem shl1_byte (w : Byte) {e : Nat} (he : e ≤ 1) :
    ((Fin.ofNat ((w.val <<< 1) ||| e) : Byte)).val + 256 * (w.val >>> 7) = 2 * w.val + e := by
  have hw := w.isLt
  have h1 : (w.val <<< 1) ||| e = 2 * w.val + e := by
    rw [Nat.shiftLeft_eq]
    have := Nat.mul_add_lt_is_or (show e < 2 ^ 1 by omega) w.val
    norm_num at this ⊢
    rw [Nat.mul_comm, ← this]
  have h2 : w.val >>> 7 = w.val / 128 := by rw [Nat.shiftRight_eq_div_pow]
  rw [h1, h2]
  show (2 * w.val + e) % 256 + 256 * (w.val / 128) = 2 * w.val + e
  omega

theorem r127_shl1_spec (c : List Byte) :
    ∀ e, e ≤ 1 →
      bytesVal (r127_shl1 c e).1 + 256 ^ c.length * (r127_shl1 c e).2 = 2 * bytesVal c + e
        ∧ (r127_shl1 c e).2 ≤ 1
        ∧ (r127_shl1 c e).1.length = c.length := by
  induction c with
  | nil =>
    intro e he
    simp [r127_shl1, bytesVal, he]
  | cons w ws ih =>
    intro e he
    have hw := w.isLt
    have h7 : w.val >>> 7 ≤ 1 := by
      rw [Nat.shiftRight_eq_div_pow]
      omega
    obtain ⟨v, c1, n⟩ := ih (w.val >>> 7) h7
    have hb := shl1_byte w he
    simp only [r127_shl1, bytesVal, List.length_cons, n, and_true]
    refine ⟨?_, c1⟩
    rw [pow_succ]
    generalize ((Fin.ofNat ((w.val <<< 1) ||| e) : Byte)).val = b0 at hb
    generalize bytesVal (r127_shl1 ws (w.val >>> 7)).1 = V1 at v
    generalize (r127_shl1 ws (w.val >>> 7)).2 = e2 at v
    generalize 256 ^ ws.length = N at v
    generalize w.val >>> 7 = g at hb v
    generalize bytesVal ws = V at v
    nlinarith

/-- The feedback of the bit shifted out, `z^128 = z^64 + z`. -/
theorem feedback_xor {e : Nat} (he : e ≤ 1) (V : Nat) :
    (V ^^^ (256 ^ 0 * (e <<< 1))) ^^^ (256 ^ 8 * e) = V ^^^ (e % 2 * (2 ^ 64 + 2)) := by
  rcases Nat.le_one_iff_eq_zero_or_eq_one.1 he with h | h
  · rw [h]
    simp
  · rw [h, Nat.xor_assoc]
    congr 1

/-- The shift of `r127_mul` with its feedback, on the value of the state
`c`. -/
theorem r127_shift_spec (c : List Byte) (hc : c.length = 16) :
    bytesVal ((((r127_shl1 c 0).1.set 0
        (Fin.ofNat (((r127_shl1 c 0).1.getD 0 0).val ^^^ ((r127_shl1 c 0).2 <<< 1)))).set 8
        (Fin.ofNat ((((r127_shl1 c 0).1.set 0
          (Fin.ofNat (((r127_shl1 c 0).1.getD 0 0).val ^^^ ((r127_shl1 c 0).2 <<< 1)))).getD 8
            0).val ^^^ (r127_shl1 c 0).2))))
        = poly_shift (bytesVal c)
      ∧ (((r127_shl1 c 0).1.set 0
        (Fin.ofNat (((r127_shl1 c 0).1.getD 0 0).val ^^^ ((r127_shl1 c 0).2 <<< 1)))).set 8
        (Fin.ofNat ((((r127_shl1 c 0).1.set 0
          (Fin.ofNat (((r127_shl1 c 0).1.getD 0 0).val ^^^ ((r127_shl1 c 0).2 <<< 1)))).getD 8
            0).val ^^^ (r127_shl1 c 0).2))).length = 16 := by
  obtain ⟨v, e1, n⟩ := r127_shl1_spec c 0 (by norm_num)
  rw [hc] at v n
  generalize r127_shl1 c 0 = s at v e1 n ⊢
  have hC := bytesVal_lt c
  rw [hc] at hC
  have hS := bytesVal_lt s.1
  rw [n] at hS
  have he2 : s.2 <<< 1 < 256 := by
    rw [Nat.shiftLeft_eq]
    omega
  obtain ⟨v1, n1⟩ := bytesVal_set_xor s.1 0 (s.2 <<< 1) (by rw [n]; norm_num) he2
  rw [n] at n1
  obtain ⟨v2, n2⟩ := bytesVal_set_xor _ 8 s.2 (by rw [n1]; norm_num) (by omega)
  rw [n1] at n2
  refine ⟨?_, n2⟩
  rw [v2, v1, feedback_xor e1]
  unfold poly_shift
  have h1 : bytesVal s.1 = 2 * bytesVal c % 2 ^ 128 := by
    norm_num at v hS hC ⊢
    omega
  have h2 : s.2 % 2 = bytesVal c / 2 ^ 127 % 2 := by
    norm_num at v hS hC ⊢
    omega
  rw [h1, h2]

theorem poly_shift_lt (c : Nat) : poly_shift c < 2 ^ 128 := by
  unfold poly_shift
  apply Nat.xor_lt_two_pow (Nat.mod_lt _ (by norm_num))
  have h : c / 2 ^ 127 % 2 ≤ 1 := by omega
  rcases Nat.le_one_iff_eq_zero_or_eq_one.1 h with h | h <;> rw [h] <;> norm_num

/-- One turn of the loop of `r127_mul`, on the values of the state. -/
theorem r127_mul_step_spec (a : List Byte) (st : List Byte × List Byte) (i : Nat)
    (ht : st.1.length = 16) (hc : st.2.length = 16) :
    (bytesVal (r127_mul_step a st i).1, bytesVal (r127_mul_step a st i).2)
        = poly_mul_step (bytesVal a) (bytesVal st.1, bytesVal st.2) i
      ∧ (r127_mul_step a st i).1.length = 16 ∧ (r127_mul_step a st i).2.length = 16 := by
  obtain ⟨sv, sn⟩ := r127_shift_spec st.2 hc
  obtain ⟨av, an⟩ := r127_add_spec st.1 st.2 (by omega) (by omega)
  have t1 : st.1.take 16 = st.1 := List.take_of_length_le (by omega)
  have t2 : st.2.take 16 = st.2 := List.take_of_length_le (by omega)
  rw [t1, t2] at av
  unfold r127_mul_step poly_mul_step
  simp only []
  rw [sv]
  refine ⟨?_, ?_, sn⟩
  · by_cases hb : (bytesVal a).testBit i = true
    · rw [if_pos ((bytesVal_testBit a i).2 hb), if_pos hb, av]
    · rw [if_neg (fun h => hb ((bytesVal_testBit a i).1 h)), if_neg hb]
  · by_cases hb : (bytesVal a).testBit i = true
    · rw [if_pos ((bytesVal_testBit a i).2 hb)]
      exact an
    · rw [if_neg (fun h => hb ((bytesVal_testBit a i).1 h))]
      exact ht

theorem r127_mul_fold_spec (a : List Byte) (is : List Nat) :
    ∀ st : List Byte × List Byte, st.1.length = 16 → st.2.length = 16 →
      (bytesVal (is.foldl (r127_mul_step a) st).1, bytesVal (is.foldl (r127_mul_step a) st).2)
          = is.foldl (poly_mul_step (bytesVal a)) (bytesVal st.1, bytesVal st.2)
        ∧ (is.foldl (r127_mul_step a) st).1.length = 16
        ∧ (is.foldl (r127_mul_step a) st).2.length = 16 := by
  induction is with
  | nil =>
    intro st ht hc
    exact ⟨rfl, ht, hc⟩
  | cons i is ih =>
    intro st ht hc
    obtain ⟨v, n1, n2⟩ := r127_mul_step_spec a st i ht hc
    simp only [List.foldl_cons]
    rw [← v]
    exact ih _ n1 n2

theorem bytesVal_take_mod (a : List Byte) (n : Nat) (h : n ≤ a.length) :
    bytesVal (a.take n) = bytesVal a % 256 ^ n := by
  have e := bytesVal_take_add_drop a n h
  have hl := bytesVal_lt (a.take n)
  rw [List.length_take, Nat.min_eq_left h] at hl
  rw [← e, Nat.add_mul_mod_self_left, Nat.mod_eq_of_lt hl]

/-- The loop of `poly_mul` reads the bits of `a` of index below 128 only. -/
theorem poly_mul_fold_congr (a a' : Nat) (is : List Nat) :
    ∀ st : Nat × Nat, (∀ i ∈ is, a.testBit i = a'.testBit i) →
      is.foldl (poly_mul_step a) st = is.foldl (poly_mul_step a') st := by
  induction is with
  | nil =>
    intro st _
    rfl
  | cons i is ih =>
    intro st h
    simp only [List.foldl_cons]
    have e : poly_mul_step a st i = poly_mul_step a' st i := by
      unfold poly_mul_step
      rw [h i (List.mem_cons_self _ _)]
    rw [e]
    exact ih _ (fun j hj => h j (List.mem_cons_of_mem _ hj))

theorem poly_mul_mod (a b : Nat) : poly_mul (a % 2 ^ 128) b = poly_mul a b := by
  unfold poly_mul
  rw [poly_mul_fold_congr (a % 2 ^ 128) a]
  intro i hi
  rw [List.mem_range] at hi
  rw [Nat.testBit_mod_two_pow]
  simp [hi]

/-- `r127_mul` on the values of the first 16 bytes of its operands. -/
theorem r127_mul_spec (a b : List Byte) (ha : 16 ≤ a.length) (hb : 16 ≤ b.length) :
    bytesVal (r127_mul a b) = poly_mul (bytesVal (a.take 16)) (bytesVal (b.take 16))
      ∧ (r127_mul a b).length = 16 := by
  have lb : (b.take 16).length = 16 := by rw [List.length_take]; omega
  obtain ⟨v, n, _⟩ := r127_mul_fold_spec a (List.range 128)
    (List.replicate 16 0, b.take 16) (by simp) lb
  unfold r127_mul
  refine ⟨?_, n⟩
  have v1 := congrArg Prod.fst v
  simp only [] at v1
  rw [v1, bytesVal_replicate_zero, bytesVal_take_mod a 16 ha]
  have e : (256 : Nat) ^ 16 = 2 ^ 128 := by norm_num
  rw [e, poly_mul_mod]
  rfl

set_option maxRecDepth 100000 in
theorem byte_and_80 : ∀ w : Byte, w.val &&& 0x80 = 128 * (w.val / 128) := by decide

/-- The folding of the bit 127 by `r127_norm`, on values. -/
theorem norm_xor {e : Nat} (he : e ≤ 1) (V : Nat) :
    ((V ^^^ (256 ^ 0 * ((128 * e) >>> 7))) ^^^ (256 ^ 7 * (128 * e))) ^^^ (256 ^ 15 * (128 * e))
      = V ^^^ (e * (2 ^ 127 + 2 ^ 63 + 1)) := by
  rcases Nat.le_one_iff_eq_zero_or_eq_one.1 he with h | h
  · rw [h]
    simp
  · rw [h, Nat.xor_assoc, Nat.xor_assoc]
    congr 1

/-- `r127_norm` on the value of the first 16 bytes of its operand. -/
theorem r127_norm_spec (a : List Byte) (ha : 16 ≤ a.length) :
    bytesVal (r127_norm a) = poly_norm (bytesVal (a.take 16))
      ∧ (r127_norm a).length = 16 := by
  have la : (a.take 16).length = 16 := by rw [List.length_take]; omega
  unfold r127_norm
  simp only []
  generalize a.take 16 = d at la
  have hD := bytesVal_lt d
  rw [la] at hD
  have hx : (d.getD 15 0).val &&& 0x80 = 128 * (bytesVal d / 2 ^ 127 % 2) := by
    rw [byte_and_80, bytesVal_getD]
    norm_num at hD ⊢
    omega
  rw [hx]
  have he : bytesVal d / 2 ^ 127 % 2 ≤ 1 := by omega
  unfold poly_norm
  generalize bytesVal d / 2 ^ 127 % 2 = e at he
  have hx1 : (128 * e) >>> 7 < 256 := by
    rw [Nat.shiftRight_eq_div_pow]
    omega
  have hx2 : 128 * e < 256 := by omega
  obtain ⟨v1, n1⟩ := bytesVal_set_xor d 0 ((128 * e) >>> 7) (by rw [la]; norm_num) hx1
  rw [la] at n1
  obtain ⟨v2, n2⟩ := bytesVal_set_xor _ 7 (128 * e) (by rw [n1]; norm_num) hx2
  rw [n1] at n2
  obtain ⟨v3, n3⟩ := bytesVal_set_xor _ 15 (128 * e) (by rw [n2]; norm_num) hx2
  rw [n2] at n3
  refine ⟨?_, n3⟩
  rw [v3, v2, v1, norm_xor he]

theorem poly_norm_lt {a : Nat} (ha : a < 2 ^ 128) : poly_norm a < 2 ^ 127 := by
  unfold poly_norm
  apply Nat.lt_pow_two_of_testBit
  intro i hi
  rw [Nat.testBit_xor]
  by_cases h : a < 2 ^ 127
  · have e : a / 2 ^ 127 % 2 = 0 := by omega
    rw [e, Nat.zero_mul, Nat.zero_testBit, Bool.xor_false]
    exact Nat.testBit_lt_two_pow (lt_of_lt_of_le h (Nat.pow_le_pow_right (by norm_num) hi))
  · have e : a / 2 ^ 127 % 2 = 1 := by omega
    rw [e, Nat.one_mul]
    rcases Nat.eq_or_lt_of_le hi with h127 | hgt
    · rw [← h127]
      have h1 : a.testBit 127 = true := by
        rw [Nat.testBit_to_div_mod, e]
        rfl
      have h2 : (2 ^ 127 + 2 ^ 63 + 1).testBit 127 = true := by decide
      rw [h1, h2]
      rfl
    · have h1 : a.testBit i = false :=
        Nat.testBit_lt_two_pow (lt_of_lt_of_le ha (Nat.pow_le_pow_right (by norm_num) hgt))
      have h2 : (2 ^ 127 + 2 ^ 63 + 1).testBit i = false :=
        Nat.testBit_lt_two_pow (lt_of_lt_of_le (by norm_num : 2 ^ 127 + 2 ^ 63 + 1 < 2 ^ 128)
          (Nat.pow_le_pow_right (by norm_num) hgt))
      rw [h1, h2]
      rfl

/-! ## The polynomial of a 128-bit integer

The lemmas of this section are about any function `φ` that sends an integer to
the polynomial over GF(2) whose coefficients are its 128 low bits. -/

section
open Polynomial

variable (φ : ℕ → Polynomial (ZMod 2))

theorem coeff_phi (hφ : IsBitPoly φ) (a n : ℕ) :
    (φ a).coeff n = if n < 128 ∧ a.testBit n = true then 1 else 0 := by
  rw [hφ a, finset_sum_coeff]
  by_cases hn : n < 128
  · rw [Finset.sum_eq_single n]
    · by_cases hb : a.testBit n = true
      · rw [if_pos hb, if_pos ⟨hn, hb⟩, coeff_X_pow, if_pos rfl]
      · rw [if_neg hb, if_neg (fun h => hb h.2), coeff_zero]
    · intro i _ hi
      by_cases hb : a.testBit i = true
      · rw [if_pos hb, coeff_X_pow, if_neg (Ne.symm hi)]
      · rw [if_neg hb, coeff_zero]
    · intro h
      exact absurd (Finset.mem_range.2 hn) h
  · rw [if_neg (fun h => hn h.1)]
    apply Finset.sum_eq_zero
    intro i hi
    rw [Finset.mem_range] at hi
    by_cases hb : a.testBit i = true
    · rw [if_pos hb, coeff_X_pow, if_neg (by omega)]
    · rw [if_neg hb, coeff_zero]

theorem phi_xor (hφ : IsBitPoly φ) (a b : ℕ) : φ (a ^^^ b) = φ a + φ b := by
  ext n
  rw [coeff_add, coeff_phi φ hφ, coeff_phi φ hφ, coeff_phi φ hφ, Nat.testBit_xor]
  by_cases hn : n < 128
  · have h11 : (1 : ZMod 2) + 1 = 0 := by decide
    cases a.testBit n <;> cases b.testBit n <;> simp [hn, h11]
  · simp [hn]

theorem phi_zero (hφ : IsBitPoly φ) : φ 0 = 0 := by
  ext n
  rw [coeff_phi φ hφ, Nat.zero_testBit]
  simp

theorem phi_two_pow (hφ : IsBitPoly φ) (k : ℕ) (hk : k < 128) : φ (2 ^ k) = X ^ k := by
  ext n
  rw [coeff_phi φ hφ, coeff_X_pow, Nat.testBit_two_pow]
  by_cases h : n = k
  · rw [if_pos h, if_pos ⟨by omega, by simp [h]⟩]
  · rw [if_neg h, if_neg]
    intro hc
    have := hc.2
    simp at this
    exact h this.symm

theorem phi_double (hφ : IsBitPoly φ) (c : ℕ) :
    φ ((2 * c) % 2 ^ 128) = X * φ c + (if c.testBit 127 = true then X ^ 128 else 0) := by
  ext n
  rw [coeff_add, coeff_phi φ hφ, Nat.testBit_mod_two_pow]
  cases n with
  | zero =>
    rw [coeff_X_mul_zero, Nat.testBit_zero]
    have h2 : ¬ (2 * c % 2 = 1) := by omega
    by_cases hb : c.testBit 127 = true
    · rw [if_pos hb, coeff_X_pow]
      simp [h2]
    · rw [if_neg hb]
      simp [h2]
  | succ k =>
    rw [coeff_X_mul, coeff_phi φ hφ, Nat.testBit_succ]
    have e : 2 * c / 2 = c := by omega
    rw [e]
    by_cases hk : k + 1 < 128
    · have hk' : k < 128 := by omega
      have hne : k + 1 ≠ 128 := by omega
      by_cases hb : c.testBit 127 = true
      · rw [if_pos hb, coeff_X_pow, if_neg hne]
        simp [hk, hk']
      · rw [if_neg hb]
        simp [hk, hk']
    · by_cases h128 : k + 1 = 128
      · have hk7 : k = 127 := by omega
        rw [hk7]
        by_cases hb : c.testBit 127 = true
        · rw [if_pos hb, coeff_X_pow]
          simp [hb]
          decide
        · rw [if_neg hb]
          simp [hb]
      · have hk' : ¬ k < 128 := by omega
        by_cases hb : c.testBit 127 = true
        · rw [if_pos hb, coeff_X_pow, if_neg h128]
          simp [hk, hk']
        · rw [if_neg hb]
          simp [hk, hk']

theorem phi_shift (hφ : IsBitPoly φ) (c : ℕ) :
    φ (poly_shift c)
      = X * φ c + (if c.testBit 127 = true then X ^ 128 + X ^ 64 + X else 0) := by
  unfold poly_shift
  rw [phi_xor φ hφ, phi_double φ hφ]
  by_cases hb : c.testBit 127 = true
  · have e : c / 2 ^ 127 % 2 = 1 := by
      rw [Nat.testBit_to_div_mod] at hb
      simpa using hb
    have e2 : (2 : ℕ) ^ 64 + 2 = 2 ^ 64 ^^^ 2 ^ 1 := by decide
    rw [e, Nat.one_mul, e2, phi_xor φ hφ, phi_two_pow φ hφ 64 (by norm_num),
      phi_two_pow φ hφ 1 (by norm_num), if_pos hb, if_pos hb, pow_one]
    ring
  · have e : c / 2 ^ 127 % 2 = 0 := by
      rw [Nat.testBit_to_div_mod] at hb
      have : c / 2 ^ 127 % 2 ≠ 1 := by simpa using hb
      omega
    rw [e, Nat.zero_mul, phi_zero φ hφ, if_neg hb, if_neg hb, add_zero]

theorem phi_norm (hφ : IsBitPoly φ) (a : ℕ) :
    φ (poly_norm a)
      = φ a + (if a.testBit 127 = true then X ^ 127 + X ^ 63 + 1 else 0) := by
  unfold poly_norm
  rw [phi_xor φ hφ]
  by_cases hb : a.testBit 127 = true
  · have e : a / 2 ^ 127 % 2 = 1 := by
      rw [Nat.testBit_to_div_mod] at hb
      simpa using hb
    have e2 : (2 : ℕ) ^ 127 + 2 ^ 63 + 1 = (2 ^ 127 ^^^ 2 ^ 63) ^^^ 2 ^ 0 := by decide
    rw [e, Nat.one_mul, e2, phi_xor φ hφ, phi_xor φ hφ, phi_two_pow φ hφ 127 (by norm_num),
      phi_two_pow φ hφ 63 (by norm_num), phi_two_pow φ hφ 0 (by norm_num), if_pos hb, pow_zero]
  · have e : a / 2 ^ 127 % 2 = 0 := by
      rw [Nat.testBit_to_div_mod] at hb
      have : a / 2 ^ 127 % 2 ≠ 1 := by simpa using hb
      omega
    rw [e, Nat.zero_mul, phi_zero φ hφ, if_neg hb]

theorem phi_injective (hφ : IsBitPoly φ) (a b : ℕ) (ha : a < 2 ^ 128) (hb : b < 2 ^ 128) (h : φ a = φ b) :
    a = b := by
  apply Nat.eq_of_testBit_eq
  intro i
  by_cases hi : i < 128
  · have hc := congrArg (fun p => p.coeff i) h
    simp only [] at hc
    rw [coeff_phi φ hφ, coeff_phi φ hφ] at hc
    cases ha' : a.testBit i <;> cases hb' : b.testBit i <;> simp [hi, ha', hb'] at hc ⊢
  · have h1 : (2 : ℕ) ^ 128 ≤ 2 ^ i := Nat.pow_le_pow_right (by norm_num) (by omega)
    rw [Nat.testBit_lt_two_pow (lt_of_lt_of_le ha h1),
      Nat.testBit_lt_two_pow (lt_of_lt_of_le hb h1)]

theorem phi_degree (hφ : IsBitPoly φ) (a n : ℕ) (ha : a < 2 ^ n) : (φ a).degree < n := by
  rw [degree_lt_iff_coeff_zero]
  intro m hm
  rw [coeff_phi φ hφ, if_neg]
  intro hc
  have h1 : (2 : ℕ) ^ n ≤ 2 ^ m := Nat.pow_le_pow_right (by norm_num) hm
  rw [Nat.testBit_lt_two_pow (lt_of_lt_of_le ha h1)] at hc
  exact absurd hc.2 (by simp)

end

/-! ## The product of `r127_mul` is a product of polynomials -/

section
open Polynomial

variable (φ : ℕ → Polynomial (ZMod 2))
variable {R : Type} [CommRing R] (π : Polynomial (ZMod 2) →+* R)

theorem pi_shift (hφ : IsBitPoly φ) (hπ : π (X ^ 128 + X ^ 64 + X) = 0) (c : ℕ) :
    π (φ (poly_shift c)) = π X * π (φ c) := by
  rw [phi_shift φ hφ]
  by_cases hb : c.testBit 127 = true
  · rw [if_pos hb, map_add, hπ, add_zero, map_mul]
  · rw [if_neg hb, add_zero, map_mul]

/-- The state of the loop of `poly_mul` after `k` turns. -/
theorem pi_fold (hφ : IsBitPoly φ) (hπ : π (X ^ 128 + X ^ 64 + X) = 0) (a b : ℕ)
    (hb : b < 2 ^ 128) (k : ℕ) :
    ((List.range k).foldl (poly_mul_step a) (0, b)).1 < 2 ^ 128
      ∧ ((List.range k).foldl (poly_mul_step a) (0, b)).2 < 2 ^ 128
      ∧ π (φ ((List.range k).foldl (poly_mul_step a) (0, b)).2) = π X ^ k * π (φ b)
      ∧ π (φ ((List.range k).foldl (poly_mul_step a) (0, b)).1)
          = (∑ i in Finset.range k, if a.testBit i = true then π X ^ i else 0) * π (φ b) := by
  induction k with
  | zero =>
    refine ⟨by norm_num, hb, by simp, ?_⟩
    simp [phi_zero φ hφ]
  | succ k ih =>
    obtain ⟨h1, h2, h3, h4⟩ := ih
    rw [List.range_succ, List.foldl_append, List.foldl_cons, List.foldl_nil]
    generalize (List.range k).foldl (poly_mul_step a) (0, b) = st at h1 h2 h3 h4
    unfold poly_mul_step
    simp only []
    refine ⟨?_, poly_shift_lt _, ?_, ?_⟩
    · by_cases hk : a.testBit k = true
      · rw [if_pos hk]
        exact Nat.xor_lt_two_pow h1 h2
      · rw [if_neg hk]
        exact h1
    · rw [pi_shift φ π hφ hπ, h3, pow_succ]
      ring
    · rw [Finset.sum_range_succ]
      by_cases hk : a.testBit k = true
      · rw [if_pos hk, if_pos hk, phi_xor φ hφ, map_add, h4, h3]
        ring
      · rw [if_neg hk, if_neg hk, h4, add_zero]

theorem pi_phi (hφ : IsBitPoly φ) (a : ℕ) :
    π (φ a) = ∑ i in Finset.range 128, if a.testBit i = true then π X ^ i else 0 := by
  rw [hφ a, map_sum]
  apply Finset.sum_congr rfl
  intro i _
  by_cases hb : a.testBit i = true
  · rw [if_pos hb, if_pos hb, map_pow]
  · rw [if_neg hb, if_neg hb, map_zero]

/-- The product of `r127_mul`, on integers, is the product of the
polynomials modulo `z^128 + z^64 + z`. -/
theorem pi_mul (hφ : IsBitPoly φ) (hπ : π (X ^ 128 + X ^ 64 + X) = 0) (a b : ℕ)
    (hb : b < 2 ^ 128) :
    π (φ (poly_mul a b)) = π (φ a) * π (φ b) ∧ poly_mul a b < 2 ^ 128 := by
  obtain ⟨h1, _, _, h4⟩ := pi_fold φ π hφ hπ a b hb 128
  unfold poly_mul
  exact ⟨by rw [h4, pi_phi φ π hφ a], h1⟩

theorem pi_norm (hφ : IsBitPoly φ) (hπ : π (X ^ 127 + X ^ 63 + 1) = 0) (a : ℕ) :
    π (φ (poly_norm a)) = π (φ a) := by
  rw [phi_norm φ hφ]
  by_cases hb : a.testBit 127 = true
  · rw [if_pos hb, map_add, hπ, add_zero]
  · rw [if_neg hb, add_zero]

end

theorem poly_mul_lt (a b : ℕ) (hb : b < 2 ^ 128) : poly_mul a b < 2 ^ 128 := by
  have hφ : IsBitPoly (fun a => ∑ i in Finset.range 128,
      if a.testBit i = true then (Polynomial.X : Polynomial (ZMod 2)) ^ i else 0) :=
    fun _ => rfl
  exact (pi_fold _ (Ideal.Quotient.mk (Ideal.span {(Polynomial.X ^ 128 + Polynomial.X ^ 64
    + Polynomial.X : Polynomial (ZMod 2))})) hφ
    (Ideal.Quotient.eq_zero_iff_mem.2 (Ideal.mem_span_singleton.2 (dvd_refl _))) a b hb 128).1

/-! ## The ring and the field behind the reference arithmetic -/

section
open Polynomial

theorem degree_modulus128 :
    (X ^ 128 + X ^ 64 + X : Polynomial (ZMod 2)).degree = 128 := by
  compute_degree!

theorem degree_modulus127 :
    (X ^ 127 + X ^ 63 + 1 : Polynomial (ZMod 2)).degree = 127 := by
  compute_degree!

theorem xor_eq_zero {a b : ℕ} (h : a ^^^ b = 0) : a = b := by
  have e : a ^^^ (a ^^^ b) = b := by
    rw [← Nat.xor_assoc, Nat.xor_self, Nat.zero_xor]
  rw [h, Nat.xor_zero] at e
  exact e

/-- Two integers below `2^n` whose polynomials are congruent modulo a
polynomial of degree `n` are equal. -/
theorem phi_mod_injective (φ : ℕ → Polynomial (ZMod 2)) (hφ : IsBitPoly φ)
    (m : Polynomial (ZMod 2)) (n : ℕ) (hn : n ≤ 128) (hm : m.degree = n) (a b : ℕ)
    (ha : a < 2 ^ n) (hb : b < 2 ^ n)
    (h : Ideal.Quotient.mk (Ideal.span {m}) (φ a) = Ideal.Quotient.mk (Ideal.span {m}) (φ b)) :
    a = b := by
  rw [Ideal.Quotient.eq, Ideal.mem_span_singleton] at h
  have e : φ a - φ b = φ (a ^^^ b) := by
    rw [phi_xor φ hφ, CharTwo.sub_eq_add]
  rw [e] at h
  have hx : a ^^^ b < 2 ^ n := Nat.xor_lt_two_pow ha hb
  have hd : (φ (a ^^^ b)).degree < m.degree := by
    rw [hm]
    exact phi_degree φ hφ _ n hx
  have h0 := eq_zero_of_dvd_of_degree_lt h hd
  rw [← phi_zero φ hφ] at h0
  have h128 : (2 : ℕ) ^ n ≤ 2 ^ 128 := Nat.pow_le_pow_right (by norm_num) hn
  exact xor_eq_zero (phi_injective φ hφ _ _ (lt_of_lt_of_le hx h128) (by norm_num) h0)

theorem quotient_add_self (m : Polynomial (ZMod 2))
    (x : Polynomial (ZMod 2) ⧸ Ideal.span {m}) : x + x = 0 := by
  obtain ⟨p, rfl⟩ := Ideal.Quotient.mk_surjective x
  rw [← map_add, CharTwo.add_self_eq_zero, map_zero]

end

/-- The 128-bit integers with XOR and `poly_mul` embed in a commutative ring
of characteristic 2, the ring of polynomials over GF(2) modulo
`z^128 + z^64 + z`. -/
theorem poly_ring : ∃ (R : Type) (_ : CommRing R) (ι : ℕ → R),
    (∀ x : R, x + x = 0) ∧ ι 0 = 0 ∧ ι 1 = 1
      ∧ (∀ a b, ι (a ^^^ b) = ι a + ι b)
      ∧ (∀ a b, b < 2 ^ 128 → ι (poly_mul a b) = ι a * ι b)
      ∧ (∀ a b, a < 2 ^ 128 → b < 2 ^ 128 → ι a = ι b → a = b) := by
  have hφ : IsBitPoly (fun a => ∑ i in Finset.range 128,
      if a.testBit i = true then (Polynomial.X : Polynomial (ZMod 2)) ^ i else 0) :=
    fun _ => rfl
  generalize (fun a : ℕ => ∑ i in Finset.range 128,
      if a.testBit i = true then (Polynomial.X : Polynomial (ZMod 2)) ^ i else 0) = φ at hφ
  have hπ : Ideal.Quotient.mk (Ideal.span {(Polynomial.X ^ 128 + Polynomial.X ^ 64
      + Polynomial.X : Polynomial (ZMod 2))})
      (Polynomial.X ^ 128 + Polynomial.X ^ 64 + Polynomial.X) = 0 :=
    Ideal.Quotient.eq_zero_iff_mem.2 (Ideal.mem_span_singleton.2 (dvd_refl _))
  refine ⟨Polynomial (ZMod 2) ⧸ Ideal.span {(Polynomial.X ^ 128 + Polynomial.X ^ 64
      + Polynomial.X : Polynomial (ZMod 2))}, inferInstance,
    fun a => Ideal.Quotient.mk _ (φ a), quotient_add_self _, ?_, ?_, ?_, ?_, ?_⟩
  · show Ideal.Quotient.mk _ (φ 0) = 0
    rw [phi_zero φ hφ, map_zero]
  · show Ideal.Quotient.mk _ (φ 1) = 1
    have e : (1 : ℕ) = 2 ^ 0 := rfl
    rw [e, phi_two_pow φ hφ 0 (by norm_num), pow_zero, map_one]
  · intro a b
    show Ideal.Quotient.mk _ (φ (a ^^^ b)) = Ideal.Quotient.mk _ (φ a) + Ideal.Quotient.mk _ (φ b)
    rw [phi_xor φ hφ, map_add]
  · intro a b hb
    exact (pi_mul φ _ hφ hπ a b hb).1
  · intro a b ha hb h
    exact phi_mod_injective φ hφ _ 128 (le_refl _) degree_modulus128 a b ha hb h

/-- The 128-bit integers with XOR, `poly_mul` and `poly_norm` map to the
field GF(2^127) of polynomials over GF(2) modulo `z^127 + z^63 + 1`; the map
is injective on the normalised integers, and `z^126 + z^62`, `z^125 + z^61`
are the inverses of `z` and `z^2`. -/
theorem poly_field : ∃ (F : Type) (_ : CommRing F) (κ : ℕ → F),
    (∀ x : F, x + x = 0) ∧ κ 0 = 0 ∧ κ 1 = 1
      ∧ (∀ a b, κ (a ^^^ b) = κ a + κ b)
      ∧ (∀ a b, b < 2 ^ 128 → κ (poly_mul a b) = κ a * κ b)
      ∧ (∀ a, κ (poly_norm a) = κ a)
      ∧ (∀ a b, a < 2 ^ 127 → b < 2 ^ 127 → κ a = κ b → a = b)
      ∧ κ 2 * κ (2 ^ 126 + 2 ^ 62) = 1
      ∧ κ 4 * κ (2 ^ 125 + 2 ^ 61) = 1 := by
  have hφ : IsBitPoly (fun a => ∑ i in Finset.range 128,
      if a.testBit i = true then (Polynomial.X : Polynomial (ZMod 2)) ^ i else 0) :=
    fun _ => rfl
  generalize (fun a : ℕ => ∑ i in Finset.range 128,
      if a.testBit i = true then (Polynomial.X : Polynomial (ZMod 2)) ^ i else 0) = φ at hφ
  have hm : Ideal.Quotient.mk (Ideal.span {(Polynomial.X ^ 127 + Polynomial.X ^ 63
      + 1 : Polynomial (ZMod 2))})
      (Polynomial.X ^ 127 + Polynomial.X ^ 63 + 1) = 0 :=
    Ideal.Quotient.eq_zero_iff_mem.2 (Ideal.mem_span_singleton.2 (dvd_refl _))
  have hπ : Ideal.Quotient.mk (Ideal.span {(Polynomial.X ^ 127 + Polynomial.X ^ 63
      + 1 : Polynomial (ZMod 2))})
      (Polynomial.X ^ 128 + Polynomial.X ^ 64 + Polynomial.X) = 0 :=
    Ideal.Quotient.eq_zero_iff_mem.2 (Ideal.mem_span_singleton.2 ⟨Polynomial.X, by ring⟩)
  have hone : ∀ p : Polynomial (ZMod 2),
      p = (Polynomial.X ^ 127 + Polynomial.X ^ 63 + 1) - 1 →
      Ideal.Quotient.mk (Ideal.span {(Polynomial.X ^ 127 + Polynomial.X ^ 63
        + 1 : Polynomial (ZMod 2))}) p = 1 := by
    intro p hp
    rw [hp, map_sub, hm, map_one, zero_sub]
    have h2 := quotient_add_self (Polynomial.X ^ 127 + Polynomial.X ^ 63 + 1) 1
    exact (eq_neg_of_add_eq_zero_left h2).symm
  refine ⟨Polynomial (ZMod 2) ⧸ Ideal.span {(Polynomial.X ^ 127 + Polynomial.X ^ 63
      + 1 : Polynomial (ZMod 2))}, inferInstance,
    fun a => Ideal.Quotient.mk _ (φ a), quotient_add_self _, ?_, ?_, ?_, ?_, ?_, ?_, ?_, ?_⟩
  · show Ideal.Quotient.mk _ (φ 0) = 0
    rw [phi_zero φ hφ, map_zero]
  · show Ideal.Quotient.mk _ (φ 1) = 1
    have e : (1 : ℕ) = 2 ^ 0 := rfl
    rw [e, phi_two_pow φ hφ 0 (by norm_num), pow_zero, map_one]
  · intro a b
    show Ideal.Quotient.mk _ (φ (a ^^^ b)) = Ideal.Quotient.mk _ (φ a) + Ideal.Quotient.mk _ (φ b)
    rw [phi_xor φ hφ, map_add]
  · intro a b hb
    exact (pi_mul φ _ hφ hπ a b hb).1
  · intro a
    exact pi_norm φ _ hφ hm a
  · intro a b ha hb h
    exact phi_mod_injective φ hφ _ 127 (by norm_num) degree_modulus127 a b ha hb h
  · show Ideal.Quotient.mk _ (φ 2) * Ideal.Quotient.mk _ (φ (2 ^ 126 + 2 ^ 62)) = 1
    have e1 : φ 2 = Polynomial.X ^ 1 := phi_two_pow φ hφ 1 (by norm_num)
    have e2 : (2 : ℕ) ^ 126 + 2 ^ 62 = 2 ^ 126 ^^^ 2 ^ 62 := by decide
    rw [e2, phi_xor φ hφ, phi_two_pow φ hφ 126 (by norm_num), phi_two_pow φ hφ 62 (by norm_num),
      e1, ← map_mul]
    exact hone _ (by ring)
  · show Ideal.Quotient.mk _ (φ 4) * Ideal.Quotient.mk _ (φ (2 ^ 125 + 2 ^ 61)) = 1
    have e1 : φ 4 = Polynomial.X ^ 2 := phi_two_pow φ hφ 2 (by norm_num)
    have e2 : (2 : ℕ) ^ 125 + 2 ^ 61 = 2 ^ 125 ^^^ 2 ^ 61 := by decide
    rw [e2, phi_xor φ hφ, phi_two_pow φ hφ 125 (by norm_num), phi_two_pow φ hφ 61 (by norm_num),
      e1, ← map_mul]
    exact hone _ (by ring)

/-! ## The reference arithmetic on 16 bytes is the one of a ring -/

theorem take16_self {x : List Byte} (h : x.length = 16) : x.take 16 = x :=
  List.take_of_length_le (by omega)

theorem bytesVal_take16_lt (a : List Byte) : bytesVal (a.take 16) < 2 ^ 128 := by
  have h := bytesVal_lt (a.take 16)
  have hl : (a.take 16).length ≤ 16 := by rw [List.length_take]; omega
  have h2 : (256 : ℕ) ^ (a.take 16).length ≤ 256 ^ 16 := Nat.pow_le_pow_right (by norm_num) hl
  have h3 : (256 : ℕ) ^ 16 = 2 ^ 128 := by norm_num
  omega

theorem bytesVal_r127_one : bytesVal (r127_one.take 16) = 1 := by decide

theorem bytesVal_r127_zero : bytesVal ((List.replicate 16 (0 : Byte)).take 16) = 0 := by decide

/-- The 16-byte values with `r127_add` and `r127_mul` embed in a commutative
ring of characteristic 2. -/
theorem r127_ring : ∃ (R : Type) (_ : CommRing R) (β : List Byte → R),
    (∀ x : R, x + x = 0)
      ∧ (∀ a, β (a.take 16) = β a)
      ∧ β (List.replicate 16 0) = 0 ∧ β r127_one = 1
      ∧ (∀ a b, 16 ≤ a.length → 16 ≤ b.length → β (r127_add a b) = β a + β b)
      ∧ (∀ a b, 16 ≤ a.length → 16 ≤ b.length → β (r127_mul a b) = β a * β b)
      ∧ (∀ a b, a.length = 16 → b.length = 16 → β a = β b → a = b) := by
  obtain ⟨R, inst, ι, h2, h0, h1, hx, hm, hinj⟩ := poly_ring
  refine ⟨R, inst, fun a => ι (bytesVal (a.take 16)), h2, ?_, ?_, ?_, ?_, ?_, ?_⟩
  · intro a
    show ι (bytesVal ((a.take 16).take 16)) = ι (bytesVal (a.take 16))
    rw [List.take_take, Nat.min_self]
  · show ι (bytesVal ((List.replicate 16 (0 : Byte)).take 16)) = 0
    rw [bytesVal_r127_zero, h0]
  · show ι (bytesVal (r127_one.take 16)) = 1
    rw [bytesVal_r127_one, h1]
  · intro a b ha hb
    obtain ⟨v, l⟩ := r127_add_spec a b ha hb
    show ι (bytesVal ((r127_add a b).take 16)) = ι (bytesVal (a.take 16)) + ι (bytesVal (b.take 16))
    rw [take16_self l, v, hx]
  · intro a b ha hb
    obtain ⟨v, l⟩ := r127_mul_spec a b ha hb
    show ι (bytesVal ((r127_mul a b).take 16)) = ι (bytesVal (a.take 16)) * ι (bytesVal (b.take 16))
    rw [take16_self l, v, hm _ _ (bytesVal_take16_lt b)]
  · intro a b ha hb h
    have h' : ι (bytesVal (a.take 16)) = ι (bytesVal (b.take 16)) := h
    have e := hinj _ _ (bytesVal_take16_lt a) (bytesVal_take16_lt b) h'
    rw [take16_self ha, take16_self hb] at e
    exact bytesVal_inj a b (by rw [ha, hb]) e

theorem bytesVal_z : bytesVal (r127_z.take 16) = 2 := by decide

theorem bytesVal_z2 : bytesVal (r127_z2.take 16) = 4 := by decide

theorem bytesVal_inv_z : bytesVal (r127_inv_z.take 16) = 2 ^ 126 + 2 ^ 62 := by decide

theorem bytesVal_inv_z2 : bytesVal (r127_inv_z2.take 16) = 2 ^ 125 + 2 ^ 61 := by decide

/-- The 16-byte values with `r127_add`, `r127_mul` and `r127_norm` map to
GF(2^127); two values with the same image have the same normal form, and
`z^126 + z^62`, `z^125 + z^61` are the inverses of `z` and `z^2`. -/
theorem r127_field : ∃ (F : Type) (_ : CommRing F) (κ : List Byte → F),
    (∀ x : F, x + x = 0)
      ∧ (∀ a, κ (a.take 16) = κ a)
      ∧ (∀ a b, 16 ≤ a.length → 16 ≤ b.length → κ (r127_add a b) = κ a + κ b)
      ∧ (∀ a b, 16 ≤ a.length → 16 ≤ b.length → κ (r127_mul a b) = κ a * κ b)
      ∧ (∀ a, 16 ≤ a.length → κ (r127_norm a) = κ a)
      ∧ (∀ a b, 16 ≤ a.length → 16 ≤ b.length → κ a = κ b → r127_norm a = r127_norm b)
      ∧ κ r127_z * κ r127_inv_z = 1
      ∧ κ r127_z2 * κ r127_inv_z2 = 1 := by
  obtain ⟨F, inst, ι, h2, h0, h1, hx, hm, hn, hinj, hz, hz2⟩ := poly_field
  refine ⟨F, inst, fun a => ι (bytesVal (a.take 16)), h2, ?_, ?_, ?_, ?_, ?_, ?_, ?_⟩
  · intro a
    show ι (bytesVal ((a.take 16).take 16)) = ι (bytesVal (a.take 16))
    rw [List.take_take, Nat.min_self]
  · intro a b ha hb
    obtain ⟨v, l⟩ := r127_add_spec a b ha hb
    show ι (bytesVal ((r127_add a b).take 16)) = ι (bytesVal (a.take 16)) + ι (bytesVal (b.take 16))
    rw [take16_self l, v, hx]
  · intro a b ha hb
    obtain ⟨v, l⟩ := r127_mul_spec a b ha hb
    show ι (bytesVal ((r127_mul a b).take 16)) = ι (bytesVal (a.take 16)) * ι (bytesVal (b.take 16))
    rw [take16_self l, v, hm _ _ (bytesVal_take16_lt b)]
  · intro a ha
    obtain ⟨v, l⟩ := r127_norm_spec a ha
    show ι (bytesVal ((r127_norm a).take 16)) = ι (bytesVal (a.take 16))
    rw [take16_self l, v, hn]
  · intro a b ha hb h
    have h' : ι (bytesVal (a.take 16)) = ι (bytesVal (b.take 16)) := h
    obtain ⟨va, la⟩ := r127_norm_spec a ha
    obtain ⟨vb, lb⟩ := r127_norm_spec b hb
    rw [← hn (bytesVal (a.take 16)), ← hn (bytesVal (b.take 16))] at h'
    have e := hinj _ _ (poly_norm_lt (bytesVal_take16_lt a)) (poly_norm_lt (bytesVal_take16_lt b)) h'
    rw [← va, ← vb] at e
    exact bytesVal_inj _ _ (by rw [la, lb]) e
  · show ι (bytesVal (r127_z.take 16)) * ι (bytesVal (r127_inv_z.take 16)) = 1
    rw [bytesVal_z, bytesVal_inv_z]
    exact hz
  · show ι (bytesVal (r127_z2.take 16)) * ι (bytesVal (r127_inv_z2.take 16)) = 1
    rw [bytesVal_z2, bytesVal_inv_z2]
    exact hz2

/-! ## The reference arithmetic on 32 bytes, by halves -/

theorem r127_mul_len (a b : List Byte) (ha : a.length = 16) (hb : b.length = 16) :
    (r127_mul a b).length = 16 :=
  (r127_mul_spec a b (by omega) (by omega)).2

theorem r127_add_len (a b : List Byte) (ha : a.length = 16) (hb : b.length = 16) :
    (r127_add a b).length = 16 :=
  (r127_add_spec a b (by omega) (by omega)).2

theorem r127_norm_len (a : List Byte) (ha : a.length = 16) : (r127_norm a).length = 16 :=
  (r127_norm_spec a (by omega)).2

/-- `r127_mul` reads the first 16 bytes of its operands only. -/
theorem r127_mul_congr (a a' b b' : List Byte) (ha : 16 ≤ a.length) (ha' : 16 ≤ a'.length)
    (hb : 16 ≤ b.length) (hb' : 16 ≤ b'.length) (h : a.take 16 = a'.take 16)
    (h' : b.take 16 = b'.take 16) : r127_mul a b = r127_mul a' b' := by
  obtain ⟨R, inst, β, _, ht, _, _, _, hmul, hinj⟩ := r127_ring
  apply hinj _ _ (r127_mul_spec a b ha hb).2 (r127_mul_spec a' b' ha' hb').2
  rw [hmul a b ha hb, hmul a' b' ha' hb', ← ht a, ← ht a', ← ht b, ← ht b', h, h']

theorem r127_mul_append (a0 a1 b0 b1 : List Byte) (ha : a0.length = 16) (hb : b0.length = 16) :
    r127_mul (a0 ++ a1) (b0 ++ b1) = r127_mul a0 b0 := by
  apply r127_mul_congr
  · rw [List.length_append]; omega
  · omega
  · rw [List.length_append]; omega
  · omega
  · rw [List.take_left' ha, take16_self ha]
  · rw [List.take_left' hb, take16_self hb]

theorem r127_mul_append_left (a0 a1 b : List Byte) (ha : a0.length = 16) (hb : b.length = 16) :
    r127_mul (a0 ++ a1) b = r127_mul a0 b := by
  have h := r127_mul_append a0 a1 b [] ha hb
  rw [List.append_nil] at h
  exact h

theorem r127_mul_append_right (a b0 b1 : List Byte) (ha : a.length = 16) (hb : b0.length = 16) :
    r127_mul a (b0 ++ b1) = r127_mul a b0 := by
  have h := r127_mul_append a [] b0 b1 ha hb
  rw [List.append_nil] at h
  exact h

theorem r127_add_append (a0 a1 b0 b1 : List Byte) (ha : a0.length = 16) (hb : b0.length = 16) :
    r127_add (a0 ++ a1) (b0 ++ b1) = r127_add a0 b0 := by
  unfold r127_add
  rw [List.take_left' ha, List.take_left' hb, take16_self ha, take16_self hb]

/-- `r254_mul` on the halves of its operands. -/
theorem r254_mul_eq (a0 a1 b0 b1 : List Byte) (ha0 : a0.length = 16) (ha1 : a1.length = 16)
    (hb0 : b0.length = 16) (hb1 : b1.length = 16) :
    r254_mul (a0 ++ a1) (b0 ++ b1)
      = r127_add (r127_mul a0 b0) (r127_mul a1 b1)
        ++ r127_add (r127_add (r127_mul a0 b1) (r127_mul a1 b0)) (r127_mul a1 b1) := by
  unfold r254_mul
  simp only []
  rw [List.drop_left' ha0, List.drop_left' hb0, r127_mul_append a0 a1 b0 b1 ha0 hb0,
    r127_mul_append_left a0 a1 b1 ha0 hb1, r127_mul_append_right a1 b0 b1 ha1 hb0]

/-- `r254_add` on the halves of its operands. -/
theorem r254_add_eq (a0 a1 b0 b1 : List Byte) (ha0 : a0.length = 16) (ha1 : a1.length = 16)
    (hb0 : b0.length = 16) (hb1 : b1.length = 16) :
    r254_add (a0 ++ a1) (b0 ++ b1) = r127_add a0 b0 ++ r127_add a1 b1 := by
  unfold r254_add r127_add
  rw [List.take_of_length_le (by rw [List.length_append]; omega),
    List.take_of_length_le (by rw [List.length_append]; omega),
    take16_self ha0, take16_self ha1, take16_self hb0, take16_self hb1,
    List.zipWith_append _ _ _ _ _ (by rw [ha0, hb0])]

/-- `r254_norm` on the halves of its operand. -/
theorem r254_norm_eq (a0 a1 : List Byte) (ha0 : a0.length = 16) (ha1 : a1.length = 16) :
    r254_norm (a0 ++ a1) = r127_norm a0 ++ r127_norm a1 := by
  unfold r254_norm
  rw [List.drop_left' ha0, List.take_left' ha0, take16_self ha1]

theorem split32 (a : List Byte) (h : a.length = 32) :
    ∃ a0 a1 : List Byte, a = a0 ++ a1 ∧ a0.length = 16 ∧ a1.length = 16 := by
  refine ⟨a.take 16, a.drop 16, (List.take_append_drop 16 a).symm, ?_, ?_⟩
  · rw [List.length_take]; omega
  · rw [List.length_drop]; omega

theorem r254_mul_len (a b : List Byte) (ha : a.length = 32) (hb : b.length = 32) :
    (r254_mul a b).length = 32 := by
  obtain ⟨a0, a1, rfl, ha0, ha1⟩ := split32 a ha
  obtain ⟨b0, b1, rfl, hb0, hb1⟩ := split32 b hb
  rw [r254_mul_eq a0 a1 b0 b1 ha0 ha1 hb0 hb1, List.length_append,
    r127_add_len _ _ (r127_mul_len _ _ ha0 hb0) (r127_mul_len _ _ ha1 hb1),
    r127_add_len _ _ (r127_add_len _ _ (r127_mul_len _ _ ha0 hb1) (r127_mul_len _ _ ha1 hb0))
      (r127_mul_len _ _ ha1 hb1)]

theorem r254_add_len (a b : List Byte) (ha : a.length = 32) (hb : b.length = 32) :
    (r254_add a b).length = 32 := by
  obtain ⟨a0, a1, rfl, ha0, ha1⟩ := split32 a ha
  obtain ⟨b0, b1, rfl, hb0, hb1⟩ := split32 b hb
  rw [r254_add_eq a0 a1 b0 b1 ha0 ha1 hb0 hb1, List.length_append,
    r127_add_len _ _ ha0 hb0, r127_add_len _ _ ha1 hb1]

/-! ## The laws of the product on 32 bytes -/

theorem r254_mul_comm_halves (a0 a1 b0 b1 : List Byte) (ha0 : a0.length = 16)
    (ha1 : a1.length = 16) (hb0 : b0.length = 16) (hb1 : b1.length = 16) :
    r254_mul (a0 ++ a1) (b0 ++ b1) = r254_mul (b0 ++ b1) (a0 ++ a1) := by
  obtain ⟨R, inst, β, h2, _, _, _, hadd, hmul, hinj⟩ := r127_ring
  have hA : ∀ a b : List Byte, a.length = 16 → b.length = 16 →
      β (r127_add a b) = β a + β b := fun a b ha hb => hadd a b (by omega) (by omega)
  have hM : ∀ a b : List Byte, a.length = 16 → b.length = 16 →
      β (r127_mul a b) = β a * β b := fun a b ha hb => hmul a b (by omega) (by omega)
  rw [r254_mul_eq a0 a1 b0 b1 ha0 ha1 hb0 hb1, r254_mul_eq b0 b1 a0 a1 hb0 hb1 ha0 ha1]
  congr 1
  · refine hinj _ _ ?_ ?_ ?_
    · with_reducible repeat (first | assumption | apply r127_mul_len | apply r127_add_len)
    · with_reducible repeat (first | assumption | apply r127_mul_len | apply r127_add_len)
    · simp (disch := with_reducible repeat (first | assumption | apply r127_mul_len | apply r127_add_len))
        only [hA, hM]
      ring
  · refine hinj _ _ ?_ ?_ ?_
    · with_reducible repeat (first | assumption | apply r127_mul_len | apply r127_add_len)
    · with_reducible repeat (first | assumption | apply r127_mul_len | apply r127_add_len)
    · simp (disch := with_reducible repeat (first | assumption | apply r127_mul_len | apply r127_add_len))
        only [hA, hM]
      ring

theorem r254_mul_assoc_halves (a0 a1 b0 b1 c0 c1 : List Byte) (ha0 : a0.length = 16)
    (ha1 : a1.length = 16) (hb0 : b0.length = 16) (hb1 : b1.length = 16)
    (hc0 : c0.length = 16) (hc1 : c1.length = 16) :
    r254_mul (r254_mul (a0 ++ a1) (b0 ++ b1)) (c0 ++ c1)
      = r254_mul (a0 ++ a1) (r254_mul (b0 ++ b1) (c0 ++ c1)) := by
  obtain ⟨R, inst, β, h2, _, _, _, hadd, hmul, hinj⟩ := r127_ring
  have hA : ∀ a b : List Byte, a.length = 16 → b.length = 16 →
      β (r127_add a b) = β a + β b := fun a b ha hb => hadd a b (by omega) (by omega)
  have hM : ∀ a b : List Byte, a.length = 16 → b.length = 16 →
      β (r127_mul a b) = β a * β b := fun a b ha hb => hmul a b (by omega) (by omega)
  have hP : (r127_add (r127_mul a0 b0) (r127_mul a1 b1)).length = 16 := by
    with_reducible repeat (first | assumption | apply r127_mul_len | apply r127_add_len)
  have hQ : (r127_add (r127_add (r127_mul a0 b1) (r127_mul a1 b0))
      (r127_mul a1 b1)).length = 16 := by
    with_reducible repeat (first | assumption | apply r127_mul_len | apply r127_add_len)
  have hP' : (r127_add (r127_mul b0 c0) (r127_mul b1 c1)).length = 16 := by
    with_reducible repeat (first | assumption | apply r127_mul_len | apply r127_add_len)
  have hQ' : (r127_add (r127_add (r127_mul b0 c1) (r127_mul b1 c0))
      (r127_mul b1 c1)).length = 16 := by
    with_reducible repeat (first | assumption | apply r127_mul_len | apply r127_add_len)
  rw [r254_mul_eq a0 a1 b0 b1 ha0 ha1 hb0 hb1, r254_mul_eq b0 b1 c0 c1 hb0 hb1 hc0 hc1,
    r254_mul_eq _ _ c0 c1 hP hQ hc0 hc1, r254_mul_eq a0 a1 _ _ ha0 ha1 hP' hQ']
  congr 1
  · refine hinj _ _ ?_ ?_ ?_
    · with_reducible repeat (first | assumption | apply r127_mul_len | apply r127_add_len)
    · with_reducible repeat (first | assumption | apply r127_mul_len | apply r127_add_len)
    · simp (disch := with_reducible repeat (first | assumption | apply r127_mul_len | apply r127_add_len))
        only [hA, hM]
      ring
  · refine hinj _ _ ?_ ?_ ?_
    · with_reducible repeat (first | assumption | apply r127_mul_len | apply r127_add_len)
    · with_reducible repeat (first | assumption | apply r127_mul_len | apply r127_add_len)
    · simp (disch := with_reducible repeat (first | assumption | apply r127_mul_len | apply r127_add_len))
        only [hA, hM]
      ring

theorem r254_mul_distrib_halves (a0 a1 b0 b1 c0 c1 : List Byte) (ha0 : a0.length = 16)
    (ha1 : a1.length = 16) (hb0 : b0.length = 16) (hb1 : b1.length = 16)
    (hc0 : c0.length = 16) (hc1 : c1.length = 16) :
    r254_mul (a0 ++ a1) (r254_add (b0 ++ b1) (c0 ++ c1))
      = r254_add (r254_mul (a0 ++ a1) (b0 ++ b1)) (r254_mul (a0 ++ a1) (c0 ++ c1)) := by
  obtain ⟨R, inst, β, h2, _, _, _, hadd, hmul, hinj⟩ := r127_ring
  have hA : ∀ a b : List Byte, a.length = 16 → b.length = 16 →
      β (r127_add a b) = β a + β b := fun a b ha hb => hadd a b (by omega) (by omega)
  have hM : ∀ a b : List Byte, a.length = 16 → b.length = 16 →
      β (r127_mul a b) = β a * β b := fun a b ha hb => hmul a b (by omega) (by omega)
  have hP : (r127_add (r127_mul a0 b0) (r127_mul a1 b1)).length = 16 := by
    with_reducible repeat (first | assumption | apply r127_mul_len | apply r127_add_len)
  have hQ : (r127_add (r127_add (r127_mul a0 b1) (r127_mul a1 b0))
      (r127_mul a1 b1)).length = 16 := by
    with_reducible repeat (first | assumption | apply r127_mul_len | apply r127_add_len)
  have hP' : (r127_add (r127_mul a0 c0) (r127_mul a1 c1)).length = 16 := by
    with_reducible repeat (first | assumption | apply r127_mul_len | apply r127_add_len)
  have hQ' : (r127_add (r127_add (r127_mul a0 c1) (r127_mul a1 c0))
      (r127_mul a1 c1)).length = 16 := by
    with_reducible repeat (first | assumption | apply r127_mul_len | apply r127_add_len)
  rw [r254_add_eq b0 b1 c0 c1 hb0 hb1 hc0 hc1,
    r254_mul_eq a0 a1 _ _ ha0 ha1 (r127_add_len _ _ hb0 hc0) (r127_add_len _ _ hb1 hc1),
    r254_mul_eq a0 a1 b0 b1 ha0 ha1 hb0 hb1, r254_mul_eq a0 a1 c0 c1 ha0 ha1 hc0 hc1,
    r254_add_eq _ _ _ _ hP hQ hP' hQ']
  congr 1
  · refine hinj _ _ ?_ ?_ ?_
    · with_reducible repeat (first | assumption | apply r127_mul_len | apply r127_add_len)
    · with_reducible repeat (first | assumption | apply r127_mul_len | apply r127_add_len)
    · simp (disch := with_reducible repeat (first | assumption | apply r127_mul_len | apply r127_add_len))
        only [hA, hM]
      ring
  · refine hinj _ _ ?_ ?_ ?_
    · with_reducible repeat (first | assumption | apply r127_mul_len | apply r127_add_len)
    · with_reducible repeat (first | assumption | apply r127_mul_len | apply r127_add_len)
    · simp (disch := with_reducible repeat (first | assumption | apply r127_mul_len | apply r127_add_len))
        only [hA, hM]
      ring

theorem r254_square_halves (a0 a1 : List Byte) (ha0 : a0.length = 16) (ha1 : a1.length = 16) :
    r254_mul (a0 ++ a1) (a0 ++ a1)
      = r127_add (r127_mul a0 a0) (r127_mul a1 a1) ++ r127_mul a1 a1 := by
  obtain ⟨R, inst, β, h2, _, _, _, hadd, hmul, hinj⟩ := r127_ring
  have hA : ∀ a b : List Byte, a.length = 16 → b.length = 16 →
      β (r127_add a b) = β a + β b := fun a b ha hb => hadd a b (by omega) (by omega)
  have hM : ∀ a b : List Byte, a.length = 16 → b.length = 16 →
      β (r127_mul a b) = β a * β b := fun a b ha hb => hmul a b (by omega) (by omega)
  rw [r254_mul_eq a0 a1 a0 a1 ha0 ha1 ha0 ha1]
  congr 1
  refine hinj _ _ ?_ ?_ ?_
  · with_reducible repeat (first | assumption | apply r127_mul_len | apply r127_add_len)
  · with_reducible repeat (first | assumption | apply r127_mul_len | apply r127_add_len)
  · simp (disch := with_reducible repeat (first | assumption | apply r127_mul_len | apply r127_add_len))
      only [hA, hM]
    linear_combination h2 (β a0 * β a1)

/-- The product of `a0 + u*a1` by `(a0 + a1) + u*a1` has no `u` component. -/
theorem r254_selfphi_halves (a0 a1 : List Byte) (ha0 : a0.length = 16) (ha1 : a1.length = 16) :
    r254_mul (a0 ++ a1) (r127_add a0 a1 ++ a1)
      = r127_add (r127_add (r127_mul a0 a0) (r127_mul a0 a1)) (r127_mul a1 a1)
        ++ List.replicate 16 0 := by
  obtain ⟨R, inst, β, h2, _, hz, _, hadd, hmul, hinj⟩ := r127_ring
  have hA : ∀ a b : List Byte, a.length = 16 → b.length = 16 →
      β (r127_add a b) = β a + β b := fun a b ha hb => hadd a b (by omega) (by omega)
  have hM : ∀ a b : List Byte, a.length = 16 → b.length = 16 →
      β (r127_mul a b) = β a * β b := fun a b ha hb => hmul a b (by omega) (by omega)
  rw [r254_mul_eq a0 a1 _ a1 ha0 ha1 (r127_add_len _ _ ha0 ha1) ha1]
  congr 1
  · refine hinj _ _ ?_ ?_ ?_
    · with_reducible repeat (first | assumption | apply r127_mul_len | apply r127_add_len)
    · with_reducible repeat (first | assumption | apply r127_mul_len | apply r127_add_len)
    · simp (disch := with_reducible repeat (first | assumption | apply r127_mul_len | apply r127_add_len))
        only [hA, hM]
      ring
  · refine hinj _ _ ?_ ?_ ?_
    · with_reducible repeat (first | assumption | apply r127_mul_len | apply r127_add_len)
    · exact List.length_replicate 16 0
    · simp (disch := with_reducible repeat (first | assumption | apply r127_mul_len | apply r127_add_len))
        only [hA, hM, hz]
      linear_combination h2 (β a0 * β a1) + h2 (β a1 * β a1)

/-! ## Field elements in limbs and in bytes -/

theorem gfb254_bytes_eq (a : gfb254) :
    gfb254_bytes a = (a.v0.map enc32le).flatten ++ (a.v1.map enc32le).flatten := by
  unfold gfb254_bytes
  rw [List.map_append, List.flatten_append]

theorem encode_limbs_len (a : List Nat) (ha : Limbs a) (hl : a.length = 4) :
    ((a.map enc32le).flatten).length = 16 := by
  rw [(encode_limbs_spec a ha).2, hl]

theorem gfb127_add_spec (a b : List Nat) (la : a.length = 4) (lb : b.length = 4)
    (ha : Limbs a) (hb : Limbs b) :
    limbsVal (gfb127_add a b) = limbsVal a ^^^ limbsVal b ∧ Limbs (gfb127_add a b)
      ∧ (gfb127_add a b).length = 4 := by
  obtain ⟨v, l⟩ := limbsVal_xor a b (by rw [la, lb]) ha hb
  refine ⟨v, l, ?_⟩
  unfold gfb127_add
  rw [List.length_zipWith, la, lb]
  rfl

/-- The bytes of the sum of two elements in limbs are the `r127_add` of their
bytes. -/
theorem encode_gfb127_add (a b : List Nat) (la : a.length = 4) (lb : b.length = 4)
    (ha : Limbs a) (hb : Limbs b) :
    ((gfb127_add a b).map enc32le).flatten
      = r127_add ((a.map enc32le).flatten) ((b.map enc32le).flatten) := by
  obtain ⟨v, l, n⟩ := gfb127_add_spec a b la lb ha hb
  have ea := encode_limbs_len a ha la
  have eb := encode_limbs_len b hb lb
  obtain ⟨v', n'⟩ := r127_add_spec ((a.map enc32le).flatten) ((b.map enc32le).flatten)
    (by omega) (by omega)
  apply bytesVal_inj
  · rw [encode_limbs_len _ l n, n']
  · rw [(encode_limbs_spec _ l).1, v, v', take16_self ea, take16_self eb,
      (encode_limbs_spec a ha).1, (encode_limbs_spec b hb).1]

theorem r254_u_eq : r254_u = List.replicate 16 0 ++ r127_one := by decide

theorem r254_u1_eq : r254_u1 = r127_one ++ r127_one := by decide

theorem r127_one_len : r127_one.length = 16 := rfl

theorem r254_mul_u_halves (a0 a1 : List Byte) (ha0 : a0.length = 16) (ha1 : a1.length = 16) :
    r254_mul (a0 ++ a1) r254_u = a1 ++ r127_add a0 a1 := by
  obtain ⟨R, inst, β, h2, _, hz, h1, hadd, hmul, hinj⟩ := r127_ring
  have hA : ∀ a b : List Byte, a.length = 16 → b.length = 16 →
      β (r127_add a b) = β a + β b := fun a b ha hb => hadd a b (by omega) (by omega)
  have hM : ∀ a b : List Byte, a.length = 16 → b.length = 16 →
      β (r127_mul a b) = β a * β b := fun a b ha hb => hmul a b (by omega) (by omega)
  have hZ : (List.replicate 16 (0 : Byte)).length = 16 := List.length_replicate 16 0
  have hO := r127_one_len
  rw [r254_u_eq, r254_mul_eq a0 a1 _ _ ha0 ha1 hZ hO]
  congr 1
  · refine hinj _ _ ?_ ?_ ?_
    · with_reducible repeat (first | assumption | apply r127_mul_len | apply r127_add_len)
    · exact ha1
    · simp (disch := with_reducible repeat (first | assumption | apply r127_mul_len | apply r127_add_len))
        only [hA, hM, hz, h1]
      ring
  · refine hinj _ _ ?_ ?_ ?_
    · with_reducible repeat (first | assumption | apply r127_mul_len | apply r127_add_len)
    · with_reducible repeat (first | assumption | apply r127_mul_len | apply r127_add_len)
    · simp (disch := with_reducible repeat (first | assumption | apply r127_mul_len | apply r127_add_len))
        only [hA, hM, hz, h1]
      ring

theorem r254_mul_u1_halves (a0 a1 : List Byte) (ha0 : a0.length = 16) (ha1 : a1.length = 16) :
    r254_mul (a0 ++ a1) r254_u1 = r127_add a0 a1 ++ a0 := by
  obtain ⟨R, inst, β, h2, _, hz, h1, hadd, hmul, hinj⟩ := r127_ring
  have hA : ∀ a b : List Byte, a.length = 16 → b.length = 16 →
      β (r127_add a b) = β a + β b := fun a b ha hb => hadd a b (by omega) (by omega)
  have hM : ∀ a b : List Byte, a.length = 16 → b.length = 16 →
      β (r127_mul a b) = β a * β b := fun a b ha hb => hmul a b (by omega) (by omega)
  have hO := r127_one_len
  rw [r254_u1_eq, r254_mul_eq a0 a1 _ _ ha0 ha1 hO hO]
  congr 1
  · refine hinj _ _ ?_ ?_ ?_
    · with_reducible repeat (first | assumption | apply r127_mul_len | apply r127_add_len)
    · with_reducible repeat (first | assumption | apply r127_mul_len | apply r127_add_len)
    · simp (disch := with_reducible repeat (first | assumption | apply r127_mul_len | apply r127_add_len))
        only [hA, hM, hz, h1]
      ring
  · refine hinj _ _ ?_ ?_ ?_
    · with_reducible repeat (first | assumption | apply r127_mul_len | apply r127_add_len)
    · exact ha0
    · simp (disch := with_reducible repeat (first | assumption | apply r127_mul_len | apply r127_add_len))
        only [hA, hM, hz, h1]
      linear_combination h2 (β a1)

/-! ## The curve equation on integers -/

theorem val254_append (p q : List Byte) (hp : p.length = 16) (hq : q.length = 16) :
    val254 (p ++ q) = (bytesVal p, bytesVal q) := by
  unfold val254
  rw [List.take_left' hp, List.drop_left' hp, take16_self hq]

theorem val254_inj (a b : List Byte) (ha : a.length = 32) (hb : b.length = 32)
    (h : val254 a = val254 b) : a = b := by
  obtain ⟨a0, a1, rfl, ha0, ha1⟩ := split32 a ha
  obtain ⟨b0, b1, rfl, hb0, hb1⟩ := split32 b hb
  rw [val254_append a0 a1 ha0 ha1, val254_append b0 b1 hb0 hb1, Prod.mk.injEq] at h
  rw [bytesVal_inj a0 b0 (by rw [ha0, hb0]) h.1, bytesVal_inj a1 b1 (by rw [ha1, hb1]) h.2]

theorem val254_mul (a b : List Byte) (ha : a.length = 32) (hb : b.length = 32) :
    val254 (r254_mul a b) = poly254_mul (val254 a) (val254 b) := by
  obtain ⟨a0, a1, rfl, ha0, ha1⟩ := split32 a ha
  obtain ⟨b0, b1, rfl, hb0, hb1⟩ := split32 b hb
  have l00 := r127_mul_len a0 b0 ha0 hb0
  have l01 := r127_mul_len a0 b1 ha0 hb1
  have l10 := r127_mul_len a1 b0 ha1 hb0
  have l11 := r127_mul_len a1 b1 ha1 hb1
  have ls := r127_add_len (r127_mul a0 b1) (r127_mul a1 b0) l01 l10
  rw [r254_mul_eq a0 a1 b0 b1 ha0 ha1 hb0 hb1,
    val254_append _ _ (r127_add_len _ _ l00 l11) (r127_add_len _ _ ls l11),
    val254_append a0 a1 ha0 ha1, val254_append b0 b1 hb0 hb1]
  unfold poly254_mul
  simp only []
  rw [(r127_add_spec _ _ (by omega) (by omega)).1, (r127_add_spec _ _ (by omega) (by omega)).1,
    take16_self ls, (r127_add_spec _ _ (by omega) (by omega)).1, take16_self l00,
    take16_self l01, take16_self l10, take16_self l11,
    (r127_mul_spec a0 b0 (by omega) (by omega)).1, (r127_mul_spec a0 b1 (by omega) (by omega)).1,
    (r127_mul_spec a1 b0 (by omega) (by omega)).1, (r127_mul_spec a1 b1 (by omega) (by omega)).1,
    take16_self ha0, take16_self ha1, take16_self hb0, take16_self hb1]

theorem val254_add (a b : List Byte) (ha : a.length = 32) (hb : b.length = 32) :
    val254 (r254_add a b) = poly254_add (val254 a) (val254 b) := by
  obtain ⟨a0, a1, rfl, ha0, ha1⟩ := split32 a ha
  obtain ⟨b0, b1, rfl, hb0, hb1⟩ := split32 b hb
  rw [r254_add_eq a0 a1 b0 b1 ha0 ha1 hb0 hb1,
    val254_append _ _ (r127_add_len _ _ ha0 hb0) (r127_add_len _ _ ha1 hb1),
    val254_append a0 a1 ha0 ha1, val254_append b0 b1 hb0 hb1]
  unfold poly254_add
  simp only []
  rw [(r127_add_spec a0 b0 (by omega) (by omega)).1, (r127_add_spec a1 b1 (by omega) (by omega)).1,
    take16_self ha0, take16_self ha1, take16_self hb0, take16_self hb1]

theorem r254_norm_len (a : List Byte) (ha : a.length = 32) : (r254_norm a).length = 32 := by
  obtain ⟨a0, a1, rfl, ha0, ha1⟩ := split32 a ha
  rw [r254_norm_eq a0 a1 ha0 ha1, List.length_append, r127_norm_len a0 ha0, r127_norm_len a1 ha1]

theorem val254_norm (a : List Byte) (ha : a.length = 32) :
    val254 (r254_norm a) = poly254_norm (val254 a) := by
  obtain ⟨a0, a1, rfl, ha0, ha1⟩ := split32 a ha
  rw [r254_norm_eq a0 a1 ha0 ha1,
    val254_append _ _ (r127_norm_len a0 ha0) (r127_norm_len a1 ha1), val254_append a0 a1 ha0 ha1]
  unfold poly254_norm
  simp only []
  rw [(r127_norm_spec a0 (by omega)).1, (r127_norm_spec a1 (by omega)).1,
    take16_self ha0, take16_self ha1]

theorem val254_sb : val254 r254_sb = (2 ^ 27 + 1, 0) := by decide

theorem val254_u : val254 r254_u = (0, 1) := by decide

theorem val254_one : val254 r254_one = (1, 0) := by decide

theorem r254_sb_len : r254_sb.length = 32 := rfl

theorem r254_u_len : r254_u.length = 32 := rfl

theorem r254_one_len : r254_one.length = 32 := rfl

theorem limbs_of_all (v : List Nat) (h : v.all (fun w => decide (w < 2 ^ 32)) = true) :
    Limbs v := by
  intro x hx
  rw [List.all_eq_true] at h
  exact of_decide_eq_true (h x hx)

/-- What `gfb254_canonical` checks. -/
theorem gfb254_canonical_spec (a : gfb254) (h : gfb254_canonical a = true) :
    a.v0.length = 4 ∧ a.v1.length = 4 ∧ Limbs a.v0 ∧ Limbs a.v1
      ∧ a.v0.getD 3 0 < 2 ^ 31 ∧ a.v1.getD 3 0 < 2 ^ 31 := by
  unfold gfb254_canonical at h
  simp only [Bool.and_eq_true, beq_iff_eq, decide_eq_true_eq] at h
  obtain ⟨⟨⟨⟨⟨h0, h1⟩, h2⟩, h3⟩, h4⟩, h5⟩ := h
  exact ⟨h0, h1, limbs_of_all _ h2, limbs_of_all _ h3, h4, h5⟩

theorem gfb254_bytes_spec (a : gfb254) (l0 : a.v0.length = 4) (l1 : a.v1.length = 4)
    (h0 : Limbs a.v0) (h1 : Limbs a.v1) :
    val254 (gfb254_bytes a) = gfb254_val a ∧ (gfb254_bytes a).length = 32 := by
  have e0 := encode_limbs_len a.v0 h0 l0
  have e1 := encode_limbs_len a.v1 h1 l1
  rw [gfb254_bytes_eq, val254_append _ _ e0 e1, List.length_append, e0, e1,
    (encode_limbs_spec a.v0 h0).1, (encode_limbs_spec a.v1 h1).1]
  exact ⟨rfl, rfl⟩

/-- On canonical coordinates, the curve equation on bytes is the one on
integers. -/
theorem on_curve_eq (p : gls254_point_affine) (hx : gfb254_canonical p.scaled_x = true)
    (hs : gfb254_canonical p.scaled_s = true) :
    on_curve p = poly_on_curve (gfb254_val p.scaled_x) (gfb254_val p.scaled_s) := by
  obtain ⟨x0, x1, x2, x3, _, _⟩ := gfb254_canonical_spec _ hx
  obtain ⟨s0, s1, s2, s3, _, _⟩ := gfb254_canonical_spec _ hs
  obtain ⟨vX, lX⟩ := gfb254_bytes_spec p.scaled_x x0 x1 x2 x3
  obtain ⟨vS, lS⟩ := gfb254_bytes_spec p.scaled_s s0 s1 s2 s3
  unfold on_curve poly_on_curve
  generalize gfb254_bytes p.scaled_x = X at vX lX ⊢
  generalize gfb254_bytes p.scaled_s = S at vS lS ⊢
  have lSS := r254_mul_len S S lS lS
  have lXS := r254_mul_len X S lX lS
  have lXX := r254_mul_len X X lX lX
  have l1 := r254_mul_len r254_sb _ r254_sb_len lXX
  have l2 := r254_mul_len r254_u X r254_u_len lX
  have l3 := r254_mul_len r254_one r254_one r254_one_len r254_one_len
  have l4 := r254_mul_len r254_sb _ r254_sb_len l3
  have l5 := r254_add_len _ _ l1 l2
  have l6 := r254_add_len _ _ l5 l4
  have lL := r254_add_len _ _ lSS lXS
  have lR := r254_mul_len _ _ l6 l6
  have eL : val254 (r254_norm (curve_lhs X S))
      = poly254_norm (poly254_add (poly254_mul (gfb254_val p.scaled_s) (gfb254_val p.scaled_s))
        (poly254_mul (gfb254_val p.scaled_x) (gfb254_val p.scaled_s))) := by
    unfold curve_lhs
    rw [val254_norm _ lL, val254_add _ _ lSS lXS, val254_mul S S lS lS, val254_mul X S lX lS,
      vX, vS]
  have eR : val254 (r254_norm (curve_rhs X))
      = poly254_norm
      (poly254_mul
        (poly254_add (poly254_add (poly254_mul (2 ^ 27 + 1, 0)
          (poly254_mul (gfb254_val p.scaled_x) (gfb254_val p.scaled_x)))
          (poly254_mul (0, 1) (gfb254_val p.scaled_x)))
          (poly254_mul (2 ^ 27 + 1, 0) (poly254_mul (1, 0) (1, 0))))
        (poly254_add (poly254_add (poly254_mul (2 ^ 27 + 1, 0)
          (poly254_mul (gfb254_val p.scaled_x) (gfb254_val p.scaled_x)))
          (poly254_mul (0, 1) (gfb254_val p.scaled_x)))
          (poly254_mul (2 ^ 27 + 1, 0) (poly254_mul (1, 0) (1, 0))))) := by
    unfold curve_rhs
    simp only []
    rw [val254_norm _ lR, val254_mul _ _ l6 l6, val254_add _ _ l5 l4, val254_add _ _ l1 l2,
      val254_mul _ _ r254_sb_len lXX, val254_mul X X lX lX, val254_mul _ _ r254_u_len lX,
      val254_mul _ _ r254_sb_len l3, val254_mul _ _ r254_one_len r254_one_len,
      val254_sb, val254_u, val254_one, vX]
  have lnL := r254_norm_len _ lL
  have lnR := r254_norm_len _ lR
  rw [← eL, ← eR, Bool.eq_iff_iff, beq_iff_eq, beq_iff_eq]
  constructor
  · intro h
    rw [h]
  · intro h
    exact val254_inj _ _ lnL lnR h

/-! ## The endomorphism on affine points -/

theorem xor_id_a (a b c : ℕ) : (a ^^^ b) ^^^ (b ^^^ c) = a ^^^ c := by
  rw [Nat.xor_assoc, Nat.xor_cancel_left]

theorem xor_id_b (s0 s1 x0 x1 : ℕ) :
    (((s0 ^^^ s1) ^^^ x0) ^^^ ((s1 ^^^ x0) ^^^ x1)) ^^^ (x0 ^^^ x1) = s0 ^^^ x0 := by
  apply Nat.eq_of_testBit_eq
  intro i
  simp only [Nat.testBit_xor]
  generalize s0.testBit i = p
  generalize s1.testBit i = q
  generalize x0.testBit i = u
  generalize x1.testBit i = v
  revert p q u v
  decide

theorem xor_id_c (s1 x0 x1 : ℕ) :
    (((s1 ^^^ x0) ^^^ x1) ^^^ (x0 ^^^ x1)) ^^^ x1 = s1 ^^^ x1 := by
  apply Nat.eq_of_testBit_eq
  intro i
  simp only [Nat.testBit_xor]
  generalize s1.testBit i = q
  generalize x0.testBit i = u
  generalize x1.testBit i = v
  revert q u v
  decide

theorem list_len4 (l : List Nat) (h : l.length = 4) : ∃ a b c d, l = [a, b, c, d] := by
  match l, h with
  | [a, b, c, d], _ => exact ⟨a, b, c, d, rfl⟩

theorem affine_shape_spec (p : gls254_point_affine) (h : affine_shape p = true) :
    p.scaled_x.v0.length = 4 ∧ p.scaled_x.v1.length = 4
      ∧ p.scaled_s.v0.length = 4 ∧ p.scaled_s.v1.length = 4 := by
  unfold affine_shape at h
  simp only [Bool.and_eq_true, beq_iff_eq] at h
  obtain ⟨⟨⟨h0, h1⟩, h2⟩, h3⟩ := h
  exact ⟨h0, h1, h2, h3⟩

/-- With `zn = 0xFFFFFFFF` the result is the negation of the one with
`zn = 0`. -/
theorem zeta_neg_eq (p : gls254_point_affine) (h : affine_shape p = true) :
    gls254_zeta_affine p 0xFFFFFFFF = affine_neg (gls254_zeta_affine p 0) := by
  obtain ⟨h0, h1, h2, h3⟩ := affine_shape_spec p h
  obtain ⟨⟨x0, x1⟩, ⟨s0, s1⟩⟩ := p
  obtain ⟨a0, a1, a2, a3, rfl⟩ := list_len4 x0 h0
  obtain ⟨b0, b1, b2, b3, rfl⟩ := list_len4 x1 h1
  obtain ⟨c0, c1, c2, c3, rfl⟩ := list_len4 s0 h2
  obtain ⟨d0, d1, d2, d3, rfl⟩ := list_len4 s1 h3
  simp only [gls254_zeta_affine, affine_neg, gfb254_add, gfb127_add, List.zipWith_cons_cons,
    List.zipWith_nil_right, if_true, if_neg (show ¬ (0xFFFFFFFF : ℕ) = 0 by decide),
    xor_id_a, Nat.xor_cancel_right]

/-- Applied twice, the endomorphism negates the point. -/
theorem zeta_zeta_eq (p : gls254_point_affine) (h : affine_shape p = true) :
    gls254_zeta_affine (gls254_zeta_affine p 0) 0 = affine_neg p := by
  obtain ⟨h0, h1, h2, h3⟩ := affine_shape_spec p h
  obtain ⟨⟨x0, x1⟩, ⟨s0, s1⟩⟩ := p
  obtain ⟨a0, a1, a2, a3, rfl⟩ := list_len4 x0 h0
  obtain ⟨b0, b1, b2, b3, rfl⟩ := list_len4 x1 h1
  obtain ⟨c0, c1, c2, c3, rfl⟩ := list_len4 s0 h2
  obtain ⟨d0, d1, d2, d3, rfl⟩ := list_len4 s1 h3
  simp only [gls254_zeta_affine, affine_neg, gfb254_add, gfb127_add, List.zipWith_cons_cons,
    List.zipWith_nil_right, if_true, xor_id_b, xor_id_c, Nat.xor_cancel_right]

theorem affine_neg_neg (p : gls254_point_affine) (h : affine_shape p = true) :
    affine_neg (affine_neg p) = p := by
  obtain ⟨h0, h1, h2, h3⟩ := affine_shape_spec p h
  obtain ⟨⟨x0, x1⟩, ⟨s0, s1⟩⟩ := p
  obtain ⟨a0, a1, a2, a3, rfl⟩ := list_len4 x0 h0
  obtain ⟨b0, b1, b2, b3, rfl⟩ := list_len4 x1 h1
  obtain ⟨c0, c1, c2, c3, rfl⟩ := list_len4 s0 h2
  obtain ⟨d0, d1, d2, d3, rfl⟩ := list_len4 s1 h3
  simp only [affine_neg, gfb254_add, gfb127_add, List.zipWith_cons_cons,
    List.zipWith_nil_right, Nat.xor_cancel_right]

theorem affine_neg_shape (p : gls254_point_affine) (h : affine_shape p = true) :
    affine_shape (affine_neg p) = true := by
  obtain ⟨h0, h1, h2, h3⟩ := affine_shape_spec p h
  unfold affine_shape affine_neg gfb254_add gfb127_add
  simp only [List.length_zipWith, h0, h1, h2, h3]
  rfl

/-! ## The tables of multiples of the base point -/

set_option maxRecDepth 1000000 in
/-- The 32 entries of the tables are canonical and satisfy the curve equation
on integers. -/
theorem precomp_poly_check :
    PRECOMP_all.all (fun p => gfb254_canonical p.scaled_x && gfb254_canonical p.scaled_s
      && poly_on_curve (gfb254_val p.scaled_x) (gfb254_val p.scaled_s)) = true := by
  decide!

theorem sample_gfb254_ok :
    sample_gfb254.v0.length = 4 ∧ sample_gfb254.v1.length = 4
      ∧ Limbs sample_gfb254.v0 ∧ Limbs sample_gfb254.v1 := by
  obtain ⟨h0, h1, h2, h3, _, _⟩ := gfb254_canonical_spec sample_gfb254 (by decide)
  exact ⟨h0, h1, h2, h3⟩

theorem r127_norm_zero : r127_norm (List.replicate 16 0) = List.replicate 16 0 := by decide

/-! ## The claims -/

/-- C1: for every 32-byte input `k`, the outputs `(ak0, sk0, ak1, sk1)` of
`scalar_split`, read as the signed integers `k0 = -ak0` if `sk0 = 0xFFFFFFFF`
else `+ak0`, and `k1` likewise, satisfy `k ≡ k0 + mu * k1 (mod r)`. -/
theorem scalar_split_congruence (k : List Byte) (hk : k.length = 32) :
    (bytesVal k : Int)
      ≡ (if (scalar_split k).2.1 = 0xFFFFFFFF then -(bytesVal (scalar_split k).1 : Int)
          else (bytesVal (scalar_split k).1 : Int))
        + (mu : Int)
          * (if (scalar_split k).2.2.2 = 0xFFFFFFFF
              then -(bytesVal (scalar_split k).2.2.1 : Int)
              else (bytesVal (scalar_split k).2.2.1 : Int)) [ZMOD (r : Int)] := by
  obtain ⟨-, -, -, -, hs0, hs1, m, hm⟩ := scalar_split_facts k hk
  rw [signed_of_ctl hs0, signed_of_ctl hs1, hm]
  have h1 : ((bytesVal k % r : Nat) : Int) + (r : Int) * m ≡ (bytesVal k % r : Nat) [ZMOD (r : Int)] := by
    rw [Int.modEq_iff_dvd]
    exact ⟨-m, by ring⟩
  have h2 : ((bytesVal k % r : Nat) : Int) ≡ (bytesVal k : Int) [ZMOD (r : Int)] := by
    rw [Int.natCast_mod]
    exact Int.mod_modEq _ _
  exact (h1.trans h2).symm

/-- Witness of C1 at the all-ones 32-byte input, which is not reduced. -/
theorem scalar_split_congruence_witness :
    scalar_max.length = 32
      ∧ (bytesVal scalar_max : Int)
        ≡ (if (scalar_split scalar_max).2.1 = 0xFFFFFFFF
            then -(bytesVal (scalar_split scalar_max).1 : Int)
            else (bytesVal (scalar_split scalar_max).1 : Int))
          + (mu : Int)
            * (if (scalar_split scalar_max).2.2.2 = 0xFFFFFFFF
                then -(bytesVal (scalar_split scalar_max).2.2.1 : Int)
                else (bytesVal (scalar_split scalar_max).2.2.1 : Int)) [ZMOD (r : Int)] :=
  ⟨rfl, scalar_split_congruence scalar_max rfl⟩

/-- C2: for every 32-byte input `k`, `scalar_split` writes two 16-byte absolute
values below `2^127` and two sign words that are `0x00000000` or `0xFFFFFFFF`;
the signed 128-bit results of the truncated subtractions of `split_mu` are the
exact integers `k - d*s - c*t` and `d*t - c*s`. -/
theorem scalar_split_bounds (k : List Byte) (hk : k.length = 32) :
    (scalar_split k).1.length = 16 ∧ (scalar_split k).2.2.1.length = 16
      ∧ bytesVal (scalar_split k).1 < 2 ^ 127
      ∧ bytesVal (scalar_split k).2.2.1 < 2 ^ 127
      ∧ ((scalar_split k).2.1 = 0 ∨ (scalar_split k).2.1 = 0xFFFFFFFF)
      ∧ ((scalar_split k).2.2.2 = 0 ∨ (scalar_split k).2.2.2 = 0xFFFFFFFF)
      ∧ signed128 (split_mu (modr_reduce256_finish
            ( modr_reduce256_partial (i256_decode k) 0))).1
          = (limbsVal (modr_reduce256_finish
              ( modr_reduce256_partial (i256_decode k) 0)) : Int)
            - (limbsVal (mul_divr_rounded (modr_reduce256_finish
                ( modr_reduce256_partial (i256_decode k) 0)) vES) : Int) * limbsVal vES
            - (limbsVal (mul_divr_rounded (modr_reduce256_finish
                ( modr_reduce256_partial (i256_decode k) 0)) vET) : Int) * limbsVal vET
      ∧ signed128 (split_mu (modr_reduce256_finish
            ( modr_reduce256_partial (i256_decode k) 0))).2
          = (limbsVal (mul_divr_rounded (modr_reduce256_finish
                ( modr_reduce256_partial (i256_decode k) 0)) vES) : Int) * limbsVal vET
            - (limbsVal (mul_divr_rounded (modr_reduce256_finish
                ( modr_reduce256_partial (i256_decode k) 0)) vET) : Int) * limbsVal vES := by
  obtain ⟨h1, h2, h3, h4, h5, h6, -⟩ := scalar_split_facts k hk
  obtain ⟨tl, tn, tv⟩ := reduced_spec k hk
  have hkr : limbsVal (modr_reduce256_finish ( modr_reduce256_partial (i256_decode k) 0)) < r := by
    rw [tv]; exact Nat.mod_lt _ r_pos
  obtain ⟨e1, e2⟩ := split_mu_exact _ tl tn hkr
  exact ⟨h1, h2, h3, h4, h5, h6, e1, e2⟩

/-- Witness of C2 at the all-ones 32-byte input: both absolute values are
below `2^127`. -/
theorem scalar_split_bounds_witness :
    scalar_max.length = 32
      ∧ bytesVal (scalar_split scalar_max).1 < 2 ^ 127
      ∧ bytesVal (scalar_split scalar_max).2.2.1 < 2 ^ 127 :=
  ⟨rfl, (scalar_split_bounds scalar_max rfl).2.2.1,
    (scalar_split_bounds scalar_max rfl).2.2.2.1⟩

section
variable {Pt PtA G : Type} [AddCommGroup G]

/-- C3: in any group model of the point primitives (`condneg`, window
construction and lookup, `zeta` as the multiplication by `mu`, `xdouble` by 4,
the additions), for every point `p` and every 32-byte `k`, `gls254_mul`
returns the group element `[k mod r] p`. -/
theorem gls254_mul_correct (P : Prims Pt PtA) (el : Pt → G) (ela : PtA → G)
    (hM : GroupModel P el ela) (p : Pt) (k : List Byte) (hk : k.length = 32) :
    el (gls254_mul P p k) = (bytesVal k % r) • el p :=
  gls254_mul_el hM p k hk

/-- C4: in any group model in which the four precomputed tables hold the
multiples `i * 2^(32 j) * G`, for every 32-byte `k`, `gls254_mulgen` returns
the same group element as `gls254_mul` on the base point, namely `[k mod r] G`. -/
theorem gls254_mulgen_eq_mul (P : Prims Pt PtA) (el : Pt → G) (ela : PtA → G)
    (hM : GroupModel P el ela) (hT : TableModel P el ela) (k : List Byte)
    (hk : k.length = 32) :
    el (gls254_mulgen P k) = el (gls254_mul P P.BASE k)
      ∧ el (gls254_mulgen P k) = (bytesVal k % r) • el P.BASE := by
  rw [gls254_mulgen_el hM hT k hk, gls254_mul_el hM P.BASE k hk]
  exact ⟨rfl, rfl⟩

/-- C5: for every 32-byte `k`, `scalar_reduce` writes the canonical encoding
of `k mod r`, `scalar_split` has the same four outputs on `k` and on that
encoding, and so `gls254_mul` and `gls254_mulgen` return the same result on
both. -/
theorem scalar_split_reduce_invariant (P : Prims Pt PtA) (p : Pt) (k : List Byte)
    (hk : k.length = 32) :
    (scalar_reduce k).length = 32 ∧ bytesVal (scalar_reduce k) = bytesVal k % r
      ∧ scalar_split k = scalar_split (scalar_reduce k)
      ∧ gls254_mul P p k = gls254_mul P p (scalar_reduce k)
      ∧ gls254_mulgen P k = gls254_mulgen P (scalar_reduce k) := by
  obtain ⟨n, v⟩ := scalar_reduce_spec k
  have e := scalar_split_reduce k hk
  refine ⟨n, v, e.symm, ?_, ?_⟩
  · unfold gls254_mul; rw [e]
  · unfold gls254_mulgen; rw [e]

/-- C6: in any group model (base point of order `r`, tables holding the stated
multiples, canonical encoding, an arbitrary 32-byte digest function), a
signature made with a private key from a successful `gls254_decode_private`
verifies against the matching public key: `gls254_verify_vartime` returns 1. -/
theorem sign_verify_roundtrip (P : Prims Pt PtA) (el : Pt → G) (ela : PtA → G)
    (hM : GroupModel P el ela) (hT : TableModel P el ela)
    (hP : ProtocolModel P el ela) (src seed data : List Byte)
    (hash_name : Option (List Byte)) (hs : src.length = 32)
    (hok : (gls254_decode_private P src).1 = 1) :
    gls254_verify_vartime P (gls254_decode_private P src).2.pub
      (gls254_sign P (gls254_decode_private P src).2 seed hash_name data)
      hash_name data = 1 := by
  obtain ⟨hpos, hlt, hsec, hpp, henc⟩ := decode_private_ok P src hs hok
  generalize (gls254_decode_private P src).2 = sk at hsec hpp henc ⊢
  have hppel : el sk.pub.pp = ((bytesVal src : Nat) : Int) • el P.BASE := by
    rw [hpp, gls254_mulgen_el hM hT src hs, Nat.mod_eq_of_lt hlt, natCast_zsmul]
  have hne : el sk.pub.pp ≠ 0 := by
    rw [hppel, natCast_zsmul]
    intro h0
    have := Nat.le_of_dvd hpos (hP.base_order _ h0)
    omega
  unfold gls254_sign
  simp only []
  generalize hk : P.blake2s (sk.sec ++ sk.pub.enc
    ++ (enc32le (seed.length % 2 ^ 32) ++ enc32le ((seed.length % 2 ^ 64) >>> 32))
    ++ seed ++ hash_tag hash_name ++ data) = k
  have hkl : k.length = 32 := by rw [← hk]; exact hP.blake2s_length _
  generalize hcb : make_challenge P (gls254_mulgen P k) sk.pub.enc hash_name data = cb
  have hcbl : cb.length = 16 := by
    rw [← hcb]; unfold make_challenge
    rw [List.length_take, hP.blake2s_length]; rfl
  obtain ⟨dl, dv⟩ := sign_scalar_spec cb sk.sec k (by rw [hsec]; exact hs) hkl
  generalize scalar_add (scalar_mul (scalar_add (scalar_reduce (cb.take 8))
    (scalar_mul (scalar_reduce ((cb.drop 8).take 8)) MU)) sk.sec) k = D at dl dv ⊢
  have hDlt : bytesVal D < r := by rw [dv]; exact Nat.mod_lt _ r_pos
  have hdrop : (cb ++ D).drop 16 = D := by
    rw [← hcbl]; exact List.drop_left' rfl
  have htake : (cb ++ D).take 16 = cb := by
    rw [← hcbl]; exact List.take_left' rfl
  have htake8 : (cb ++ D).take 8 = cb.take 8 := by
    rw [List.take_append_of_le_length (by omega)]
  have hmid : ((cb ++ D).drop 8).take 8 = (cb.drop 8).take 8 := by
    rw [List.drop_append_of_le_length (by omega),
      List.take_append_of_le_length (by rw [List.length_drop]; omega)]
  unfold gls254_verify_vartime
  rw [if_neg (by rw [(hP.isneutral _).2 hne]; simp), hdrop,
    if_neg (by rw [scalar_is_reduced_spec D dl, if_pos hDlt]; norm_num)]
  have hR : el (verify_ladder P sk.pub (cb ++ D)) = el (gls254_mulgen P k) := by
    rw [verify_ladder_el hM hT hP sk.pub (cb ++ D) _ hppel
        (by rw [List.length_append, hcbl, dl]),
      gls254_mulgen_el hM hT k hkl, hdrop, htake8, hmid, Nat.mod_eq_of_lt hDlt,
      ← natCast_zsmul]
    apply smul_eq_of_zmod hM
    rw [dv, hsec]
    push_cast [ZMod.natCast_mod]
    ring
  simp only []
  rw [htake]
  have hc2 : make_challenge P (verify_ladder P sk.pub (cb ++ D)) sk.pub.enc hash_name data
      = cb := by
    have e : make_challenge P (verify_ladder P sk.pub (cb ++ D)) sk.pub.enc hash_name data
        = make_challenge P (gls254_mulgen P k) sk.pub.enc hash_name data := by
      unfold make_challenge
      rw [hP.encode_canonical _ _ hR]
    exact e.trans hcb
  rw [hc2, if_pos rfl]

/-- C7: in any group model, for two private keys from successful
`gls254_decode_private`, `gls254_ECDH` of each with the public key of the
other returns 1 and the same 32-byte shared key. -/
theorem ecdh_symmetric (P : Prims Pt PtA) (el : Pt → G) (ela : PtA → G)
    (hM : GroupModel P el ela) (hT : TableModel P el ela)
    (hP : ProtocolModel P el ela) (src1 src2 : List Byte)
    (hs1 : src1.length = 32) (hs2 : src2.length = 32)
    (hok1 : (gls254_decode_private P src1).1 = 1)
    (hok2 : (gls254_decode_private P src2).1 = 1) :
    (gls254_ECDH P (gls254_decode_private P src1).2
        (gls254_decode_private P src2).2.pub).1 = 1
      ∧ (gls254_ECDH P (gls254_decode_private P src2).2
        (gls254_decode_private P src1).2.pub).1 = 1
      ∧ (gls254_ECDH P (gls254_decode_private P src1).2
        (gls254_decode_private P src2).2.pub).2
        = (gls254_ECDH P (gls254_decode_private P src2).2
          (gls254_decode_private P src1).2.pub).2
      ∧ (gls254_ECDH P (gls254_decode_private P src1).2
        (gls254_decode_private P src2).2.pub).2.length = 32 := by
  obtain ⟨p1, l1, sec1, pp1, enc1⟩ := decode_private_ok P src1 hs1 hok1
  obtain ⟨p2, l2, sec2, pp2, enc2⟩ := decode_private_ok P src2 hs2 hok2
  generalize (gls254_decode_private P src1).2 = sk1 at sec1 pp1 enc1 ⊢
  generalize (gls254_decode_private P src2).2 = sk2 at sec2 pp2 enc2 ⊢
  have e1 : el sk1.pub.pp = (bytesVal src1) • el P.BASE := by
    rw [pp1, gls254_mulgen_el hM hT src1 hs1, Nat.mod_eq_of_lt l1]
  have e2 : el sk2.pub.pp = (bytesVal src2) • el P.BASE := by
    rw [pp2, gls254_mulgen_el hM hT src2 hs2, Nat.mod_eq_of_lt l2]
  have ne1 : el sk1.pub.pp ≠ 0 := by
    rw [e1]; intro h0
    have := Nat.le_of_dvd p1 (hP.base_order _ h0)
    omega
  have ne2 : el sk2.pub.pp ≠ 0 := by
    rw [e2]; intro h0
    have := Nat.le_of_dvd p2 (hP.base_order _ h0)
    omega
  have n1 : sk1.pub.enc.length = 32 := by rw [enc1]; exact hP.encode_length _
  have n2 : sk2.pub.enc.length = 32 := by rw [enc2]; exact hP.encode_length _
  have hsh : el (gls254_mul P sk2.pub.pp sk1.sec) = el (gls254_mul P sk1.pub.pp sk2.sec) := by
    rw [gls254_mul_el hM _ _ (by rw [sec1]; exact hs1),
      gls254_mul_el hM _ _ (by rw [sec2]; exact hs2), sec1, sec2, e1, e2,
      Nat.mod_eq_of_lt l1, Nat.mod_eq_of_lt l2, smul_smul, smul_smul, mul_comm]
  rw [ecdh_valid hP sk1 sk2.pub ne2 (by rw [sec1]; exact hs1) n1 n2,
    ecdh_valid hP sk2 sk1.pub ne1 (by rw [sec2]; exact hs2) n2 n1,
    ecdh_order_symm _ _ n1 n2, hP.encode_canonical _ _ hsh]
  exact ⟨rfl, rfl, rfl, hP.blake2s_length _⟩

end

/-- Witness of C3 in the model on `ZMod r`, at the point `1` and the all-ones
scalar. -/
theorem gls254_mul_correct_witness :
    GroupModel zmodPrims (fun p : ZMod r => p) (fun a : ZMod r => a)
      ∧ scalar_max.length = 32
      ∧ gls254_mul zmodPrims 1 scalar_max = (bytesVal scalar_max % r) • (1 : ZMod r) :=
  ⟨zmod_groupModel, rfl,
    gls254_mul_correct zmodPrims (fun p => p) (fun a => a) zmod_groupModel 1 scalar_max rfl⟩

/-- Witness of C4 in the model on `ZMod r`, at the all-ones scalar. -/
theorem gls254_mulgen_eq_mul_witness :
    TableModel zmodPrims (fun p : ZMod r => p) (fun a : ZMod r => a)
      ∧ gls254_mulgen zmodPrims scalar_max = gls254_mul zmodPrims zmodPrims.BASE scalar_max :=
  ⟨zmod_tableModel,
    (gls254_mulgen_eq_mul zmodPrims (fun p => p) (fun a => a) zmod_groupModel
      zmod_tableModel scalar_max rfl).1⟩

/-- Witness of C5 in the model on `ZMod r`, at the all-ones scalar. -/
theorem scalar_split_reduce_invariant_witness :
    scalar_max.length = 32
      ∧ scalar_split scalar_max = scalar_split (scalar_reduce scalar_max) :=
  ⟨rfl, (scalar_split_reduce_invariant zmodPrims 1 scalar_max rfl).2.2.1⟩

/-- Witness of C6 in the model on `ZMod r`: the key `1` signs the empty
message. -/
theorem sign_verify_roundtrip_witness :
    (gls254_decode_private zmodPrims scalar_one).1 = 1
      ∧ gls254_verify_vartime zmodPrims (gls254_decode_private zmodPrims scalar_one).2.pub
          (gls254_sign zmodPrims (gls254_decode_private zmodPrims scalar_one).2 [] none [])
          none [] = 1 :=
  ⟨decode_private_one,
    sign_verify_roundtrip zmodPrims (fun p => p) (fun a => a) zmod_groupModel
      zmod_tableModel zmod_protocolModel scalar_one [] [] none rfl decode_private_one⟩

/-- Witness of C7 in the model on `ZMod r`: the keys `1` and `2`. -/
theorem ecdh_symmetric_witness :
    (gls254_decode_private zmodPrims scalar_one).1 = 1
      ∧ (gls254_decode_private zmodPrims scalar_two).1 = 1
      ∧ (gls254_ECDH zmodPrims (gls254_decode_private zmodPrims scalar_one).2
          (gls254_decode_private zmodPrims scalar_two).2.pub).2
        = (gls254_ECDH zmodPrims (gls254_decode_private zmodPrims scalar_two).2
          (gls254_decode_private zmodPrims scalar_one).2.pub).2 :=
  ⟨decode_private_one, decode_private_two,
    (ecdh_symmetric zmodPrims (fun p => p) (fun a => a) zmod_groupModel zmod_tableModel
      zmod_protocolModel scalar_one scalar_two rfl rfl decode_private_one
      decode_private_two).2.2.1⟩

/-- C8: for every byte string `a` of every length, `scalar_reduce` writes the
32-byte little-endian encoding of `A mod r`, `A` being the little-endian value
of `a`. -/
theorem scalar_reduce_correct (a : List Byte) :
    (scalar_reduce a).length = 32 ∧ bytesVal (scalar_reduce a) = bytesVal a % r :=
  scalar_reduce_spec a

/-- C9: for all 32-byte inputs `a` and `b`, `scalar_mul` writes the 32-byte
little-endian encoding of `(a * b) mod r`, which is below `r`. -/
theorem scalar_mul_correct (a b : List Byte) (ha : a.length = 32) (hb : b.length = 32) :
    (scalar_mul a b).length = 32
      ∧ bytesVal (scalar_mul a b) = (bytesVal a * bytesVal b) % r
      ∧ bytesVal (scalar_mul a b) < r := by
  obtain ⟨n, v⟩ := scalar_mul_spec a b ha hb
  exact ⟨n, v, by rw [v]; exact Nat.mod_lt _ r_pos⟩

/-- Witness of C9 at two unreduced operands. -/
theorem scalar_mul_correct_witness :
    scalar_max.length = 32
      ∧ bytesVal (scalar_mul scalar_max scalar_max)
        = (bytesVal scalar_max * bytesVal scalar_max) % r :=
  ⟨rfl, (scalar_mul_correct scalar_max scalar_max rfl rfl).2.1⟩

/-- C10: for all 32-byte inputs `a` and `b`, `scalar_add` writes the 32-byte
little-endian encoding of `(a + b) mod r`, which is below `r` even when
`a + b` overflows 256 bits. -/
theorem scalar_add_correct (a b : List Byte) (ha : a.length = 32) (hb : b.length = 32) :
    (scalar_add a b).length = 32
      ∧ bytesVal (scalar_add a b) = (bytesVal a + bytesVal b) % r
      ∧ bytesVal (scalar_add a b) < r := by
  obtain ⟨n, v⟩ := scalar_add_spec a b ha hb
  exact ⟨n, v, by rw [v]; exact Nat.mod_lt _ r_pos⟩

/-- Witness of C10 at two operands whose sum overflows 256 bits. -/
theorem scalar_add_correct_witness :
    scalar_max.length = 32
      ∧ bytesVal (scalar_add scalar_max scalar_max)
        = (bytesVal scalar_max + bytesVal scalar_max) % r :=
  ⟨rfl, (scalar_add_correct scalar_max scalar_max rfl rfl).2.1⟩

/-- C11: for all 32-byte inputs `a` and `b`, `scalar_sub` writes the 32-byte
little-endian encoding of `(a - b) mod r`, the representative in `[0, r)`; the
single addition of `8*r` after a borrow suffices for every pair of inputs. -/
theorem scalar_sub_correct (a b : List Byte) (ha : a.length = 32) (hb : b.length = 32) :
    (scalar_sub a b).length = 32
      ∧ (bytesVal (scalar_sub a b) : Int) = ((bytesVal a : Int) - bytesVal b) % r
      ∧ bytesVal (scalar_sub a b) < r := by
  obtain ⟨n, v⟩ := scalar_sub_spec a b ha hb
  refine ⟨n, v, ?_⟩
  have h : (bytesVal (scalar_sub a b) : Int) < r := by
    rw [v]
    exact Int.emod_lt_of_pos _ (by exact_mod_cast r_pos)
  exact_mod_cast h

/-- Witness of C11 at a subtraction that borrows: `1 - (2^256 - 1)`. -/
theorem scalar_sub_correct_witness :
    scalar_one.length = 32 ∧ scalar_max.length = 32
      ∧ (bytesVal (scalar_sub scalar_one scalar_max) : Int)
        = ((bytesVal scalar_one : Int) - bytesVal scalar_max) % r :=
  ⟨rfl, rfl, (scalar_sub_correct scalar_one scalar_max rfl rfl).2.1⟩

/-- C12: for every 32-byte input `a`, the output `h` of `scalar_half` is below
`r`, satisfies `2*h = a (mod r)`, is the product of `a` by `(r+1)/2 = 1/2 mod r`,
and equals the reference that reduces `a` modulo `r`, adds `r` if the result is
odd and shifts right by one. -/
theorem scalar_half_correct (a : List Byte) (ha : a.length = 32) :
    (scalar_half a).length = 32
      ∧ bytesVal (scalar_half a) < r
      ∧ (2 * bytesVal (scalar_half a)) % r = bytesVal a % r
      ∧ bytesVal (scalar_half a) = (bytesVal a * ((r + 1) / 2)) % r
      ∧ (2 * ((r + 1) / 2)) % r = 1
      ∧ bytesVal (scalar_half a) = scal_half_reference (bytesVal a) := by
  obtain ⟨n, v⟩ := scalar_half_spec a ha
  obtain ⟨h1, h2, h3, h4⟩ := half_arith (bytesVal a)
  rw [v]
  exact ⟨n, h1, h2, h3, by decide, h4⟩

/-- Witness of C12 at the odd, unreduced input `2^256 - 1`. -/
theorem scalar_half_correct_witness :
    scalar_max.length = 32
      ∧ (2 * bytesVal (scalar_half scalar_max)) % r = bytesVal scalar_max % r
      ∧ bytesVal (scalar_half scalar_max) = scal_half_reference (bytesVal scalar_max) :=
  ⟨rfl, (scalar_half_correct scalar_max rfl).2.2.1,
    (scalar_half_correct scalar_max rfl).2.2.2.2.2⟩

/-- C13: for every 32-byte input `a`, `scalar_neg` writes the encoding of
`(-a) mod r`; `scalar_add(a, scalar_neg(a))` is the all-zero 32-byte scalar and
`scalar_neg(scalar_neg(a))` is the canonical encoding of `a mod r`. -/
theorem scalar_neg_correct (a : List Byte) (ha : a.length = 32) :
    (scalar_neg a).length = 32
      ∧ (bytesVal (scalar_neg a) : Int) = (-(bytesVal a : Int)) % r
      ∧ bytesVal (scalar_neg a) < r
      ∧ scalar_add a (scalar_neg a) = List.replicate 32 0
      ∧ (scalar_neg (scalar_neg a)).length = 32
      ∧ bytesVal (scalar_neg (scalar_neg a)) = bytesVal a % r := by
  obtain ⟨n, v⟩ := scalar_neg_spec a ha
  obtain ⟨n2, v2⟩ := scalar_neg_spec (scalar_neg a) n
  obtain ⟨n3, v3⟩ := scalar_add_spec a (scalar_neg a) ha n
  have hr : (0 : Int) < r := by exact_mod_cast r_pos
  refine ⟨n, v, ?_, ?_, n2, ?_⟩
  · have h : (bytesVal (scalar_neg a) : Int) < r := by
      rw [v]
      exact Int.emod_lt_of_pos _ hr
    exact_mod_cast h
  · apply bytesVal_inj _ _ (by rw [n3]; simp)
    rw [bytesVal_replicate_zero, v3]
    have h : (((bytesVal a + bytesVal (scalar_neg a)) % r : Nat) : Int) = 0 := by
      rw [Int.natCast_mod, Nat.cast_add, v, Int.add_emod_emod]
      simp
    exact_mod_cast h
  · have h : (bytesVal (scalar_neg (scalar_neg a)) : Int) = ((bytesVal a % r : Nat) : Int) := by
      rw [v2, v, Int.natCast_mod]
      have h1 : -(-(bytesVal a : Int) % (r : Int)) ≡ -(-(bytesVal a : Int)) [ZMOD (r : Int)] :=
        (Int.mod_modEq _ _).neg
      rw [neg_neg] at h1
      exact h1
    exact_mod_cast h

/-- Witness of C13 at the unreduced input `2^256 - 1`. -/
theorem scalar_neg_correct_witness :
    scalar_max.length = 32
      ∧ scalar_add scalar_max (scalar_neg scalar_max) = List.replicate 32 0
      ∧ bytesVal (scalar_neg (scalar_neg scalar_max)) = bytesVal scalar_max % r :=
  ⟨rfl, (scalar_neg_correct scalar_max rfl).2.2.2.1,
    (scalar_neg_correct scalar_max rfl).2.2.2.2.2⟩

/-- C14: for every 32-byte input `a`, `scalar_is_reduced` returns 1 if the
little-endian integer encoded by `a` is in `[0, r-1]` and 0 if it is at least
`r`; no other value is returned. -/
theorem scalar_is_reduced_correct (a : List Byte) (ha : a.length = 32) :
    (bytesVal a < r → scalar_is_reduced a = 1)
      ∧ (r ≤ bytesVal a → scalar_is_reduced a = 0)
      ∧ (scalar_is_reduced a = 0 ∨ scalar_is_reduced a = 1) := by
  have h := scalar_is_reduced_spec a ha
  refine ⟨fun hlt => ?_, fun hge => ?_, ?_⟩
  · rw [h, if_pos hlt]
  · rw [h, if_neg (by omega)]
  · by_cases hlt : bytesVal a < r
    · right
      rw [h, if_pos hlt]
    · left
      rw [h, if_neg hlt]

/-- Witness of C14 at the two boundary values: 0 is returned for `r` itself
and 1 for `r - 1`. -/
theorem scalar_is_reduced_correct_witness :
    GLS254_R.length = 32 ∧ bytesVal GLS254_R = r ∧ scalar_is_reduced GLS254_R = 0
      ∧ scalar_r_pred.length = 32 ∧ bytesVal scalar_r_pred = r - 1
      ∧ scalar_is_reduced scalar_r_pred = 1 :=
  ⟨rfl, by decide,
    (scalar_is_reduced_correct GLS254_R rfl).2.1 (by decide),
    rfl, by decide,
    (scalar_is_reduced_correct scalar_r_pred rfl).1 (by decide)⟩

section
variable {Pt PtA : Type} (P : Prims Pt PtA)

/-- C15: with BLAKE2s, `gls254_mulgen` and `gls254_encode` abstract, for every
private key, seed, hash name and data the output of `gls254_sign` has 48
bytes and is `cb ‖ D`: `cb` is the 16-byte challenge of `make_challenge` for
`R = mulgen(k)` and `D` is the 32-byte encoding of
`((c0 + c1*MU) * sec + k) mod r`, with `c0` and `c1` the two 64-bit halves of
`cb`, `sec = sk.sec` and `k` the unreduced 32-byte digest; `D` is below `r`. -/
theorem gls254_sign_output (sk : PrivateKey Pt) (seed : List Byte)
    (hash_name : Option (List Byte)) (data k cb : List Byte)
    (hsec : sk.sec.length = 32) (hlen : ∀ m, (P.blake2s m).length = 32)
    (hk : k = P.blake2s (sk.sec ++ sk.pub.enc
      ++ (enc32le (seed.length % 2 ^ 32) ++ enc32le ((seed.length % 2 ^ 64) >>> 32))
      ++ seed ++ hash_tag hash_name ++ data))
    (hcb : cb = make_challenge P (gls254_mulgen P k) sk.pub.enc hash_name data) :
    (gls254_sign P sk seed hash_name data).length = 48
      ∧ cb.length = 16
      ∧ (gls254_sign P sk seed hash_name data).take 16 = cb
      ∧ ((gls254_sign P sk seed hash_name data).drop 16).length = 32
      ∧ bytesVal ((gls254_sign P sk seed hash_name data).drop 16)
          = ((bytesVal (cb.take 8) + bytesVal ((cb.drop 8).take 8) * bytesVal MU)
              * bytesVal sk.sec + bytesVal k) % r
      ∧ bytesVal ((gls254_sign P sk seed hash_name data).drop 16) < r := by
  have hkl : k.length = 32 := by rw [hk]; exact hlen _
  have hcl : cb.length = 16 := by
    rw [hcb]
    unfold make_challenge
    rw [List.length_take, hlen]
    rfl
  obtain ⟨n, v⟩ := sign_scalar_spec cb sk.sec k hsec hkl
  have e : gls254_sign P sk seed hash_name data
      = cb ++ scalar_add (scalar_mul (scalar_add (scalar_reduce (cb.take 8))
          (scalar_mul (scalar_reduce ((cb.drop 8).take 8)) MU)) sk.sec) k := by
    rw [hcb, hk]
    rfl
  have hv : ((bytesVal (cb.take 8) % r + bytesVal ((cb.drop 8).take 8) % r * mu % r) % r
        * bytesVal sk.sec % r + bytesVal k) % r
      = ((bytesVal (cb.take 8) + bytesVal ((cb.drop 8).take 8) * bytesVal MU)
          * bytesVal sk.sec + bytesVal k) % r := by
    rw [bytesVal_MU]
    have h1 : bytesVal (cb.take 8) % r ≡ bytesVal (cb.take 8) [MOD r] := Nat.mod_modEq _ _
    have h2 : bytesVal ((cb.drop 8).take 8) % r * mu % r
        ≡ bytesVal ((cb.drop 8).take 8) * mu [MOD r] :=
      (Nat.mod_modEq _ _).trans ((Nat.mod_modEq _ _).mul_right mu)
    have h3 := (Nat.mod_modEq _ r).trans (h1.add h2)
    have h4 := (Nat.mod_modEq _ r).trans (h3.mul_right (bytesVal sk.sec))
    exact h4.add_right (bytesVal k)
  rw [e, List.take_left' hcl, List.drop_left' hcl, v, hv]
  refine ⟨?_, hcl, rfl, n, rfl, Nat.mod_lt _ r_pos⟩
  rw [List.length_append, hcl, n]

end

/-- Witness of C15 in the model on `ZMod r`: the key `1` signs the empty
message with an empty seed. -/
theorem gls254_sign_output_witness :
    scalar_one.length = 32 ∧ (∀ m, (zmodPrims.blake2s m).length = 32)
      ∧ (gls254_sign zmodPrims { sec := scalar_one, pub := { pp := 1, enc := scalar_one } }
          [] none []).length = 48
      ∧ bytesVal ((gls254_sign zmodPrims
          { sec := scalar_one, pub := { pp := 1, enc := scalar_one } } [] none []).drop 16) < r :=
  ⟨rfl, zmod_protocolModel.blake2s_length,
    (gls254_sign_output zmodPrims { sec := scalar_one, pub := { pp := 1, enc := scalar_one } }
      [] none [] _ _ rfl zmod_protocolModel.blake2s_length rfl rfl).1,
    (gls254_sign_output zmodPrims { sec := scalar_one, pub := { pp := 1, enc := scalar_one } }
      [] none [] _ _ rfl zmod_protocolModel.blake2s_length rfl rfl).2.2.2.2.2⟩

section
variable {Pt PtA : Type} (P : Prims Pt PtA)

/-- C16: `gls254_verify_vartime` returns 0 for every input in which
`gls254_isneutral` is nonzero on the public key point, and for every input in
which bytes 16..47 of the signature encode an integer at least `r`
(`scalar_is_reduced` returns 0), whatever the challenge bytes, the hash name
and the data. -/
theorem verify_rejects (pk : PublicKey Pt) (sig : List Byte)
    (hash_name : Option (List Byte)) (data : List Byte) :
    (P.isneutral pk.pp ≠ 0 → gls254_verify_vartime P pk sig hash_name data = 0)
      ∧ (scalar_is_reduced (sig.drop 16) = 0 →
          gls254_verify_vartime P pk sig hash_name data = 0)
      ∧ (sig.length = 48 → r ≤ bytesVal (sig.drop 16) →
          scalar_is_reduced (sig.drop 16) = 0
            ∧ gls254_verify_vartime P pk sig hash_name data = 0) := by
  have h2 : scalar_is_reduced (sig.drop 16) = 0 →
      gls254_verify_vartime P pk sig hash_name data = 0 := by
    intro h
    unfold gls254_verify_vartime
    by_cases hn : P.isneutral pk.pp ≠ 0
    · rw [if_pos hn]
    · rw [if_neg hn, if_pos h]
  refine ⟨fun hn => ?_, h2, fun hl hge => ?_⟩
  · unfold gls254_verify_vartime
    rw [if_pos hn]
  · have h : scalar_is_reduced (sig.drop 16) = 0 := by
      rw [scalar_is_reduced_spec _ (by rw [List.length_drop, hl]), if_neg (by omega)]
    exact ⟨h, h2 h⟩

end

/-- Witness of C16 in the model on `ZMod r`: the neutral point as public key,
and a signature whose scalar part is `2^256 - 1`. -/
theorem verify_rejects_witness :
    zmodPrims.isneutral 0 ≠ 0
      ∧ gls254_verify_vartime zmodPrims { pp := 0, enc := scalar_one }
          (List.replicate 48 0) none [] = 0
      ∧ (List.replicate 48 (0xFF : Byte)).length = 48
      ∧ r ≤ bytesVal ((List.replicate 48 (0xFF : Byte)).drop 16)
      ∧ gls254_verify_vartime zmodPrims { pp := 1, enc := scalar_one }
          (List.replicate 48 0xFF) none [] = 0 :=
  ⟨by decide,
    (verify_rejects zmodPrims { pp := 0, enc := scalar_one } (List.replicate 48 0)
      none []).1 (by decide),
    rfl, by decide,
    ((verify_rejects zmodPrims { pp := 1, enc := scalar_one } (List.replicate 48 0xFF)
      none []).2.2 rfl (by decide)).2⟩

section
variable {Pt PtA : Type} (P : Prims Pt PtA)

/-- C17: `gls254_ECDH` returns 1 when `gls254_isneutral` is `0x00000000` on
the peer point and 0 when it is `0xFFFFFFFF`, the only two values that
`gls254_isneutral` returns. On failure the derived key is
`BLAKE2s(lo ‖ hi ‖ 0x46 ‖ sk.sec)`, the shared bytes being `sk.sec` whatever
the point multiplication gave; on success it is
`BLAKE2s(lo ‖ hi ‖ 0x53 ‖ encode(sk.sec * pk_peer.pp))`. -/
theorem ecdh_status (sk : PrivateKey Pt) (pk_peer : PublicKey Pt)
    (hsec : sk.sec.length = 32)
    (he : (P.encode (gls254_mul P pk_peer.pp sk.sec)).length = 32)
    (h1 : sk.pub.enc.length = 32) (h2 : pk_peer.enc.length = 32) :
    (P.isneutral pk_peer.pp = 0x00000000 →
        gls254_ECDH P sk pk_peer
          = (1, P.blake2s (lex_min sk.pub.enc pk_peer.enc ++ lex_max sk.pub.enc pk_peer.enc
              ++ [0x53] ++ P.encode (gls254_mul P pk_peer.pp sk.sec))))
      ∧ (P.isneutral pk_peer.pp = 0xFFFFFFFF →
        gls254_ECDH P sk pk_peer
          = (0, P.blake2s (lex_min sk.pub.enc pk_peer.enc ++ lex_max sk.pub.enc pk_peer.enc
              ++ [0x46] ++ sk.sec)))
      ∧ (P.isneutral pk_peer.pp = 0x00000000 ∨ P.isneutral pk_peer.pp = 0xFFFFFFFF →
        (gls254_ECDH P sk pk_peer).1 = 0 ∨ (gls254_ECDH P sk pk_peer).1 = 1) := by
  refine ⟨fun hn => ecdh_good P sk pk_peer hn hsec he h1 h2,
    fun hn => ecdh_bad P sk pk_peer hn hsec he h1 h2, fun hn => ?_⟩
  rcases hn with hn | hn
  · right
    rw [ecdh_good P sk pk_peer hn hsec he h1 h2]
  · left
    rw [ecdh_bad P sk pk_peer hn hsec he h1 h2]

end

/-- Witness of C17 in the model on `ZMod r`: the key `1` against the peer
points `2` (valid) and `0` (neutral). -/
theorem ecdh_status_witness :
    zmodPrims.isneutral 2 = 0x00000000
      ∧ (gls254_ECDH zmodPrims { sec := scalar_one, pub := { pp := 1, enc := scalar_one } }
          { pp := 2, enc := scalar_two }).1 = 1
      ∧ zmodPrims.isneutral 0 = 0xFFFFFFFF
      ∧ gls254_ECDH zmodPrims { sec := scalar_one, pub := { pp := 1, enc := scalar_one } }
          { pp := 0, enc := scalar_two }
        = (0, zmodPrims.blake2s (lex_min scalar_one scalar_two ++ lex_max scalar_one scalar_two
            ++ [0x46] ++ scalar_one)) :=
  ⟨by decide,
    congrArg Prod.fst ((ecdh_status zmodPrims
      { sec := scalar_one, pub := { pp := 1, enc := scalar_one } }
      { pp := 2, enc := scalar_two } rfl (encode_nat32_length _) rfl rfl).1 (by decide)),
    by decide,
    (ecdh_status zmodPrims { sec := scalar_one, pub := { pp := 1, enc := scalar_one } }
      { pp := 0, enc := scalar_two } rfl (encode_nat32_length _) rfl rfl).2.1 (by decide)⟩

section
variable {Pt PtA : Type} (P : Prims Pt PtA)

/-- C18: in `gls254_ECDH`, for every pair of 32-byte encodings
`A = sk.pub.enc` and `B = pk_peer.enc`, the 64-byte block hashed first is
`min(A,B) ‖ max(A,B)` in lexicographic order (byte 0 compared first, bytes as
unsigned values); the block is the same when `A` and `B` are exchanged and is
`A ‖ A` when `A = B`. -/
theorem ecdh_block_order (sk : PrivateKey Pt) (pk_peer : PublicKey Pt)
    (h1 : sk.pub.enc.length = 32) (h2 : pk_peer.enc.length = 32) :
    gls254_ECDH P sk pk_peer
        = ((P.isneutral pk_peer.pp + 1) % 2 ^ 32,
          P.blake2s (lex_min sk.pub.enc pk_peer.enc ++ lex_max sk.pub.enc pk_peer.enc
            ++ [Fin.ofNat (0x53 - (P.isneutral pk_peer.pp &&& (0x53 - 0x46)))]
            ++ List.zipWith (fun (s k : Byte) =>
                Fin.ofNat (s.val ^^^ (P.isneutral pk_peer.pp &&& (s.val ^^^ k.val))))
              (P.encode (gls254_mul P pk_peer.pp sk.sec)) sk.sec))
      ∧ (lex_min sk.pub.enc pk_peer.enc ++ lex_max sk.pub.enc pk_peer.enc).length = 64
      ∧ lex_min sk.pub.enc pk_peer.enc ++ lex_max sk.pub.enc pk_peer.enc
          = lex_min pk_peer.enc sk.pub.enc ++ lex_max pk_peer.enc sk.pub.enc
      ∧ (sk.pub.enc = pk_peer.enc →
          lex_min sk.pub.enc pk_peer.enc ++ lex_max sk.pub.enc pk_peer.enc
            = sk.pub.enc ++ sk.pub.enc) := by
  have h12 : sk.pub.enc.length = pk_peer.enc.length := by rw [h1, h2]
  refine ⟨?_, ?_, ?_, fun hAB => ?_⟩
  · unfold gls254_ECDH
    simp only []
    rw [ecdh_order _ _ h1 h2, order_lex _ _ h12]
  · rw [← order_lex _ _ h12]
    split <;> rw [List.length_append, h1, h2]
  · rw [← order_lex _ _ h12, ← order_lex _ _ h12.symm]
    exact ecdh_order_symm _ _ h1 h2
  · rw [← order_lex _ _ h12, ← hAB, if_neg (lt_irrefl _)]

end

/-- Witness of C18 in the model on `ZMod r`: own encoding `2`, peer encoding
`1`. -/
theorem ecdh_block_order_witness :
    scalar_two.length = 32 ∧ scalar_one.length = 32
      ∧ lex_min scalar_two scalar_one ++ lex_max scalar_two scalar_one
        = lex_min scalar_one scalar_two ++ lex_max scalar_one scalar_two :=
  ⟨rfl, rfl,
    (ecdh_block_order zmodPrims { sec := scalar_two, pub := { pp := 2, enc := scalar_two } }
      { pp := 1, enc := scalar_one } rfl rfl).2.2.1⟩

section
variable {Pt PtA : Type} (P : Prims Pt PtA)

/-- C19: for every 32-byte `src`, `gls254_decode_private` returns 1 if and
only if `0 < src < r`. On success `sk.sec` is `src` byte for byte, so that
`gls254_encode_private` returns `src`; on failure it returns 0 and sets
`sk.sec` and `sk.pub.enc` to 32 zero bytes and `sk.pub.pp` to
`GLS254_NEUTRAL`. -/
theorem decode_private_correct (src : List Byte) (hs : src.length = 32) :
    ((gls254_decode_private P src).1 = 1 ↔ (0 < bytesVal src ∧ bytesVal src < r))
      ∧ ((gls254_decode_private P src).1 = 1 →
          (gls254_decode_private P src).2.sec = src
            ∧ gls254_encode_private (gls254_decode_private P src).2 = src)
      ∧ ((gls254_decode_private P src).1 ≠ 1 →
          (gls254_decode_private P src).1 = 0
            ∧ (gls254_decode_private P src).2.sec = List.replicate 32 0
            ∧ (gls254_decode_private P src).2.pub.enc = List.replicate 32 0
            ∧ (gls254_decode_private P src).2.pub.pp = P.NEUTRAL) := by
  obtain ⟨hok, hbad⟩ := decode_private_status P src hs
  refine ⟨⟨fun h => ?_, hok⟩, fun h => ?_, fun h => ?_⟩
  · obtain ⟨p, l, _⟩ := decode_private_ok P src hs h
    exact ⟨p, l⟩
  · obtain ⟨_, _, e, _⟩ := decode_private_ok P src hs h
    refine ⟨e, ?_⟩
    unfold gls254_encode_private
    rw [e]
    exact List.take_of_length_le (by omega)
  · have hr : ¬ (0 < bytesVal src ∧ bytesVal src < r) := fun hc => h (hok hc)
    rw [hbad hr]
    exact ⟨rfl, rfl, rfl, rfl⟩

end

/-- Witness of C19 in the model on `ZMod r`: the scalar `1` is accepted and
kept, the scalar `2^256 - 1` is refused. -/
theorem decode_private_correct_witness :
    scalar_one.length = 32
      ∧ (gls254_decode_private zmodPrims scalar_one).1 = 1
      ∧ gls254_encode_private (gls254_decode_private zmodPrims scalar_one).2 = scalar_one
      ∧ scalar_max.length = 32
      ∧ (gls254_decode_private zmodPrims scalar_max).1 ≠ 1
      ∧ (gls254_decode_private zmodPrims scalar_max).2.sec = List.replicate 32 0 :=
  ⟨rfl, decode_private_one,
    ((decode_private_correct zmodPrims scalar_one rfl).2.1 decode_private_one).2,
    rfl, by decide,
    ((decode_private_correct zmodPrims scalar_max rfl).2.2 (by decide)).2.1⟩

section
variable {Pt PtA : Type} (P : Prims Pt PtA)

/-- C20: for every 32-byte `src`, after `gls254_decode_public` the field
`pk.enc` is `src` byte for byte whether or not decoding succeeded, so that
`gls254_encode_public` gives back `src`; the function returns 1 if and only if
`gls254_decode` succeeds and `gls254_isneutral` is zero on the decoded point,
and otherwise returns 0 with `pk.pp = GLS254_NEUTRAL`, which covers the valid
encoding of the neutral element. -/
theorem decode_public_correct (src : List Byte) (hs : src.length = 32) :
    (gls254_decode_public P src).2.enc = src
      ∧ gls254_encode_public (gls254_decode_public P src).2 = src
      ∧ ((gls254_decode_public P src).1 = 1
          ↔ ((P.decode src).1 ≠ 0 ∧ P.isneutral (P.decode src).2 = 0))
      ∧ ((gls254_decode_public P src).1 = 1 →
          (gls254_decode_public P src).2.pp = (P.decode src).2)
      ∧ ((gls254_decode_public P src).1 ≠ 1 →
          (gls254_decode_public P src).1 = 0
            ∧ (gls254_decode_public P src).2.pp = P.NEUTRAL)
      ∧ ((P.decode src).1 ≠ 0 → P.isneutral (P.decode src).2 ≠ 0 →
          (gls254_decode_public P src).1 = 0
            ∧ (gls254_decode_public P src).2.pp = P.NEUTRAL) := by
  have ht : src.take 32 = src := List.take_of_length_le (by omega)
  have e : gls254_decode_public P src
      = if (P.decode src).1 = 0 ∨ P.isneutral (P.decode src).2 ≠ 0 then
          (0, { pp := P.NEUTRAL, enc := src })
        else (1, { pp := (P.decode src).2, enc := src }) := by
    unfold gls254_decode_public
    simp only [ht]
  unfold gls254_encode_public
  rw [e]
  by_cases hc : (P.decode src).1 = 0 ∨ P.isneutral (P.decode src).2 ≠ 0
  · rw [if_pos hc]
    refine ⟨rfl, ht, ⟨fun h => absurd h Nat.zero_ne_one, fun h => ?_⟩,
      fun h => absurd h Nat.zero_ne_one, fun _ => ⟨rfl, rfl⟩, fun _ _ => ⟨rfl, rfl⟩⟩
    rcases hc with hc | hc
    · exact absurd hc h.1
    · exact absurd h.2 hc
  · rw [if_neg hc]
    rw [not_or, not_not] at hc
    exact ⟨rfl, ht, ⟨fun _ => hc, fun _ => rfl⟩,
      fun _ => rfl, fun h => absurd rfl h, fun _ h => absurd hc.2 h⟩

end

/-- Witness of C20 in the model on `ZMod r`: the encoding `1` decodes to a
valid key, the all-zero encoding decodes to the neutral and is refused; both
encodings are kept. -/
theorem decode_public_correct_witness :
    scalar_one.length = 32
      ∧ (gls254_decode_public zmodPrims scalar_one).2.enc = scalar_one
      ∧ (zmodPrims.decode scalar_one).1 ≠ 0
      ∧ zmodPrims.isneutral (zmodPrims.decode scalar_one).2 = 0
      ∧ (gls254_decode_public zmodPrims scalar_one).1 = 1
      ∧ (List.replicate 32 (0 : Byte)).length = 32
      ∧ (zmodPrims.decode (List.replicate 32 0)).1 ≠ 0
      ∧ zmodPrims.isneutral (zmodPrims.decode (List.replicate 32 0)).2 ≠ 0
      ∧ (gls254_decode_public zmodPrims (List.replicate 32 0)).1 = 0
      ∧ (gls254_decode_public zmodPrims (List.replicate 32 0)).2.enc = List.replicate 32 0 :=
  ⟨rfl, (decode_public_correct zmodPrims scalar_one rfl).1,
    by decide, by decide,
    (decode_public_correct zmodPrims scalar_one rfl).2.2.1.2 ⟨by decide, by decide⟩,
    rfl, by decide, by decide,
    ((decode_public_correct zmodPrims (List.replicate 32 0) rfl).2.2.2.2.2
      (by decide) (by decide)).1,
    (decode_public_correct zmodPrims (List.replicate 32 0) rfl).1⟩

section
variable {Pt PtA : Type} (P : Prims Pt PtA)

/-- C21: for every input `rnd` of every length, with `sk = gls254_keygen(rnd)`,
`tmp = gls254_encode_private(sk)` and `sk2 = gls254_decode_private(tmp)`, the
field `sk2.sec` equals `sk.sec` byte for byte, BLAKE2s being any function with
32-byte digests. -/
theorem keygen_private_roundtrip (rnd : List Byte)
    (hlen : ∀ m, (P.blake2s m).length = 32) :
    (gls254_decode_private P (gls254_encode_private (gls254_keygen P rnd))).2.sec
      = (gls254_keygen P rnd).sec :=
  (keygen_decode P rnd (hlen _)).2.2

/-- C22, as amended: for every input `rnd` of every length the secret scalar
of `gls254_keygen` is canonical, `0 ≤ sec < r`, and is the 32-byte digest
reduced modulo `r`; it is non-zero, and `gls254_decode_private` returns 1 on
its encoding, exactly when the digest is not a multiple of `r`, and
`gls254_decode_private` returns 0 when it is one. -/
theorem keygen_sec_canonical (rnd : List Byte)
    (hlen : ∀ m, (P.blake2s m).length = 32) :
    (gls254_keygen P rnd).sec.length = 32
      ∧ bytesVal (gls254_keygen P rnd).sec = bytesVal (P.blake2s (keygen_tag ++ rnd)) % r
      ∧ bytesVal (gls254_keygen P rnd).sec < r
      ∧ (0 < bytesVal (gls254_keygen P rnd).sec
          ↔ bytesVal (P.blake2s (keygen_tag ++ rnd)) % r ≠ 0)
      ∧ ((gls254_decode_private P (gls254_encode_private (gls254_keygen P rnd))).1 = 1
          ↔ bytesVal (P.blake2s (keygen_tag ++ rnd)) % r ≠ 0)
      ∧ (bytesVal (P.blake2s (keygen_tag ++ rnd)) % r = 0 →
          (gls254_decode_private P (gls254_encode_private (gls254_keygen P rnd))).1 = 0) := by
  obtain ⟨n, v, _⟩ := keygen_sec P rnd (hlen _)
  obtain ⟨d1, d0, _⟩ := keygen_decode P rnd (hlen _)
  refine ⟨n, v, ?_, ?_, d1, d0⟩
  · rw [v]
    exact Nat.mod_lt _ r_pos
  · rw [v]
    exact Nat.pos_iff_ne_zero

end

/-- Witness of C21 in the model on `ZMod r`, at the empty seed. -/
theorem keygen_private_roundtrip_witness :
    (∀ m, (zmodPrims.blake2s m).length = 32)
      ∧ (gls254_decode_private zmodPrims
          (gls254_encode_private (gls254_keygen zmodPrims []))).2.sec
        = (gls254_keygen zmodPrims []).sec :=
  ⟨zmod_protocolModel.blake2s_length,
    keygen_private_roundtrip zmodPrims [] zmod_protocolModel.blake2s_length⟩

/-- Witness of C22 as amended, in the model on `ZMod r`, at the empty
seed. -/
theorem keygen_sec_canonical_witness :
    (∀ m, (zmodPrims.blake2s m).length = 32)
      ∧ bytesVal (gls254_keygen zmodPrims []).sec < r :=
  ⟨zmod_protocolModel.blake2s_length,
    (keygen_sec_canonical zmodPrims [] zmod_protocolModel.blake2s_length).2.2.1⟩

/-- Counterexample to C22 as stated: with a digest function that returns the
32 zero bytes, the secret scalar of `gls254_keygen` is zero and
`gls254_decode_private` returns 0 on its encoding. -/
theorem keygen_sec_zero_counterexample :
    (∀ m, (zeroDigestPrims.blake2s m).length = 32)
      ∧ ¬ (0 < bytesVal (gls254_keygen zeroDigestPrims []).sec
            ∧ bytesVal (gls254_keygen zeroDigestPrims []).sec < r)
      ∧ (gls254_decode_private zeroDigestPrims
          (gls254_encode_private (gls254_keygen zeroDigestPrims []))).1 = 0 := by
  have hd : ∀ m, zeroDigestPrims.blake2s m = List.replicate 32 0 := fun _ => rfl
  have hl : ∀ m, (zeroDigestPrims.blake2s m).length = 32 := fun _ => rfl
  have hz : bytesVal (zeroDigestPrims.blake2s (keygen_tag ++ [])) % r = 0 := by
    rw [hd, bytesVal_replicate_zero]
    rfl
  obtain ⟨_, v, _⟩ := keygen_sec zeroDigestPrims [] (hl _)
  refine ⟨hl, fun h => ?_, (keygen_decode zeroDigestPrims [] (hl _)).2.1 hz⟩
  rw [v, hz] at h
  exact absurd h.1 (lt_irrefl 0)

section
variable {Pt PtA : Type} (P : Prims Pt PtA)

/-- C23: a `NULL` hash name and an empty-string hash name are equivalent. For
all other arguments equal, `gls254_hash_to_point`, `make_challenge`,
`gls254_sign` and `gls254_verify_vartime` hash the same bytes, with the
raw-data tag `0x52` and no name bytes, and return the same results; a
non-empty name contributes `0x48 ‖ name ‖ 0x00` instead. -/
theorem hash_name_null_empty (sk : PrivateKey Pt) (pk : PublicKey Pt) (R : Pt)
    (pub sig seed data : List Byte) :
    hash_tag none = [0x52] ∧ hash_tag (some []) = [0x52]
      ∧ gls254_hash_to_point P (some []) data = gls254_hash_to_point P none data
      ∧ gls254_hash_to_point P none data
          = P.add (P.map_to_point (P.blake2s ([0x01, 0x52] ++ data)))
              (P.map_to_point (P.blake2s ([0x02, 0x52] ++ data)))
      ∧ make_challenge P R pub (some []) data = make_challenge P R pub none data
      ∧ make_challenge P R pub none data
          = (P.blake2s (P.encode R ++ pub.take 32 ++ [0x52] ++ data)).take 16
      ∧ gls254_sign P sk seed (some []) data = gls254_sign P sk seed none data
      ∧ ((∀ m, (P.blake2s m).length = 32) → gls254_sign P sk seed none data
          = make_challenge P (gls254_mulgen P (P.blake2s (sk.sec ++ sk.pub.enc
                ++ (enc32le (seed.length % 2 ^ 32) ++ enc32le ((seed.length % 2 ^ 64) >>> 32))
                ++ seed ++ [0x52] ++ data))) sk.pub.enc none data
            ++ (gls254_sign P sk seed none data).drop 16)
      ∧ gls254_verify_vartime P pk sig (some []) data
          = gls254_verify_vartime P pk sig none data
      ∧ (∀ name : List Byte, name ≠ [] → (∀ c ∈ name, c ≠ 0) →
          hash_tag (some name) = [0x48] ++ name ++ [0]
            ∧ gls254_hash_to_point P (some name) data
              = P.add (P.map_to_point (P.blake2s ([0x01, 0x48] ++ name ++ [0] ++ data)))
                  (P.map_to_point (P.blake2s ([0x02, 0x48] ++ name ++ [0] ++ data)))
            ∧ make_challenge P R pub (some name) data
              = (P.blake2s (P.encode R ++ pub.take 32 ++ ([0x48] ++ name ++ [0])
                  ++ data)).take 16) := by
  have h0 : hash_tag none = [0x52] := rfl
  have h1 : hash_tag (some []) = [0x52] := rfl
  have h2 : hash_tag (some []) = hash_tag none := rfl
  refine ⟨h0, h1, ?_, ?_, ?_, ?_, ?_, ?_, ?_, ?_⟩
  · unfold gls254_hash_to_point
    rw [h2]
  · unfold gls254_hash_to_point
    rw [h0]
    rfl
  · unfold make_challenge
    rw [h2]
  · unfold make_challenge
    rw [h0]
  · unfold gls254_sign make_challenge
    rw [h2]
  · intro hlen
    have hcl : (make_challenge P (gls254_mulgen P (P.blake2s (sk.sec ++ sk.pub.enc
        ++ (enc32le (seed.length % 2 ^ 32) ++ enc32le ((seed.length % 2 ^ 64) >>> 32))
        ++ seed ++ [0x52] ++ data))) sk.pub.enc none data).length = 16 := by
      unfold make_challenge
      rw [List.length_take, hlen]
      rfl
    have e : gls254_sign P sk seed none data
        = make_challenge P (gls254_mulgen P (P.blake2s (sk.sec ++ sk.pub.enc
              ++ (enc32le (seed.length % 2 ^ 32) ++ enc32le ((seed.length % 2 ^ 64) >>> 32))
              ++ seed ++ [0x52] ++ data))) sk.pub.enc none data
          ++ scalar_add (scalar_mul (scalar_add
              (scalar_reduce ((make_challenge P (gls254_mulgen P (P.blake2s (sk.sec
                ++ sk.pub.enc ++ (enc32le (seed.length % 2 ^ 32)
                  ++ enc32le ((seed.length % 2 ^ 64) >>> 32))
                ++ seed ++ [0x52] ++ data))) sk.pub.enc none data).take 8))
              (scalar_mul (scalar_reduce (((make_challenge P (gls254_mulgen P (P.blake2s
                (sk.sec ++ sk.pub.enc ++ (enc32le (seed.length % 2 ^ 32)
                  ++ enc32le ((seed.length % 2 ^ 64) >>> 32))
                ++ seed ++ [0x52] ++ data))) sk.pub.enc none data).drop 8).take 8)) MU))
              sk.sec)
            (P.blake2s (sk.sec ++ sk.pub.enc
              ++ (enc32le (seed.length % 2 ^ 32) ++ enc32le ((seed.length % 2 ^ 64) >>> 32))
              ++ seed ++ [0x52] ++ data)) := rfl
    rw [e, List.drop_left' hcl]
  · unfold gls254_verify_vartime make_challenge
    rw [h2]
  · intro name hne hnz
    have h3 := hash_tag_name name hne hnz
    refine ⟨h3, ?_, ?_⟩
    · unfold gls254_hash_to_point
      rw [h3]
      simp only [List.append_assoc, List.cons_append, List.nil_append, List.singleton_append]
    · unfold make_challenge
      rw [h3]

end

/-- Witness of C23 in the model on `ZMod r`: the key `1` signs the empty
message under the empty name and under no name, and the name `"a"` gives the
tag `0x48 0x61 0x00`. -/
theorem hash_name_null_empty_witness :
    gls254_sign zmodPrims { sec := scalar_one, pub := { pp := 1, enc := scalar_one } }
        [] (some []) []
      = gls254_sign zmodPrims { sec := scalar_one, pub := { pp := 1, enc := scalar_one } }
        [] none []
      ∧ name_a ≠ [] ∧ (∀ c ∈ name_a, c ≠ 0)
      ∧ hash_tag (some name_a) = [0x48] ++ name_a ++ [0] :=
  ⟨(hash_name_null_empty zmodPrims
      { sec := scalar_one, pub := { pp := 1, enc := scalar_one } }
      { pp := 1, enc := scalar_one } 1 [] [] [] []).2.2.2.2.2.2.1,
    by decide, name_a_nonzero,
    ((hash_name_null_empty zmodPrims
      { sec := scalar_one, pub := { pp := 1, enc := scalar_one } }
      { pp := 1, enc := scalar_one } 1 [] [] [] []).2.2.2.2.2.2.2.2.2
        name_a (by decide) name_a_nonzero).1⟩

/-- C24: the 32-byte constant `MU` of `curve.c`, read as a little-endian
integer, is the value `mu` documented in `gls254.h`; it is below `r` and its
square is `-1` modulo `r = 2^253 + 83877821160623817322862211711964450037`. -/
theorem MU_value :
    MU.length = 32
      ∧ bytesVal MU
        = 10811011514837737534717025162521437705238749575629098770843741413709931738644
      ∧ bytesVal MU = mu
      ∧ r = 2 ^ 253 + 83877821160623817322862211711964450037
      ∧ bytesVal MU < r
      ∧ (bytesVal MU * bytesVal MU + 1) % r = 0
      ∧ (bytesVal MU : Int) ^ 2 ≡ -1 [ZMOD (r : Int)] := by
  have hm : bytesVal MU = mu := bytesVal_MU
  have hsq : (mu * mu + 1) % r = 0 := by decide
  have hv : mu
      = 10811011514837737534717025162521437705238749575629098770843741413709931738644 := by
    unfold mu
    rfl
  have hr : r = 2 ^ 253 + 83877821160623817322862211711964450037 := by
    unfold r r0
    rfl
  refine ⟨rfl, hm.trans hv, hm, hr, ?_, ?_, ?_⟩
  · rw [hm]
    unfold mu r r0
    norm_num
  · rw [hm]
    exact hsq
  · rw [hm, Int.modEq_iff_dvd]
    have h : (r : Int) ∣ ((mu * mu + 1 : Nat) : Int) :=
      Int.natCast_dvd_natCast.2 (Nat.dvd_of_mod_eq_zero hsq)
    have e : (-1 : Int) - (mu : Int) ^ 2 = -((mu * mu + 1 : Nat) : Int) := by
      push_cast
      ring
    rw [e]
    exact (dvd_neg).2 h

/-- C26: for every 16-byte little-endian input `n` below `2^127`,
`recode4_u128` produces 32 signed digits, each in `[-8, +8]` (in fact in
`[-7, +8]`), with `∑ sd[i] * 16^i = n` exactly; the carry out of the top
nibble is 0. -/
theorem recode4_u128_correct (n : List Byte) (hl : n.length = 16)
    (hn : bytesVal n < 2 ^ 127) :
    (recode4_u128 n).length = 32
      ∧ (∀ i, -8 ≤ (recode4_u128 n).getD i 0 ∧ (recode4_u128 n).getD i 0 ≤ 8)
      ∧ (∀ d ∈ recode4_u128 n, -7 ≤ d ∧ d ≤ 8)
      ∧ ∑ i in Finset.range 32, (recode4_u128 n).getD i 0 * (16 : Int) ^ i = bytesVal n
      ∧ (recode4_bytes (n.take 16) 0).2 = 0 := by
  obtain ⟨l, ok, v⟩ := recode4_u128_spec n hl hn
  refine ⟨l, fun i => digitsOk_getD ok i, ok, ?_, recode4_u128_carry n hl hn⟩
  rw [digits_sum _ 32 l, v]

/-- Witness of C26 at the largest input, `2^127 - 1`. -/
theorem recode4_u128_correct_witness :
    bytes_max127.length = 16
      ∧ bytesVal bytes_max127 < 2 ^ 127
      ∧ ∑ i in Finset.range 32,
          (recode4_u128 bytes_max127).getD i 0 * (16 : Int) ^ i
        = bytesVal bytes_max127 :=
  ⟨rfl, by decide,
    (recode4_u128_correct bytes_max127 rfl
      (by decide)).2.2.2.1⟩

/-- C27: for every 8-byte little-endian input `n`, `recode4_u64` produces 16
signed digits, each in `[-8, +8]`, and returns a carry `c` in `{0, 1}` such
that `∑ sd[i] * 16^i = n - c * 2^64`. -/
theorem recode4_u64_correct (n : List Byte) (hl : n.length = 8) :
    (recode4_u64 n).1.length = 16
      ∧ (∀ i, -8 ≤ (recode4_u64 n).1.getD i 0 ∧ (recode4_u64 n).1.getD i 0 ≤ 8)
      ∧ ((recode4_u64 n).2 = 0 ∨ (recode4_u64 n).2 = 1)
      ∧ ∑ i in Finset.range 16, (recode4_u64 n).1.getD i 0 * (16 : Int) ^ i
          = (bytesVal n : Int) - ((recode4_u64 n).2 : Int) * 2 ^ 64 := by
  obtain ⟨l, ok, c, v⟩ := recode4_u64_spec n (by omega)
  have ht : n.take 8 = n := List.take_of_length_le (by omega)
  rw [ht] at v
  refine ⟨l, fun i => digitsOk_getD ok i, Nat.le_one_iff_eq_zero_or_eq_one.1 c, ?_⟩
  rw [digits_sum _ 16 l]
  linarith

/-- Witness of C27 at the largest input, `2^64 - 1`, for which the carry is
1. -/
theorem recode4_u64_correct_witness :
    bytes_max64.length = 8
      ∧ (recode4_u64 bytes_max64).2 = 1
      ∧ ∑ i in Finset.range 16, (recode4_u64 bytes_max64).1.getD i 0 * (16 : Int) ^ i
        = (bytesVal bytes_max64 : Int)
          - ((recode4_u64 bytes_max64).2 : Int) * 2 ^ 64 :=
  ⟨rfl, by decide, (recode4_u64_correct bytes_max64 rfl).2.2.2⟩

/-- C28: for every `k < r` in eight limbs and every `e < 2^127 - 2` in four
limbs, `mul_divr_rounded` returns `⌊(k*e + (r-1)/2) / r⌋`, the integer nearest
to `k*e/r`; the single borrow correction of the quotient estimate is exact
and the result fits in 128 bits. -/
theorem mul_divr_rounded_correct (k e : List Nat) (hk : Limbs k) (he : Limbs e)
    (hlk : k.length = 8) (hle : e.length = 4) (hkr : limbsVal k < r)
    (hee : limbsVal e < 2 ^ 127 - 2) :
    Limbs (mul_divr_rounded k e) ∧ (mul_divr_rounded k e).length = 4
      ∧ limbsVal (mul_divr_rounded k e) = (limbsVal k * limbsVal e + (r - 1) / 2) / r
      ∧ |(limbsVal (mul_divr_rounded k e) : Int) * r - (limbsVal k * limbsVal e : Nat)|
          ≤ ((r - 1) / 2 : Nat)
      ∧ 2 * ((r - 1) / 2) < r
      ∧ limbsVal (mul_divr_rounded k e) < 2 ^ 128 := by
  obtain ⟨l, n, v⟩ := mul_divr_rounded_spec k e hk he hlk hle hkr hee
  obtain ⟨a, b⟩ := nearest_arith (limbsVal k * limbsVal e) _ v
  have hb := limbsVal_lt l
  rw [n] at hb
  exact ⟨l, n, v, a, b, hb⟩

/-- Witness of C28 at `k = r - 1` and `e = 2^127 - 3`, the largest operands
allowed. -/
theorem mul_divr_rounded_correct_witness :
    Limbs (i256_decode scalar_r_pred) ∧ Limbs limbs_e_max
      ∧ limbsVal (i256_decode scalar_r_pred) < r
      ∧ limbsVal limbs_e_max < 2 ^ 127 - 2
      ∧ limbsVal (mul_divr_rounded (i256_decode scalar_r_pred)
          limbs_e_max)
        = (limbsVal (i256_decode scalar_r_pred)
            * limbsVal limbs_e_max + (r - 1) / 2) / r :=
  ⟨(i256_decode_spec scalar_r_pred rfl).1, limbs_e_max_ok, by decide, by decide,
    (mul_divr_rounded_correct (i256_decode scalar_r_pred)
      limbs_e_max
      (i256_decode_spec scalar_r_pred rfl).1 limbs_e_max_ok
      (i256_decode_spec scalar_r_pred rfl).2.1 rfl (by decide) (by decide)).2.2.1⟩

/-- C29: for every 256-bit `a` in eight limbs and every high word
`ah < 2^29`, so that `A = a + ah * 2^256 < 2^285`, the output `d` of
` modr_reduce256_partial` is congruent to `A` modulo `r` and below `2^254`,
hence below `2*r`; the single conditional addition of `r` is always enough,
and `d` is in fact `A mod r`. -/
theorem modr_reduce256_partial_correct (a : List Nat) (ah : Nat) (ha : Limbs a)
    (hl : a.length = 8) (hh : ah < 2 ^ 29) :
    Limbs ( modr_reduce256_partial a ah) ∧ ( modr_reduce256_partial a ah).length = 8
      ∧ limbsVal a + ah * 2 ^ 256 < 2 ^ 285
      ∧ limbsVal ( modr_reduce256_partial a ah) ≡ limbsVal a + ah * 2 ^ 256 [MOD r]
      ∧ limbsVal ( modr_reduce256_partial a ah) < 2 ^ 254
      ∧ limbsVal ( modr_reduce256_partial a ah) < 2 * r
      ∧ limbsVal ( modr_reduce256_partial a ah) = (limbsVal a + ah * 2 ^ 256) % r := by
  obtain ⟨l, n, v⟩ := modr_reduce256_partial_spec a ah ha hl hh
  have hA := limbsVal_lt ha
  rw [hl] at hA
  have hlt : limbsVal ( modr_reduce256_partial a ah) < r := by
    rw [v]
    exact Nat.mod_lt _ r_pos
  have hr : r < 2 ^ 254 := by
    unfold r r0
    norm_num
  rw [Nat.mul_comm ah]
  refine ⟨l, n, ?_, ?_, by omega, by omega, v⟩
  · norm_num at hA hh ⊢
    omega
  · rw [v]
    exact Nat.mod_modEq _ _

/-- Witness of C29 at the largest input, `2^285 - 1`. -/
theorem modr_reduce256_partial_correct_witness :
    Limbs limbs_max8 ∧ limbs_max8.length = 8 ∧ 2 ^ 29 - 1 < 2 ^ 29
      ∧ limbsVal ( modr_reduce256_partial limbs_max8 (2 ^ 29 - 1))
        = (limbsVal limbs_max8 + (2 ^ 29 - 1) * 2 ^ 256) % r :=
  ⟨limbs_max8_ok, rfl, by norm_num,
    (modr_reduce256_partial_correct limbs_max8 (2 ^ 29 - 1) limbs_max8_ok rfl
      (by norm_num)).2.2.2.2.2.2⟩

/-- C30: for every 384-bit input `a` in twelve limbs, the output `d` of
` modr_reduce384_partial` is congruent to `a` modulo `r` and below `2^254`,
hence below `2*r`; the high word `t8` that it passes to
` modr_reduce256_partial` is always below `2^29`, within the precondition of
that function. -/
theorem modr_reduce384_partial_correct (a : List Nat) (ha : Limbs a)
    (hl : a.length = 12) :
    Limbs ( modr_reduce384_partial a) ∧ ( modr_reduce384_partial a).length = 8
      ∧ limbsVal ( modr_reduce384_partial a) ≡ limbsVal a [MOD r]
      ∧ limbsVal ( modr_reduce384_partial a) < 2 ^ 254
      ∧ limbsVal ( modr_reduce384_partial a) < 2 * r
      ∧ modr_reduce384_partial a
          = modr_reduce256_partial (modr_reduce384_words a).1 (modr_reduce384_words a).2
      ∧ (modr_reduce384_words a).2 < 2 ^ 29
      ∧ Limbs (modr_reduce384_words a).1 ∧ (modr_reduce384_words a).1.length = 8
      ∧ limbsVal (modr_reduce384_words a).1 + 2 ^ 256 * (modr_reduce384_words a).2
          ≡ limbsVal a [MOD r] := by
  obtain ⟨l, n, v⟩ := modr_reduce384_partial_spec a ha hl
  obtain ⟨wl, wn, wb, wv⟩ := modr_reduce384_words_spec a ha hl
  have hlt : limbsVal ( modr_reduce384_partial a) < r := by
    rw [v]
    exact Nat.mod_lt _ r_pos
  have hr : r < 2 ^ 254 := by
    unfold r r0
    norm_num
  refine ⟨l, n, ?_, by omega, by omega, modr_reduce384_partial_eq a, wb, wl, wn, wv⟩
  rw [v]
  exact Nat.mod_modEq _ _

/-- Witness of C30 at the largest input, `2^384 - 1`. -/
theorem modr_reduce384_partial_correct_witness :
    Limbs limbs_max12 ∧ limbs_max12.length = 12
      ∧ limbsVal ( modr_reduce384_partial limbs_max12) < 2 ^ 254
      ∧ (modr_reduce384_words limbs_max12).2 < 2 ^ 29 :=
  ⟨limbs_max12_ok, rfl,
    (modr_reduce384_partial_correct limbs_max12 limbs_max12_ok rfl).2.2.2.1,
    (modr_reduce384_partial_correct limbs_max12 limbs_max12_ok rfl).2.2.2.2.2.2.1⟩

/-- C31, as amended: in ` modr_reduce384_partial`, for every 384-bit input
`a = a_low + a_high * 2^256`, the value passed to ` modr_reduce256_partial` is
`a_low - 8*r0*a_high`, with `16*r` added when that is negative; it is
non-negative and below `16*r = 2^257 + 16*r0`, so it fits in 258 bits and its
high word `t8` is at most 2. -/
theorem modr_reduce384_words_bound (a : List Nat) (ha : Limbs a) (hl : a.length = 12) :
    ((limbsVal (modr_reduce384_words a).1 + 2 ^ 256 * (modr_reduce384_words a).2 : Nat) : Int)
        = (limbsVal (a.take 8) : Int) - 8 * r0 * limbsVal (a.drop 8)
          + (if (limbsVal (a.take 8) : Int) - 8 * r0 * limbsVal (a.drop 8) < 0
              then 16 * (r : Int) else 0)
      ∧ limbsVal a = limbsVal (a.take 8) + 2 ^ 256 * limbsVal (a.drop 8)
      ∧ limbsVal (modr_reduce384_words a).1 + 2 ^ 256 * (modr_reduce384_words a).2 < 16 * r
      ∧ 16 * r = 2 * 2 ^ 256 + 16 * r0
      ∧ 16 * r < 4 * 2 ^ 256
      ∧ (modr_reduce384_words a).2 ≤ 2 := by
  obtain ⟨e, b⟩ := modr_reduce384_words_exact a ha hl
  have hA := limbsVal_take_add_drop a 8
  have hl0 : (a.take 8).length = 8 := by simp [hl]
  rw [hl0] at hA
  have h16 : 16 * r = 2 * 2 ^ 256 + 16 * r0 := by
    unfold r
    norm_num
    ring
  have hlt : 16 * r < 4 * 2 ^ 256 := by
    unfold r r0
    norm_num
  refine ⟨e, ?_, b, h16, hlt, ?_⟩
  · norm_num at hA ⊢
    omega
  · have h3 : 16 * r < 3 * 2 ^ 256 := by
      unfold r r0
      norm_num
    generalize (modr_reduce384_words a).2 = t at b
    generalize limbsVal (modr_reduce384_words a).1 = v at b
    generalize r = z at b h3
    norm_num at b h3
    omega

/-- Witness of C31 as amended, at the largest input `2^384 - 1`. -/
theorem modr_reduce384_words_bound_witness :
    Limbs limbs_max12 ∧ limbs_max12.length = 12
      ∧ (modr_reduce384_words limbs_max12).2 ≤ 2 :=
  ⟨limbs_max12_ok, rfl, (modr_reduce384_words_bound limbs_max12 limbs_max12_ok rfl).2.2.2.2.2⟩

/-- Counterexample to C31 as stated: for `a = 2^256` (`a_low = 0`,
`a_high = 1`) the value `a_low - 8*r0*a_high + 16*r` that
` modr_reduce384_partial` passes on is `2^257 + 8*r0`, which does not fit in
257 bits; its high word `t8` is 2. -/
theorem modr_reduce384_words_counterexample :
    limbs_pow256.length = 12 ∧ limbsVal limbs_pow256 = 2 ^ 256
      ∧ limbsVal (limbs_pow256.take 8) = 0 ∧ limbsVal (limbs_pow256.drop 8) = 1
      ∧ limbsVal (modr_reduce384_words limbs_pow256).1
          + 2 ^ 256 * (modr_reduce384_words limbs_pow256).2 = 2 * 2 ^ 256 + 8 * r0
      ∧ ¬ (limbsVal (modr_reduce384_words limbs_pow256).1
          + 2 ^ 256 * (modr_reduce384_words limbs_pow256).2 < 2 * 2 ^ 256)
      ∧ (modr_reduce384_words limbs_pow256).2 = 2 := by
  have hv : limbsVal (modr_reduce384_words limbs_pow256).1
      + 2 ^ 256 * (modr_reduce384_words limbs_pow256).2 = 2 * 2 ^ 256 + 8 * r0 := by
    decide
  refine ⟨rfl, by decide, by decide, by decide, hv, ?_, by decide⟩
  rw [hv]
  omega

/-- C32: for every 256-bit `a` in eight limbs and every `ah < 2^29`, the
output of ` modr_reduce256_partial` is already fully reduced, strictly below
`r`, so that `modr_reduce256_finish` returns it unchanged; it is
`(a + ah * 2^256) mod r`. -/
theorem modr_reduce256_partial_reduced (a : List Nat) (ah : Nat) (ha : Limbs a)
    (hl : a.length = 8) (hh : ah < 2 ^ 29) :
    limbsVal ( modr_reduce256_partial a ah) < r
      ∧ modr_reduce256_finish ( modr_reduce256_partial a ah) = modr_reduce256_partial a ah
      ∧ limbsVal ( modr_reduce256_partial a ah) = (limbsVal a + ah * 2 ^ 256) % r := by
  obtain ⟨l, n, v⟩ := modr_reduce256_partial_spec a ah ha hl hh
  obtain ⟨fl, fn, _⟩ := modr_reduce256_finish_spec _ l n
  have hlt : limbsVal ( modr_reduce256_partial a ah) < r := by
    rw [v]
    exact Nat.mod_lt _ r_pos
  refine ⟨hlt, ?_, ?_⟩
  · exact limbsVal_inj _ _ (by rw [fn, n]) fl l (modr_reduce256_finish_of_lt _ l n hlt)
  · rw [v, Nat.mul_comm]

/-- Witness of C32 at the largest input, `2^285 - 1`. -/
theorem modr_reduce256_partial_reduced_witness :
    Limbs limbs_max8 ∧ limbs_max8.length = 8 ∧ 2 ^ 29 - 1 < 2 ^ 29
      ∧ modr_reduce256_finish ( modr_reduce256_partial limbs_max8 (2 ^ 29 - 1))
        = modr_reduce256_partial limbs_max8 (2 ^ 29 - 1) :=
  ⟨limbs_max8_ok, rfl, by norm_num,
    (modr_reduce256_partial_reduced limbs_max8 (2 ^ 29 - 1) limbs_max8_ok rfl
      (by norm_num)).2.1⟩

section
variable {Pt PtA : Type} (P : Prims Pt PtA)

/-- C40: for fixed `R` and public-key bytes, the byte string that
`make_challenge` hashes is an injective function of the pair
`(hash_name, data)`, `NULL` and the empty string being identified and a hash
name holding no zero byte: two calls hash the same bytes only if they have
the same name and the same data. -/
theorem make_challenge_injective (R : Pt) (pub : List Byte)
    (hn1 hn2 : Option (List Byte)) (d1 d2 : List Byte)
    (h1 : ∀ s, hn1 = some s → ∀ c ∈ s, c ≠ 0) (h2 : ∀ s, hn2 = some s → ∀ c ∈ s, c ≠ 0) :
    make_challenge P R pub hn1 d1
        = (P.blake2s (P.encode R ++ pub.take 32 ++ hash_tag hn1 ++ d1)).take 16
      ∧ make_challenge P R pub hn2 d2
        = (P.blake2s (P.encode R ++ pub.take 32 ++ hash_tag hn2 ++ d2)).take 16
      ∧ (P.encode R ++ pub.take 32 ++ hash_tag hn1 ++ d1
          = P.encode R ++ pub.take 32 ++ hash_tag hn2 ++ d2 →
        (hn1 = hn2 ∨ (hn1 = none ∧ hn2 = some []) ∨ (hn1 = some [] ∧ hn2 = none))
          ∧ d1 = d2) := by
  refine ⟨rfl, rfl, fun h => ?_⟩
  simp only [List.append_assoc] at h
  have h' := List.append_cancel_left (List.append_cancel_left h)
  exact hash_tag_append_inj hn1 hn2 d1 d2 h1 h2 h'

end

/-- Witness of C40 in the model on `ZMod r`: the name `"a"` with empty data
against no name with the data `"a\0"`, which the tags tell apart. -/
theorem make_challenge_injective_witness :
    (∀ s, some name_a = some s → ∀ c ∈ s, c ≠ 0)
      ∧ (∀ s, (none : Option (List Byte)) = some s → ∀ c ∈ s, c ≠ 0)
      ∧ (zmodPrims.encode 1 ++ scalar_one.take 32 ++ hash_tag (some name_a) ++ []
          = zmodPrims.encode 1 ++ scalar_one.take 32 ++ hash_tag none ++ [0x61, 0] →
        (some name_a = none ∨ (some name_a = none ∧ (none : Option (List Byte)) = some [])
            ∨ (some name_a = some [] ∧ (none : Option (List Byte)) = none))
          ∧ ([] : List Byte) = [0x61, 0]) :=
  ⟨name_a_ok, name_none_ok,
    (make_challenge_injective zmodPrims 1 scalar_one (some name_a) none [] [0x61, 0]
      name_a_ok name_none_ok).2.2⟩

/-- C33: the tables `PRECOMP_B`, `PRECOMP_B32`, `PRECOMP_B64` and `PRECOMP_B96`
have 8 entries each, and each of the 32 entries `(scaled_x, scaled_s)` is a
canonical pair of GF(2^254) elements (four limbs per component, the bit 127 of
each component being 0) which satisfies the curve equation in scaled form,
`S^2 + X*S = (sb*X^2 + u*X + sb*1^2)^2` with `sb = 1 + z^27`, both sides
computed with `r254_mul` and `r254_add` and compared after `r254_norm`. -/
theorem precomp_tables_on_curve :
    PRECOMP_B.length = 8 ∧ PRECOMP_B32.length = 8 ∧ PRECOMP_B64.length = 8
      ∧ PRECOMP_B96.length = 8
      ∧ val254 r254_sb = (2 ^ 27 + 1, 0)
      ∧ PRECOMP_all.all (fun p => gfb254_canonical p.scaled_x && gfb254_canonical p.scaled_s
          && on_curve p) = true := by
  refine ⟨rfl, rfl, rfl, rfl, val254_sb, ?_⟩
  rw [List.all_eq_true]
  intro p hp
  have h := (List.all_eq_true.1 precomp_poly_check) p hp
  simp only [Bool.and_eq_true] at h ⊢
  obtain ⟨⟨hx, hs⟩, hc⟩ := h
  refine ⟨⟨hx, hs⟩, ?_⟩
  rw [on_curve_eq p hx hs]
  exact hc

/-- C34: for every affine point with `scaled_x = x0 + u*x1` and
`scaled_s = s0 + u*s1`, the result of `gls254_zeta_affine` with
`zn = 0xFFFFFFFF`, which is `x = (x0+x1, x1)`, `s = (s0+s1+x1, s1+x0)`, is the
affine negation (same `scaled_x`, `scaled_s` replaced by `scaled_s + scaled_x`)
of its result with `zn = 0`, which is `x = (x0+x1, x1)`,
`s = (s0+s1+x0, s1+x0+x1)`. -/
theorem zeta_affine_neg (p : gls254_point_affine) (h : affine_shape p = true) :
    gls254_zeta_affine p 0
        = ⟨⟨gfb127_add p.scaled_x.v0 p.scaled_x.v1, p.scaled_x.v1⟩,
          ⟨gfb127_add (gfb127_add p.scaled_s.v0 p.scaled_s.v1) p.scaled_x.v0,
            gfb127_add (gfb127_add p.scaled_s.v1 p.scaled_x.v0) p.scaled_x.v1⟩⟩
      ∧ gls254_zeta_affine p 0xFFFFFFFF
        = ⟨⟨gfb127_add p.scaled_x.v0 p.scaled_x.v1, p.scaled_x.v1⟩,
          ⟨gfb127_add (gfb127_add p.scaled_s.v0 p.scaled_s.v1) p.scaled_x.v1,
            gfb127_add p.scaled_s.v1 p.scaled_x.v0⟩⟩
      ∧ gls254_zeta_affine p 0xFFFFFFFF = affine_neg (gls254_zeta_affine p 0)
      ∧ affine_neg (gls254_zeta_affine p 0)
        = ⟨(gls254_zeta_affine p 0).scaled_x,
          gfb254_add (gls254_zeta_affine p 0).scaled_s (gls254_zeta_affine p 0).scaled_x⟩ :=
  ⟨rfl, rfl, zeta_neg_eq p h, rfl⟩

/-- Witness of C34, at the first entry of `PRECOMP_B`. -/
theorem zeta_affine_neg_witness :
    affine_shape sample_affine = true
      ∧ gls254_zeta_affine sample_affine 0xFFFFFFFF
        = affine_neg (gls254_zeta_affine sample_affine 0) :=
  ⟨rfl, (zeta_affine_neg sample_affine rfl).2.2.1⟩

/-- C35: for every affine point `(x, s)`, with zeta given by the component
formulas which the test requires for `zn = 0`, `zeta(zeta(x, s)) = (x, s + x)`,
the affine negation of `(x, s)`; zeta applied four times is the identity, and
`mu^2 = -1 (mod r)`. -/
theorem zeta_twice_neg (p : gls254_point_affine) (h : affine_shape p = true) :
    gls254_zeta_affine (gls254_zeta_affine p 0) 0 = affine_neg p
      ∧ affine_neg p = ⟨p.scaled_x, gfb254_add p.scaled_s p.scaled_x⟩
      ∧ gls254_zeta_affine (gls254_zeta_affine (gls254_zeta_affine
          (gls254_zeta_affine p 0) 0) 0) 0 = p
      ∧ (mu * mu + 1) % r = 0 := by
  refine ⟨zeta_zeta_eq p h, rfl, ?_, by decide⟩
  rw [zeta_zeta_eq p h, zeta_zeta_eq (affine_neg p) (affine_neg_shape p h), affine_neg_neg p h]

/-- Witness of C35, at the first entry of `PRECOMP_B`. -/
theorem zeta_twice_neg_witness :
    affine_shape sample_affine = true
      ∧ gls254_zeta_affine (gls254_zeta_affine sample_affine 0) 0 = affine_neg sample_affine :=
  ⟨rfl, (zeta_twice_neg sample_affine rfl).1⟩

/-- C36: for every GF(2^254) element `a = a0 + u*a1` in limbs, the inline
`gfb254_mul_u` returns `(a1, a0 + a1)` and `gfb254_mul_u1` returns
`(a0 + a1, a0)`, and their bytes are the reference products
`r254_mul(a, u)` and `r254_mul(a, u + 1)` (`u` encoded as byte 16 = 1, `u + 1`
as bytes 0 and 16 = 1), with `gfb127_add` the XOR of the limbs. -/
theorem gfb254_mul_u_correct (a : gfb254) (l0 : a.v0.length = 4) (l1 : a.v1.length = 4)
    (h0 : Limbs a.v0) (h1 : Limbs a.v1) :
    gfb254_mul_u a = ⟨a.v1, gfb127_add a.v0 a.v1⟩
      ∧ gfb254_mul_u1 a = ⟨gfb127_add a.v0 a.v1, a.v0⟩
      ∧ r254_u = r254_const 16 1 16 1 ∧ r254_u1 = r254_const 0 1 16 1
      ∧ gfb254_bytes (gfb254_mul_u a) = r254_mul (gfb254_bytes a) r254_u
      ∧ gfb254_bytes (gfb254_mul_u1 a) = r254_mul (gfb254_bytes a) r254_u1 := by
  have e0 := encode_limbs_len a.v0 h0 l0
  have e1 := encode_limbs_len a.v1 h1 l1
  refine ⟨rfl, rfl, rfl, rfl, ?_, ?_⟩
  · rw [gfb254_bytes_eq, gfb254_bytes_eq, r254_mul_u_halves _ _ e0 e1]
    show (a.v1.map enc32le).flatten ++ ((gfb127_add a.v0 a.v1).map enc32le).flatten = _
    rw [encode_gfb127_add a.v0 a.v1 l0 l1 h0 h1]
  · rw [gfb254_bytes_eq, gfb254_bytes_eq, r254_mul_u1_halves _ _ e0 e1]
    show ((gfb127_add a.v0 a.v1).map enc32le).flatten ++ (a.v0.map enc32le).flatten = _
    rw [encode_gfb127_add a.v0 a.v1 l0 l1 h0 h1]

/-- Witness of C36, at the `scaled_x` of the first entry of `PRECOMP_B`. -/
theorem gfb254_mul_u_correct_witness :
    sample_gfb254.v0.length = 4 ∧ sample_gfb254.v1.length = 4
      ∧ Limbs sample_gfb254.v0 ∧ Limbs sample_gfb254.v1
      ∧ gfb254_bytes (gfb254_mul_u sample_gfb254) = r254_mul (gfb254_bytes sample_gfb254) r254_u :=
  ⟨sample_gfb254_ok.1, sample_gfb254_ok.2.1, sample_gfb254_ok.2.2.1, sample_gfb254_ok.2.2.2,
    (gfb254_mul_u_correct sample_gfb254 sample_gfb254_ok.1 sample_gfb254_ok.2.1
      sample_gfb254_ok.2.2.1 sample_gfb254_ok.2.2.2).2.2.2.2.1⟩

/-- C37: for every `x = a0 + u*a1` in GF(2^254), the product of `x` by
`phi(x) = (a0 + a1) + u*a1`, computed with the reference multiplication
`r254_mul`, has a zero `u` component and its GF(2^127) component is
`a0^2 + a0*a1 + a1^2`; so it is after `r254_norm`. -/
theorem mul_selfphi_in_gf127 (a0 a1 : List Byte) (h0 : a0.length = 16) (h1 : a1.length = 16) :
    r254_mul (a0 ++ a1) (r127_add a0 a1 ++ a1)
        = r127_add (r127_add (r127_mul a0 a0) (r127_mul a0 a1)) (r127_mul a1 a1)
          ++ List.replicate 16 0
      ∧ r254_norm (r254_mul (a0 ++ a1) (r127_add a0 a1 ++ a1))
        = r127_norm (r127_add (r127_add (r127_mul a0 a0) (r127_mul a0 a1)) (r127_mul a1 a1))
          ++ List.replicate 16 0 := by
  have e := r254_selfphi_halves a0 a1 h0 h1
  refine ⟨e, ?_⟩
  rw [e, r254_norm_eq _ _ (r127_add_len _ _ (r127_add_len _ _ (r127_mul_len a0 a0 h0 h0)
    (r127_mul_len a0 a1 h0 h1)) (r127_mul_len a1 a1 h1 h1)) (List.length_replicate 16 0),
    r127_norm_zero]

/-- Witness of C37, at `x = z + u`. -/
theorem mul_selfphi_in_gf127_witness :
    r127_z.length = 16 ∧ r127_one.length = 16
      ∧ r254_mul (r127_z ++ r127_one) (r127_add r127_z r127_one ++ r127_one)
        = r127_add (r127_add (r127_mul r127_z r127_z) (r127_mul r127_z r127_one))
          (r127_mul r127_one r127_one) ++ List.replicate 16 0 :=
  ⟨rfl, rfl, (mul_selfphi_in_gf127 r127_z r127_one rfl rfl).1⟩

/-- C38: for all 32-byte values `a`, `b`, `c`, the multiplication `r254_mul`
which the tests require `gfb254_mul` to match is commutative, associative,
distributes over the addition `r254_add` (XOR), and the square `a*a` is
`(a0^2 + a1^2, a1^2)`; these equalities hold on the bytes, hence also after
`r254_norm`. -/
theorem r254_mul_laws (a b c : List Byte) (ha : a.length = 32) (hb : b.length = 32)
    (hc : c.length = 32) :
    r254_mul a b = r254_mul b a
      ∧ r254_mul (r254_mul a b) c = r254_mul a (r254_mul b c)
      ∧ r254_mul a (r254_add b c) = r254_add (r254_mul a b) (r254_mul a c)
      ∧ r254_mul a a
        = r127_add (r127_mul (a.take 16) (a.take 16)) (r127_mul (a.drop 16) (a.drop 16))
          ++ r127_mul (a.drop 16) (a.drop 16)
      ∧ r254_norm (r254_mul a b) = r254_norm (r254_mul b a)
      ∧ r254_norm (r254_mul (r254_mul a b) c) = r254_norm (r254_mul a (r254_mul b c))
      ∧ r254_norm (r254_mul a (r254_add b c))
        = r254_norm (r254_add (r254_mul a b) (r254_mul a c))
      ∧ r254_norm (r254_mul a a)
        = r254_norm (r127_add (r127_mul (a.take 16) (a.take 16))
            (r127_mul (a.drop 16) (a.drop 16)) ++ r127_mul (a.drop 16) (a.drop 16)) := by
  obtain ⟨a0, a1, rfl, ha0, ha1⟩ := split32 a ha
  obtain ⟨b0, b1, rfl, hb0, hb1⟩ := split32 b hb
  obtain ⟨c0, c1, rfl, hc0, hc1⟩ := split32 c hc
  have e1 := r254_mul_comm_halves a0 a1 b0 b1 ha0 ha1 hb0 hb1
  have e2 := r254_mul_assoc_halves a0 a1 b0 b1 c0 c1 ha0 ha1 hb0 hb1 hc0 hc1
  have e3 := r254_mul_distrib_halves a0 a1 b0 b1 c0 c1 ha0 ha1 hb0 hb1 hc0 hc1
  have e4 := r254_square_halves a0 a1 ha0 ha1
  rw [List.take_left' ha0, List.drop_left' ha0]
  exact ⟨e1, e2, e3, e4, by rw [e1], by rw [e2], by rw [e3], by rw [e4]⟩

/-- Witness of C38, at `a = 1 + z^27`, `b = u`, `c = u + 1`. -/
theorem r254_mul_laws_witness :
    r254_sb.length = 32 ∧ r254_u.length = 32 ∧ r254_u1.length = 32
      ∧ r254_mul (r254_mul r254_sb r254_u) r254_u1 = r254_mul r254_sb (r254_mul r254_u r254_u1) :=
  ⟨rfl, rfl, rfl, (r254_mul_laws r254_sb r254_u r254_u1 rfl rfl rfl).2.1⟩

/-- C39, as amended: the inverses of `z` and `z^2` modulo `z^127 + z^63 + 1`
are `z^126 + z^62` and `z^125 + z^61`: for every 16-byte value `a`,
`z * (a * (z^126 + z^62)) = a` and `z^2 * (a * (z^125 + z^61)) = a` in
GF(2^127), the products being those of the reference `r127_mul` and the
comparison being made after `r127_norm`; this is the relation which the test
requires of `gfb254_div_z` and `gfb254_div_z2`. -/
theorem div_z_inverse (a : List Byte) (ha : a.length = 16) :
    r127_norm (r127_mul r127_z (r127_mul a r127_inv_z)) = r127_norm a
      ∧ r127_norm (r127_mul r127_z2 (r127_mul a r127_inv_z2)) = r127_norm a := by
  obtain ⟨F, inst, κ, _, _, _, hmul, _, hinj, hz, hz2⟩ := r127_field
  have lz : r127_z.length = 16 := rfl
  have lz2 : r127_z2.length = 16 := rfl
  have li : r127_inv_z.length = 16 := rfl
  have li2 : r127_inv_z2.length = 16 := rfl
  have l1 := r127_mul_len a r127_inv_z ha li
  have l2 := r127_mul_len a r127_inv_z2 ha li2
  have m1 := r127_mul_len r127_z _ lz l1
  have m2 := r127_mul_len r127_z2 _ lz2 l2
  constructor
  · apply hinj _ _ (by omega) (by omega)
    rw [hmul _ _ (by omega) (by omega), hmul _ _ (by omega) (by omega)]
    linear_combination (κ a) * hz
  · apply hinj _ _ (by omega) (by omega)
    rw [hmul _ _ (by omega) (by omega), hmul _ _ (by omega) (by omega)]
    linear_combination (κ a) * hz2

/-- Witness of C39 as amended, at `a = 1`. -/
theorem div_z_inverse_witness :
    r127_one.length = 16
      ∧ r127_norm (r127_mul r127_z (r127_mul r127_one r127_inv_z)) = r127_norm r127_one :=
  ⟨rfl, (div_z_inverse r127_one rfl).1⟩

set_option maxRecDepth 1000000 in
/-- Counterexample to C39 as stated: at `a = 1`, `z * (a * z^126)` and
`z^2 * (a * z^125)` are `z^127 = z^63 + 1` after `r127_norm`, not `a`. -/
theorem div_z_counterexample :
    r127_one.length = 16
      ∧ r127_norm (r127_mul r127_z (r127_mul r127_one r127_z126)) = r127_const 0 1 7 0x80
      ∧ r127_norm (r127_mul r127_z2 (r127_mul r127_one r127_z125)) = r127_const 0 1 7 0x80
      ∧ r127_norm r127_one = r127_const 0 1 0 1
      ∧ r127_norm (r127_mul r127_z (r127_mul r127_one r127_z126)) ≠ r127_norm r127_one
      ∧ r127_norm (r127_mul r127_z2 (r127_mul r127_one r127_z125)) ≠ r127_norm r127_one := by
  decide!

end GLS254
